import Mathlib

/-!
# A shallow embedding of `hash_map` (include/hash_map.hpp)

Nodes live in a store `List (node K V)`; a `shared_ptr<node>` is `Option Nat`
(`none` is `nullptr`, `some i` refers to the node at index `i` of the store).
Allocation appends to the store; a node that loses its last owner simply stays
in the store, unreachable.  Atomic operations on a `next` slot are modelled by
their sequential meaning (one thread).  Loops that follow `next` links take a
fuel argument; `none` stands for a run that does not return (or that
dereferences a pointer that refers to nothing).  `assert` is a debug check and
is not part of the control flow.  `size_type` counters are natural numbers:
`node_count` counts nodes that occupy distinct storage, so it stays inside the
range of `size_type`.
-/

namespace LockfreeHashMap

/-! ## Collaborators supplied by the caller -/

/-- The `Hash` template parameter: a callable from keys to an unsigned integer.
`operator_eq` is `some` exactly when the hasher type has an `operator==`. -/
class hasher (H : Type) (K : Type) where
  call : H → K → Nat
  operator_eq : Option (H → H → Bool)

/-- The `KeyEqual` template parameter: a callable on two keys. -/
class key_equal (E : Type) (K : Type) where
  call : E → K → K → Bool

/-! ## Nodes -/

/-- The aligned storage `data_` of a node: the pointer to the next bucket (the
index of that bucket in its array, `none` for `nullptr`) in a sentinel, or the
`value_type` object in a data node. -/
inductive node_storage (K V : Type) where
  | bucket_pointer (next_bucket : Option Nat) : node_storage K V
  | value_type (value : K × V) : node_storage K V
deriving DecidableEq, Repr

/-- A data or sentinel node inside a bucket (`struct node`). -/
structure node (K V : Type) where
  next : Option Nat
  data_ : node_storage K V
deriving DecidableEq, Repr

/-- The flag `initialized`: the storage holds a `value_type` object. -/
def node.initialized {K V : Type} (n : node K V) : Bool :=
  match n.data_ with
  | .value_type _ => true
  | .bucket_pointer _ => false

/-- The function `node::is_sentinel`. -/
def node.is_sentinel {K V : Type} (n : node K V) : Bool := !n.initialized

/-- The function `node::data`; `none` where its precondition (a data node) fails. -/
def node.data {K V : Type} (n : node K V) : Option (K × V) :=
  match n.data_ with
  | .value_type v => some v
  | .bucket_pointer _ => none

/-- The function `node::next_bucket`; the outer `none` where its precondition
(a sentinel) fails. -/
def node.next_bucket {K V : Type} (n : node K V) : Option (Option Nat) :=
  match n.data_ with
  | .value_type _ => none
  | .bucket_pointer b => some b

/-- The function `node::create_sentinel`: allocates a node and stores the bucket pointer. -/
def node.create_sentinel {K V : Type} (heap : List (node K V)) (next_bucket : Option Nat) :
    List (node K V) × Nat :=
  (heap ++ [{ next := none, data_ := .bucket_pointer next_bucket }], heap.length)

/-- The function `node::create_with_data`: allocates a node and emplaces the value. -/
def node.create_with_data {K V : Type} (heap : List (node K V)) (value : K × V) :
    List (node K V) × Nat :=
  (heap ++ [{ next := none, data_ := .value_type value }], heap.length)

/-! ## The `next` slot of a node -/

/-- `std::atomic_load(&p->next)`, also a plain read of `p->next`. -/
def atomic_load {K V : Type} (heap : List (node K V)) (p : Nat) : Option (Option Nat) :=
  (heap[p]?).map node.next

/-- `std::atomic_store(&p->next, desired)`, also a plain write `p->next = desired`. -/
def atomic_store {K V : Type} (heap : List (node K V)) (p : Nat) (desired : Option Nat) :
    List (node K V) :=
  match heap[p]? with
  | some n => heap.set p { n with next := desired }
  | none => heap

/-- `std::atomic_exchange(&p->next, desired)`: the old value and the new store. -/
def atomic_exchange {K V : Type} (heap : List (node K V)) (p : Nat) (desired : Option Nat) :
    Option (Option Nat × List (node K V)) :=
  match atomic_load heap p with
  | some old => some (old, atomic_store heap p desired)
  | none => none

/-- `std::atomic_compare_exchange_strong(&p->next, &expected, desired)`: whether the
exchange took place, the value left in `expected`, and the new store. -/
def atomic_compare_exchange_strong {K V : Type} (heap : List (node K V)) (p : Nat)
    (expected desired : Option Nat) : Option (Bool × Option Nat × List (node K V)) :=
  match atomic_load heap p with
  | some current =>
    if current = expected then some (true, expected, atomic_store heap p desired)
    else some (false, current, heap)
  | none => none

/-- `std::atomic_compare_exchange_weak`.  With one thread the weak form differs
from the strong one only by spurious failures, after which the caller repeats
its iteration in an unchanged state; it is modelled by the strong form. -/
def atomic_compare_exchange_weak {K V : Type} (heap : List (node K V)) (p : Nat)
    (expected desired : Option Nat) : Option (Bool × Option Nat × List (node K V)) :=
  atomic_compare_exchange_strong heap p expected desired

/-! ## Buckets and the bucket list -/

/-- A bucket (`fixed_size_bucket_list::bucket`): its sentinel node. -/
structure bucket where
  sentinel : Nat
deriving DecidableEq, Repr

/-- The constructor `bucket(allocator, is_last)` of the bucket at index `this`:
creates the sentinel, whose bucket pointer is `this + 1` unless the bucket is the
last one, and closes the circle `sentinel->next = sentinel`. -/
def bucket.create {K V : Type} (heap : List (node K V)) (this : Nat) (is_last : Bool) :
    List (node K V) × bucket :=
  let r := node.create_sentinel heap (if is_last then none else some (this + 1))
  (atomic_store r.1 r.2 (some r.2), { sentinel := r.2 })

/-- The loop of `bucket::find`: `prev` is the node whose `next` is loaded next.
A null `next` restarts the search from the sentinel. -/
def bucket.find_from {K V E : Type} [key_equal E K] (heap : List (node K V)) (sentinel : Nat)
    (key : K) (keycomp : E) : Nat → Nat → Option (Bool × Nat × Nat)
  | 0, _ => none
  | fuel + 1, prev =>
    match atomic_load heap prev with
    | none => none
    | some none => bucket.find_from heap sentinel key keycomp fuel sentinel
    | some (some cur) =>
      match heap[cur]? with
      | none => none
      | some n =>
        match n.data_ with
        | .bucket_pointer _ => some (false, prev, cur)
        | .value_type v =>
          if key_equal.call keycomp key v.1 then some (true, prev, cur)
          else bucket.find_from heap sentinel key keycomp fuel cur

/-- The function `bucket::find`: the result is `(found, prev, cur)`. -/
def bucket.find {K V E : Type} [key_equal E K] (fuel : Nat) (heap : List (node K V))
    (b : bucket) (key : K) (keycomp : E) : Option (Bool × Nat × Nat) :=
  bucket.find_from heap b.sentinel key keycomp fuel b.sentinel

/-- A bucket list (`struct fixed_size_bucket_list`). -/
structure fixed_size_bucket_list (H E A : Type) where
  bucket_count : Nat
  node_count : Nat
  hash : H
  keycomp : E
  allocator : A
  buckets : List bucket

/-- The loop of the constructor of `fixed_size_bucket_list` that constructs bucket
`n` for every `n < bucket_count`, with `is_last = (bucket_count - n == 1)`. -/
def fixed_size_bucket_list.construct_buckets {K V : Type} (heap : List (node K V))
    (bucket_count : Nat) : List (node K V) × List bucket :=
  (List.range bucket_count).foldl
    (fun acc n =>
      let r := bucket.create acc.1 n (bucket_count - n == 1)
      (r.1, acc.2 ++ [r.2]))
    (heap, [])

/-- The function `fixed_size_bucket_list::create`. -/
def fixed_size_bucket_list.create {K V H E A : Type} (heap : List (node K V))
    (bucket_count : Nat) (hash : H) (keycomp : E) (allocator : A) :
    List (node K V) × fixed_size_bucket_list H E A :=
  let r := fixed_size_bucket_list.construct_buckets heap bucket_count
  (r.1, { bucket_count := bucket_count, node_count := 0, hash := hash, keycomp := keycomp,
          allocator := allocator, buckets := r.2 })

/-- The index `hash(key) % bucket_count` used by `bucket_for_key`. -/
def fixed_size_bucket_list.bucket_index {K H E A : Type} [hasher H K]
    (l : fixed_size_bucket_list H E A) (key : K) : Nat :=
  hasher.call l.hash key % l.bucket_count

/-- The function `fixed_size_bucket_list::bucket_for_key`. -/
def fixed_size_bucket_list.bucket_for_key {K H E A : Type} [hasher H K]
    (l : fixed_size_bucket_list H E A) (key : K) : Option bucket :=
  l.buckets[l.bucket_index key]?

/-- The function `fixed_size_bucket_list::find`. -/
def fixed_size_bucket_list.find {K V H E A : Type} [hasher H K] [key_equal E K] (fuel : Nat)
    (l : fixed_size_bucket_list H E A) (heap : List (node K V)) (key : K) :
    Option (Bool × Nat × Nat) :=
  match l.bucket_for_key key with
  | some b => b.find fuel heap key l.keycomp
  | none => none

/-! ## The map -/

/-- The map: the node store and the current bucket list (`current_buckets`). -/
structure hash_map (K V H E A : Type) where
  heap : List (node K V)
  current_buckets : fixed_size_bucket_list H E A

/-- An iterator (`iterator_impl`): its `pnode`; `none` is the end iterator. -/
abbrev iterator := Option Nat

/-- The constructor `hash_map(bucket_count, hash, keycomp, allocator)`, allocating in `heap`. -/
def hash_map.create {K V H E A : Type} (heap : List (node K V)) (bucket_count : Nat)
    (hash : H) (keycomp : E) (allocator : A) : hash_map K V H E A :=
  let r := fixed_size_bucket_list.create heap bucket_count hash keycomp allocator
  { heap := r.1, current_buckets := r.2 }

/-- The function `hash_map::size`. -/
def hash_map.size {K V H E A : Type} (m : hash_map K V H E A) : Nat :=
  m.current_buckets.node_count

/-- The function `hash_map::empty`. -/
def hash_map.empty {K V H E A : Type} (m : hash_map K V H E A) : Bool :=
  0 == m.size

/-- The function `hash_map::bucket_count`. -/
def hash_map.bucket_count {K V H E A : Type} (m : hash_map K V H E A) : Nat :=
  m.current_buckets.bucket_count

/-- The function `hash_map::bucket`. -/
def hash_map.bucket {K V H E A : Type} [hasher H K] (m : hash_map K V H E A) (key : K) : Nat :=
  m.current_buckets.bucket_index key

/-- The functions `hash_map::end` and `hash_map::cend`. -/
def hash_map.cend {K V H E A : Type} (_m : hash_map K V H E A) : iterator := none

/-- The function `hash_map::find`. -/
def hash_map.find {K V H E A : Type} [hasher H K] [key_equal E K] (fuel : Nat)
    (m : hash_map K V H E A) (key : K) : Option iterator :=
  match m.current_buckets.find fuel m.heap key with
  | some (true, _, cur) => some (some cur)
  | some (false, _, _) => some m.cend
  | none => none

/-- The function `hash_map::count`. -/
def hash_map.count {K V H E A : Type} [hasher H K] [key_equal E K] (fuel : Nat)
    (m : hash_map K V H E A) (key : K) : Option Nat :=
  match m.find fuel key with
  | some it => some (if it ≠ m.cend then 1 else 0)
  | none => none

/-- The value an iterator refers to (`operator*`); `none` for an iterator that
refers to no data node. -/
def hash_map.deref {K V H E A : Type} (m : hash_map K V H E A) (it : iterator) :
    Option (K × V) :=
  match it with
  | none => none
  | some p => (m.heap[p]?).bind node.data

/-- The error thrown by `at`. -/
inductive out_of_range where
  | element_not_found : out_of_range
deriving DecidableEq, Repr

/-- The function `hash_map::at`: the mapped value the returned reference refers to,
or the exception, and the map afterwards (no statement of `at` writes to it). -/
def hash_map.at {K V H E A : Type} [hasher H K] [key_equal E K] (fuel : Nat)
    (m : hash_map K V H E A) (key : K) :
    Option (Except out_of_range V × hash_map K V H E A) :=
  match m.find fuel key with
  | none => none
  | some it =>
    if it ≠ m.cend then (m.deref it).map (fun v => (Except.ok v.2, m))
    else some (Except.error out_of_range.element_not_found, m)

/-- The loop of `hash_map::insert`.  `new_node` is the node created in an earlier
pass, if any.  The result is the returned pair, the store and the node count. -/
def hash_map.insert_loop {K V H E A : Type} [hasher H K] [key_equal E K] (fuel : Nat)
    (buckets : fixed_size_bucket_list H E A) (value : K × V) :
    Nat → List (node K V) → Option Nat → Option ((Bool × iterator) × hash_map K V H E A)
  | 0, _, _ => none
  | passes + 1, heap, new_node =>
    match buckets.find fuel heap value.1 with
    | none => none
    | some (true, _, cur) => some ((false, some cur), { heap := heap, current_buckets := buckets })
    | some (false, prev, cur) =>
      let created :=
        match new_node with
        | some n => (heap, n)
        | none => node.create_with_data heap value
      let heap1 := atomic_store created.1 created.2 (some cur)
      match atomic_compare_exchange_weak heap1 prev (some cur) (some created.2) with
      | none => none
      | some (true, _, heap2) =>
        some ((true, some created.2),
          { heap := heap2,
            current_buckets := { buckets with node_count := buckets.node_count + 1 } })
      | some (false, _, heap2) =>
        hash_map.insert_loop fuel buckets value passes heap2 (some created.2)

/-- The function `hash_map::insert(const value_type&)`. -/
def hash_map.insert {K V H E A : Type} [hasher H K] [key_equal E K] (fuel : Nat)
    (m : hash_map K V H E A) (value : K × V) :
    Option ((Bool × iterator) × hash_map K V H E A) :=
  hash_map.insert_loop fuel m.current_buckets value fuel m.heap none

/-- The function `hash_map::insert(const_iterator hint, const value_type&)`. -/
def hash_map.insert_hint {K V H E A : Type} [hasher H K] [key_equal E K] (fuel : Nat)
    (m : hash_map K V H E A) (_hint : iterator) (value : K × V) :
    Option (iterator × hash_map K V H E A) :=
  (m.insert fuel value).map (fun r => (r.1.2, r.2))

/-- The assignment `cur->data().second = mapped`. -/
def assign_mapped {K V : Type} (heap : List (node K V)) (cur : Nat) (mapped : V) :
    Option (List (node K V)) :=
  match heap[cur]? with
  | some n =>
    match n.data_ with
    | .value_type v => some (heap.set cur { n with data_ := .value_type (v.1, mapped) })
    | .bucket_pointer _ => none
  | none => none

/-- The loop of `hash_map::insert_or_assign`. -/
def hash_map.insert_or_assign_loop {K V H E A : Type} [hasher H K] [key_equal E K] (fuel : Nat)
    (buckets : fixed_size_bucket_list H E A) (key : K) (mapped : V) :
    Nat → List (node K V) → Option Nat → Option (iterator × hash_map K V H E A)
  | 0, _, _ => none
  | passes + 1, heap, new_node =>
    match buckets.find fuel heap key with
    | none => none
    | some (true, _, cur) =>
      match assign_mapped heap cur mapped with
      | some heap1 => some (some cur, { heap := heap1, current_buckets := buckets })
      | none => none
    | some (false, prev, cur) =>
      let created :=
        match new_node with
        | some n => (heap, n)
        | none => node.create_with_data heap (key, mapped)
      let heap1 := atomic_store created.1 created.2 (some cur)
      match atomic_compare_exchange_weak heap1 prev (some cur) (some created.2) with
      | none => none
      | some (true, _, heap2) =>
        some (some created.2,
          { heap := heap2,
            current_buckets := { buckets with node_count := buckets.node_count + 1 } })
      | some (false, _, heap2) =>
        hash_map.insert_or_assign_loop fuel buckets key mapped passes heap2 (some created.2)

/-- The function `hash_map::insert_or_assign`. -/
def hash_map.insert_or_assign {K V H E A : Type} [hasher H K] [key_equal E K] (fuel : Nat)
    (m : hash_map K V H E A) (key : K) (mapped : V) :
    Option (iterator × hash_map K V H E A) :=
  hash_map.insert_or_assign_loop fuel m.current_buckets key mapped fuel m.heap none

/-- The function `hash_map::operator[]`: the mapped value the returned reference
refers to, and the map afterwards.  `mapped_type{}` is `default`. -/
def hash_map.subscript {K V H E A : Type} [hasher H K] [key_equal E K] [Inhabited V]
    (fuel : Nat) (m : hash_map K V H E A) (key : K) : Option (V × hash_map K V H E A) :=
  match m.insert fuel (key, default) with
  | none => none
  | some (result, m1) => (m1.deref result.2).map (fun v => (v.2, m1))

/-- The loop of `hash_map::erase(const key_type&)`.  The result is the returned
count and the map afterwards. -/
def hash_map.erase_loop {K V H E A : Type} [hasher H K] [key_equal E K] (fuel : Nat)
    (buckets : fixed_size_bucket_list H E A) (key : K) :
    Nat → List (node K V) → Option (Nat × hash_map K V H E A)
  | 0, _ => none
  | passes + 1, heap =>
    match buckets.find fuel heap key with
    | none => none
    | some (false, _, _) => some (0, { heap := heap, current_buckets := buckets })
    | some (true, prev, cur) =>
      match atomic_exchange heap cur none with
      | none => none
      | some (none, heap1) => hash_map.erase_loop fuel buckets key passes heap1
      | some (some next, heap1) =>
        match atomic_compare_exchange_strong heap1 prev (some cur) (some next) with
        | none => none
        | some (true, _, heap2) =>
          some (1, { heap := heap2,
                     current_buckets := { buckets with node_count := buckets.node_count - 1 } })
        | some (false, _, heap2) =>
          hash_map.erase_loop fuel buckets key passes (atomic_store heap2 cur (some next))

/-- The function `hash_map::erase(const key_type&)`. -/
def hash_map.erase {K V H E A : Type} [hasher H K] [key_equal E K] (fuel : Nat)
    (m : hash_map K V H E A) (key : K) : Option (Nat × hash_map K V H E A) :=
  hash_map.erase_loop fuel m.current_buckets key fuel m.heap

/-! ## Iterators -/

/-- The loop of the non-local `operator++` that skips sentinels: from a sentinel it
goes to the first node of the next bucket, or to `nullptr` after the last bucket. -/
def iterator_impl.skip_sentinels {K V : Type} (heap : List (node K V)) (buckets : List LockfreeHashMap.bucket) :
    Nat → Option Nat → Option (Option Nat)
  | 0, _ => none
  | _ + 1, none => some none
  | fuel + 1, some cur =>
    match heap[cur]? with
    | none => none
    | some n =>
      match n.data_ with
      | .value_type _ => some (some cur)
      | .bucket_pointer none => some none
      | .bucket_pointer (some b) =>
        match buckets[b]? with
        | none => none
        | some bk =>
          match atomic_load heap bk.sentinel with
          | none => none
          | some nx => iterator_impl.skip_sentinels heap buckets fuel nx

/-- The function `iterator_impl::operator++`, for `IsLocal` true or false. -/
def iterator_impl.increment {K V H E A : Type} (IsLocal : Bool) (fuel : Nat)
    (m : hash_map K V H E A) (it : iterator) : Option iterator :=
  match it with
  | none => none
  | some pnode =>
    match atomic_load m.heap pnode with
    | none => none
    | some cur =>
      if IsLocal then some cur
      else iterator_impl.skip_sentinels m.heap m.current_buckets.buckets fuel cur

/-- The loop of `hash_map::begin()` over the buckets. -/
def hash_map.begin_loop {K V : Type} (heap : List (node K V)) : List LockfreeHashMap.bucket → Option iterator
  | [] => some none
  | b :: rest =>
    match atomic_load heap b.sentinel with
    | some (some first) =>
      match heap[first]? with
      | some n => if !n.is_sentinel then some (some first) else hash_map.begin_loop heap rest
      | none => none
    | _ => none

/-- The functions `hash_map::begin()` and `hash_map::cbegin()`. -/
def hash_map.cbegin {K V H E A : Type} (m : hash_map K V H E A) : Option iterator :=
  hash_map.begin_loop m.heap m.current_buckets.buckets

/-- The functions `hash_map::begin(bucket_index)` and `cbegin(bucket_index)`. -/
def hash_map.cbegin_bucket {K V H E A : Type} (m : hash_map K V H E A) (bucket_index : Nat) :
    Option iterator :=
  match m.current_buckets.buckets[bucket_index]? with
  | some b => atomic_load m.heap b.sentinel
  | none => none

/-- The functions `hash_map::end(bucket_index)` and `cend(bucket_index)`. -/
def hash_map.cend_bucket {K V H E A : Type} (m : hash_map K V H E A) (bucket_index : Nat) :
    Option iterator :=
  match m.current_buckets.buckets[bucket_index]? with
  | some b => some (some b.sentinel)
  | none => none

/-- The iterators met when going from `first` by `operator++` until `last` is
reached (`last` excluded). -/
def hash_map.range {K V H E A : Type} (IsLocal : Bool) (m : hash_map K V H E A)
    (last : iterator) : Nat → iterator → Option (List iterator)
  | 0, _ => none
  | fuel + 1, first =>
    if first = last then some []
    else
      match iterator_impl.increment IsLocal (fuel + 1) m first with
      | none => none
      | some nx => (hash_map.range IsLocal m last fuel nx).map (fun l => first :: l)

/-- The range `[begin(bucket_index), end(bucket_index))` of local iterators. -/
def hash_map.local_range {K V H E A : Type} (fuel : Nat) (m : hash_map K V H E A)
    (bucket_index : Nat) : Option (List iterator) :=
  match m.cbegin_bucket bucket_index, m.cend_bucket bucket_index with
  | some first, some last => hash_map.range true m last fuel first
  | _, _ => none

/-- The range `[begin(), end())` of iterators. -/
def hash_map.global_range {K V H E A : Type} (fuel : Nat) (m : hash_map K V H E A) :
    Option (List iterator) :=
  match m.cbegin with
  | some first => hash_map.range false m m.cend fuel first
  | none => none

/-- The function `hash_map::erase(const_iterator)`. -/
def hash_map.erase_pos {K V H E A : Type} [hasher H K] [key_equal E K] (fuel : Nat)
    (m : hash_map K V H E A) (pos : iterator) : Option (iterator × hash_map K V H E A) :=
  match iterator_impl.increment false fuel m pos with
  | none => none
  | some next =>
    match m.deref pos with
    | none => none
    | some v => (m.erase fuel v.1).map (fun r => (next, r.2))

/-- The function `hash_map::bucket_size`: the loop that counts the nodes up to the sentinel. -/
def hash_map.bucket_size_loop {K V : Type} (heap : List (node K V)) :
    Nat → Nat → Nat → Option Nat
  | 0, _, _ => none
  | fuel + 1, cur, count =>
    match atomic_load heap cur with
    | some (some nx) =>
      match heap[nx]? with
      | some n =>
        if n.is_sentinel then some count
        else hash_map.bucket_size_loop heap fuel nx (count + 1)
      | none => none
    | _ => none

/-- The function `hash_map::bucket_size`. -/
def hash_map.bucket_size {K V H E A : Type} (fuel : Nat) (m : hash_map K V H E A)
    (bucket_index : Nat) : Option Nat :=
  match m.current_buckets.buckets[bucket_index]? with
  | some b => hash_map.bucket_size_loop m.heap fuel b.sentinel 0
  | none => none

/-! ## clear, rehash, copy construction -/

/-- The function `hash_map::clear`: a fresh bucket list with the same configuration
replaces the current one (the compare-exchange on `current_buckets` finds the list
it has just loaded). -/
def hash_map.clear {K V H E A : Type} (m : hash_map K V H E A) : hash_map K V H E A :=
  let buckets := m.current_buckets
  let r := fixed_size_bucket_list.create m.heap buckets.bucket_count buckets.hash
    buckets.keycomp buckets.allocator
  { heap := r.1, current_buckets := r.2 }

/-- The inner loop of `hash_map::rehash`: every data node from `cur` on is linked at
the head of its target bucket in `new_buckets`.  A null `cur` is dereferenced by the
loop condition. -/
def hash_map.rehash_nodes {K V H E A : Type} [hasher H K] :
    Nat → List (node K V) → fixed_size_bucket_list H E A → Nat →
    Option (List (node K V) × fixed_size_bucket_list H E A)
  | 0, _, _, _ => none
  | fuel + 1, heap, new_buckets, cur =>
    match heap[cur]? with
    | none => none
    | some n =>
      match n.data_ with
      | .bucket_pointer _ => some (heap, new_buckets)
      | .value_type v =>
        match new_buckets.bucket_for_key v.1 with
        | none => none
        | some target_bucket =>
          match atomic_load heap target_bucket.sentinel with
          | none => none
          | some target_next =>
            let heap1 := atomic_store heap cur target_next
            let heap2 := atomic_store heap1 target_bucket.sentinel (some cur)
            let counted := { new_buckets with node_count := new_buckets.node_count + 1 }
            match n.next with
            | none => none
            | some next => hash_map.rehash_nodes fuel heap2 counted next

/-- The outer loop of `hash_map::rehash` over the old buckets. -/
def hash_map.rehash_buckets {K V H E A : Type} [hasher H K] (fuel : Nat) :
    List LockfreeHashMap.bucket → List (node K V) → fixed_size_bucket_list H E A →
    Option (List (node K V) × fixed_size_bucket_list H E A)
  | [], heap, new_buckets => some (heap, new_buckets)
  | b :: rest, heap, new_buckets =>
    match atomic_load heap b.sentinel with
    | some (some cur) =>
      match hash_map.rehash_nodes fuel (atomic_store heap b.sentinel (some b.sentinel))
          new_buckets cur with
      | some r => hash_map.rehash_buckets fuel rest r.1 r.2
      | none => none
    | _ => none

/-- The function `hash_map::rehash`, every allocation succeeding. -/
def hash_map.rehash {K V H E A : Type} [hasher H K] (fuel : Nat) (m : hash_map K V H E A)
    (new_bucket_count : Nat) : Option (hash_map K V H E A) :=
  if new_bucket_count = m.current_buckets.bucket_count then some m
  else
    let created := fixed_size_bucket_list.create m.heap new_bucket_count
      m.current_buckets.hash m.current_buckets.keycomp m.current_buckets.allocator
    match hash_map.rehash_buckets fuel m.current_buckets.buckets created.1 created.2 with
    | some r => some { heap := r.1, current_buckets := r.2 }
    | none => none

/-- The inner loop of the copy constructor: the nodes of one bucket of `other`, from
`first` up to the sentinel `last`, are copied behind `prev`. -/
def hash_map.copy_nodes {K V : Type} (last : Nat) :
    Nat → List (node K V) → Option Nat → Nat → Option (List (node K V) × Nat)
  | 0, _, _, _ => none
  | fuel + 1, heap, first, prev =>
    if first = some last then some (heap, prev)
    else
      match first with
      | none => none
      | some p =>
        match (heap[p]?).bind node.data with
        | none => none
        | some v =>
          let created := node.create_with_data heap v
          let heap1 := atomic_store created.1 prev (some created.2)
          match atomic_load heap1 p with
          | none => none
          | some nx => hash_map.copy_nodes last fuel heap1 nx created.2

/-- The outer loop of the copy constructor over the bucket indices: the buckets of
the new list paired with those of `other`. -/
def hash_map.copy_buckets {K V : Type} (fuel : Nat) :
    List LockfreeHashMap.bucket → List LockfreeHashMap.bucket → List (node K V) → Option (List (node K V))
  | [], _, heap => some heap
  | _ :: _, [], _ => none
  | b :: rest, o :: others, heap =>
    match atomic_load heap o.sentinel with
    | none => none
    | some first =>
      match hash_map.copy_nodes o.sentinel fuel heap first b.sentinel with
      | none => none
      | some r => hash_map.copy_buckets fuel rest others (atomic_store r.1 r.2 (some b.sentinel))

/-- The copy constructor `hash_map(const hash_map &other)`; the new nodes are
allocated in the store of `other`. -/
def hash_map.copy {K V H E A : Type} (fuel : Nat) (other : hash_map K V H E A) :
    Option (hash_map K V H E A) :=
  let created := fixed_size_bucket_list.create other.heap other.current_buckets.bucket_count
    other.current_buckets.hash other.current_buckets.keycomp other.current_buckets.allocator
  match hash_map.copy_buckets fuel created.2.buckets other.current_buckets.buckets created.1 with
  | none => none
  | some heap => some { heap := heap,
                        current_buckets := { created.2 with node_count := other.size } }

/-! ## Elements, comparison -/

/-- The values a list of iterators refers to; `none` if one of them refers to no
data node. -/
def hash_map.deref_all {K V H E A : Type} (m : hash_map K V H E A) :
    List iterator → Option (List (K × V))
  | [] => some []
  | it :: rest =>
    match m.deref it, hash_map.deref_all m rest with
    | some v, some vs => some (v :: vs)
    | _, _ => none

/-- The elements of the map in iteration order: the values of `[begin(), end())`. -/
def hash_map.elements {K V H E A : Type} (fuel : Nat) (m : hash_map K V H E A) :
    Option (List (K × V)) :=
  match m.global_range fuel with
  | some r => m.deref_all r
  | none => none

/-- The elements of one bucket: the values of `[begin(bucket_index), end(bucket_index))`. -/
def hash_map.bucket_elements {K V H E A : Type} (fuel : Nat) (m : hash_map K V H E A)
    (bucket_index : Nat) : Option (List (K × V)) :=
  match m.local_range fuel bucket_index with
  | some r => m.deref_all r
  | none => none

/-- The map holds the element `v`: iteration from `begin()` to `end()` meets it. -/
def hash_map.holds {K V H E A : Type} (fuel : Nat) (m : hash_map K V H E A) (v : K × V) :
    Prop :=
  ∃ es, m.elements fuel = some es ∧ v ∈ es

/-- The map `m` seen in a later state `heap` of the store it lives in (after another
map was created or changed in the same store). -/
def hash_map.in_store {K V H E A : Type} (m : hash_map K V H E A) (heap : List (node K V)) :
    hash_map K V H E A :=
  { m with heap := heap }

/-- `std::mismatch` of the C++ standard library: the two ranges behind their common prefix. -/
def mismatch {α : Type} [BEq α] : List α → List α → List α × List α
  | a :: l1, b :: l2 => if a == b then mismatch l1 l2 else (a :: l1, b :: l2)
  | [], l2 => ([], l2)
  | l1, [] => (l1, [])

/-- The counting loop of `std::is_permutation` over the first range; `seen` holds the
elements already passed. -/
def is_permutation_loop {α : Type} [BEq α] (l2 : List α) : List α → List α → Bool
  | _, [] => true
  | seen, a :: rest =>
    if seen.any (fun e => e == a) then is_permutation_loop l2 (seen ++ [a]) rest
    else if l2.countP (fun e => e == a) == 0 ||
        (a :: rest).countP (fun e => e == a) != l2.countP (fun e => e == a) then false
    else is_permutation_loop l2 (seen ++ [a]) rest

/-- `std::is_permutation(first1, last1, first2, last2)` of the C++ standard library for
forward iterators, on the sequences of values of the two ranges: the common prefix is
skipped, ranges of different length are no permutations, and every element of the
first rest must occur equally often in both. -/
def is_permutation {α : Type} [BEq α] (l1 l2 : List α) : Bool :=
  let r := mismatch l1 l2
  if r.1.length != r.2.length then false else is_permutation_loop r.2 [] r.1

/-- The overload `template<typename HashMap> is_bucket_comparable_to(const HashMap&)` of
`hash_map::is_bucket_comparable_to`, which `enable_if` admits when the hashers have an
`operator==`; `none` where it is not viable. -/
def hash_map.is_bucket_comparable_to_hashers {K V H E A : Type} [hasher H K]
    (m other : hash_map K V H E A) : Option Bool :=
  match hasher.operator_eq (H := H) (K := K) with
  | some eq =>
    some (other.current_buckets.bucket_count == m.current_buckets.bucket_count &&
      eq other.current_buckets.hash m.current_buckets.hash)
  | none => none

/-- The overload `template<typename=void> is_bucket_comparable_to(const hash_map&)` of
`hash_map::is_bucket_comparable_to`, documented as the fallback. -/
def hash_map.is_bucket_comparable_to_fallback {K V H E A : Type}
    (_m _other : hash_map K V H E A) : Bool :=
  false

/-- The call `is_bucket_comparable_to(other)` in `operator==`.  The fallback is viable
for every hasher, and its parameter `const hash_map&` does not depend on a template
parameter, so that it is the more specialised of the two function templates: where both
overloads are viable, overload resolution selects the fallback as well. -/
def hash_map.is_bucket_comparable_to {K V H E A : Type} [hasher H K]
    (m other : hash_map K V H E A) : Bool :=
  match m.is_bucket_comparable_to_hashers other with
  | some _ => m.is_bucket_comparable_to_fallback other
  | none => m.is_bucket_comparable_to_fallback other

/-- The loop of `hash_map::operator==` over the bucket indices. -/
def hash_map.equal_buckets {K V H E A : Type} [BEq K] [BEq V] (fuel : Nat)
    (m other : hash_map K V H E A) : List Nat → Option Bool
  | [] => some true
  | b_id :: rest =>
    match m.bucket_size fuel b_id, other.bucket_size fuel b_id with
    | some n1, some n2 =>
      if n1 != n2 then some false
      else
        match m.bucket_elements fuel b_id, other.bucket_elements fuel b_id with
        | some e1, some e2 =>
          if !is_permutation e1 e2 then some false
          else hash_map.equal_buckets fuel m other rest
        | _, _ => none
    | _, _ => none

/-- The function `hash_map::operator==`; `same_object` tells whether `this == &other`. -/
def hash_map.operator_eq {K V H E A : Type} [hasher H K] [BEq K] [BEq V] (fuel : Nat)
    (same_object : Bool) (m other : hash_map K V H E A) : Option Bool :=
  if same_object || (m.empty && other.empty) then some true
  else if m.size != other.size then some false
  else if m.is_bucket_comparable_to other then
    hash_map.equal_buckets fuel m other (List.range m.current_buckets.bucket_count)
  else
    match m.elements fuel, other.elements fuel with
    | some e1, some e2 => some (is_permutation e1 e2)
    | _, _ => none

/-! ## Reachable states -/

/-- The states reached from a constructed map by `insert`, `insert_or_assign`,
`operator[]`, `erase` (by key and by iterator), `clear`, `rehash` and copy
construction. -/
inductive reachable {K V H E A : Type} [hasher H K] [key_equal E K] [Inhabited V] :
    hash_map K V H E A → Prop where
  | create (heap : List (node K V)) (bucket_count : Nat) (hpos : 0 < bucket_count)
      (hash : H) (keycomp : E) (allocator : A) :
      reachable (hash_map.create heap bucket_count hash keycomp allocator)
  | insert {m m2 : hash_map K V H E A} (fuel : Nat) (value : K × V) (r : Bool × iterator) :
      reachable m → m.insert fuel value = some (r, m2) → reachable m2
  | insert_or_assign {m m2 : hash_map K V H E A} (fuel : Nat) (key : K) (mapped : V)
      (it : iterator) :
      reachable m → m.insert_or_assign fuel key mapped = some (it, m2) → reachable m2
  | subscript {m m2 : hash_map K V H E A} (fuel : Nat) (key : K) (v : V) :
      reachable m → m.subscript fuel key = some (v, m2) → reachable m2
  | erase {m m2 : hash_map K V H E A} (fuel : Nat) (key : K) (n : Nat) :
      reachable m → m.erase fuel key = some (n, m2) → reachable m2
  | erase_pos {m m2 : hash_map K V H E A} (fuel : Nat) (pos it : iterator) :
      reachable m → m.erase_pos fuel pos = some (it, m2) → reachable m2
  | clear {m : hash_map K V H E A} : reachable m → reachable m.clear
  | rehash {m m2 : hash_map K V H E A} (fuel : Nat) (new_bucket_count : Nat)
      (hpos : 0 < new_bucket_count) :
      reachable m → m.rehash fuel new_bucket_count = some m2 → reachable m2
  | copy {m m2 : hash_map K V H E A} (fuel : Nat) :
      reachable m → m.copy fuel = some m2 → reachable m2

/-- The requirements on the collaborators: the key-equality predicate is an
equivalence relation, and keys it calls equal have equal hashes. -/
structure key_laws {K H E : Type} [hasher H K] [key_equal E K] (hash : H) (keycomp : E) :
    Prop where
  refl : ∀ a : K, key_equal.call keycomp a a = true
  symm : ∀ a b : K, key_equal.call keycomp a b = true → key_equal.call keycomp b a = true
  trans : ∀ a b c : K, key_equal.call keycomp a b = true →
    key_equal.call keycomp b c = true → key_equal.call keycomp a c = true
  hash_eq : ∀ a b : K, key_equal.call keycomp a b = true →
    hasher.call hash a = hasher.call hash b

/-! ## The chains a store holds: the vocabulary of the invariants -/

/-- The storage of the node `p` refers to. -/
def storage_of {K V : Type} (heap : List (node K V)) (p : Nat) : Option (node_storage K V) :=
  (heap[p]?).map node.data_

/-- The store links `prev` through the data nodes `l` (node and value, in order) to
the node `t`: `prev->next` is the first node of `l`, and `next` of the last is `t`. -/
def is_chain {K V : Type} (heap : List (node K V)) : Nat → List (Nat × (K × V)) → Nat → Prop
  | prev, [], t => atomic_load heap prev = some (some t)
  | prev, x :: rest, t =>
    atomic_load heap prev = some (some x.1) ∧ storage_of heap x.1 = some (.value_type x.2) ∧
      is_chain heap x.1 rest t

/-- The nodes of `l` from its first one on are linked to `t`. -/
def is_tail {K V : Type} (heap : List (node K V)) : List (Nat × (K × V)) → Nat → Prop
  | [], _ => True
  | x :: rest, t => storage_of heap x.1 = some (.value_type x.2) ∧ is_chain heap x.1 rest t

/-- The first node of `l`, or `t` for an empty `l`. -/
def chain_head {K V : Type} : List (Nat × (K × V)) → Nat → Nat
  | [], t => t
  | x :: _, _ => x.1

/-- The last node of `l`, or `prev` for an empty `l`. -/
def chain_last {K V : Type} : Nat → List (Nat × (K × V)) → Nat
  | prev, [] => prev
  | _, x :: rest => chain_last x.1 rest

/-- What the search for the first node whose key satisfies `p` yields on a chain. -/
def chain_lookup {K V : Type} (p : K → Bool) : Nat → List (Nat × (K × V)) → Nat → Bool × Nat × Nat
  | prev, [], t => (false, prev, t)
  | prev, x :: rest, t => if p x.2.1 then (true, prev, x.1) else chain_lookup p x.1 rest t

/-- The first node of a sequence of data nodes, as an iterator (`none` at the end). -/
def head_id {K V : Type} (l : List (Nat × (K × V))) : Option Nat :=
  l.head?.map Prod.fst

/-- The chains after the node `x` is linked at the head of bucket `b`. -/
def push_front {α : Type} (b : Nat) (x : α) (cs : List (List α)) : List (List α) :=
  cs.set b (x :: (cs[b]?).getD [])

/-- The chains after the nodes `r` are linked, one after the other, at the head of
their target buckets `hash(key) % bucket_count`. -/
def rehash_chains {K V H : Type} [hasher H K] (hash : H) (bucket_count : Nat)
    (cs : List (List (Nat × (K × V)))) (r : List (Nat × (K × V))) :
    List (List (Nat × (K × V))) :=
  r.foldl (fun acc x => push_front (hasher.call hash x.2.1 % bucket_count) x acc) cs

/-- The store links `prev` through the data nodes `l`; `next` of the last node is
left open (the state of a chain under construction in the copy constructor). -/
def open_chain {K V : Type} (heap : List (node K V)) : Nat → List (Nat × (K × V)) → Prop
  | _, [] => True
  | prev, x :: rest =>
    atomic_load heap prev = some (some x.1) ∧ storage_of heap x.1 = some (.value_type x.2) ∧
      open_chain heap x.1 rest

/-- The store and the bucket list hold the chains `cs`: bucket `b` is the circular
list of its sentinel and the data nodes `cs[b]`, all nodes are distinct, and
`node_count` is their number (invariants 1, 4, 5 and 6 of the data model). -/
structure represents {K V H E A : Type} (heap : List (node K V))
    (l : fixed_size_bucket_list H E A) (cs : List (List (Nat × (K × V)))) : Prop where
  count_pos : 0 < l.bucket_count
  buckets_length : l.buckets.length = l.bucket_count
  chains_length : cs.length = l.bucket_count
  sentinel : ∀ (b : Nat) (s : bucket), l.buckets[b]? = some s →
    storage_of heap s.sentinel =
      some (.bucket_pointer (if l.bucket_count - b = 1 then none else some (b + 1)))
  chain : ∀ (b : Nat) (s : bucket) (c : List (Nat × (K × V))),
    l.buckets[b]? = some s → cs[b]? = some c →
    is_chain heap s.sentinel c s.sentinel
  nodup : (l.buckets.map bucket.sentinel ++ cs.flatten.map Prod.fst).Nodup
  node_count : l.node_count = cs.flatten.length

/-- The values of the chains, bucket by bucket. -/
def chain_values {K V : Type} (cs : List (List (Nat × (K × V)))) : List (List (K × V)) :=
  cs.map (List.map Prod.snd)

/-- Invariants 2 and 3 of the data model on the values `vs` of the buckets: every
key lies in the bucket of its hash, and no two elements have equal keys. -/
structure keys_placed {K V H E A : Type} [hasher H K] [key_equal E K]
    (l : fixed_size_bucket_list H E A) (vs : List (List (K × V))) : Prop where
  placed : ∀ (b : Nat) (c : List (K × V)) (x : K × V), vs[b]? = some c → x ∈ c →
    l.bucket_index x.1 = b
  unique : vs.flatten.Pairwise (fun x y => key_equal.call l.keycomp x.1 y.1 = false)

/-- The invariant of the reachable states: the store holds some chains, and when
the collaborators meet their requirements the keys are placed and unique. -/
def well_formed {K V H E A : Type} [hasher H K] [key_equal E K] (m : hash_map K V H E A)
    (cs : List (List (Nat × (K × V)))) : Prop :=
  represents m.heap m.current_buckets cs ∧
    (key_laws (K := K) m.current_buckets.hash m.current_buckets.keycomp →
      keys_placed m.current_buckets (chain_values cs))

/-! ## A concrete map, for the examples -/

/-- A stateless hasher for natural-number keys that returns the key itself and has
no `operator==`. -/
structure identity_hash where
deriving DecidableEq, Repr

/-- A stateless key-equality predicate for natural-number keys: `std::equal_to`. -/
structure equal_to where
deriving DecidableEq, Repr

instance : hasher identity_hash Nat where
  call := fun _ k => k
  operator_eq := none

instance : key_equal equal_to Nat where
  call := fun _ a b => a == b

/-- An empty map with 3 buckets in an empty store. -/
def example_empty : hash_map Nat Nat identity_hash equal_to Unit :=
  hash_map.create [] 3 identity_hash.mk equal_to.mk ()

/-- The state after `insert(value)`, or the same state where `insert` does not return. -/
def example_insert (m : hash_map Nat Nat identity_hash equal_to Unit) (value : Nat × Nat) :
    hash_map Nat Nat identity_hash equal_to Unit :=
  match m.insert 10 value with
  | some r => r.2
  | none => m

/-- The map with the pairs (1, 10), (4, 40), (2, 20) and (7, 70), inserted in this
order: bucket 1 holds the keys 1, 4 and 7, bucket 2 holds the key 2. -/
def example_map : hash_map Nat Nat identity_hash equal_to Unit :=
  example_insert (example_insert (example_insert (example_insert example_empty (1, 10))
    (4, 40)) (2, 20)) (7, 70)

/-! ## The calls that led to a map, counted -/

/-- The calls that lead to a map, with the number `inserted` of successful insertions
and the number `erased` of successful erases among them.  A successful insertion is
an `insert` that returns `true`, an `operator[]` whose `insert` returns `true`, or an
`insert_or_assign` of a key that `find` did not find before the call; the successful
erases are the counts `erase` returns, for `erase(pos)` those of the `erase` by key it
calls.  A copy starts from the numbers of its source.  With `since_clear`, `clear`
starts both numbers anew; without it, `clear` leaves them as they are. -/
inductive history {K V H E A : Type} [hasher H K] [key_equal E K] [Inhabited V]
    (since_clear : Bool) : hash_map K V H E A → Nat → Nat → Prop where
  | create (heap : List (node K V)) (bucket_count : Nat) (hpos : 0 < bucket_count)
      (hash : H) (keycomp : E) (allocator : A) :
      history since_clear (hash_map.create heap bucket_count hash keycomp allocator) 0 0
  | insert {m m2 : hash_map K V H E A} {inserted erased : Nat} (fuel : Nat) (value : K × V)
      (r : Bool × iterator) :
      history since_clear m inserted erased → m.insert fuel value = some (r, m2) →
      history since_clear m2 (inserted + if r.1 then 1 else 0) erased
  | insert_or_assign {m m2 : hash_map K V H E A} {inserted erased : Nat} (fuel : Nat)
      (key : K) (mapped : V) (found it : iterator) :
      history since_clear m inserted erased → m.find fuel key = some found →
      m.insert_or_assign fuel key mapped = some (it, m2) →
      history since_clear m2 (inserted + if found = m.cend then 1 else 0) erased
  | subscript {m m2 : hash_map K V H E A} {inserted erased : Nat} (fuel : Nat) (key : K)
      (v : V) (r : Bool × iterator) :
      history since_clear m inserted erased → m.insert fuel (key, default) = some (r, m2) →
      m.subscript fuel key = some (v, m2) →
      history since_clear m2 (inserted + if r.1 then 1 else 0) erased
  | erase {m m2 : hash_map K V H E A} {inserted erased : Nat} (fuel : Nat) (key : K)
      (n : Nat) :
      history since_clear m inserted erased → m.erase fuel key = some (n, m2) →
      history since_clear m2 inserted (erased + n)
  | erase_pos {m m2 : hash_map K V H E A} {inserted erased : Nat} (fuel : Nat)
      (pos it : iterator) (v : K × V) (n : Nat) :
      history since_clear m inserted erased → m.deref pos = some v →
      m.erase fuel v.1 = some (n, m2) → m.erase_pos fuel pos = some (it, m2) →
      history since_clear m2 inserted (erased + n)
  | clear {m : hash_map K V H E A} {inserted erased : Nat} :
      history since_clear m inserted erased →
      history since_clear m.clear (if since_clear then 0 else inserted)
        (if since_clear then 0 else erased)
  | rehash {m m2 : hash_map K V H E A} {inserted erased : Nat} (fuel : Nat)
      (new_bucket_count : Nat) (hpos : 0 < new_bucket_count) :
      history since_clear m inserted erased → m.rehash fuel new_bucket_count = some m2 →
      history since_clear m2 inserted erased
  | copy {m m2 : hash_map K V H E A} {inserted erased : Nat} (fuel : Nat) :
      history since_clear m inserted erased → m.copy fuel = some m2 →
      history since_clear m2 inserted erased

/-- The state after `insert((1, 10))` and then `clear()` on the empty example map. -/
def example_cleared : hash_map Nat Nat identity_hash equal_to Unit :=
  (example_insert example_empty (1, 10)).clear

/-! ## Observers, swap, copy assignment -/

/-- The function `hash_map::get_allocator`. -/
def hash_map.get_allocator {K V H E A : Type} (m : hash_map K V H E A) : A :=
  m.current_buckets.allocator

/-- The function `hash_map::hash_function`. -/
def hash_map.hash_function {K V H E A : Type} (m : hash_map K V H E A) : H :=
  m.current_buckets.hash

/-- The function `hash_map::key_eq`. -/
def hash_map.key_eq {K V H E A : Type} (m : hash_map K V H E A) : E :=
  m.current_buckets.keycomp

/-- The function `hash_map::swap` (and `std::swap`, which calls it) on two maps of one
store: `other.current_buckets` is exchanged for `current_buckets`, and the former
value of `other.current_buckets` is stored to `current_buckets`.  The result is
`*this` and `other` afterwards. -/
def hash_map.swap {K V H E A : Type} (m other : hash_map K V H E A) :
    hash_map K V H E A × hash_map K V H E A :=
  let temp := other.current_buckets
  let other1 := { other with current_buckets := m.current_buckets }
  ({ m with current_buckets := temp }, other1)

/-- The function `hash_map::operator=(const hash_map&)`: `temp` is copy-constructed
from `other` and swapped with `*this`, seen in the store that holds `temp`; the result
is `*this` afterwards.  `temp`, which then owns the former bucket list of `*this`,
goes out of scope. -/
def hash_map.assign {K V H E A : Type} (fuel : Nat) (m other : hash_map K V H E A) :
    Option (hash_map K V H E A) :=
  match other.copy fuel with
  | none => none
  | some temp => some (hash_map.swap (m.in_store temp.heap) temp).1

/-! ## rehash with a failing allocation -/

/-- The allocations `hash_map::rehash` makes when the bucket count changes: the new
bucket list with its sentinels (`fixed_size_bucket_list::create`), and, after the nodes
have been moved, the `new decltype(current_buckets)(current_buckets)` that keeps the old
bucket list alive. -/
inductive rehash_allocation where
  | new_buckets
  | old_buckets_owner
deriving DecidableEq, Repr

/-- The exception `std::bad_alloc`. -/
inductive bad_alloc where
  | thrown
deriving DecidableEq, Repr

/-- The function `hash_map::rehash` in a run where the allocation `failing` throws
`std::bad_alloc`: the result is how the call ends and the map as the call leaves it.
No allocation is made when the bucket count stays.  When `create` throws, nothing has
been written.  When the `new` after the loops throws, the nodes have been moved and
the old sentinels relinked to themselves, and `current_buckets` is not replaced. -/
def hash_map.rehash_failing {K V H E A : Type} [hasher H K] (fuel : Nat)
    (m : hash_map K V H E A) (new_bucket_count : Nat) (failing : rehash_allocation) :
    Option (Except bad_alloc Unit × hash_map K V H E A) :=
  if new_bucket_count = m.current_buckets.bucket_count then some (.ok (), m)
  else
    match failing with
    | .new_buckets => some (.error .thrown, m)
    | .old_buckets_owner =>
      let created := fixed_size_bucket_list.create m.heap new_bucket_count
        m.current_buckets.hash m.current_buckets.keycomp m.current_buckets.allocator
      match hash_map.rehash_buckets fuel m.current_buckets.buckets created.1 created.2 with
      | some r => some (.error .thrown, { heap := r.1, current_buckets := m.current_buckets })
      | none => none

/-! ## Steady states and the requirements on value equality -/

/-- A steady state: the store holds chains for the buckets of the map as the data
model says (every bucket a circle from its sentinel through its data nodes, no node
shared, `node_count` the number of data nodes), with every key in the bucket of its
hash and no two equal keys when the collaborators meet their requirements. -/
def steady {K V H E A : Type} [hasher H K] [key_equal E K] (m : hash_map K V H E A) : Prop :=
  ∃ cs, well_formed m cs

/-- The requirement on `operator==` of `value_type`: an equivalence relation. -/
structure value_laws (K V : Type) [BEq K] [BEq V] : Prop where
  refl : ∀ a : K × V, (a == a) = true
  symm : ∀ a b : K × V, (a == b) = true → (b == a) = true
  trans : ∀ a b c : K × V, (a == b) = true → (b == c) = true → (a == c) = true

/-- Value equality is consistent with the key-equality predicate `keycomp`: equal
values have equal keys. -/
def value_key_consistent {K V E : Type} [BEq K] [BEq V] [key_equal E K] (keycomp : E) : Prop :=
  ∀ a b : K × V, (a == b) = true → key_equal.call keycomp a.1 b.1 = true

/-- Equality of hashers is consistent with what they compute: hashers that compare
equal return the same hash for every key. -/
def hasher_eq_sound (H K : Type) [hasher H K] : Prop :=
  ∀ eq, hasher.operator_eq (H := H) (K := K) = some eq →
    ∀ h1 h2 : H, eq h1 h2 = true → ∀ k : K, hasher.call h1 k = hasher.call h2 k

/-- One call of `insert`, `insert_or_assign` or `erase` (by key or by iterator) on `m`
that returns and leaves `m2`. -/
inductive modifies {K V H E A : Type} [hasher H K] [key_equal E K] (fuel : Nat) :
    hash_map K V H E A → hash_map K V H E A → Prop where
  | insert {m m2 : hash_map K V H E A} (value : K × V) (r : Bool × iterator) :
      m.insert fuel value = some (r, m2) → modifies fuel m m2
  | insert_or_assign {m m2 : hash_map K V H E A} (key : K) (mapped : V) (it : iterator) :
      m.insert_or_assign fuel key mapped = some (it, m2) → modifies fuel m m2
  | erase {m m2 : hash_map K V H E A} (key : K) (n : Nat) :
      m.erase fuel key = some (n, m2) → modifies fuel m m2
  | erase_pos {m m2 : hash_map K V H E A} (pos it : iterator) :
      m.erase_pos fuel pos = some (it, m2) → modifies fuel m m2

/-! ## Several maps in one store -/

/-- The nodes of a bucket list with the chains `cs`: its sentinels and its data nodes. -/
abbrev footprint {K V H E A : Type} (l : fixed_size_bucket_list H E A)
    (cs : List (List (Nat × (K × V)))) : List Nat :=
  l.buckets.map bucket.sentinel ++ cs.flatten.map Prod.fst

/-- The store `heap2` is the store `heap` with writes to the nodes `fp` and to new
nodes only: every other node of `heap` has its `next` and its storage as before. -/
def frames {K V : Type} (heap heap2 : List (node K V)) (fp : List Nat) : Prop :=
  heap.length ≤ heap2.length ∧
    ∀ q, q < heap.length → q ∉ fp →
      atomic_load heap2 q = atomic_load heap q ∧ storage_of heap2 q = storage_of heap q

/-- The call that led from `m`, with the chains `cs`, to `m2` wrote to nodes of `m` and
to new nodes only, and left `m2` in steady state on nodes of `m` and new nodes. -/
def confined {K V H E A : Type} [hasher H K] [key_equal E K] (m : hash_map K V H E A)
    (cs : List (List (Nat × (K × V)))) (m2 : hash_map K V H E A) : Prop :=
  frames m.heap m2.heap (footprint m.current_buckets cs) ∧
    ∃ cs2, well_formed m2 cs2 ∧
      ∀ q ∈ footprint m2.current_buckets cs2,
        q ∈ footprint m.current_buckets cs ∨ m.heap.length ≤ q

/-! ## Concrete maps with a comparable hasher, for the examples -/

/-- A hasher for natural-number keys that stands for a pointer to a function: it adds
`address` to the key, and two of them compare equal when they are the same pointer. -/
structure pointer_hash where
  address : Nat
deriving DecidableEq, Repr

instance : hasher pointer_hash Nat where
  call := fun h k => k + h.address
  operator_eq := some (fun a b => a.address == b.address)

/-- The state after `insert_or_assign` of every pair of `pairs` in turn (a call that
does not return leaves the state as it is). -/
def example_fill {H : Type} [hasher H Nat] (m : hash_map Nat Nat H equal_to Unit)
    (pairs : List (Nat × Nat)) : hash_map Nat Nat H equal_to Unit :=
  pairs.foldl (fun m v =>
    match m.insert_or_assign 20 v.1 v.2 with
    | some r => r.2
    | none => m) m

/-- The pairs `(i * i, 2 * i)` for `i` from 1 to 5. -/
def example_squares : List (Nat × Nat) := [(1, 2), (4, 4), (9, 6), (16, 8), (25, 10)]

/-- A map with 5 buckets filled with the squares in ascending order. -/
def example_five : hash_map Nat Nat pointer_hash equal_to Unit :=
  example_fill (hash_map.create [] 5 (pointer_hash.mk 0) equal_to.mk ()) example_squares

/-- A map with 5 buckets filled with the squares in descending order. -/
def example_five_opposite : hash_map Nat Nat pointer_hash equal_to Unit :=
  example_fill (hash_map.create [] 5 (pointer_hash.mk 0) equal_to.mk ())
    example_squares.reverse

/-- A map with 7 buckets filled with the squares in descending order. -/
def example_seven_opposite : hash_map Nat Nat pointer_hash equal_to Unit :=
  example_fill (hash_map.create [] 7 (pointer_hash.mk 0) equal_to.mk ())
    example_squares.reverse

/-- The map `example_seven_opposite` with the mapped value of key 4 changed. -/
def example_seven_changed : hash_map Nat Nat pointer_hash equal_to Unit :=
  example_fill example_seven_opposite [(4, 9)]

/-- The map `example_seven_opposite` with one more pair. -/
def example_seven_added : hash_map Nat Nat pointer_hash equal_to Unit :=
  example_fill example_seven_opposite [(8, 4)]

/-- The copy of `example_map`, constructed in the store of `example_map`. -/
def example_copy : hash_map Nat Nat identity_hash equal_to Unit :=
  match example_map.copy 10 with
  | some c => c
  | none => example_map

/-- The map `example_map` after `rehash(5)`, in the store that holds `example_copy`. -/
def example_rehashed : hash_map Nat Nat identity_hash equal_to Unit :=
  match (example_map.in_store example_copy.heap).rehash 20 5 with
  | some m => m
  | none => example_map

/-! ## equal_range, the index expression, filling a map -/

/-- The loop of `hash_map::equal_range`: a pass that meets the node with a null
`next` (a node that is being erased) is repeated. -/
def hash_map.equal_range_loop {K V H E A : Type} [hasher H K] [key_equal E K] (fuel : Nat)
    (m : hash_map K V H E A) (key : K) : Nat → Option (iterator × iterator)
  | 0 => none
  | passes + 1 =>
    match m.current_buckets.find fuel m.heap key with
    | none => none
    | some (false, _, cur) => some (some cur, some cur)
    | some (true, _, cur) =>
      match atomic_load m.heap cur with
      | none => none
      | some (some next) => some (some cur, some next)
      | some none => hash_map.equal_range_loop fuel m key passes

/-- The function `hash_map::equal_range`: a pair of bucket-local iterators. -/
def hash_map.equal_range {K V H E A : Type} [hasher H K] [key_equal E K] (fuel : Nat)
    (m : hash_map K V H E A) (key : K) : Option (iterator × iterator) :=
  hash_map.equal_range_loop fuel m key fuel

/-- The expression `hash(key) % bucket_count` of `bucket_for_key` on machine integers:
the hash result `h`, an unsigned integer of `w` bits, and the bucket count `n`, of the
size type of `s` bits, are converted to the wider of the two types, in which the
remainder is taken. -/
def fixed_size_bucket_list.index_expression (w s h n : Nat) : Nat :=
  (h % 2 ^ max w s) % (n % 2 ^ max w s)

/-- The loop `for (value : values) m.insert(value)`. -/
def hash_map.insert_each {K V H E A : Type} [hasher H K] [key_equal E K] (fuel : Nat) :
    hash_map K V H E A → List (K × V) → Option (hash_map K V H E A)
  | m, [] => some m
  | m, value :: rest =>
    match m.insert fuel value with
    | none => none
    | some (_, m1) => hash_map.insert_each fuel m1 rest

/-! ## bucket::find with its restarts counted -/

/-- The loop of `bucket::find` as in `bucket.find_from`, with the number `yields` of
passes through `std::this_thread::yield()` (the restarts from the sentinel after a null
`next` was loaded) counted and returned with the result. -/
def bucket.find_from_counting {K V E : Type} [key_equal E K] (heap : List (node K V))
    (sentinel : Nat) (key : K) (keycomp : E) :
    Nat → Nat → Nat → Option ((Bool × Nat × Nat) × Nat)
  | 0, _, _ => none
  | fuel + 1, prev, yields =>
    match atomic_load heap prev with
    | none => none
    | some none => bucket.find_from_counting heap sentinel key keycomp fuel sentinel (yields + 1)
    | some (some cur) =>
      match heap[cur]? with
      | none => none
      | some n =>
        match n.data_ with
        | .bucket_pointer _ => some ((false, prev, cur), yields)
        | .value_type v =>
          if key_equal.call keycomp key v.1 then some ((true, prev, cur), yields)
          else bucket.find_from_counting heap sentinel key keycomp fuel cur yields

/-- The function `bucket::find` with its restarts counted: `((found, prev, cur), yields)`. -/
def bucket.find_counting {K V E : Type} [key_equal E K] (fuel : Nat) (heap : List (node K V))
    (b : bucket) (key : K) (keycomp : E) : Option ((Bool × Nat × Nat) × Nat) :=
  bucket.find_from_counting heap b.sentinel key keycomp fuel b.sentinel 0

/-! ## Several maps of one program -/

/-- Invariant 2 of the data model on the chains `cs`, on its own: every data node lies
in the bucket of its key's hash. -/
def placed {K V H E A : Type} [hasher H K] (l : fixed_size_bucket_list H E A)
    (cs : List (List (Nat × (K × V)))) : Prop :=
  ∀ (b : Nat) (c : List (Nat × (K × V))) (x : Nat × (K × V)), cs[b]? = some c → x ∈ c →
    l.bucket_index x.2.1 = b

/-- The maps of a program: the store they share, and `current_buckets` of each map. -/
structure map_store (K V H E A : Type) where
  heap : List (node K V)
  maps : List (fixed_size_bucket_list H E A)

/-- The map number `i` of the program. -/
def map_store.map {K V H E A : Type} (w : map_store K V H E A) (i : Nat) :
    Option (hash_map K V H E A) :=
  (w.maps[i]?).map (fun l => { heap := w.heap, current_buckets := l })

/-- The program after a call on the map number `i` has left this map as `m`. -/
def map_store.put {K V H E A : Type} (w : map_store K V H E A) (i : Nat)
    (m : hash_map K V H E A) : map_store K V H E A :=
  { heap := m.heap, maps := w.maps.set i m.current_buckets }

/-- The program after the map `m` was constructed in its store. -/
def map_store.add {K V H E A : Type} (w : map_store K V H E A) (m : hash_map K V H E A) :
    map_store K V H E A :=
  { heap := m.heap, maps := w.maps ++ [m.current_buckets] }

/-- The states a program reaches that constructs maps, copies them, swaps them and calls
`insert`, `insert_or_assign`, `operator[]`, `erase` (by key and by iterator), `clear`
and `rehash` on them. -/
inductive reachable_store {K V H E A : Type} [hasher H K] [key_equal E K] [Inhabited V] :
    map_store K V H E A → Prop where
  | start (heap : List (node K V)) : reachable_store { heap := heap, maps := [] }
  | create {w : map_store K V H E A} (bucket_count : Nat) (hpos : 0 < bucket_count)
      (hash : H) (keycomp : E) (allocator : A) :
      reachable_store w →
      reachable_store (w.add (hash_map.create w.heap bucket_count hash keycomp allocator))
  | copy {w : map_store K V H E A} {m m2 : hash_map K V H E A} (i fuel : Nat) :
      reachable_store w → w.map i = some m → m.copy fuel = some m2 →
      reachable_store (w.add m2)
  | insert {w : map_store K V H E A} {m m2 : hash_map K V H E A} (i fuel : Nat)
      (value : K × V) (r : Bool × iterator) :
      reachable_store w → w.map i = some m → m.insert fuel value = some (r, m2) →
      reachable_store (w.put i m2)
  | insert_or_assign {w : map_store K V H E A} {m m2 : hash_map K V H E A} (i fuel : Nat)
      (key : K) (mapped : V) (it : iterator) :
      reachable_store w → w.map i = some m →
      m.insert_or_assign fuel key mapped = some (it, m2) → reachable_store (w.put i m2)
  | subscript {w : map_store K V H E A} {m m2 : hash_map K V H E A} (i fuel : Nat)
      (key : K) (v : V) :
      reachable_store w → w.map i = some m → m.subscript fuel key = some (v, m2) →
      reachable_store (w.put i m2)
  | erase {w : map_store K V H E A} {m m2 : hash_map K V H E A} (i fuel : Nat) (key : K)
      (n : Nat) :
      reachable_store w → w.map i = some m → m.erase fuel key = some (n, m2) →
      reachable_store (w.put i m2)
  | erase_pos {w : map_store K V H E A} {m m2 : hash_map K V H E A} (i fuel : Nat)
      (pos it : iterator) :
      reachable_store w → w.map i = some m → m.erase_pos fuel pos = some (it, m2) →
      reachable_store (w.put i m2)
  | clear {w : map_store K V H E A} {m : hash_map K V H E A} (i : Nat) :
      reachable_store w → w.map i = some m → reachable_store (w.put i m.clear)
  | rehash {w : map_store K V H E A} {m m2 : hash_map K V H E A} (i fuel : Nat)
      (new_bucket_count : Nat) (hpos : 0 < new_bucket_count) :
      reachable_store w → w.map i = some m → m.rehash fuel new_bucket_count = some m2 →
      reachable_store (w.put i m2)
  | swap {w : map_store K V H E A} {m other : hash_map K V H E A} (i j : Nat) :
      reachable_store w → w.map i = some m → w.map j = some other →
      reachable_store ((w.put i (m.swap other).1).put j (m.swap other).2)

/-- The chains `css i` of the maps of a program: every map is in steady state on nodes
of its own, with every data node in the bucket of its key's hash. -/
def map_store.represented {K V H E A : Type} [hasher H K] [key_equal E K]
    (w : map_store K V H E A) (css : Nat → List (List (Nat × (K × V)))) : Prop :=
  ∀ (i : Nat) (l : fixed_size_bucket_list H E A), w.maps[i]? = some l →
    well_formed { heap := w.heap, current_buckets := l } (css i) ∧ placed l (css i) ∧
    ∀ (j : Nat) (l2 : fixed_size_bucket_list H E A), j ≠ i → w.maps[j]? = some l2 →
      ∀ q ∈ footprint l (css i), q ∉ footprint l2 (css j)

/-- The first map of `example_store`, with 2 buckets, before the swap. -/
def example_store_first : hash_map Nat Nat identity_hash equal_to Unit :=
  hash_map.create [] 2 identity_hash.mk equal_to.mk ()

/-- The second map of `example_store`, with 3 buckets and the pair (4, 40), before the
swap. -/
def example_store_second : hash_map Nat Nat identity_hash equal_to Unit :=
  example_insert (hash_map.create example_store_first.heap 3 identity_hash.mk equal_to.mk ())
    (4, 40)

/-- A program with two maps after a swap: map 0 holds what `example_store_second` held,
map 1 what `example_store_first` held. -/
def example_store : map_store Nat Nat identity_hash equal_to Unit :=
  { heap := example_store_second.heap,
    maps := [example_store_second.current_buckets, example_store_first.current_buckets] }

end LockfreeHashMap

namespace LockfreeHashMap

/-! ## The store -/

section store
variable {K V : Type}

theorem atomic_store_length (heap : List (node K V)) (p : Nat) (v : Option Nat) :
    (atomic_store heap p v).length = heap.length := by
  unfold atomic_store
  split <;> simp

theorem atomic_load_store_same (heap : List (node K V)) (p : Nat) (v : Option Nat)
    (hp : p < heap.length) : atomic_load (atomic_store heap p v) p = some v := by
  unfold atomic_store atomic_load
  rw [List.getElem?_eq_getElem hp]
  simp [List.getElem?_set, hp]

theorem atomic_load_store_ne (heap : List (node K V)) (p q : Nat) (v : Option Nat)
    (h : q ≠ p) : atomic_load (atomic_store heap p v) q = atomic_load heap q := by
  unfold atomic_store atomic_load
  split
  · rw [List.getElem?_set_ne (Ne.symm h)]
  · rfl

theorem storage_of_store (heap : List (node K V)) (p q : Nat) (v : Option Nat) :
    storage_of (atomic_store heap p v) q = storage_of heap q := by
  unfold atomic_store storage_of
  split
  · rename_i n hn
    by_cases h : p = q
    · subst h
      have hp : p < heap.length := (List.getElem?_eq_some.mp hn).1
      simp [List.getElem?_set, hp, hn]
    · rw [List.getElem?_set_ne h]
  · rfl

theorem atomic_load_lt {heap : List (node K V)} {p : Nat} {v : Option Nat}
    (h : atomic_load heap p = some v) : p < heap.length := by
  unfold atomic_load at h
  by_contra hc
  rw [List.getElem?_eq_none (Nat.le_of_not_lt hc)] at h
  simp at h

theorem storage_of_lt {heap : List (node K V)} {p : Nat} {d : node_storage K V}
    (h : storage_of heap p = some d) : p < heap.length := by
  unfold storage_of at h
  by_contra hc
  rw [List.getElem?_eq_none (Nat.le_of_not_lt hc)] at h
  simp at h

theorem atomic_load_append {heap : List (node K V)} {p : Nat} {v : Option Nat}
    (extra : List (node K V)) (h : atomic_load heap p = some v) :
    atomic_load (heap ++ extra) p = some v := by
  have hp := atomic_load_lt h
  unfold atomic_load at h ⊢
  rw [List.getElem?_append_left hp]
  exact h

theorem storage_of_append {heap : List (node K V)} {p : Nat} {d : node_storage K V}
    (extra : List (node K V)) (h : storage_of heap p = some d) :
    storage_of (heap ++ extra) p = some d := by
  have hp := storage_of_lt h
  unfold storage_of at h ⊢
  rw [List.getElem?_append_left hp]
  exact h

theorem getElem?_of_storage_of {heap : List (node K V)} {p : Nat} {d : node_storage K V}
    (h : storage_of heap p = some d) : ∃ n, heap[p]? = some n ∧ n.data_ = d := by
  unfold storage_of at h
  cases hn : heap[p]? with
  | none => simp [hn] at h
  | some n => exact ⟨n, rfl, by simpa [hn] using h⟩

end store

/-! ## Chains -/

section chains
variable {K V : Type}

theorem is_chain_prev_lt {heap : List (node K V)} {prev t : Nat} {l : List (Nat × (K × V))}
    (h : is_chain heap prev l t) : prev < heap.length := by
  cases l with
  | nil => exact atomic_load_lt h
  | cons x rest => exact atomic_load_lt h.1

theorem is_chain_mem_lt {heap : List (node K V)} {prev t : Nat} {l : List (Nat × (K × V))}
    (h : is_chain heap prev l t) : ∀ x ∈ l, x.1 < heap.length := by
  induction l generalizing prev with
  | nil => simp
  | cons x rest ih =>
    intro y hy
    rcases List.mem_cons.mp hy with rfl | hy
    · exact storage_of_lt h.2.1
    · exact ih h.2.2 y hy

theorem is_chain_store_frame {heap : List (node K V)} {prev t : Nat}
    {l : List (Nat × (K × V))} (p : Nat) (v : Option Nat) (h : is_chain heap prev l t)
    (hp : prev ≠ p) (hl : p ∉ l.map Prod.fst) : is_chain (atomic_store heap p v) prev l t := by
  induction l generalizing prev with
  | nil =>
    simp only [is_chain] at h ⊢
    rw [atomic_load_store_ne _ _ _ _ hp]
    exact h
  | cons x rest ih =>
    simp only [is_chain] at h ⊢
    simp only [List.map_cons, List.mem_cons, not_or] at hl
    refine ⟨?_, ?_, ih h.2.2 (Ne.symm hl.1) hl.2⟩
    · rw [atomic_load_store_ne _ _ _ _ hp]
      exact h.1
    · rw [storage_of_store]
      exact h.2.1

theorem is_tail_store_frame {heap : List (node K V)} {t : Nat}
    {l : List (Nat × (K × V))} (p : Nat) (v : Option Nat) (h : is_tail heap l t)
    (hl : p ∉ l.map Prod.fst) : is_tail (atomic_store heap p v) l t := by
  cases l with
  | nil => trivial
  | cons x rest =>
    simp only [is_tail] at h ⊢
    simp only [List.map_cons, List.mem_cons, not_or] at hl
    exact ⟨by rw [storage_of_store]; exact h.1,
      is_chain_store_frame p v h.2 (Ne.symm hl.1) hl.2⟩

theorem is_chain_append {heap : List (node K V)} {prev t : Nat}
    {l : List (Nat × (K × V))} (extra : List (node K V)) (h : is_chain heap prev l t) :
    is_chain (heap ++ extra) prev l t := by
  induction l generalizing prev with
  | nil => exact atomic_load_append extra h
  | cons x rest ih =>
    exact ⟨atomic_load_append extra h.1, storage_of_append extra h.2.1, ih h.2.2⟩

theorem is_chain_split {heap : List (node K V)} {prev t : Nat}
    {l1 l2 : List (Nat × (K × V))} :
    is_chain heap prev (l1 ++ l2) t ↔
      is_chain heap prev l1 (chain_head l2 t) ∧ is_tail heap l2 t := by
  induction l1 generalizing prev with
  | nil =>
    cases l2 with
    | nil => simp [is_chain, is_tail, chain_head]
    | cons y rest =>
      simp only [List.nil_append, is_chain, is_tail, chain_head]
  | cons x rest ih =>
    have e : is_chain heap prev (x :: rest ++ l2) t ↔
        atomic_load heap prev = some (some x.1) ∧
          storage_of heap x.1 = some (.value_type x.2) ∧ is_chain heap x.1 (rest ++ l2) t :=
      Iff.rfl
    rw [e, ih]
    simp only [is_chain]
    tauto

theorem chain_last_mem (prev : Nat) (l : List (Nat × (K × V))) :
    chain_last prev l ∈ prev :: l.map Prod.fst := by
  induction l generalizing prev with
  | nil => simp [chain_last]
  | cons x rest ih =>
    have := ih x.1
    simp only [chain_last, List.map_cons]
    exact List.mem_cons_of_mem _ this

theorem chain_last_append (prev : Nat) (l : List (Nat × (K × V))) (x : Nat × (K × V)) :
    chain_last prev (l ++ [x]) = x.1 := by
  induction l generalizing prev with
  | nil => simp [chain_last]
  | cons y rest ih => simpa [chain_last] using ih y.1

theorem is_chain_retarget {heap : List (node K V)} {prev t : Nat}
    {l : List (Nat × (K × V))} (t2 : Nat) (h : is_chain heap prev l t)
    (hn : (prev :: l.map Prod.fst).Nodup) :
    is_chain (atomic_store heap (chain_last prev l) (some t2)) prev l t2 := by
  induction l generalizing prev with
  | nil =>
    simp only [is_chain, chain_last] at h ⊢
    exact atomic_load_store_same _ _ _ (atomic_load_lt h)
  | cons x rest ih =>
    simp only [is_chain, chain_last] at h ⊢
    have hn2 : (x.1 :: rest.map Prod.fst).Nodup := (List.nodup_cons.mp hn).2
    have hne : prev ≠ chain_last x.1 rest := by
      intro hc
      have := chain_last_mem x.1 rest
      rw [← hc] at this
      exact (List.nodup_cons.mp hn).1 (by simpa using this)
    refine ⟨?_, ?_, ih h.2.2 hn2⟩
    · rw [atomic_load_store_ne _ _ _ _ hne]
      exact h.1
    · rw [storage_of_store]
      exact h.2.1

theorem chain_lookup_found {p : K → Bool} {prev t pr c : Nat} {l : List (Nat × (K × V))}
    (h : chain_lookup p prev l t = (true, pr, c)) :
    ∃ l1 kv l2, l = l1 ++ (c, kv) :: l2 ∧ p kv.1 = true ∧ (∀ x ∈ l1, p x.2.1 = false) ∧
      pr = chain_last prev l1 := by
  induction l generalizing prev with
  | nil => simp [chain_lookup] at h
  | cons x rest ih =>
    simp only [chain_lookup] at h
    by_cases hx : p x.2.1 = true
    · simp only [hx, if_true, Prod.mk.injEq, true_and] at h
      refine ⟨[], x.2, rest, ?_, hx, by simp, ?_⟩
      · simp [← h.2]
      · simp [chain_last, h.1]
    · simp only [hx, if_false] at h
      obtain ⟨l1, kv, l2, e, hk, hall, hpr⟩ := ih h
      refine ⟨x :: l1, kv, l2, by simp [e], hk, ?_, by simpa [chain_last] using hpr⟩
      intro y hy
      rcases List.mem_cons.mp hy with rfl | hy
      · simpa using hx
      · exact hall y hy

theorem chain_lookup_not_found {p : K → Bool} {prev t pr c : Nat}
    {l : List (Nat × (K × V))} (h : chain_lookup p prev l t = (false, pr, c)) :
    c = t ∧ pr = chain_last prev l ∧ ∀ x ∈ l, p x.2.1 = false := by
  induction l generalizing prev with
  | nil =>
    simp only [chain_lookup, Prod.mk.injEq, true_and] at h
    simp [chain_last, h.1, h.2]
  | cons x rest ih =>
    simp only [chain_lookup] at h
    by_cases hx : p x.2.1 = true
    · simp [hx] at h
    · simp only [hx, if_false] at h
      obtain ⟨h1, h2, h3⟩ := ih h
      refine ⟨h1, by simpa [chain_last] using h2, ?_⟩
      intro y hy
      rcases List.mem_cons.mp hy with rfl | hy
      · simpa using hx
      · exact h3 y hy

theorem chain_lookup_of_all_false {p : K → Bool} (prev t : Nat) {l : List (Nat × (K × V))}
    (h : ∀ x ∈ l, p x.2.1 = false) : chain_lookup p prev l t = (false, chain_last prev l, t) := by
  induction l generalizing prev with
  | nil => simp [chain_lookup, chain_last]
  | cons x rest ih =>
    have hx : p x.2.1 = false := h x (List.mem_cons_self _ _)
    simp only [chain_lookup, hx, chain_last]
    exact ih x.1 (fun y hy => h y (List.mem_cons_of_mem _ hy))

theorem chain_lookup_of_split {p : K → Bool} (prev t : Nat) {l1 l2 : List (Nat × (K × V))}
    {x : Nat × (K × V)} (h : ∀ y ∈ l1, p y.2.1 = false) (hx : p x.2.1 = true) :
    chain_lookup p prev (l1 ++ x :: l2) t = (true, chain_last prev l1, x.1) := by
  induction l1 generalizing prev with
  | nil => simp [chain_lookup, chain_last, hx]
  | cons y rest ih =>
    have hy : p y.2.1 = false := h y (List.mem_cons_self _ _)
    simp only [List.cons_append, chain_lookup, hy, chain_last]
    exact ih y.1 (fun z hz => h z (List.mem_cons_of_mem _ hz))

theorem find_from_eq {E : Type} [key_equal E K] {heap : List (node K V)} {s prev : Nat}
    {l : List (Nat × (K × V))} {nb : Option Nat} (key : K) (keycomp : E) (fuel : Nat)
    (hs : storage_of heap s = some (.bucket_pointer nb)) (h : is_chain heap prev l s)
    (hf : l.length < fuel) :
    bucket.find_from heap s key keycomp fuel prev =
      some (chain_lookup (key_equal.call keycomp key) prev l s) := by
  induction l generalizing prev fuel with
  | nil =>
    obtain ⟨f, rfl⟩ : ∃ f, fuel = f + 1 := ⟨fuel - 1, by simp at hf; omega⟩
    obtain ⟨n, hn, hd⟩ := getElem?_of_storage_of hs
    simp only [is_chain] at h
    simp [bucket.find_from, h, hn, hd, chain_lookup]
  | cons x rest ih =>
    obtain ⟨f, rfl⟩ : ∃ f, fuel = f + 1 := ⟨fuel - 1, by simp at hf; omega⟩
    simp only [is_chain] at h
    obtain ⟨n, hn, hd⟩ := getElem?_of_storage_of h.2.1
    simp only [bucket.find_from, h.1, hn, hd, chain_lookup]
    split
    · rfl
    · exact ih f h.2.2 (by simp at hf; omega)

end chains

/-! ## Lists of chains -/

section lists
variable {α β : Type}

theorem getElem?_split {cs : List (List α)} {b : Nat} {c : List α} (h : cs[b]? = some c) :
    ∃ pre post, cs = pre ++ c :: post ∧ pre.length = b := by
  induction cs generalizing b with
  | nil => simp at h
  | cons c0 rest ih =>
    cases b with
    | zero =>
      simp only [List.getElem?_cons_zero, Option.some.injEq] at h
      exact ⟨[], rest, by simp [h], rfl⟩
    | succ b =>
      simp only [List.getElem?_cons_succ] at h
      obtain ⟨pre, post, e, hl⟩ := ih h
      exact ⟨c0 :: pre, post, by simp [e], by simp [hl]⟩

theorem set_split (pre post : List (List α)) (c c2 : List α) :
    (pre ++ c :: post).set pre.length c2 = pre ++ c2 :: post := by
  induction pre with
  | nil => simp
  | cons x pre ih => simp [ih]

theorem flatten_set_perm {cs : List (List α)} {b : Nat} {c : List α} (c2 : List α)
    (h : cs[b]? = some c) : ((cs.set b c2).flatten ++ c).Perm (cs.flatten ++ c2) := by
  obtain ⟨pre, post, rfl, rfl⟩ := getElem?_split h
  rw [set_split]
  simp only [List.flatten_append, List.flatten_cons, List.append_assoc]
  refine List.Perm.append_left _ ?_
  have h1 : (c2 ++ (post.flatten ++ c)).Perm ((post.flatten ++ c) ++ c2) :=
    List.perm_append_comm
  have h2 : ((post.flatten ++ c) ++ c2).Perm ((c ++ post.flatten) ++ c2) :=
    List.Perm.append_right _ List.perm_append_comm
  have h3 : (c ++ post.flatten) ++ c2 = c ++ (post.flatten ++ c2) := by simp
  exact h3 ▸ h1.trans h2

theorem flatten_set_perm_cons {cs : List (List α)} {b : Nat} {c c2 : List α} {x : α}
    (h : cs[b]? = some c) (hp : c2.Perm (x :: c)) :
    (cs.set b c2).flatten.Perm (x :: cs.flatten) := by
  have h1 := flatten_set_perm c2 h
  have h2 : (cs.flatten ++ c2).Perm (cs.flatten ++ (x :: c)) := List.Perm.append_left _ hp
  have h3 : (cs.flatten ++ (x :: c)).Perm (x :: (cs.flatten ++ c)) := List.perm_middle
  have h4 : x :: (cs.flatten ++ c) = (x :: cs.flatten) ++ c := by simp
  exact (List.perm_append_right_iff c).mp (h4 ▸ (h1.trans (h2.trans h3)))

theorem flatten_set_perm_erase {cs : List (List α)} {b : Nat} {c c2 : List α} {x : α}
    (h : cs[b]? = some c) (hp : c.Perm (x :: c2)) :
    cs.flatten.Perm (x :: (cs.set b c2).flatten) := by
  have h1 := flatten_set_perm c2 h
  have h2 : ((cs.set b c2).flatten ++ c).Perm ((cs.set b c2).flatten ++ (x :: c2)) :=
    List.Perm.append_left _ hp
  have h3 : ((cs.set b c2).flatten ++ (x :: c2)).Perm (x :: ((cs.set b c2).flatten ++ c2)) :=
    List.perm_middle
  have h4 : x :: ((cs.set b c2).flatten ++ c2) = (x :: (cs.set b c2).flatten) ++ c2 := by simp
  have h5 : ((x :: (cs.set b c2).flatten) ++ c2).Perm (cs.flatten ++ c2) :=
    (h4 ▸ (h2.trans h3)).symm.trans h1
  exact ((List.perm_append_right_iff c2).mp h5).symm

theorem mem_flatten_of_getElem? {cs : List (List α)} {b : Nat} {c : List α} {x : α}
    (h : cs[b]? = some c) (hx : x ∈ c) : x ∈ cs.flatten :=
  List.mem_flatten.mpr ⟨c, List.getElem?_mem h, hx⟩

theorem length_le_flatten {cs : List (List α)} {b : Nat} {c : List α}
    (h : cs[b]? = some c) : c.length ≤ cs.flatten.length := by
  obtain ⟨pre, post, rfl, -⟩ := getElem?_split h
  simp only [List.flatten_append, List.flatten_cons, List.length_append]
  omega

theorem flatten_nodup_chain {f : α → β} {cs : List (List α)} {b : Nat} {c : List α}
    (hn : (cs.flatten.map f).Nodup) (h : cs[b]? = some c) : (c.map f).Nodup := by
  obtain ⟨pre, post, rfl, -⟩ := getElem?_split h
  simp only [List.flatten_append, List.flatten_cons, List.map_append] at hn
  exact (List.Nodup.of_append_right hn).of_append_left

theorem flatten_nodup_disjoint {f : α → β} {cs : List (List α)} {b b2 : Nat}
    {c c2 : List α} (hn : (cs.flatten.map f).Nodup) (h : cs[b]? = some c)
    (h2 : cs[b2]? = some c2) (hne : b ≠ b2) : ∀ x ∈ c, ∀ y ∈ c2, f x ≠ f y := by
  induction cs generalizing b b2 with
  | nil => simp at h
  | cons c0 rest ih =>
    simp only [List.flatten_cons, List.map_append] at hn
    have hd := List.disjoint_of_nodup_append hn
    cases b with
    | zero =>
      cases b2 with
      | zero => exact absurd rfl hne
      | succ b2 =>
        simp only [List.getElem?_cons_zero, Option.some.injEq] at h
        simp only [List.getElem?_cons_succ] at h2
        subst h
        intro x hx y hy e
        exact hd (List.mem_map_of_mem f hx)
          (e ▸ List.mem_map_of_mem f (mem_flatten_of_getElem? h2 hy))
    | succ b =>
      cases b2 with
      | zero =>
        simp only [List.getElem?_cons_zero, Option.some.injEq] at h2
        simp only [List.getElem?_cons_succ] at h
        subst h2
        intro x hx y hy e
        exact hd (List.mem_map_of_mem f hy)
          (e ▸ List.mem_map_of_mem f (mem_flatten_of_getElem? h hx))
      | succ b2 =>
        simp only [List.getElem?_cons_succ] at h h2
        exact ih (List.Nodup.of_append_right hn) h h2 (by omega)

theorem nodup_getElem?_inj {l : List α} {i j : Nat} {a : α} (hn : l.Nodup)
    (hi : l[i]? = some a) (hj : l[j]? = some a) : i = j := by
  obtain ⟨hi1, hi2⟩ := List.getElem?_eq_some.mp hi
  obtain ⟨hj1, hj2⟩ := List.getElem?_eq_some.mp hj
  exact (List.Nodup.getElem_inj_iff hn).mp (hi2.trans hj2.symm)

end lists

/-! ## The representation invariant -/

section representation
variable {K V H E A : Type}

theorem is_chain_congr {heap heap2 : List (node K V)} {prev t : Nat}
    {l : List (Nat × (K × V))}
    (hl : ∀ q ∈ prev :: l.map Prod.fst, atomic_load heap2 q = atomic_load heap q)
    (hs : ∀ q ∈ l.map Prod.fst, storage_of heap2 q = storage_of heap q)
    (h : is_chain heap prev l t) : is_chain heap2 prev l t := by
  induction l generalizing prev with
  | nil =>
    simp only [is_chain] at h ⊢
    rw [hl prev (List.mem_cons_self _ _)]
    exact h
  | cons x rest ih =>
    simp only [is_chain] at h ⊢
    refine ⟨?_, ?_, ih ?_ ?_ h.2.2⟩
    · rw [hl prev (List.mem_cons_self _ _)]
      exact h.1
    · rw [hs x.1 (by simp)]
      exact h.2.1
    · intro q hq
      exact hl q (List.mem_cons_of_mem _ (by simpa using hq))
    · intro q hq
      exact hs q (by simp only [List.map_cons]; exact List.mem_cons_of_mem _ hq)

theorem is_chain_load_prev {heap : List (node K V)} {prev t : Nat}
    {l : List (Nat × (K × V))} (h : is_chain heap prev l t) :
    atomic_load heap prev = some (some (chain_head l t)) := by
  cases l with
  | nil => exact h
  | cons x rest => exact h.1

theorem is_chain_load_last {heap : List (node K V)} {prev t : Nat}
    {l : List (Nat × (K × V))} (h : is_chain heap prev l t) :
    atomic_load heap (chain_last prev l) = some (some t) := by
  induction l generalizing prev with
  | nil => exact h
  | cons x rest ih => exact ih h.2.2

theorem is_chain_tail {heap : List (node K V)} {prev t : Nat}
    {l : List (Nat × (K × V))} (h : is_chain heap prev l t) : is_tail heap l t := by
  cases l with
  | nil => trivial
  | cons x rest => exact h.2

theorem represents.bucket_lt {heap : List (node K V)} {l : fixed_size_bucket_list H E A}
    {cs : List (List (Nat × (K × V)))} (h : represents heap l cs) {b : Nat} {s : bucket}
    (hb : l.buckets[b]? = some s) : b < l.bucket_count := by
  have := (List.getElem?_eq_some.mp hb).1
  rw [h.buckets_length] at this
  exact this

theorem represents.get {heap : List (node K V)} {l : fixed_size_bucket_list H E A}
    {cs : List (List (Nat × (K × V)))} (h : represents heap l cs) {b : Nat}
    (hb : b < l.bucket_count) : ∃ s c, l.buckets[b]? = some s ∧ cs[b]? = some c := by
  have h1 : b < l.buckets.length := by rw [h.buckets_length]; exact hb
  have h2 : b < cs.length := by rw [h.chains_length]; exact hb
  exact ⟨l.buckets[b], cs[b], List.getElem?_eq_getElem h1, List.getElem?_eq_getElem h2⟩

theorem represents.ids_nodup {heap : List (node K V)} {l : fixed_size_bucket_list H E A}
    {cs : List (List (Nat × (K × V)))} (h : represents heap l cs) :
    (cs.flatten.map Prod.fst).Nodup :=
  List.Nodup.of_append_right h.nodup

theorem represents.sentinel_ne {heap : List (node K V)} {l : fixed_size_bucket_list H E A}
    {cs : List (List (Nat × (K × V)))} (h : represents heap l cs) {b b2 : Nat}
    {s s2 : bucket} (hb : l.buckets[b]? = some s) (hb2 : l.buckets[b2]? = some s2)
    (hne : b ≠ b2) : s.sentinel ≠ s2.sentinel := by
  intro e
  have hn : (l.buckets.map bucket.sentinel).Nodup := List.Nodup.of_append_left h.nodup
  have h1 : (l.buckets.map bucket.sentinel)[b]? = some s.sentinel := by
    rw [List.getElem?_map, hb]; rfl
  have h2 : (l.buckets.map bucket.sentinel)[b2]? = some s.sentinel := by
    rw [List.getElem?_map, hb2, e]; rfl
  exact hne (nodup_getElem?_inj hn h1 h2)

theorem represents.sentinel_not_mem {heap : List (node K V)}
    {l : fixed_size_bucket_list H E A} {cs : List (List (Nat × (K × V)))}
    (h : represents heap l cs) {b : Nat} {s : bucket} (hb : l.buckets[b]? = some s) :
    s.sentinel ∉ cs.flatten.map Prod.fst := by
  intro hx
  have hs : s.sentinel ∈ l.buckets.map bucket.sentinel :=
    List.mem_map_of_mem _ (List.getElem?_mem hb)
  exact List.disjoint_of_nodup_append h.nodup hs hx

theorem represents.sentinel_not_mem_chain {heap : List (node K V)}
    {l : fixed_size_bucket_list H E A} {cs : List (List (Nat × (K × V)))}
    (h : represents heap l cs) {b b2 : Nat} {s : bucket} {c : List (Nat × (K × V))}
    (hb : l.buckets[b]? = some s) (hc : cs[b2]? = some c) :
    s.sentinel ∉ c.map Prod.fst := by
  intro hx
  obtain ⟨x, hx1, hx2⟩ := List.mem_map.mp hx
  exact h.sentinel_not_mem hb
    (List.mem_map.mpr ⟨x, mem_flatten_of_getElem? hc hx1, hx2⟩)

theorem represents.chain_nodup {heap : List (node K V)} {l : fixed_size_bucket_list H E A}
    {cs : List (List (Nat × (K × V)))} (h : represents heap l cs) {b : Nat} {s : bucket}
    {c : List (Nat × (K × V))} (hb : l.buckets[b]? = some s) (hc : cs[b]? = some c) :
    (s.sentinel :: c.map Prod.fst).Nodup :=
  List.nodup_cons.mpr ⟨h.sentinel_not_mem_chain hb hc, flatten_nodup_chain h.ids_nodup hc⟩

theorem represents.sentinel_lt {heap : List (node K V)} {l : fixed_size_bucket_list H E A}
    {cs : List (List (Nat × (K × V)))} (h : represents heap l cs) {b : Nat} {s : bucket}
    (hb : l.buckets[b]? = some s) : s.sentinel < heap.length :=
  storage_of_lt (h.sentinel b s hb)

theorem represents.mem_lt {heap : List (node K V)} {l : fixed_size_bucket_list H E A}
    {cs : List (List (Nat × (K × V)))} (h : represents heap l cs) :
    ∀ x ∈ cs.flatten, x.1 < heap.length := by
  intro x hx
  obtain ⟨c, hc, hxc⟩ := List.mem_flatten.mp hx
  obtain ⟨b, hb⟩ := List.mem_iff_getElem?.mp hc
  have hlt : b < l.bucket_count := by
    have := (List.getElem?_eq_some.mp hb).1
    rw [h.chains_length] at this
    exact this
  obtain ⟨s, c2, hs, hc2⟩ := h.get hlt
  rw [hb] at hc2
  cases hc2
  exact is_chain_mem_lt (h.chain b s c hs hb) x hxc

theorem represents_frame {heap heap2 : List (node K V)}
    {l l2 : fixed_size_bucket_list H E A} {cs : List (List (Nat × (K × V)))} {b : Nat}
    {s : bucket} {c c2 : List (Nat × (K × V))}
    (h : represents heap l cs) (hb : l.buckets[b]? = some s) (hc : cs[b]? = some c)
    (hbk : l2.buckets = l.buckets) (hbc : l2.bucket_count = l.bucket_count)
    (hload : ∀ q, q < heap.length →
      q ∈ l.buckets.map bucket.sentinel ++ cs.flatten.map Prod.fst →
      q ≠ s.sentinel → q ∉ c.map Prod.fst → atomic_load heap2 q = atomic_load heap q)
    (hstor : ∀ q, q < heap.length →
      q ∈ l.buckets.map bucket.sentinel ++ cs.flatten.map Prod.fst →
      q ∉ c.map Prod.fst → storage_of heap2 q = storage_of heap q)
    (hchain : is_chain heap2 s.sentinel c2 s.sentinel)
    (hnodup : (l.buckets.map bucket.sentinel ++ (cs.set b c2).flatten.map Prod.fst).Nodup)
    (hcount : l2.node_count = (cs.set b c2).flatten.length) :
    represents heap2 l2 (cs.set b c2) := by
  have hsm : ∀ {b2 : Nat} {s2 : bucket}, l.buckets[b2]? = some s2 →
      s2.sentinel ∈ l.buckets.map bucket.sentinel ++ cs.flatten.map Prod.fst := by
    intro b2 s2 hb2
    exact List.mem_append_left _ (List.mem_map_of_mem _ (List.getElem?_mem hb2))
  have hcm : ∀ {b2 : Nat} {c3 : List (Nat × (K × V))}, cs[b2]? = some c3 →
      ∀ q ∈ c3.map Prod.fst,
        q ∈ l.buckets.map bucket.sentinel ++ cs.flatten.map Prod.fst := by
    intro b2 c3 hc3 q hq
    obtain ⟨x, hx1, hx2⟩ := List.mem_map.mp hq
    exact List.mem_append_right _
      (List.mem_map.mpr ⟨x, mem_flatten_of_getElem? hc3 hx1, hx2⟩)
  refine ⟨hbc ▸ h.count_pos, by rw [hbk, hbc]; exact h.buckets_length,
    by rw [List.length_set, hbc]; exact h.chains_length, ?_, ?_, by rw [hbk]; exact hnodup,
    hcount⟩
  · intro b2 s2 hb2
    rw [hbk] at hb2
    rw [hbc, hstor _ (h.sentinel_lt hb2) (hsm hb2) (h.sentinel_not_mem_chain hb2 hc)]
    exact h.sentinel b2 s2 hb2
  · intro b2 s2 c3 hb2 hc3
    rw [hbk] at hb2
    by_cases hbb : b = b2
    · subst hbb
      rw [hb] at hb2
      cases hb2
      have hlt : b < cs.length := (List.getElem?_eq_some.mp hc).1
      rw [List.getElem?_set_self hlt] at hc3
      cases hc3
      exact hchain
    · rw [List.getElem?_set_ne hbb] at hc3
      have hch := h.chain b2 s2 c3 hb2 hc3
      have hdis : ∀ q ∈ c3.map Prod.fst, q ∉ c.map Prod.fst := by
        intro q hq hq2
        obtain ⟨x, hx1, hx2⟩ := List.mem_map.mp hq
        obtain ⟨y, hy1, hy2⟩ := List.mem_map.mp hq2
        exact flatten_nodup_disjoint h.ids_nodup hc3 hc (Ne.symm hbb) x hx1 y hy1
          (hx2.trans hy2.symm)
      have hlt : ∀ q ∈ c3.map Prod.fst, q < heap.length := by
        intro q hq
        obtain ⟨x, hx1, hx2⟩ := List.mem_map.mp hq
        exact hx2 ▸ is_chain_mem_lt hch x hx1
      refine is_chain_congr ?_ ?_ hch
      · intro q hq
        rcases List.mem_cons.mp hq with rfl | hq
        · exact hload _ (h.sentinel_lt hb2) (hsm hb2) (h.sentinel_ne hb2 hb (Ne.symm hbb))
            (h.sentinel_not_mem_chain hb2 hc)
        · refine hload q (hlt q hq) (hcm hc3 q hq) ?_ (hdis q hq)
          intro e
          exact h.sentinel_not_mem_chain hb hc3 (e ▸ hq)
      · intro q hq
        exact hstor q (hlt q hq) (hcm hc3 q hq) (hdis q hq)

end representation

/-! ## find and insert on a represented store -/

section insert
variable {K V H E A : Type}

theorem atomic_load_append_left (heap extra : List (node K V)) {q : Nat}
    (hq : q < heap.length) : atomic_load (heap ++ extra) q = atomic_load heap q := by
  unfold atomic_load
  rw [List.getElem?_append_left hq]

theorem storage_of_append_left (heap extra : List (node K V)) {q : Nat}
    (hq : q < heap.length) : storage_of (heap ++ extra) q = storage_of heap q := by
  unfold storage_of
  rw [List.getElem?_append_left hq]

theorem nodup_insert_id {α : Type} {A B B2 : List α} {n : α} (h : (A ++ B).Nodup)
    (hA : n ∉ A) (hB : n ∉ B) (hp : B2.Perm (n :: B)) : (A ++ B2).Nodup := by
  have h1 : (A ++ B2).Perm (n :: (A ++ B)) :=
    (List.Perm.append_left A hp).trans List.perm_middle
  rw [h1.nodup_iff, List.nodup_cons]
  exact ⟨by simp [hA, hB], h⟩

theorem nodup_erase_id {α : Type} {A B B2 : List α} {n : α} (h : (A ++ B).Nodup)
    (hp : B.Perm (n :: B2)) : (A ++ B2).Nodup := by
  have h1 : (A ++ B).Perm (n :: (A ++ B2)) :=
    (List.Perm.append_left A hp).trans List.perm_middle
  rw [h1.nodup_iff, List.nodup_cons] at h
  exact h.2

theorem nodup_same_ids {α : Type} {A B B2 : List α} (h : (A ++ B).Nodup)
    (hp : B2.Perm B) : (A ++ B2).Nodup :=
  ((List.Perm.append_left A hp).nodup_iff).mpr h

theorem bucket_index_lt [hasher H K] {heap : List (node K V)}
    {l : fixed_size_bucket_list H E A} {cs : List (List (Nat × (K × V)))}
    (h : represents heap l cs) (key : K) : l.bucket_index key < l.bucket_count :=
  Nat.mod_lt _ h.count_pos

theorem find_eq [hasher H K] [key_equal E K] {heap : List (node K V)}
    {l : fixed_size_bucket_list H E A} {cs : List (List (Nat × (K × V)))}
    (h : represents heap l cs) (key : K) {s : bucket} {c : List (Nat × (K × V))}
    (hb : l.buckets[l.bucket_index key]? = some s) (hc : cs[l.bucket_index key]? = some c)
    {fuel : Nat} (hf : c.length < fuel) :
    l.find fuel heap key =
      some (chain_lookup (key_equal.call l.keycomp key) s.sentinel c s.sentinel) := by
  unfold fixed_size_bucket_list.find fixed_size_bucket_list.bucket_for_key
  rw [hb]
  exact find_from_eq key l.keycomp fuel (h.sentinel _ s hb) (h.chain _ s c hb hc) hf

theorem insert_miss_represents {heap : List (node K V)} {l : fixed_size_bucket_list H E A}
    {cs : List (List (Nat × (K × V)))} (h : represents heap l cs) {b : Nat} {s : bucket}
    {c : List (Nat × (K × V))} (hb : l.buckets[b]? = some s) (hc : cs[b]? = some c)
    (value : K × V) :
    represents
      (atomic_store
        (atomic_store (heap ++ [{ next := none, data_ := .value_type value }]) heap.length
          (some s.sentinel))
        (chain_last s.sentinel c) (some heap.length))
      { l with node_count := l.node_count + 1 }
      (cs.set b (c ++ [(heap.length, value)])) := by
  have hch := h.chain b s c hb hc
  have hnd := h.chain_nodup hb hc
  have hslt := h.sentinel_lt hb
  have hclt : ∀ q ∈ c.map Prod.fst, q < heap.length := by
    intro q hq
    obtain ⟨x, hx1, hx2⟩ := List.mem_map.mp hq
    exact hx2 ▸ is_chain_mem_lt hch x hx1
  have hplt : chain_last s.sentinel c < heap.length := by
    rcases List.mem_cons.mp (chain_last_mem s.sentinel c) with e | e
    · rw [e]; exact hslt
    · exact hclt _ e
  have hnc : heap.length ∉ c.map Prod.fst := fun hq => Nat.lt_irrefl _ (hclt _ hq)
  have hperm : (c ++ [(heap.length, value)]).Perm ((heap.length, value) :: c) :=
    List.perm_append_comm
  have hfl := flatten_set_perm_cons hc hperm
  refine represents_frame h hb hc rfl rfl ?_ ?_ ?_ ?_ ?_
  · intro q hq _ hqs hqc
    have hqp : q ≠ chain_last s.sentinel c := by
      intro e
      rcases List.mem_cons.mp (chain_last_mem s.sentinel c) with e2 | e2
      · exact hqs (e.trans e2)
      · exact hqc (e ▸ e2)
    rw [atomic_load_store_ne _ _ _ _ hqp, atomic_load_store_ne _ _ _ _ (Nat.ne_of_lt hq),
      atomic_load_append_left _ _ hq]
  · intro q hq _ _
    rw [storage_of_store, storage_of_store, storage_of_append_left _ _ hq]
  · rw [is_chain_split]
    constructor
    · simp only [chain_head]
      exact is_chain_retarget _
        (is_chain_store_frame _ _ (is_chain_append _ hch) (Nat.ne_of_lt hslt) hnc) hnd
    · simp only [is_tail, is_chain]
      constructor
      · rw [storage_of_store, storage_of_store]
        simp [storage_of]
      · rw [atomic_load_store_ne _ _ _ _ (Nat.ne_of_gt hplt)]
        exact atomic_load_store_same _ _ _ (by simp)
  · refine nodup_insert_id h.nodup ?_ ?_ (hfl.map Prod.fst)
    · intro hm
      obtain ⟨s2, hs2, e⟩ := List.mem_map.mp hm
      obtain ⟨b2, hb2⟩ := List.mem_iff_getElem?.mp hs2
      exact Nat.lt_irrefl _ (e ▸ h.sentinel_lt hb2)
    · intro hm
      obtain ⟨x, hx, e⟩ := List.mem_map.mp hm
      exact Nat.lt_irrefl _ (e ▸ h.mem_lt x hx)
  · simp only
    rw [hfl.length_eq, h.node_count]
    rfl

theorem insert_loop_miss [hasher H K] [key_equal E K] {heap : List (node K V)}
    {l : fixed_size_bucket_list H E A} {cs : List (List (Nat × (K × V)))}
    (h : represents heap l cs) (value : K × V) {s : bucket} {c : List (Nat × (K × V))}
    (hb : l.buckets[l.bucket_index value.1]? = some s)
    (hc : cs[l.bucket_index value.1]? = some c)
    (hmiss : ∀ x ∈ c, key_equal.call l.keycomp value.1 x.2.1 = false)
    {fuel : Nat}
    (hfind : l.find fuel heap value.1 =
      some (chain_lookup (key_equal.call l.keycomp value.1) s.sentinel c s.sentinel))
    (passes : Nat) :
    hash_map.insert_loop fuel l value (passes + 1) heap none =
      some ((true, some heap.length),
        { heap := atomic_store
            (atomic_store (heap ++ [{ next := none, data_ := .value_type value }]) heap.length
              (some s.sentinel))
            (chain_last s.sentinel c) (some heap.length),
          current_buckets := { l with node_count := l.node_count + 1 } }) := by
  have hch := h.chain _ s c hb hc
  have hslt := h.sentinel_lt hb
  have hclt : ∀ q ∈ c.map Prod.fst, q < heap.length := by
    intro q hq
    obtain ⟨x, hx1, hx2⟩ := List.mem_map.mp hq
    exact hx2 ▸ is_chain_mem_lt hch x hx1
  have hnc : heap.length ∉ c.map Prod.fst := fun hq => Nat.lt_irrefl _ (hclt _ hq)
  have hch1 : is_chain
      (atomic_store (heap ++ [{ next := none, data_ := .value_type value }]) heap.length
        (some s.sentinel)) s.sentinel c s.sentinel :=
    is_chain_store_frame _ _ (is_chain_append _ hch) (Nat.ne_of_lt hslt) hnc
  have hload := is_chain_load_last hch1
  simp only [hash_map.insert_loop, hfind,
    chain_lookup_of_all_false _ _ hmiss, node.create_with_data, atomic_compare_exchange_weak,
    atomic_compare_exchange_strong, hload, if_true]

theorem insert_loop_hit [hasher H K] [key_equal E K] {heap : List (node K V)}
    {l : fixed_size_bucket_list H E A} {cs : List (List (Nat × (K × V)))}
    (_h : represents heap l cs) (value : K × V) {s : bucket}
    {l1 l2 : List (Nat × (K × V))} {x : Nat × (K × V)}
    (_hb : l.buckets[l.bucket_index value.1]? = some s)
    (_hc : cs[l.bucket_index value.1]? = some (l1 ++ x :: l2))
    (hmiss : ∀ y ∈ l1, key_equal.call l.keycomp value.1 y.2.1 = false)
    (hx : key_equal.call l.keycomp value.1 x.2.1 = true)
    {fuel : Nat}
    (hfind : l.find fuel heap value.1 =
      some (chain_lookup (key_equal.call l.keycomp value.1) s.sentinel (l1 ++ x :: l2)
        s.sentinel))
    (passes : Nat) :
    hash_map.insert_loop fuel l value (passes + 1) heap none =
      some ((false, some x.1), { heap := heap, current_buckets := l }) := by
  simp only [hash_map.insert_loop, hfind,
    chain_lookup_of_split _ _ hmiss hx]

end insert

/-! ## erase and assignment on a represented store -/

section erase
variable {K V H E A : Type}

theorem chain_split_facts {heap : List (node K V)} {s : Nat}
    {l1 l2 : List (Nat × (K × V))} {x : Nat × (K × V)}
    (hch : is_chain heap s (l1 ++ x :: l2) s)
    (hnd : (s :: (l1 ++ x :: l2).map Prod.fst).Nodup) :
    is_chain heap s l1 x.1 ∧ storage_of heap x.1 = some (.value_type x.2) ∧
      is_chain heap x.1 l2 s ∧ x.1 ≠ s ∧ x.1 ∉ l1.map Prod.fst ∧ x.1 ∉ l2.map Prod.fst ∧
      chain_last s l1 ≠ x.1 ∧ chain_last s l1 ∉ l2.map Prod.fst ∧
      (s :: l1.map Prod.fst).Nodup ∧ s ∉ l2.map Prod.fst := by
  have h1 := is_chain_split.mp hch
  simp only [chain_head, is_tail] at h1
  simp only [List.map_append, List.map_cons, List.nodup_cons, List.mem_append, List.mem_cons,
    not_or, List.nodup_append, List.disjoint_cons_right] at hnd
  obtain ⟨⟨hs1, hsx, hs2⟩, hn1, ⟨hx2, hn2⟩, hx1, hd⟩ := hnd
  have hlast : chain_last s l1 ∈ s :: l1.map Prod.fst := chain_last_mem s l1
  refine ⟨h1.1, h1.2.1, h1.2.2, Ne.symm hsx, hx1, hx2, ?_, ?_,
    List.nodup_cons.mpr ⟨hs1, hn1⟩, hs2⟩
  · intro e
    rcases List.mem_cons.mp hlast with e2 | e2
    · exact hsx (e2.symm.trans e)
    · exact hx1 (e ▸ e2)
  · intro e
    rcases List.mem_cons.mp hlast with e2 | e2
    · exact hs2 (e2 ▸ e)
    · exact hd e2 e

theorem erase_hit_represents {heap : List (node K V)} {l : fixed_size_bucket_list H E A}
    {cs : List (List (Nat × (K × V)))} (h : represents heap l cs) {b : Nat} {s : bucket}
    {l1 l2 : List (Nat × (K × V))} {x : Nat × (K × V)}
    (hb : l.buckets[b]? = some s) (hc : cs[b]? = some (l1 ++ x :: l2)) :
    represents
      (atomic_store (atomic_store heap x.1 none) (chain_last s.sentinel l1)
        (some (chain_head l2 s.sentinel)))
      { l with node_count := l.node_count - 1 }
      (cs.set b (l1 ++ l2)) := by
  have hch := h.chain b s _ hb hc
  have hnd := h.chain_nodup hb hc
  obtain ⟨hc1, hsx, hc2, hxs, hx1, hx2, hpx, hp2, hn1, hs2⟩ := chain_split_facts hch hnd
  have hperm : (l1 ++ x :: l2).Perm (x :: (l1 ++ l2)) := List.perm_middle
  have hfl := flatten_set_perm_erase hc hperm
  refine represents_frame h hb hc rfl rfl ?_ ?_ ?_ ?_ ?_
  · intro q _ _ hqs hqc
    simp only [List.map_append, List.map_cons, List.mem_append, List.mem_cons, not_or] at hqc
    have hqp : q ≠ chain_last s.sentinel l1 := by
      intro e
      rcases List.mem_cons.mp (chain_last_mem s.sentinel l1) with e2 | e2
      · exact hqs (e.trans e2)
      · exact hqc.1 (e ▸ e2)
    rw [atomic_load_store_ne _ _ _ _ hqp, atomic_load_store_ne _ _ _ _ hqc.2.1]
  · intro q _ _ _
    rw [storage_of_store, storage_of_store]
  · rw [is_chain_split]
    constructor
    · exact is_chain_retarget _ (is_chain_store_frame _ _ hc1 (Ne.symm hxs) hx1) hn1
    · exact is_tail_store_frame _ _ (is_tail_store_frame _ _ (is_chain_tail hc2) hx2) hp2
  · exact nodup_erase_id h.nodup (hfl.map Prod.fst)
  · simp only
    rw [h.node_count, hfl.length_eq]
    rfl

theorem erase_loop_hit [hasher H K] [key_equal E K] {heap : List (node K V)}
    {l : fixed_size_bucket_list H E A} {cs : List (List (Nat × (K × V)))}
    (h : represents heap l cs) (key : K) {s : bucket}
    {l1 l2 : List (Nat × (K × V))} {x : Nat × (K × V)}
    (hb : l.buckets[l.bucket_index key]? = some s)
    (hc : cs[l.bucket_index key]? = some (l1 ++ x :: l2))
    (hmiss : ∀ y ∈ l1, key_equal.call l.keycomp key y.2.1 = false)
    (hx : key_equal.call l.keycomp key x.2.1 = true)
    {fuel : Nat}
    (hfind : l.find fuel heap key =
      some (chain_lookup (key_equal.call l.keycomp key) s.sentinel (l1 ++ x :: l2)
        s.sentinel))
    (passes : Nat) :
    hash_map.erase_loop fuel l key (passes + 1) heap =
      some (1,
        { heap := atomic_store (atomic_store heap x.1 none) (chain_last s.sentinel l1)
            (some (chain_head l2 s.sentinel)),
          current_buckets := { l with node_count := l.node_count - 1 } }) := by
  have hch := h.chain _ s _ hb hc
  have hnd := h.chain_nodup hb hc
  obtain ⟨hc1, hsx, hc2, hxs, hx1, hx2, hpx, hp2, hn1, hs2⟩ := chain_split_facts hch hnd
  have hl1 : atomic_load heap x.1 = some (some (chain_head l2 s.sentinel)) :=
    is_chain_load_prev hc2
  have hl2 : atomic_load (atomic_store heap x.1 none) (chain_last s.sentinel l1) =
      some (some x.1) := by
    rw [atomic_load_store_ne _ _ _ _ hpx]
    exact is_chain_load_last hc1
  simp only [hash_map.erase_loop, hfind, chain_lookup_of_split _ _ hmiss hx,
    atomic_exchange, hl1, atomic_compare_exchange_strong, hl2, if_true]

theorem erase_loop_miss [hasher H K] [key_equal E K] {heap : List (node K V)}
    {l : fixed_size_bucket_list H E A} {cs : List (List (Nat × (K × V)))}
    (_h : represents heap l cs) (key : K) {s : bucket} {c : List (Nat × (K × V))}
    (_hb : l.buckets[l.bucket_index key]? = some s)
    (_hc : cs[l.bucket_index key]? = some c)
    (hmiss : ∀ x ∈ c, key_equal.call l.keycomp key x.2.1 = false)
    {fuel : Nat}
    (hfind : l.find fuel heap key =
      some (chain_lookup (key_equal.call l.keycomp key) s.sentinel c s.sentinel))
    (passes : Nat) :
    hash_map.erase_loop fuel l key (passes + 1) heap =
      some (0, { heap := heap, current_buckets := l }) := by
  simp only [hash_map.erase_loop, hfind, chain_lookup_of_all_false _ _ hmiss]

theorem assign_mapped_spec {heap : List (node K V)} {cur : Nat} {v : K × V} (mapped : V)
    (hs : storage_of heap cur = some (.value_type v)) :
    ∃ heap2, assign_mapped heap cur mapped = some heap2 ∧ heap2.length = heap.length ∧
      (∀ q, atomic_load heap2 q = atomic_load heap q) ∧
      (∀ q, q ≠ cur → storage_of heap2 q = storage_of heap q) ∧
      storage_of heap2 cur = some (.value_type (v.1, mapped)) := by
  obtain ⟨n, hn, hd⟩ := getElem?_of_storage_of hs
  have hlt : cur < heap.length := storage_of_lt hs
  refine ⟨heap.set cur { n with data_ := .value_type (v.1, mapped) }, ?_, by simp, ?_, ?_, ?_⟩
  · simp [assign_mapped, hn, hd]
  · intro q
    unfold atomic_load
    by_cases e : cur = q
    · subst e
      simp [List.getElem?_set, hlt, hn]
    · rw [List.getElem?_set_ne e]
  · intro q hq
    unfold storage_of
    rw [List.getElem?_set_ne (Ne.symm hq)]
  · unfold storage_of
    simp [List.getElem?_set, hlt]

theorem assign_represents {heap heap2 : List (node K V)} {l : fixed_size_bucket_list H E A}
    {cs : List (List (Nat × (K × V)))} (h : represents heap l cs) {b : Nat} {s : bucket}
    {l1 l2 : List (Nat × (K × V))} {x : Nat × (K × V)} (mapped : V)
    (hb : l.buckets[b]? = some s) (hc : cs[b]? = some (l1 ++ x :: l2))
    (hload : ∀ q, atomic_load heap2 q = atomic_load heap q)
    (hstor : ∀ q, q ≠ x.1 → storage_of heap2 q = storage_of heap q)
    (hnew : storage_of heap2 x.1 = some (.value_type (x.2.1, mapped))) :
    represents heap2 l (cs.set b (l1 ++ (x.1, (x.2.1, mapped)) :: l2)) := by
  have hch := h.chain b s _ hb hc
  have hnd := h.chain_nodup hb hc
  obtain ⟨hc1, hsx, hc2, hxs, hx1, hx2, hpx, hp2, hn1, hs2⟩ := chain_split_facts hch hnd
  have hmap : (l1 ++ (x.1, (x.2.1, mapped)) :: l2).map Prod.fst =
      (l1 ++ x :: l2).map Prod.fst := by simp
  have hfl := flatten_set_perm (l1 ++ (x.1, (x.2.1, mapped)) :: l2) hc
  have hids : ((cs.set b (l1 ++ (x.1, (x.2.1, mapped)) :: l2)).flatten.map Prod.fst).Perm
      (cs.flatten.map Prod.fst) := by
    have h1 := hfl.map Prod.fst
    have e1 : List.map Prod.fst ((cs.set b (l1 ++ (x.1, (x.2.1, mapped)) :: l2)).flatten ++
        (l1 ++ x :: l2)) =
        List.map Prod.fst (cs.set b (l1 ++ (x.1, (x.2.1, mapped)) :: l2)).flatten ++
          List.map Prod.fst (l1 ++ x :: l2) := List.map_append _ _ _
    have e2 : List.map Prod.fst (cs.flatten ++ (l1 ++ (x.1, (x.2.1, mapped)) :: l2)) =
        List.map Prod.fst cs.flatten ++ List.map Prod.fst (l1 ++ x :: l2) := by
      rw [List.map_append, hmap]
    rw [e1, e2] at h1
    exact (List.perm_append_right_iff _).mp h1
  refine represents_frame h hb hc rfl rfl (fun q _ _ _ _ => hload q) ?_ ?_ ?_ ?_
  · intro q _ _ hqc
    refine hstor q ?_
    intro e
    exact hqc (by simp [e])
  · rw [is_chain_split]
    constructor
    · refine is_chain_congr (fun q _ => hload q) ?_ hc1
      intro q hq
      exact hstor q (fun e => hx1 (e ▸ hq))
    · refine ⟨hnew, is_chain_congr (fun q _ => hload q) ?_ hc2⟩
      intro q hq
      exact hstor q (fun e => hx2 (e ▸ hq))
  · exact nodup_same_ids h.nodup hids
  · rw [h.node_count]
    have h2 := hids.length_eq
    rw [List.length_map, List.length_map] at h2
    exact h2.symm

theorem insert_or_assign_loop_hit [hasher H K] [key_equal E K] {heap : List (node K V)}
    {l : fixed_size_bucket_list H E A} {cs : List (List (Nat × (K × V)))}
    (h : represents heap l cs) (key : K) (mapped : V) {s : bucket}
    {l1 l2 : List (Nat × (K × V))} {x : Nat × (K × V)}
    (hb : l.buckets[l.bucket_index key]? = some s)
    (hc : cs[l.bucket_index key]? = some (l1 ++ x :: l2))
    (hmiss : ∀ y ∈ l1, key_equal.call l.keycomp key y.2.1 = false)
    (hx : key_equal.call l.keycomp key x.2.1 = true)
    {fuel : Nat}
    (hfind : l.find fuel heap key =
      some (chain_lookup (key_equal.call l.keycomp key) s.sentinel (l1 ++ x :: l2)
        s.sentinel))
    (passes : Nat) :
    ∃ heap2, hash_map.insert_or_assign_loop fuel l key mapped (passes + 1) heap none =
        some (some x.1, { heap := heap2, current_buckets := l }) ∧
      heap2.length = heap.length ∧
      represents heap2 l
        (cs.set (l.bucket_index key) (l1 ++ (x.1, (x.2.1, mapped)) :: l2)) := by
  have hch := h.chain _ s _ hb hc
  have hnd := h.chain_nodup hb hc
  obtain ⟨hc1, hsx, hc2, hxs, hx1, hx2, hpx, hp2, hn1, hs2⟩ := chain_split_facts hch hnd
  obtain ⟨heap2, ha, hlen, hload, hstor, hnew⟩ := assign_mapped_spec mapped hsx
  refine ⟨heap2, ?_, hlen, assign_represents h mapped hb hc hload hstor hnew⟩
  simp only [hash_map.insert_or_assign_loop, hfind,
    chain_lookup_of_split _ _ hmiss hx, ha]

theorem insert_or_assign_loop_miss [hasher H K] [key_equal E K] {heap : List (node K V)}
    {l : fixed_size_bucket_list H E A} {cs : List (List (Nat × (K × V)))}
    (h : represents heap l cs) (key : K) (mapped : V) {s : bucket}
    {c : List (Nat × (K × V))}
    (hb : l.buckets[l.bucket_index key]? = some s)
    (hc : cs[l.bucket_index key]? = some c)
    (hmiss : ∀ x ∈ c, key_equal.call l.keycomp key x.2.1 = false)
    {fuel : Nat}
    (hfind : l.find fuel heap key =
      some (chain_lookup (key_equal.call l.keycomp key) s.sentinel c s.sentinel))
    (passes : Nat) :
    hash_map.insert_or_assign_loop fuel l key mapped (passes + 1) heap none =
      some (some heap.length,
        { heap := atomic_store
            (atomic_store (heap ++ [{ next := none, data_ := .value_type (key, mapped) }])
              heap.length (some s.sentinel))
            (chain_last s.sentinel c) (some heap.length),
          current_buckets := { l with node_count := l.node_count + 1 } }) := by
  have hch := h.chain _ s c hb hc
  have hslt := h.sentinel_lt hb
  have hclt : ∀ q ∈ c.map Prod.fst, q < heap.length := by
    intro q hq
    obtain ⟨x, hx1, hx2⟩ := List.mem_map.mp hq
    exact hx2 ▸ is_chain_mem_lt hch x hx1
  have hnc : heap.length ∉ c.map Prod.fst := fun hq => Nat.lt_irrefl _ (hclt _ hq)
  have hch1 : is_chain
      (atomic_store (heap ++ [{ next := none, data_ := .value_type (key, mapped) }])
        heap.length (some s.sentinel)) s.sentinel c s.sentinel :=
    is_chain_store_frame _ _ (is_chain_append _ hch) (Nat.ne_of_lt hslt) hnc
  have hload := is_chain_load_last hch1
  simp only [hash_map.insert_or_assign_loop, hfind,
    chain_lookup_of_all_false _ _ hmiss, node.create_with_data, atomic_compare_exchange_weak,
    atomic_compare_exchange_strong, hload, if_true]

end erase

/-! ## Construction of a bucket list -/

section create
variable {K V H E A : Type}

theorem bucket_create_eq (heap : List (node K V)) (this : Nat) (is_last : Bool) :
    bucket.create heap this is_last =
      (heap ++ [{ next := some heap.length,
                  data_ := .bucket_pointer (if is_last then none else some (this + 1)) }],
        { sentinel := heap.length }) := by
  simp [bucket.create, node.create_sentinel, atomic_store]

/-- The sentinel nodes the constructor appends for the buckets `0 .. k-1`. -/
theorem construct_buckets_fold (heap : List (node K V)) (bucket_count k : Nat) :
    (List.range k).foldl
      (fun (acc : List (node K V) × List bucket) n =>
        ((bucket.create acc.1 n (bucket_count - n == 1)).1,
          acc.2 ++ [(bucket.create acc.1 n (bucket_count - n == 1)).2]))
      (heap, []) =
    (heap ++ (List.range k).map (fun n =>
        ({ next := some (heap.length + n),
           data_ := .bucket_pointer (if bucket_count - n = 1 then none else some (n + 1)) } :
          node K V)),
      (List.range k).map (fun n => ({ sentinel := heap.length + n } : bucket))) := by
  induction k with
  | zero => simp
  | succ k ih =>
    rw [List.range_succ, List.foldl_append, ih]
    simp [bucket_create_eq]

theorem construct_buckets_eq (heap : List (node K V)) (bucket_count : Nat) :
    fixed_size_bucket_list.construct_buckets heap bucket_count =
    (heap ++ (List.range bucket_count).map (fun n =>
        ({ next := some (heap.length + n),
           data_ := .bucket_pointer (if bucket_count - n = 1 then none else some (n + 1)) } :
          node K V)),
      (List.range bucket_count).map (fun n => ({ sentinel := heap.length + n } : bucket))) :=
  construct_buckets_fold heap bucket_count bucket_count

theorem create_heap_prefix (heap : List (node K V)) (bucket_count : Nat) (hash : H)
    (keycomp : E) (allocator : A) :
    ∃ extra, (fixed_size_bucket_list.create heap bucket_count hash keycomp allocator).1 =
      heap ++ extra ∧ extra.length = bucket_count := by
  refine ⟨(List.range bucket_count).map (fun n =>
        ({ next := some (heap.length + n),
           data_ := .bucket_pointer (if bucket_count - n = 1 then none else some (n + 1)) } :
          node K V)), ?_, ?_⟩
  · simp only [fixed_size_bucket_list.create, construct_buckets_eq]
  · simp

theorem create_fields (heap : List (node K V)) (bucket_count : Nat) (hash : H)
    (keycomp : E) (allocator : A) :
    (fixed_size_bucket_list.create heap bucket_count hash keycomp allocator).2 =
      { bucket_count := bucket_count, node_count := 0, hash := hash, keycomp := keycomp,
        allocator := allocator,
        buckets := (List.range bucket_count).map
          (fun n => ({ sentinel := heap.length + n } : bucket)) } := by
  simp only [fixed_size_bucket_list.create, construct_buckets_eq]

theorem create_represents (heap : List (node K V)) {bucket_count : Nat} (hpos : 0 < bucket_count)
    (hash : H) (keycomp : E) (allocator : A) :
    represents (fixed_size_bucket_list.create heap bucket_count hash keycomp allocator).1
      (fixed_size_bucket_list.create heap bucket_count hash keycomp allocator).2
      (List.replicate bucket_count []) := by
  have hget : ∀ (b : Nat) (s : bucket),
      ((List.range bucket_count).map
        (fun n => ({ sentinel := heap.length + n } : bucket)))[b]? = some s →
      b < bucket_count ∧ s.sentinel = heap.length + b := by
    intro b s hb
    rw [List.getElem?_map] at hb
    cases hr : (List.range bucket_count)[b]? with
    | none => simp [hr] at hb
    | some n =>
      obtain ⟨hlt, hn⟩ := List.getElem?_eq_some.mp hr
      simp only [List.getElem_range] at hn
      simp only [List.length_range] at hlt
      subst hn
      rw [hr] at hb
      simp only [Option.map_some', Option.some.injEq] at hb
      exact ⟨hlt, by rw [← hb]⟩
  have hnode : ∀ b, b < bucket_count →
      (heap ++ (List.range bucket_count).map (fun n =>
        ({ next := some (heap.length + n),
           data_ := .bucket_pointer (if bucket_count - n = 1 then none else some (n + 1)) } :
          node K V)))[heap.length + b]? =
      some { next := some (heap.length + b),
             data_ := .bucket_pointer (if bucket_count - b = 1 then none else some (b + 1)) } := by
    intro b hb
    rw [List.getElem?_append_right (Nat.le_add_right _ _)]
    simp [List.getElem?_map, List.getElem?_range hb]
  rw [create_fields]
  simp only [fixed_size_bucket_list.create, construct_buckets_eq]
  refine ⟨hpos, by simp, by simp, ?_, ?_, ?_, by simp⟩
  · intro b s hb
    obtain ⟨hlt, hs⟩ := hget b s hb
    simp only [storage_of, hs, hnode b hlt, Option.map_some']
  · intro b s c hb hc
    obtain ⟨hlt, hs⟩ := hget b s hb
    have hc2 : c = [] := by
      have := List.getElem?_mem hc
      exact (List.mem_replicate.mp this).2
    subst hc2
    simp only [is_chain, atomic_load, hs, hnode b hlt, Option.map_some']
  · simp only [List.map_map, List.flatten_replicate_nil, List.map_nil, List.append_nil]
    refine (List.nodup_range bucket_count).map ?_
    intro a b hab
    simpa using hab

theorem represents_heap_congr {heap heap2 : List (node K V)}
    {l : fixed_size_bucket_list H E A} {cs : List (List (Nat × (K × V)))}
    (h : represents heap l cs)
    (hload : ∀ q ∈ l.buckets.map bucket.sentinel ++ cs.flatten.map Prod.fst,
      atomic_load heap2 q = atomic_load heap q)
    (hstor : ∀ q ∈ l.buckets.map bucket.sentinel ++ cs.flatten.map Prod.fst,
      storage_of heap2 q = storage_of heap q) :
    represents heap2 l cs := by
  refine ⟨h.count_pos, h.buckets_length, h.chains_length, ?_, ?_, h.nodup, h.node_count⟩
  · intro b s hb
    rw [hstor _ (List.mem_append_left _ (List.mem_map_of_mem _ (List.getElem?_mem hb)))]
    exact h.sentinel b s hb
  · intro b s c hb hc
    have hcm : ∀ q ∈ c.map Prod.fst,
        q ∈ l.buckets.map bucket.sentinel ++ cs.flatten.map Prod.fst := by
      intro q hq
      obtain ⟨x, hx1, hx2⟩ := List.mem_map.mp hq
      exact List.mem_append_right _
        (List.mem_map.mpr ⟨x, mem_flatten_of_getElem? hc hx1, hx2⟩)
    refine is_chain_congr ?_ ?_ (h.chain b s c hb hc)
    · intro q hq
      rcases List.mem_cons.mp hq with rfl | hq
      · exact hload _ (List.mem_append_left _ (List.mem_map_of_mem _ (List.getElem?_mem hb)))
      · exact hload q (hcm q hq)
    · intro q hq
      exact hstor q (hcm q hq)

theorem represents.footprint_lt {heap : List (node K V)} {l : fixed_size_bucket_list H E A}
    {cs : List (List (Nat × (K × V)))} (h : represents heap l cs) :
    ∀ q ∈ l.buckets.map bucket.sentinel ++ cs.flatten.map Prod.fst, q < heap.length := by
  intro q hq
  rcases List.mem_append.mp hq with hq | hq
  · obtain ⟨s, hs, e⟩ := List.mem_map.mp hq
    obtain ⟨b, hb⟩ := List.mem_iff_getElem?.mp hs
    exact e ▸ h.sentinel_lt hb
  · obtain ⟨x, hx, e⟩ := List.mem_map.mp hq
    exact e ▸ h.mem_lt x hx

theorem represents_append {heap : List (node K V)} {l : fixed_size_bucket_list H E A}
    {cs : List (List (Nat × (K × V)))} (h : represents heap l cs)
    (extra : List (node K V)) : represents (heap ++ extra) l cs :=
  represents_heap_congr h
    (fun q hq => atomic_load_append_left _ _ (h.footprint_lt q hq))
    (fun q hq => storage_of_append_left _ _ (h.footprint_lt q hq))

theorem represents_store_outside {heap : List (node K V)} {l : fixed_size_bucket_list H E A}
    {cs : List (List (Nat × (K × V)))} (h : represents heap l cs) (p : Nat)
    (v : Option Nat) (hp : p ∉ l.buckets.map bucket.sentinel ++ cs.flatten.map Prod.fst) :
    represents (atomic_store heap p v) l cs :=
  represents_heap_congr h
    (fun _ hq => atomic_load_store_ne _ _ _ _ (fun e => hp (e ▸ hq)))
    (fun _ _ => storage_of_store _ _ _ _)

end create

/-! ## Iteration over a represented store -/

section iteration
variable {K V H E A : Type}

theorem drop_of_getElem? {α : Type} {l : List α} {b : Nat} {c : α} (h : l[b]? = some c) :
    l.drop b = c :: l.drop (b + 1) := by
  obtain ⟨hlt, e⟩ := List.getElem?_eq_some.mp h
  rw [List.drop_eq_getElem_cons hlt, e]

theorem head_id_chain_head (l : List (Nat × (K × V))) (t : Nat) (rest : List (Nat × (K × V)))
    (hl : l ≠ []) : head_id (l ++ rest) = some (chain_head l t) := by
  cases l with
  | nil => exact absurd rfl hl
  | cons x r => simp [head_id, chain_head]

theorem skip_sentinels_data {heap : List (node K V)} (buckets : List bucket) (fuel : Nat)
    {cur : Nat} {v : K × V} (h : storage_of heap cur = some (.value_type v)) :
    iterator_impl.skip_sentinels heap buckets (fuel + 1) (some cur) = some (some cur) := by
  obtain ⟨n, hn, hd⟩ := getElem?_of_storage_of h
  simp [iterator_impl.skip_sentinels, hn, hd]

theorem skip_sentinels_last {heap : List (node K V)} (buckets : List bucket) (fuel : Nat)
    {cur : Nat} (h : storage_of heap cur = some (.bucket_pointer none)) :
    iterator_impl.skip_sentinels heap buckets (fuel + 1) (some cur) = some none := by
  obtain ⟨n, hn, hd⟩ := getElem?_of_storage_of h
  simp [iterator_impl.skip_sentinels, hn, hd]

theorem skip_sentinels_step {heap : List (node K V)} {buckets : List bucket} (fuel : Nat)
    {cur b : Nat} {s : bucket} {nx : Option Nat}
    (h : storage_of heap cur = some (.bucket_pointer (some b)))
    (hb : buckets[b]? = some s) (hload : atomic_load heap s.sentinel = some nx) :
    iterator_impl.skip_sentinels heap buckets (fuel + 1) (some cur) =
      iterator_impl.skip_sentinels heap buckets fuel nx := by
  obtain ⟨n, hn, hd⟩ := getElem?_of_storage_of h
  rw [iterator_impl.skip_sentinels]
  simp only [hn, hd, hb, hload]

theorem skip_sentinels_bucket {heap : List (node K V)} {l : fixed_size_bucket_list H E A}
    {cs : List (List (Nat × (K × V)))} (h : represents heap l cs) (k : Nat) :
    ∀ (b : Nat) (s : bucket), l.bucket_count - b ≤ k → l.buckets[b]? = some s →
      iterator_impl.skip_sentinels heap l.buckets (k + 1) (some s.sentinel) =
        some (head_id (cs.drop (b + 1)).flatten) := by
  induction k with
  | zero =>
    intro b s hk hb
    have := h.bucket_lt hb
    omega
  | succ k ih =>
    intro b s hk hb
    have hlt := h.bucket_lt hb
    have hst := h.sentinel b s hb
    by_cases hlast : l.bucket_count - b = 1
    · have hdrop : cs.drop (b + 1) = [] :=
        List.drop_eq_nil_of_le (by rw [h.chains_length]; omega)
      rw [if_pos hlast] at hst
      rw [skip_sentinels_last _ _ hst, hdrop]
      rfl
    · have hlt2 : b + 1 < l.bucket_count := by omega
      obtain ⟨s2, c2, hb2, hc2⟩ := h.get hlt2
      have hch := h.chain (b + 1) s2 c2 hb2 hc2
      have hload := is_chain_load_prev hch
      rw [if_neg hlast] at hst
      rw [drop_of_getElem? hc2, List.flatten_cons, skip_sentinels_step _ hst hb2 hload]
      cases c2 with
      | nil =>
        simp only [chain_head, List.nil_append]
        exact ih (b + 1) s2 (by omega) hb2
      | cons y r =>
        simp only [chain_head]
        rw [skip_sentinels_data _ _ hch.2.1]
        simp [head_id]

theorem begin_loop_eq {heap : List (node K V)} {l : fixed_size_bucket_list H E A}
    {cs : List (List (Nat × (K × V)))} (h : represents heap l cs) (k : Nat) :
    ∀ b, l.bucket_count - b ≤ k →
      hash_map.begin_loop heap (l.buckets.drop b) = some (head_id (cs.drop b).flatten) := by
  induction k with
  | zero =>
    intro b hk
    have h1 : l.buckets.drop b = [] :=
      List.drop_eq_nil_of_le (by rw [h.buckets_length]; omega)
    have h2 : cs.drop b = [] := List.drop_eq_nil_of_le (by rw [h.chains_length]; omega)
    simp [h1, h2, hash_map.begin_loop, head_id]
  | succ k ih =>
    intro b hk
    by_cases hlt : b < l.bucket_count
    · obtain ⟨s, c, hb, hc⟩ := h.get hlt
      have hch := h.chain b s c hb hc
      have hload := is_chain_load_prev hch
      rw [drop_of_getElem? hb, drop_of_getElem? hc, List.flatten_cons]
      simp only [hash_map.begin_loop, hload]
      cases c with
      | nil =>
        obtain ⟨n, hn, hd⟩ := getElem?_of_storage_of (h.sentinel b s hb)
        simp only [chain_head, hn, node.is_sentinel, node.initialized, hd, Bool.not_false,
          Bool.not_true, if_false, List.nil_append]
        exact ih (b + 1) (by omega)
      | cons y r =>
        obtain ⟨n, hn, hd⟩ := getElem?_of_storage_of hch.2.1
        simp [chain_head, hn, node.is_sentinel, node.initialized, hd, head_id]
    · have h1 : l.buckets.drop b = [] :=
        List.drop_eq_nil_of_le (by rw [h.buckets_length]; omega)
      have h2 : cs.drop b = [] := List.drop_eq_nil_of_le (by rw [h.chains_length]; omega)
      simp [h1, h2, hash_map.begin_loop, head_id]

theorem cbegin_eq {m : hash_map K V H E A} {cs : List (List (Nat × (K × V)))}
    (h : represents m.heap m.current_buckets cs) : m.cbegin = some (head_id cs.flatten) := by
  have := begin_loop_eq h m.current_buckets.bucket_count 0 (by omega)
  simpa [hash_map.cbegin] using this

theorem increment_global_eq {m : hash_map K V H E A} {cs : List (List (Nat × (K × V)))}
    (h : represents m.heap m.current_buckets cs) {b : Nat}
    {l1 l2 : List (Nat × (K × V))} {x : Nat × (K × V)}
    (hc : cs[b]? = some (l1 ++ x :: l2)) {fuel : Nat}
    (hf : m.current_buckets.bucket_count < fuel) :
    iterator_impl.increment false fuel m (some x.1) =
      some (head_id (l2 ++ (cs.drop (b + 1)).flatten)) := by
  have hlt : b < m.current_buckets.bucket_count := by
    have := (List.getElem?_eq_some.mp hc).1
    rw [h.chains_length] at this
    exact this
  obtain ⟨s, c, hb, hc2⟩ := h.get hlt
  rw [hc] at hc2
  cases hc2
  obtain ⟨hc1, hsx, hc2, -⟩ := chain_split_facts (h.chain b s _ hb hc) (h.chain_nodup hb hc)
  have hload := is_chain_load_prev hc2
  obtain ⟨f, rfl⟩ : ∃ f, fuel = f + 1 := ⟨fuel - 1, by omega⟩
  simp only [iterator_impl.increment, hload, Bool.false_eq_true, if_false]
  cases l2 with
  | nil =>
    simp only [chain_head, List.nil_append]
    exact skip_sentinels_bucket h f b s (by omega) hb
  | cons y r =>
    simp only [chain_head]
    rw [skip_sentinels_data _ _ hc2.2.1]
    simp [head_id]

theorem increment_local_eq {m : hash_map K V H E A} {cs : List (List (Nat × (K × V)))}
    (h : represents m.heap m.current_buckets cs) {b : Nat} {s : bucket}
    {l1 l2 : List (Nat × (K × V))} {x : Nat × (K × V)}
    (hb : m.current_buckets.buckets[b]? = some s)
    (hc : cs[b]? = some (l1 ++ x :: l2)) (fuel : Nat) :
    iterator_impl.increment true fuel m (some x.1) = some (some (chain_head l2 s.sentinel)) := by
  obtain ⟨hc1, hsx, hc2, -⟩ := chain_split_facts (h.chain b s _ hb hc) (h.chain_nodup hb hc)
  have hload := is_chain_load_prev hc2
  simp only [iterator_impl.increment, hload, if_true]

theorem flatten_suffix_split {α : Type} {cs : List (List α)} {D R : List α} {x : α}
    (h : cs.flatten = D ++ x :: R) :
    ∃ b l1 l2, cs[b]? = some (l1 ++ x :: l2) ∧ R = l2 ++ (cs.drop (b + 1)).flatten ∧
      D = (cs.take b).flatten ++ l1 := by
  induction cs generalizing D with
  | nil => simp at h
  | cons c rest ih =>
    rw [List.flatten_cons] at h
    rcases List.append_eq_append_iff.mp h with ⟨a, ha1, ha2⟩ | ⟨a, ha1, ha2⟩
    · obtain ⟨b, l1, l2, h1, h2, h3⟩ := ih ha2
      refine ⟨b + 1, l1, l2, by simpa using h1, by simpa using h2, ?_⟩
      simp [ha1, h3]
    · cases a with
      | nil =>
        simp only [List.append_nil] at ha1
        simp only [List.nil_append] at ha2
        obtain ⟨b, l1, l2, h1, h2, h3⟩ := ih (D := []) (by simpa using ha2.symm)
        refine ⟨b + 1, l1, l2, by simpa using h1, by simpa using h2, ?_⟩
        simp only [List.take_succ_cons, List.flatten_cons, List.append_assoc, ← h3,
          List.append_nil]
        exact ha1.symm
      | cons y a =>
        simp only [List.cons_append, List.cons.injEq] at ha2
        obtain ⟨rfl, ha2⟩ := ha2
        exact ⟨0, D, a, by simp [ha1], by simpa using ha2, by simp⟩

end iteration

/-! ## Ranges, `bucket_size` and dereferencing on a represented store -/

section ranges
variable {K V H E A : Type}

theorem is_chain_mem_storage {heap : List (node K V)} {prev t : Nat}
    {l : List (Nat × (K × V))} (h : is_chain heap prev l t) :
    ∀ x ∈ l, storage_of heap x.1 = some (.value_type x.2) := by
  induction l generalizing prev with
  | nil => simp
  | cons x rest ih =>
    intro y hy
    rcases List.mem_cons.mp hy with rfl | hy
    · exact h.2.1
    · exact ih h.2.2 y hy

theorem represents.storage_mem {heap : List (node K V)} {l : fixed_size_bucket_list H E A}
    {cs : List (List (Nat × (K × V)))} (h : represents heap l cs) :
    ∀ x ∈ cs.flatten, storage_of heap x.1 = some (.value_type x.2) := by
  intro x hx
  obtain ⟨c, hc, hxc⟩ := List.mem_flatten.mp hx
  obtain ⟨b, hb⟩ := List.mem_iff_getElem?.mp hc
  have hlt : b < l.bucket_count := by
    have := (List.getElem?_eq_some.mp hb).1
    rw [h.chains_length] at this
    exact this
  obtain ⟨s, c2, hs, hc2⟩ := h.get hlt
  rw [hb] at hc2
  cases hc2
  exact is_chain_mem_storage (h.chain b s c hs hb) x hxc

theorem deref_of_storage {m : hash_map K V H E A} {p : Nat} {v : K × V}
    (h : storage_of m.heap p = some (.value_type v)) : m.deref (some p) = some v := by
  obtain ⟨n, hn, hd⟩ := getElem?_of_storage_of h
  simp [hash_map.deref, hn, node.data, hd]

theorem deref_mem {m : hash_map K V H E A} {cs : List (List (Nat × (K × V)))}
    (h : represents m.heap m.current_buckets cs) {x : Nat × (K × V)} (hx : x ∈ cs.flatten) :
    m.deref (some x.1) = some x.2 :=
  deref_of_storage (h.storage_mem x hx)

theorem mem_same_id {heap : List (node K V)} {l : fixed_size_bucket_list H E A}
    {cs : List (List (Nat × (K × V)))} (h : represents heap l cs) {x y : Nat × (K × V)}
    (hx : x ∈ cs.flatten) (hy : y ∈ cs.flatten) (e : x.1 = y.1) : x = y := by
  have h1 := h.storage_mem x hx
  have h2 := h.storage_mem y hy
  rw [e, h2] at h1
  simp only [Option.some.injEq, node_storage.value_type.injEq] at h1
  exact Prod.ext e h1.symm

theorem bucket_size_loop_eq {heap : List (node K V)} {s : Nat} {nb : Option Nat}
    (hs : storage_of heap s = some (.bucket_pointer nb)) {l : List (Nat × (K × V))} :
    ∀ (cur count fuel : Nat), is_chain heap cur l s → l.length < fuel →
      hash_map.bucket_size_loop heap fuel cur count = some (count + l.length) := by
  induction l with
  | nil =>
    intro cur count fuel h hf
    obtain ⟨f, rfl⟩ : ∃ f, fuel = f + 1 := ⟨fuel - 1, by simp at hf; omega⟩
    obtain ⟨n, hn, hd⟩ := getElem?_of_storage_of hs
    simp only [is_chain] at h
    simp [hash_map.bucket_size_loop, h, hn, node.is_sentinel, node.initialized, hd]
  | cons x rest ih =>
    intro cur count fuel h hf
    obtain ⟨f, rfl⟩ : ∃ f, fuel = f + 1 := ⟨fuel - 1, by simp at hf; omega⟩
    simp only [is_chain] at h
    obtain ⟨n, hn, hd⟩ := getElem?_of_storage_of h.2.1
    simp only [hash_map.bucket_size_loop, h.1, hn, node.is_sentinel, node.initialized, hd,
      Bool.not_true, Bool.false_eq_true, if_false]
    rw [ih x.1 (count + 1) f h.2.2 (by simp at hf; omega)]
    simp only [List.length_cons]
    congr 1
    omega

theorem bucket_size_eq {m : hash_map K V H E A} {cs : List (List (Nat × (K × V)))}
    (h : represents m.heap m.current_buckets cs) {b : Nat} {c : List (Nat × (K × V))}
    (hc : cs[b]? = some c) {fuel : Nat} (hf : c.length < fuel) :
    m.bucket_size fuel b = some c.length := by
  have hlt : b < m.current_buckets.bucket_count := by
    have := (List.getElem?_eq_some.mp hc).1
    rw [h.chains_length] at this
    exact this
  obtain ⟨s, c2, hb, hc2⟩ := h.get hlt
  rw [hc] at hc2
  cases hc2
  simp only [hash_map.bucket_size, hb]
  rw [bucket_size_loop_eq (h.sentinel b s hb) _ _ _ (h.chain b s c hb hc) hf]
  simp

theorem range_local_eq {m : hash_map K V H E A} {cs : List (List (Nat × (K × V)))}
    (h : represents m.heap m.current_buckets cs) {b : Nat} {s : bucket}
    (hb : m.current_buckets.buckets[b]? = some s) (l2 : List (Nat × (K × V))) :
    ∀ (l1 : List (Nat × (K × V))) (fuel : Nat), cs[b]? = some (l1 ++ l2) → l2.length < fuel →
      hash_map.range true m (some s.sentinel) fuel (some (chain_head l2 s.sentinel)) =
        some (l2.map (fun x => some x.1)) := by
  induction l2 with
  | nil =>
    intro l1 fuel _ hf
    obtain ⟨f, rfl⟩ : ∃ f, fuel = f + 1 := ⟨fuel - 1, by simp at hf; omega⟩
    simp [hash_map.range, chain_head]
  | cons x r ih =>
    intro l1 fuel hc hf
    obtain ⟨f, rfl⟩ : ∃ f, fuel = f + 1 := ⟨fuel - 1, by simp at hf; omega⟩
    obtain ⟨-, -, -, hxs, -⟩ := chain_split_facts (h.chain b s _ hb hc) (h.chain_nodup hb hc)
    have hne : (some x.1 : Option Nat) ≠ some s.sentinel := by
      intro e
      exact hxs (Option.some.inj e)
    have hc2 : cs[b]? = some ((l1 ++ [x]) ++ r) := by simpa using hc
    have hhead : chain_head (x :: r) s.sentinel = x.1 := rfl
    rw [hhead]
    simp only [hash_map.range, hne, if_false, increment_local_eq h hb hc,
      ih (l1 ++ [x]) f hc2 (by simp at hf; omega)]
    simp

theorem local_range_eq {m : hash_map K V H E A} {cs : List (List (Nat × (K × V)))}
    (h : represents m.heap m.current_buckets cs) {b : Nat} {c : List (Nat × (K × V))}
    (hc : cs[b]? = some c) {fuel : Nat} (hf : c.length < fuel) :
    m.local_range fuel b = some (c.map (fun x => some x.1)) := by
  have hlt : b < m.current_buckets.bucket_count := by
    have := (List.getElem?_eq_some.mp hc).1
    rw [h.chains_length] at this
    exact this
  obtain ⟨s, c2, hb, hc2⟩ := h.get hlt
  rw [hc] at hc2
  cases hc2
  have hload := is_chain_load_prev (h.chain b s c hb hc)
  simp only [hash_map.local_range, hash_map.cbegin_bucket, hash_map.cend_bucket, hb, hload]
  exact range_local_eq h hb c [] fuel (by simpa using hc) hf

theorem range_global_eq {m : hash_map K V H E A} {cs : List (List (Nat × (K × V)))}
    (h : represents m.heap m.current_buckets cs) (R : List (Nat × (K × V))) :
    ∀ (D : List (Nat × (K × V))) (fuel : Nat), cs.flatten = D ++ R →
      R.length + m.current_buckets.bucket_count < fuel →
      hash_map.range false m none fuel (head_id R) = some (R.map (fun x => some x.1)) := by
  induction R with
  | nil =>
    intro D fuel _ hf
    obtain ⟨f, rfl⟩ : ∃ f, fuel = f + 1 := ⟨fuel - 1, by omega⟩
    simp [hash_map.range, head_id]
  | cons x r ih =>
    intro D fuel hD hf
    obtain ⟨f, rfl⟩ : ∃ f, fuel = f + 1 := ⟨fuel - 1, by omega⟩
    obtain ⟨b, l1, l2, hc, hr, -⟩ := flatten_suffix_split hD
    have hinc : iterator_impl.increment false (f + 1) m (some x.1) =
        some (head_id (l2 ++ (cs.drop (b + 1)).flatten)) :=
      increment_global_eq h hc (by simp at hf; omega)
    rw [← hr] at hinc
    have hD2 : cs.flatten = (D ++ [x]) ++ r := by simpa using hD
    have hhead : head_id (x :: r) = some x.1 := rfl
    simp only [hash_map.range, hhead, hinc, ih (D ++ [x]) f hD2 (by simp at hf; omega)]
    simp

theorem global_range_eq {m : hash_map K V H E A} {cs : List (List (Nat × (K × V)))}
    (h : represents m.heap m.current_buckets cs) {fuel : Nat}
    (hf : cs.flatten.length + m.current_buckets.bucket_count < fuel) :
    m.global_range fuel = some (cs.flatten.map (fun x => some x.1)) := by
  simp only [hash_map.global_range, cbegin_eq h, hash_map.cend]
  exact range_global_eq h cs.flatten [] fuel (by simp) hf

end ranges

/-! ## rehash on a represented store -/

section rehash
variable {K V H E A : Type}

theorem push_front_represents {heap : List (node K V)} {l : fixed_size_bucket_list H E A}
    {cs : List (List (Nat × (K × V)))} (h : represents heap l cs) {b : Nat} {s : bucket}
    {c : List (Nat × (K × V))} (hb : l.buckets[b]? = some s) (hc : cs[b]? = some c)
    (x : Nat × (K × V)) (hx : storage_of heap x.1 = some (.value_type x.2))
    (hfresh : x.1 ∉ l.buckets.map bucket.sentinel ++ cs.flatten.map Prod.fst) :
    represents
      (atomic_store (atomic_store heap x.1 (some (chain_head c s.sentinel))) s.sentinel
        (some x.1))
      { l with node_count := l.node_count + 1 } (push_front b x cs) := by
  have hch := h.chain b s c hb hc
  have hnd := h.chain_nodup hb hc
  have hxlt := storage_of_lt hx
  have hslt := h.sentinel_lt hb
  have hxs : x.1 ≠ s.sentinel := by
    intro e
    exact hfresh (List.mem_append_left _
      (e ▸ List.mem_map_of_mem _ (List.getElem?_mem hb)))
  have hxc : x.1 ∉ c.map Prod.fst := by
    intro hq
    obtain ⟨y, hy1, hy2⟩ := List.mem_map.mp hq
    exact hfresh (List.mem_append_right _
      (List.mem_map.mpr ⟨y, mem_flatten_of_getElem? hc hy1, hy2⟩))
  have hfl := flatten_set_perm_cons (x := x) hc (List.Perm.refl (x :: c))
  have hpf : push_front b x cs = cs.set b (x :: c) := by simp [push_front, hc]
  rw [hpf]
  refine represents_frame h hb hc rfl rfl ?_ ?_ ?_ ?_ ?_
  · intro q _ hq hqs _
    have hqx : q ≠ x.1 := fun e => hfresh (e ▸ hq)
    rw [atomic_load_store_ne _ _ _ _ hqs, atomic_load_store_ne _ _ _ _ hqx]
  · intro q _ _ _
    rw [storage_of_store, storage_of_store]
  · refine ⟨atomic_load_store_same _ _ _ (by rw [atomic_store_length]; exact hslt),
      by rw [storage_of_store, storage_of_store]; exact hx, ?_⟩
    have hlx : atomic_load
        (atomic_store (atomic_store heap x.1 (some (chain_head c s.sentinel))) s.sentinel
          (some x.1)) x.1 = some (some (chain_head c s.sentinel)) := by
      rw [atomic_load_store_ne _ _ _ _ hxs]
      exact atomic_load_store_same _ _ _ hxlt
    cases c with
    | nil => exact hlx
    | cons y r =>
      simp only [List.map_cons, List.mem_cons, not_or, List.nodup_cons] at hxc hnd
      refine ⟨hlx, by rw [storage_of_store, storage_of_store]; exact hch.2.1, ?_⟩
      refine is_chain_store_frame _ _ (is_chain_store_frame _ _ hch.2.2 (Ne.symm hxc.1) hxc.2)
        ?_ hnd.1.2
      exact fun e => hnd.1.1 e.symm
  · refine nodup_insert_id h.nodup ?_ ?_ (hfl.map Prod.fst)
    · exact fun hm => hfresh (List.mem_append_left _ hm)
    · exact fun hm => hfresh (List.mem_append_right _ hm)
  · simp only
    rw [hfl.length_eq, h.node_count]
    rfl

theorem rehash_nodes_spec [hasher H K] {s_old : Nat} (nb : Option Nat)
    (r : List (Nat × (K × V))) :
    ∀ (heap : List (node K V)) (l : fixed_size_bucket_list H E A)
      (cs : List (List (Nat × (K × V)))) (fuel : Nat),
      represents heap l cs → storage_of heap s_old = some (.bucket_pointer nb) →
      is_tail heap r s_old → (r.map Prod.fst).Nodup →
      (∀ q ∈ r.map Prod.fst, q ∉ l.buckets.map bucket.sentinel ++ cs.flatten.map Prod.fst) →
      r.length < fuel →
      ∃ heap2, hash_map.rehash_nodes fuel heap l (chain_head r s_old) =
          some (heap2, { l with node_count := l.node_count + r.length }) ∧
        represents heap2 { l with node_count := l.node_count + r.length }
          (rehash_chains l.hash l.bucket_count cs r) ∧
        heap2.length = heap.length ∧
        (∀ q, q ∉ l.buckets.map bucket.sentinel → q ∉ r.map Prod.fst →
          atomic_load heap2 q = atomic_load heap q) ∧
        (∀ q, storage_of heap2 q = storage_of heap q) := by
  induction r with
  | nil =>
    intro heap l cs fuel h hs _ _ _ hf
    obtain ⟨f, rfl⟩ : ∃ f, fuel = f + 1 := ⟨fuel - 1, by simp at hf; omega⟩
    obtain ⟨n, hn, hd⟩ := getElem?_of_storage_of hs
    refine ⟨heap, ?_, ?_, rfl, fun _ _ _ => rfl, fun _ => rfl⟩
    · simp [hash_map.rehash_nodes, chain_head, hn, hd]
    · simpa [rehash_chains] using h
  | cons x r ih =>
    intro heap l cs fuel h hs ht hnd hfresh hf
    obtain ⟨f, rfl⟩ : ∃ f, fuel = f + 1 := ⟨fuel - 1, by simp at hf; omega⟩
    simp only [is_tail] at ht
    obtain ⟨n, hn, hd⟩ := getElem?_of_storage_of ht.1
    have hnext : n.next = some (chain_head r s_old) := by
      have := is_chain_load_prev ht.2
      simpa [atomic_load, hn] using this
    have hlt := bucket_index_lt h x.2.1
    obtain ⟨s, c, hb, hc⟩ := h.get hlt
    have hload := is_chain_load_prev (h.chain _ s c hb hc)
    simp only [List.map_cons, List.nodup_cons] at hnd
    have hxf := hfresh x.1 (by simp)
    have hrep := push_front_represents h hb hc x ht.1 hxf
    have hsr : s.sentinel ∉ r.map Prod.fst := by
      intro e
      exact hfresh s.sentinel (by simp [e])
        (List.mem_append_left _ (List.mem_map_of_mem _ (List.getElem?_mem hb)))
    have hpf : push_front (l.bucket_index x.2.1) x cs =
        cs.set (l.bucket_index x.2.1) (x :: c) := by simp [push_front, hc]
    have hfl := flatten_set_perm_cons (x := x) hc (List.Perm.refl (x :: c))
    obtain ⟨heap2, h1, h2, h3, h4, h5⟩ := ih
      (atomic_store (atomic_store heap x.1 (some (chain_head c s.sentinel))) s.sentinel
        (some x.1))
      { l with node_count := l.node_count + 1 } (push_front (l.bucket_index x.2.1) x cs) f
      hrep (by rw [storage_of_store, storage_of_store]; exact hs)
      (is_tail_store_frame _ _ (is_tail_store_frame _ _ (is_chain_tail ht.2) hnd.1) hsr)
      hnd.2
      (by
        intro q hq hq2
        rcases List.mem_append.mp hq2 with hq2 | hq2
        · exact hfresh q (by simp [hq]) (List.mem_append_left _ hq2)
        · rw [hpf] at hq2
          have := (hfl.map Prod.fst).mem_iff.mp hq2
          rcases List.mem_cons.mp this with e | e
          · exact hnd.1 (e ▸ hq)
          · exact hfresh q (by simp [hq]) (List.mem_append_right _ e))
      (by simp at hf; omega)
    have hcount : ({ l with node_count := l.node_count + 1 + r.length } :
        fixed_size_bucket_list H E A) =
        { l with node_count := l.node_count + (x :: r).length } := by
      simp only [List.length_cons]
      congr 1
      omega
    simp only at h1 h2
    rw [hcount] at h1 h2
    refine ⟨heap2, ?_, ?_, ?_, ?_, ?_⟩
    · have hhead : chain_head (x :: r) s_old = x.1 := rfl
      rw [hhead, hash_map.rehash_nodes]
      simp only [hn, hd, fixed_size_bucket_list.bucket_for_key, hb, hload, hnext]
      exact h1
    · exact h2
    · rw [h3, atomic_store_length, atomic_store_length]
    · intro q hq1 hq2
      simp only [List.map_cons, List.mem_cons, not_or] at hq2
      have hqs : q ≠ s.sentinel := by
        intro e
        rw [e] at hq1
        exact hq1 (List.mem_map_of_mem _ (List.getElem?_mem hb))
      rw [h4 q hq1 hq2.2, atomic_load_store_ne _ _ _ _ hqs,
        atomic_load_store_ne _ _ _ _ hq2.1]
    · intro q
      rw [h5, storage_of_store, storage_of_store]

end rehash

section rehash_outer
variable {K V H E A : Type}

theorem push_front_length {α : Type} (b : Nat) (x : α) (cs : List (List α)) :
    (push_front b x cs).length = cs.length := by
  simp [push_front]

theorem push_front_perm {α : Type} {b : Nat} (x : α) {cs : List (List α)}
    (hb : b < cs.length) : (push_front b x cs).flatten.Perm (x :: cs.flatten) := by
  have hc : cs[b]? = some cs[b] := List.getElem?_eq_getElem hb
  have : push_front b x cs = cs.set b (x :: cs[b]) := by simp [push_front, hc]
  rw [this]
  exact flatten_set_perm_cons hc (List.Perm.refl _)

theorem rehash_chains_length [hasher H K] (hash : H) (n : Nat)
    (r : List (Nat × (K × V))) :
    ∀ cs : List (List (Nat × (K × V))), (rehash_chains hash n cs r).length = cs.length := by
  induction r with
  | nil => intro cs; rfl
  | cons x r ih =>
    intro cs
    simp only [rehash_chains, List.foldl_cons] at ih ⊢
    rw [ih, push_front_length]

theorem rehash_chains_perm [hasher H K] (hash : H) {n : Nat} (hn : 0 < n)
    (r : List (Nat × (K × V))) :
    ∀ cs : List (List (Nat × (K × V))), cs.length = n →
      (rehash_chains hash n cs r).flatten.Perm (r ++ cs.flatten) := by
  induction r with
  | nil => intro cs _; exact List.Perm.refl _
  | cons x r ih =>
    intro cs hlen
    simp only [rehash_chains, List.foldl_cons] at ih ⊢
    have hb : hasher.call hash x.2.1 % n < cs.length := by
      rw [hlen]; exact Nat.mod_lt _ hn
    have h1 := ih (push_front (hasher.call hash x.2.1 % n) x cs)
      (by rw [push_front_length, hlen])
    have h2 : (r ++ (push_front (hasher.call hash x.2.1 % n) x cs).flatten).Perm
        (r ++ x :: cs.flatten) := List.Perm.append_left _ (push_front_perm x hb)
    have h3 : (r ++ x :: cs.flatten).Perm (x :: (r ++ cs.flatten)) := List.perm_middle
    exact h1.trans (h2.trans h3)

theorem rehash_chains_append [hasher H K] (hash : H) (n : Nat)
    (cs : List (List (Nat × (K × V)))) (r1 r2 : List (Nat × (K × V))) :
    rehash_chains hash n cs (r1 ++ r2) = rehash_chains hash n (rehash_chains hash n cs r1) r2 := by
  simp [rehash_chains, List.foldl_append]

theorem rehash_buckets_spec [hasher H K] (obs : List bucket) :
    ∀ (ocs : List (List (Nat × (K × V)))) (heap : List (node K V))
      (l : fixed_size_bucket_list H E A) (cs : List (List (Nat × (K × V)))) (fuel : Nat),
      represents heap l cs → obs.length = ocs.length →
      (∀ (i : Nat) (s : bucket) (c : List (Nat × (K × V))), obs[i]? = some s →
        ocs[i]? = some c → is_chain heap s.sentinel c s.sentinel ∧
          ∃ nb, storage_of heap s.sentinel = some (.bucket_pointer nb)) →
      (obs.map bucket.sentinel ++ ocs.flatten.map Prod.fst).Nodup →
      (∀ q ∈ obs.map bucket.sentinel ++ ocs.flatten.map Prod.fst,
        q ∉ l.buckets.map bucket.sentinel ++ cs.flatten.map Prod.fst) →
      ocs.flatten.length < fuel →
      ∃ heap2, hash_map.rehash_buckets fuel obs heap l =
          some (heap2, { l with node_count := l.node_count + ocs.flatten.length }) ∧
        represents heap2 { l with node_count := l.node_count + ocs.flatten.length }
          (rehash_chains l.hash l.bucket_count cs ocs.flatten) ∧
        heap2.length = heap.length := by
  induction obs with
  | nil =>
    intro ocs heap l cs fuel h hlen _ _ _ _
    have : ocs = [] := List.eq_nil_of_length_eq_zero (by simpa using hlen.symm)
    subst this
    exact ⟨heap, by simp [hash_map.rehash_buckets], by simpa [rehash_chains] using h, rfl⟩
  | cons s obs ih =>
    intro ocs heap l cs fuel h hlen hch hnd hfresh hf
    cases ocs with
    | nil => simp at hlen
    | cons c ocs =>
      obtain ⟨hc, nb, hs⟩ := hch 0 s c (by simp) (by simp)
      have hload := is_chain_load_prev hc
      have hf2 : c.length + ocs.flatten.length < fuel := by
        simpa [List.flatten_cons, List.length_append] using hf
      simp only [List.map_cons, List.flatten_cons, List.map_append, List.cons_append,
        List.nodup_cons, List.mem_append, not_or, List.nodup_append,
        List.disjoint_append_right, List.disjoint_append_left] at hnd
      obtain ⟨⟨hs1, hs2, hs3⟩, hn1, ⟨hn2, hn3, hd1⟩, hd2, hd3⟩ := hnd
      have hsf : s.sentinel ∉ l.buckets.map bucket.sentinel ++ cs.flatten.map Prod.fst :=
        hfresh s.sentinel (by simp)
      have hcf : ∀ q ∈ c.map Prod.fst,
          q ∉ l.buckets.map bucket.sentinel ++ cs.flatten.map Prod.fst := by
        intro q hq
        exact hfresh q (by simp [hq])
      obtain ⟨heap2, h1, h2, h3, h4, h5⟩ := rehash_nodes_spec nb c
        (atomic_store heap s.sentinel (some s.sentinel)) l cs fuel
        (represents_store_outside h _ _ hsf)
        (by rw [storage_of_store]; exact hs)
        (is_tail_store_frame _ _ (is_chain_tail hc) hs2) hn2 hcf
        (by omega)
      have hperm := rehash_chains_perm l.hash h.count_pos c cs h.chains_length
      obtain ⟨heap3, g1, g2, g3⟩ := ih ocs heap2
        { l with node_count := l.node_count + c.length }
        (rehash_chains l.hash l.bucket_count cs c) fuel h2
        (by simpa using hlen)
        (by
          intro i s2 c2 hi1 hi2
          obtain ⟨hc2, nb2, hs2b⟩ := hch (i + 1) s2 c2 (by simpa using hi1) (by simpa using hi2)
          have hs2m : s2.sentinel ∈ obs.map bucket.sentinel :=
            List.mem_map_of_mem _ (List.getElem?_mem hi1)
          have hc2m : ∀ q ∈ c2.map Prod.fst, q ∈ ocs.flatten.map Prod.fst := by
            intro q hq
            obtain ⟨y, hy1, hy2⟩ := List.mem_map.mp hq
            exact List.mem_map.mpr ⟨y, mem_flatten_of_getElem? hi2 hy1, hy2⟩
          have key : ∀ q, q ∈ obs.map bucket.sentinel ∨ q ∈ ocs.flatten.map Prod.fst →
              atomic_load heap2 q = atomic_load heap q := by
            intro q hq
            have hq1 : q ∉ l.buckets.map bucket.sentinel := by
              intro e
              refine hfresh q ?_ (List.mem_append_left _ e)
              rcases hq with hq | hq
              · simp [hq]
              · simp only [List.map_cons, List.flatten_cons, List.map_append,
                  List.cons_append, List.mem_cons, List.mem_append]
                exact Or.inr (Or.inr (Or.inr hq))
            have hq2 : q ∉ c.map Prod.fst := by
              intro e
              rcases hq with hq | hq
              · exact hd2 hq e
              · exact hd1 e hq
            have hq3 : q ≠ s.sentinel := by
              intro e
              rcases hq with hq | hq
              · exact hs1 (e ▸ hq)
              · exact hs3 (e ▸ hq)
            rw [h4 q hq1 hq2, atomic_load_store_ne _ _ _ _ hq3]
          refine ⟨is_chain_congr ?_ ?_ hc2, nb2, ?_⟩
          · intro q hq
            rcases List.mem_cons.mp hq with rfl | hq
            · exact key _ (Or.inl hs2m)
            · exact key q (Or.inr (hc2m q hq))
          · intro q _
            rw [h5, storage_of_store]
          · rw [h5, storage_of_store]
            exact hs2b)
        (List.nodup_append.mpr ⟨hn1, hn3, hd3⟩)
        (by
          intro q hq hq2
          have hq0 : q ∈ (s :: obs).map bucket.sentinel ++
              (c :: ocs).flatten.map Prod.fst := by
            simp only [List.map_cons, List.flatten_cons, List.map_append, List.cons_append,
              List.mem_cons, List.mem_append]
            rcases List.mem_append.mp hq with hq | hq
            · exact Or.inr (Or.inl hq)
            · exact Or.inr (Or.inr (Or.inr hq))
          rcases List.mem_append.mp hq2 with hq2 | hq2
          · exact hfresh q hq0 (List.mem_append_left _ hq2)
          · have := (hperm.map Prod.fst).mem_iff.mp hq2
            simp only [List.map_append, List.mem_append] at this
            rcases this with e | e
            · rcases List.mem_append.mp hq with hq | hq
              · exact hd2 hq e
              · exact hd1 e hq
            · exact hfresh q hq0 (List.mem_append_right _ e))
        (by omega)
      have hcount : ({ l with node_count := l.node_count + c.length + ocs.flatten.length } :
          fixed_size_bucket_list H E A) =
          { l with node_count := l.node_count + (c :: ocs).flatten.length } := by
        simp only [List.flatten_cons, List.length_append]
        congr 1
        omega
      simp only at g1 g2
      rw [hcount] at g1 g2
      refine ⟨heap3, ?_, ?_, ?_⟩
      · rw [hash_map.rehash_buckets]
        simp only [hload, h1]
        exact g1
      · rw [List.flatten_cons, rehash_chains_append]
        exact g2
      · rw [g3, h3, atomic_store_length]

theorem rehash_spec [hasher H K] {m : hash_map K V H E A}
    {cs : List (List (Nat × (K × V)))} (h : represents m.heap m.current_buckets cs)
    {new_bucket_count : Nat} (hpos : 0 < new_bucket_count)
    (hne : new_bucket_count ≠ m.current_buckets.bucket_count) {fuel : Nat}
    (hf : cs.flatten.length < fuel) :
    ∃ m2, m.rehash fuel new_bucket_count = some m2 ∧
      represents m2.heap m2.current_buckets
        (rehash_chains m.current_buckets.hash new_bucket_count
          (List.replicate new_bucket_count []) cs.flatten) ∧
      m2.current_buckets.bucket_count = new_bucket_count ∧
      m2.current_buckets.hash = m.current_buckets.hash ∧
      m2.current_buckets.keycomp = m.current_buckets.keycomp ∧
      m2.current_buckets.allocator = m.current_buckets.allocator := by
  obtain ⟨extra, hheap, -⟩ := create_heap_prefix m.heap new_bucket_count
    m.current_buckets.hash m.current_buckets.keycomp m.current_buckets.allocator
  have hrep := create_represents m.heap hpos m.current_buckets.hash
    m.current_buckets.keycomp m.current_buckets.allocator
  have hfields := create_fields m.heap new_bucket_count m.current_buckets.hash
    m.current_buckets.keycomp m.current_buckets.allocator
  have hold := represents_append h extra
  rw [← hheap] at hold
  have hnew_ge : ∀ q ∈ (fixed_size_bucket_list.create m.heap new_bucket_count
      m.current_buckets.hash m.current_buckets.keycomp
      m.current_buckets.allocator).2.buckets.map bucket.sentinel, m.heap.length ≤ q := by
    intro q hq
    rw [hfields] at hq
    simp only [List.map_map, List.mem_map, List.mem_range] at hq
    obtain ⟨a, -, rfl⟩ := hq
    simp
  obtain ⟨heap2, h1, h2, -⟩ := rehash_buckets_spec m.current_buckets.buckets cs _ _ _ fuel
    hrep (by rw [h.buckets_length, h.chains_length])
    (fun i s c hi1 hi2 => ⟨hold.chain i s c hi1 hi2, _, hold.sentinel i s hi1⟩)
    h.nodup
    (by
      intro q hq hq2
      simp only [List.flatten_replicate_nil, List.map_nil, List.append_nil] at hq2
      exact Nat.lt_irrefl _ (Nat.lt_of_lt_of_le (h.footprint_lt q hq) (hnew_ge q hq2)))
    hf
  refine ⟨{ heap := heap2, current_buckets :=
      { (fixed_size_bucket_list.create m.heap new_bucket_count m.current_buckets.hash
          m.current_buckets.keycomp m.current_buckets.allocator).2 with
        node_count := (fixed_size_bucket_list.create m.heap new_bucket_count
          m.current_buckets.hash m.current_buckets.keycomp
          m.current_buckets.allocator).2.node_count + cs.flatten.length } }, ?_, ?_, ?_, ?_, ?_, ?_⟩
  · simp only [hash_map.rehash, if_neg hne, h1]
  · simpa [hfields] using h2
  all_goals simp [hfields]

end rehash_outer

/-! ## Copy construction on a represented store -/

section copy
variable {K V H E A : Type}

theorem atomic_store_prefix (base extra : List (node K V)) (p : Nat) (v : Option Nat)
    (hp : base.length ≤ p) : ∃ extra2, atomic_store (base ++ extra) p v = base ++ extra2 := by
  unfold atomic_store
  split
  · rw [List.set_append, if_neg (Nat.not_lt.mpr hp)]
    exact ⟨_, rfl⟩
  · exact ⟨extra, rfl⟩

theorem open_chain_close {heap : List (node K V)} {prev : Nat} {l : List (Nat × (K × V))}
    (t : Nat) (h : open_chain heap prev l) (hlt : chain_last prev l < heap.length)
    (hn : (prev :: l.map Prod.fst).Nodup) :
    is_chain (atomic_store heap (chain_last prev l) (some t)) prev l t := by
  induction l generalizing prev with
  | nil =>
    simp only [is_chain, chain_last] at hlt ⊢
    exact atomic_load_store_same _ _ _ hlt
  | cons x rest ih =>
    simp only [open_chain, is_chain, chain_last] at h hlt ⊢
    have hn2 : (x.1 :: rest.map Prod.fst).Nodup := (List.nodup_cons.mp hn).2
    have hne : prev ≠ chain_last x.1 rest := by
      intro hc
      have := chain_last_mem x.1 rest
      rw [← hc] at this
      exact (List.nodup_cons.mp hn).1 (by simpa using this)
    refine ⟨?_, ?_, ih h.2.2 hlt hn2⟩
    · rw [atomic_load_store_ne _ _ _ _ hne]
      exact h.1
    · rw [storage_of_store]
      exact h.2.1

theorem open_chain_snoc {heap heap2 : List (node K V)} {prev : Nat}
    {l : List (Nat × (K × V))} (x : Nat × (K × V)) (h : open_chain heap prev l)
    (hn : (prev :: l.map Prod.fst).Nodup)
    (hload : ∀ q ∈ prev :: l.map Prod.fst, q ≠ chain_last prev l →
      atomic_load heap2 q = atomic_load heap q)
    (hstor : ∀ q ∈ l.map Prod.fst, storage_of heap2 q = storage_of heap q)
    (hlast : atomic_load heap2 (chain_last prev l) = some (some x.1))
    (hx : storage_of heap2 x.1 = some (.value_type x.2)) :
    open_chain heap2 prev (l ++ [x]) := by
  induction l generalizing prev with
  | nil =>
    simp only [chain_last] at hlast
    exact ⟨hlast, hx, trivial⟩
  | cons y rest ih =>
    simp only [open_chain, chain_last, List.cons_append] at h hlast ⊢
    have hn2 : (y.1 :: rest.map Prod.fst).Nodup := (List.nodup_cons.mp hn).2
    have hne : prev ≠ chain_last y.1 rest := by
      intro hc
      have := chain_last_mem y.1 rest
      rw [← hc] at this
      exact (List.nodup_cons.mp hn).1 (by simpa using this)
    refine ⟨?_, ?_, ih h.2.2 hn2 ?_ ?_ hlast⟩
    · rw [hload prev (List.mem_cons_self _ _) (by simpa [chain_last] using hne)]
      exact h.1
    · rw [hstor y.1 (by simp)]
      exact h.2.1
    · intro q hq hq2
      exact hload q (List.mem_cons_of_mem _ (by simpa using hq))
        (by simpa [chain_last] using hq2)
    · intro q hq
      exact hstor q (by simp only [List.map_cons]; exact List.mem_cons_of_mem _ hq)

theorem is_tail_append {heap : List (node K V)} {t : Nat} {l : List (Nat × (K × V))}
    (extra : List (node K V)) (h : is_tail heap l t) : is_tail (heap ++ extra) l t := by
  cases l with
  | nil => trivial
  | cons x rest => exact ⟨storage_of_append extra h.1, is_chain_append extra h.2⟩

theorem copy_nodes_spec {base : List (node K V)} {s_old : Nat} (ns : Nat)
    {nb : Option Nat}
    (hs : storage_of base s_old = some (.bucket_pointer nb)) (r : List (Nat × (K × V))) :
    ∀ (heap extra : List (node K V)) (bl : List (Nat × (K × V))) (fuel : Nat),
      heap = base ++ extra → is_tail base r s_old → open_chain heap ns bl →
      (ns :: bl.map Prod.fst).Nodup →
      (∀ q ∈ ns :: bl.map Prod.fst, base.length ≤ q ∧ q < heap.length) →
      r.length < fuel →
      ∃ heap2 extra2 bl2,
        hash_map.copy_nodes s_old fuel heap (some (chain_head r s_old)) (chain_last ns bl) =
          some (heap2, chain_last ns (bl ++ bl2)) ∧
        heap2 = base ++ extra2 ∧ heap2.length = heap.length + r.length ∧
        open_chain heap2 ns (bl ++ bl2) ∧
        bl2.map Prod.snd = r.map Prod.snd ∧
        bl2.map Prod.fst = List.range' heap.length r.length ∧
        (∀ q, q < heap.length → q ∉ ns :: bl.map Prod.fst →
          atomic_load heap2 q = atomic_load heap q) ∧
        (∀ q, q < heap.length → storage_of heap2 q = storage_of heap q) := by
  induction r with
  | nil =>
    intro heap extra bl fuel hheap _ hopen _ _ hf
    obtain ⟨f, rfl⟩ : ∃ f, fuel = f + 1 := ⟨fuel - 1, by simp at hf; omega⟩
    refine ⟨heap, extra, [], ?_, hheap, by simp, by simpa using hopen, rfl, rfl,
      fun _ _ _ => rfl, fun _ _ => rfl⟩
    simp [hash_map.copy_nodes, chain_head]
  | cons x r ih =>
    intro heap extra bl fuel hheap ht hopen hnd hrange hf
    obtain ⟨f, rfl⟩ : ∃ f, fuel = f + 1 := ⟨fuel - 1, by simp at hf; omega⟩
    simp only [is_tail] at ht
    have hxlt : x.1 < base.length := storage_of_lt ht.1
    have hxs : x.1 ≠ s_old := by
      intro e
      rw [e, hs] at ht
      simp at ht
    have hplt := hrange _ (chain_last_mem ns bl)
    have hxp : x.1 ≠ chain_last ns bl := by
      intro e
      rw [e] at hxlt
      omega
    have hblen : base.length ≤ heap.length := by rw [hheap]; simp
    have hxh : storage_of heap x.1 = some (.value_type x.2) := by
      rw [hheap]; exact storage_of_append _ ht.1
    obtain ⟨n, hn, hd⟩ := getElem?_of_storage_of hxh
    have hdata : (heap[x.1]?).bind node.data = some x.2 := by
      simp [hn, node.data, hd]
    have hloadx : atomic_load heap x.1 = some (some (chain_head r s_old)) := by
      rw [hheap]; exact atomic_load_append _ (is_chain_load_prev ht.2)
    obtain ⟨extra1, hex1⟩ := atomic_store_prefix base
      (extra ++ [{ next := none, data_ := .value_type x.2 }]) (chain_last ns bl)
      (some heap.length) hplt.1
    have hheap1 : atomic_store (heap ++ [{ next := none, data_ := .value_type x.2 }])
        (chain_last ns bl) (some heap.length) = base ++ extra1 := by
      have h0 := hex1
      rw [← List.append_assoc, ← hheap] at h0
      exact h0
    have hlen1 : (atomic_store (heap ++ [{ next := none, data_ := .value_type x.2 }])
        (chain_last ns bl) (some heap.length)).length = heap.length + 1 := by
      rw [atomic_store_length]; simp
    have hnew : storage_of (atomic_store (heap ++ [{ next := none, data_ := .value_type x.2 }])
        (chain_last ns bl) (some heap.length)) heap.length = some (.value_type x.2) := by
      rw [storage_of_store]; simp [storage_of]
    have hfresh : heap.length ∉ ns :: bl.map Prod.fst := by
      intro e
      exact Nat.lt_irrefl _ (hrange _ e).2
    have hopen1 : open_chain (atomic_store (heap ++ [{ next := none, data_ := .value_type x.2 }])
        (chain_last ns bl) (some heap.length)) ns (bl ++ [(heap.length, x.2)]) := by
      refine open_chain_snoc (heap.length, x.2) hopen hnd ?_ ?_ ?_ hnew
      · intro q hq hq2
        rw [atomic_load_store_ne _ _ _ _ hq2, atomic_load_append_left _ _ (hrange q hq).2]
      · intro q hq
        rw [storage_of_store, storage_of_append_left _ _
          (hrange q (List.mem_cons_of_mem _ hq)).2]
      · exact atomic_load_store_same _ _ _ (by simp; omega)
    have hlast1 : chain_last ns (bl ++ [(heap.length, x.2)]) = heap.length :=
      chain_last_append ns bl _
    have hids : (ns :: (bl ++ [(heap.length, x.2)]).map Prod.fst) =
        (ns :: bl.map Prod.fst) ++ [heap.length] := by simp
    obtain ⟨heap2, extra2, bl2, g1, g2, g3, g4, g5, g6, g7, g8⟩ := ih
      (atomic_store (heap ++ [{ next := none, data_ := .value_type x.2 }])
        (chain_last ns bl) (some heap.length)) extra1 (bl ++ [(heap.length, x.2)]) f
      hheap1 (is_chain_tail ht.2) hopen1
      (by
        rw [hids, List.nodup_append]
        exact ⟨hnd, by simp, by
          intro a ha hb
          simp only [List.mem_singleton] at hb
          exact hfresh (hb ▸ ha)⟩)
      (by
        intro q hq
        have : q ∈ ns :: bl.map Prod.fst ∨ q = heap.length := by
          rw [hids] at hq
          rcases List.mem_append.mp hq with hq | hq
          · exact Or.inl hq
          · exact Or.inr (List.mem_singleton.mp hq)
        rw [hlen1]
        rcases this with hq | rfl
        · exact ⟨(hrange q hq).1, Nat.lt_succ_of_lt (hrange q hq).2⟩
        · exact ⟨hblen, Nat.lt_succ_self _⟩)
      (by simp at hf; omega)
    rw [hlast1] at g1
    refine ⟨heap2, extra2, (heap.length, x.2) :: bl2, ?_, g2, ?_, ?_, ?_, ?_, ?_, ?_⟩
    · have hhead : chain_head (x :: r) s_old = x.1 := rfl
      have hne : (some x.1 : Option Nat) ≠ some s_old := fun e => hxs (Option.some.inj e)
      have hloadx1 : atomic_load (atomic_store
          (heap ++ [{ next := none, data_ := .value_type x.2 }]) (chain_last ns bl)
          (some heap.length)) x.1 = some (some (chain_head r s_old)) := by
        rw [atomic_load_store_ne _ _ _ _ hxp]
        exact atomic_load_append _ hloadx
      rw [hhead, hash_map.copy_nodes]
      simp only [hne, if_false, hdata, node.create_with_data, hloadx1]
      rw [g1]
      simp
    · rw [g3, hlen1]; simp; omega
    · simpa using g4
    · simp [g5]
    · rw [List.map_cons, g6, hlen1]
      simp [List.range'_succ]
    · intro q hq1 hq2
      rw [g7 q (by rw [hlen1]; omega) (by
        rw [hids]
        intro hm
        rcases List.mem_append.mp hm with hm | hm
        · exact hq2 hm
        · exact Nat.ne_of_lt hq1 (List.mem_singleton.mp hm))]
      have hqp : q ≠ chain_last ns bl := fun e => hq2 (e ▸ chain_last_mem ns bl)
      rw [atomic_load_store_ne _ _ _ _ hqp, atomic_load_append_left _ _ hq1]
    · intro q hq1
      rw [g8 q (by rw [hlen1]; omega), storage_of_store, storage_of_append_left _ _ hq1]

end copy

section copy_outer
variable {K V H E A : Type}

theorem copy_buckets_spec {base : List (node K V)} (nbs : List bucket) :
    ∀ (obs : List bucket) (ocs : List (List (Nat × (K × V)))) (heap extra : List (node K V))
      (fuel : Nat), heap = base ++ extra → nbs.length = obs.length → obs.length = ocs.length →
      (∀ (i : Nat) (o : bucket) (c : List (Nat × (K × V))), obs[i]? = some o →
        ocs[i]? = some c → is_chain base o.sentinel c o.sentinel ∧
          ∃ nb, storage_of base o.sentinel = some (.bucket_pointer nb)) →
      (nbs.map bucket.sentinel).Nodup →
      (∀ q ∈ nbs.map bucket.sentinel, base.length ≤ q ∧ q < heap.length) →
      ocs.flatten.length < fuel →
      ∃ (heap2 extra2 : List (node K V)) (ccs : List (List (Nat × (K × V)))),
        hash_map.copy_buckets fuel nbs obs heap = some heap2 ∧
        heap2 = base ++ extra2 ∧ heap2.length = heap.length + ocs.flatten.length ∧
        ccs.length = nbs.length ∧
        (∀ (i : Nat) (ns : bucket) (c : List (Nat × (K × V))), nbs[i]? = some ns →
          ccs[i]? = some c → is_chain heap2 ns.sentinel c ns.sentinel) ∧
        ccs.map (List.map Prod.snd) = ocs.map (List.map Prod.snd) ∧
        ccs.flatten.map Prod.fst = List.range' heap.length ocs.flatten.length ∧
        (∀ q, q < heap.length → q ∉ nbs.map bucket.sentinel →
          atomic_load heap2 q = atomic_load heap q) ∧
        (∀ q, q < heap.length → storage_of heap2 q = storage_of heap q) := by
  induction nbs with
  | nil =>
    intro obs ocs heap extra fuel hheap hl1 hl2 _ _ _ _
    have h1 : obs = [] := List.eq_nil_of_length_eq_zero (by simpa using hl1.symm)
    subst h1
    have h2 : ocs = [] := List.eq_nil_of_length_eq_zero (by simpa using hl2.symm)
    subst h2
    exact ⟨heap, extra, [], by simp [hash_map.copy_buckets], hheap, by simp, rfl,
      by simp, rfl, by simp, fun _ _ _ => rfl, fun _ _ => rfl⟩
  | cons ns nbs ih =>
    intro obs ocs heap extra fuel hheap hl1 hl2 hch hnd hrange hf
    cases obs with
    | nil => simp at hl1
    | cons o obs =>
    cases ocs with
    | nil => simp at hl2
    | cons c ocs =>
      obtain ⟨hc, nb, hs⟩ := hch 0 o c (by simp) (by simp)
      have hf2 : c.length + ocs.flatten.length < fuel := by
        simpa [List.flatten_cons, List.length_append] using hf
      have hload : atomic_load heap o.sentinel = some (some (chain_head c o.sentinel)) := by
        rw [hheap]; exact atomic_load_append _ (is_chain_load_prev hc)
      have hnsr := hrange ns.sentinel (by simp)
      simp only [List.map_cons, List.nodup_cons] at hnd
      obtain ⟨heap1, extra1, bl2, g1, g2, g3, g4, g5, g6, g7, g8⟩ :=
        copy_nodes_spec ns.sentinel hs c heap extra [] fuel hheap (is_chain_tail hc)
          trivial (by simp)
          (by
            intro q hq
            simp only [List.map_nil, List.mem_singleton] at hq
            rw [hq]; exact hnsr)
          (by omega)
      simp only [chain_last, List.nil_append] at g1 g4
      have hb2 : ∀ q ∈ bl2.map Prod.fst, heap.length ≤ q ∧ q < heap1.length := by
        intro q hq
        rw [g6] at hq
        have := List.mem_range'_1.mp hq
        rw [g3]; exact this
      have hnd2 : (ns.sentinel :: bl2.map Prod.fst).Nodup := by
        refine List.nodup_cons.mpr ⟨?_, by rw [g6]; exact List.nodup_range' _ _⟩
        intro e
        have := (hb2 _ e).1
        omega
      have hlast : chain_last ns.sentinel bl2 ∈ ns.sentinel :: bl2.map Prod.fst :=
        chain_last_mem _ _
      have hlast_lt : chain_last ns.sentinel bl2 < heap1.length := by
        rcases List.mem_cons.mp hlast with e | e
        · rw [e, g3]; omega
        · exact (hb2 _ e).2
      have hlast_ge : base.length ≤ chain_last ns.sentinel bl2 := by
        have : base.length ≤ heap.length := by rw [hheap]; simp
        rcases List.mem_cons.mp hlast with e | e
        · rw [e]; exact hnsr.1
        · exact Nat.le_trans this (hb2 _ e).1
      have hclosed := open_chain_close ns.sentinel g4 hlast_lt hnd2
      obtain ⟨extra1c, hex⟩ := atomic_store_prefix base extra1
        (chain_last ns.sentinel bl2) (some ns.sentinel) hlast_ge
      rw [← g2] at hex
      have hlen1c : (atomic_store heap1 (chain_last ns.sentinel bl2)
          (some ns.sentinel)).length = heap.length + c.length := by
        rw [atomic_store_length, g3]
      obtain ⟨heap2, extra2, ccs, k1, k2, k3, k4, k5, k6, k7, k8, k9⟩ := ih obs ocs
        (atomic_store heap1 (chain_last ns.sentinel bl2) (some ns.sentinel)) extra1c fuel hex
        (by simpa using hl1) (by simpa using hl2)
        (fun i o2 c2 hi1 hi2 => hch (i + 1) o2 c2 (by simpa using hi1) (by simpa using hi2))
        hnd.2
        (by
          intro q hq
          have := hrange q (by simp [hq])
          rw [hlen1c]
          exact ⟨this.1, by omega⟩)
        (by omega)
      refine ⟨heap2, extra2, bl2 :: ccs, ?_, k2, ?_, by simp [k4], ?_, ?_, ?_, ?_, ?_⟩
      · rw [hash_map.copy_buckets]
        simp only [hload, g1, k1]
      · rw [k3, hlen1c]
        simp only [List.flatten_cons, List.length_append]
        omega
      · intro i ns2 c2 hi1 hi2
        cases i with
        | zero =>
          simp only [List.getElem?_cons_zero, Option.some.injEq] at hi1 hi2
          subst hi1 hi2
          refine is_chain_congr ?_ ?_ hclosed
          · intro q hq
            refine k8 q ?_ ?_
            · rw [atomic_store_length]
              rcases List.mem_cons.mp hq with e | e
              · rw [e, g3]; omega
              · exact (hb2 _ e).2
            · intro hm
              rcases List.mem_cons.mp hq with e | e
              · exact hnd.1 (e ▸ hm)
              · have h1 := (hb2 _ e).1
                have h2 := (hrange q (by simp [hm])).2
                omega
          · intro q hq
            exact k9 q (by rw [atomic_store_length]; exact (hb2 _ hq).2)
        | succ i =>
          exact k5 i ns2 c2 (by simpa using hi1) (by simpa using hi2)
      · simp [k6, g5]
      · simp only [List.flatten_cons, List.map_append, g6, k7, hlen1c, List.length_append]
        have := List.range'_append heap.length c.length ocs.flatten.length 1
        simp only [Nat.one_mul] at this
        rw [this]
        congr 1
        omega
      · intro q hq1 hq2
        simp only [List.map_cons, List.mem_cons, not_or] at hq2
        have hqp : q ≠ chain_last ns.sentinel bl2 := by
          intro e
          rcases List.mem_cons.mp hlast with e2 | e2
          · exact hq2.1 (e.trans e2)
          · have := (hb2 _ e2).1
            omega
        rw [k8 q (by rw [hlen1c]; omega) hq2.2, atomic_load_store_ne _ _ _ _ hqp,
          g7 q hq1 (by simpa using hq2.1)]
      · intro q hq1
        rw [k9 q (by rw [hlen1c]; omega), storage_of_store, g8 q hq1]

theorem copy_spec {other : hash_map K V H E A} {cs : List (List (Nat × (K × V)))}
    (h : represents other.heap other.current_buckets cs) {fuel : Nat}
    (hf : cs.flatten.length < fuel) :
    ∃ m2 ccs extra, other.copy fuel = some m2 ∧ m2.heap = other.heap ++ extra ∧
      represents m2.heap m2.current_buckets ccs ∧
      ccs.map (List.map Prod.snd) = cs.map (List.map Prod.snd) ∧
      (∀ q ∈ m2.current_buckets.buckets.map bucket.sentinel ++ ccs.flatten.map Prod.fst,
        other.heap.length ≤ q) ∧
      m2.current_buckets.bucket_count = other.current_buckets.bucket_count ∧
      m2.current_buckets.hash = other.current_buckets.hash ∧
      m2.current_buckets.keycomp = other.current_buckets.keycomp ∧
      m2.current_buckets.allocator = other.current_buckets.allocator := by
  obtain ⟨extra0, hheap, hlen0⟩ := create_heap_prefix other.heap
    other.current_buckets.bucket_count other.current_buckets.hash
    other.current_buckets.keycomp other.current_buckets.allocator
  have hrep := create_represents other.heap h.count_pos other.current_buckets.hash
    other.current_buckets.keycomp other.current_buckets.allocator
  have hfields := create_fields other.heap other.current_buckets.bucket_count
    other.current_buckets.hash other.current_buckets.keycomp other.current_buckets.allocator
  generalize hcr : fixed_size_bucket_list.create other.heap
    other.current_buckets.bucket_count other.current_buckets.hash
    other.current_buckets.keycomp other.current_buckets.allocator = created at hheap hrep hfields
  have hbk : created.2.buckets = (List.range other.current_buckets.bucket_count).map
      (fun n => ({ sentinel := other.heap.length + n } : bucket)) := by rw [hfields]
  have hsent : ∀ q ∈ created.2.buckets.map bucket.sentinel,
      other.heap.length ≤ q ∧ q < created.1.length := by
    intro q hq
    rw [hbk] at hq
    simp only [List.map_map, List.mem_map, List.mem_range] at hq
    obtain ⟨a, ha, rfl⟩ := hq
    rw [hheap]
    simp only [Function.comp_apply, List.length_append, hlen0]
    omega
  obtain ⟨heap2, extra2, ccs, k1, k2, k3, k4, k5, k6, k7, k8, k9⟩ :=
    copy_buckets_spec created.2.buckets other.current_buckets.buckets cs created.1 extra0 fuel
      hheap (by rw [hrep.buckets_length, h.buckets_length, hfields])
      (by rw [h.buckets_length, h.chains_length])
      (fun i o c hi1 hi2 => ⟨h.chain i o c hi1 hi2, _, h.sentinel i o hi1⟩)
      (List.Nodup.of_append_left hrep.nodup) hsent hf
  have hids_ge : ∀ q ∈ ccs.flatten.map Prod.fst, created.1.length ≤ q := by
    intro q hq
    rw [k7] at hq
    exact (List.mem_range'_1.mp hq).1
  have hclen : other.heap.length ≤ created.1.length := by rw [hheap]; simp
  refine ⟨{ heap := heap2, current_buckets := { created.2 with node_count := other.size } },
    ccs, extra2, ?_, k2, ?_, k6, ?_, ?_, ?_, ?_, ?_⟩
  · simp only [hash_map.copy, hcr, k1]
  · refine ⟨hrep.count_pos, hrep.buckets_length, by rw [k4]; exact hrep.buckets_length,
      ?_, k5, ?_, ?_⟩
    · intro b s hb
      have hlt := hrep.sentinel_lt hb
      simp only
      rw [k9 _ hlt]
      exact hrep.sentinel b s hb
    · simp only
      refine List.nodup_append.mpr ⟨List.Nodup.of_append_left hrep.nodup,
        by rw [k7]; exact List.nodup_range' _ _, ?_⟩
      intro q hq1 hq2
      have := (hsent q hq1).2
      have := hids_ge q hq2
      omega
    · simp only [hash_map.size]
      rw [h.node_count]
      have h7 := congrArg List.length k7
      rw [List.length_map, List.length_range'] at h7
      exact h7.symm
  · intro q hq
    rcases List.mem_append.mp hq with hq | hq
    · exact (hsent q hq).1
    · exact Nat.le_trans hclen (hids_ge q hq)
  all_goals simp [hfields]

end copy_outer

/-! ## More fuel does not change a result -/

section fuel
variable {K V H E A : Type}

theorem find_from_mono {E2 : Type} [key_equal E2 K] (heap : List (node K V)) (sentinel : Nat)
    (key : K) (keycomp : E2) (fuel : Nat) :
    ∀ (prev : Nat) (res : Bool × Nat × Nat),
      bucket.find_from heap sentinel key keycomp fuel prev = some res →
      bucket.find_from heap sentinel key keycomp (fuel + 1) prev = some res := by
  induction fuel with
  | zero => intro prev res h; simp [bucket.find_from] at h
  | succ f ih =>
    intro prev res h
    rw [bucket.find_from] at h ⊢
    split at h
    · exact h
    · exact ih _ _ h
    · split at h
      · exact h
      · split at h
        · exact h
        · split at h
          · rename_i hk
            rw [if_pos hk]
            exact h
          · rename_i hk
            rw [if_neg hk]
            exact ih _ _ h

theorem find_from_mono_add {E2 : Type} [key_equal E2 K] (heap : List (node K V))
    (sentinel : Nat) (key : K) (keycomp : E2) (fuel k : Nat) (prev : Nat)
    (res : Bool × Nat × Nat)
    (h : bucket.find_from heap sentinel key keycomp fuel prev = some res) :
    bucket.find_from heap sentinel key keycomp (fuel + k) prev = some res := by
  induction k with
  | zero => exact h
  | succ k ih => exact find_from_mono _ _ _ _ _ _ _ ih

theorem find_some [hasher H K] [key_equal E K] {heap : List (node K V)}
    {l : fixed_size_bucket_list H E A} {cs : List (List (Nat × (K × V)))}
    (h : represents heap l cs) (key : K) {s : bucket} {c : List (Nat × (K × V))}
    (hb : l.buckets[l.bucket_index key]? = some s) (hc : cs[l.bucket_index key]? = some c)
    {fuel : Nat} {res : Bool × Nat × Nat} (hres : l.find fuel heap key = some res) :
    l.find fuel heap key =
      some (chain_lookup (key_equal.call l.keycomp key) s.sentinel c s.sentinel) := by
  have h1 : l.find (fuel + (c.length + 1)) heap key = some res := by
    unfold fixed_size_bucket_list.find fixed_size_bucket_list.bucket_for_key at hres ⊢
    rw [hb] at hres ⊢
    exact find_from_mono_add _ _ _ _ _ _ _ _ hres
  rw [find_eq h key hb hc (by omega)] at h1
  rw [hres, h1]

end fuel

section fuel2
variable {K V H E A : Type}

theorem rehash_nodes_mono [hasher H K] (fuel : Nat) :
    ∀ (heap : List (node K V)) (l : fixed_size_bucket_list H E A) (cur : Nat)
      (res : List (node K V) × fixed_size_bucket_list H E A),
      hash_map.rehash_nodes fuel heap l cur = some res →
      hash_map.rehash_nodes (fuel + 1) heap l cur = some res := by
  induction fuel with
  | zero => intro heap l cur res h; simp [hash_map.rehash_nodes] at h
  | succ f ih =>
    intro heap l cur res h
    rw [hash_map.rehash_nodes] at h ⊢
    split at h
    · exact h
    · split at h
      · exact h
      · split at h
        · exact h
        · split at h
          · exact h
          · split at h
            · exact h
            · exact ih _ _ _ _ h

theorem rehash_nodes_mono_add [hasher H K] (fuel k : Nat) (heap : List (node K V))
    (l : fixed_size_bucket_list H E A) (cur : Nat)
    (res : List (node K V) × fixed_size_bucket_list H E A)
    (h : hash_map.rehash_nodes fuel heap l cur = some res) :
    hash_map.rehash_nodes (fuel + k) heap l cur = some res := by
  induction k with
  | zero => exact h
  | succ k ih => exact rehash_nodes_mono _ _ _ _ _ ih

theorem rehash_buckets_mono_add [hasher H K] (fuel k : Nat) (obs : List bucket) :
    ∀ (heap : List (node K V)) (l : fixed_size_bucket_list H E A)
      (res : List (node K V) × fixed_size_bucket_list H E A),
      hash_map.rehash_buckets fuel obs heap l = some res →
      hash_map.rehash_buckets (fuel + k) obs heap l = some res := by
  induction obs with
  | nil => intro heap l res h; simpa [hash_map.rehash_buckets] using h
  | cons b rest ih =>
    intro heap l res h
    rw [hash_map.rehash_buckets] at h ⊢
    split at h
    · split at h
      · rename_i r hr
        rw [rehash_nodes_mono_add _ k _ _ _ _ hr]
        exact ih _ _ _ h
      · exact absurd h (by simp)
    · exact absurd h (by simp)

theorem rehash_mono_add [hasher H K] (fuel k : Nat) (m m2 : hash_map K V H E A)
    (n : Nat) (h : m.rehash fuel n = some m2) : m.rehash (fuel + k) n = some m2 := by
  unfold hash_map.rehash at h ⊢
  split at h
  · rename_i hn
    rw [if_pos hn]
    exact h
  · rename_i hn
    rw [if_neg hn]
    simp only at h ⊢
    split at h
    · rename_i r hr
      rw [rehash_buckets_mono_add _ k _ _ _ _ hr]
      exact h
    · exact absurd h (by simp)

theorem copy_nodes_mono (last fuel : Nat) :
    ∀ (heap : List (node K V)) (first : Option Nat) (prev : Nat)
      (res : List (node K V) × Nat),
      hash_map.copy_nodes last fuel heap first prev = some res →
      hash_map.copy_nodes last (fuel + 1) heap first prev = some res := by
  induction fuel with
  | zero => intro heap first prev res h; simp [hash_map.copy_nodes] at h
  | succ f ih =>
    intro heap first prev res h
    unfold hash_map.copy_nodes at h ⊢
    split at h
    · rename_i hc
      rw [if_pos hc]
      exact h
    · rename_i hc
      rw [if_neg hc]
      split at h
      · exact h
      · split at h
        · exact h
        · simp only at h ⊢
          split at h
          · exact h
          · exact ih _ _ _ _ h

theorem copy_nodes_mono_add (last fuel k : Nat) (heap : List (node K V))
    (first : Option Nat) (prev : Nat) (res : List (node K V) × Nat)
    (h : hash_map.copy_nodes last fuel heap first prev = some res) :
    hash_map.copy_nodes last (fuel + k) heap first prev = some res := by
  induction k with
  | zero => exact h
  | succ k ih => exact copy_nodes_mono _ _ _ _ _ _ ih

theorem copy_buckets_mono_add (fuel k : Nat) (nbs : List bucket) :
    ∀ (obs : List bucket) (heap res : List (node K V)),
      hash_map.copy_buckets fuel nbs obs heap = some res →
      hash_map.copy_buckets (fuel + k) nbs obs heap = some res := by
  induction nbs with
  | nil => intro obs heap res h; simpa [hash_map.copy_buckets] using h
  | cons b rest ih =>
    intro obs heap res h
    cases obs with
    | nil => simp [hash_map.copy_buckets] at h
    | cons o others =>
      rw [hash_map.copy_buckets] at h ⊢
      split at h
      · exact absurd h (by simp)
      · split at h
        · exact absurd h (by simp)
        · rename_i r hr
          rw [copy_nodes_mono_add _ _ k _ _ _ _ hr]
          exact ih _ _ _ h

theorem copy_mono_add (fuel k : Nat) (m m2 : hash_map K V H E A)
    (h : m.copy fuel = some m2) : m.copy (fuel + k) = some m2 := by
  unfold hash_map.copy at h ⊢
  simp only at h ⊢
  split at h
  · exact absurd h (by simp)
  · rename_i r hr
    rw [copy_buckets_mono_add _ k _ _ _ _ hr]
    exact h

end fuel2

/-! ## The invariants of the keys -/

section keys
variable {K V H E A : Type}

theorem chain_cases (p : K → Bool) (c : List (Nat × (K × V))) :
    (∀ x ∈ c, p x.2.1 = false) ∨
      ∃ l1 x l2, c = l1 ++ x :: l2 ∧ (∀ y ∈ l1, p y.2.1 = false) ∧ p x.2.1 = true := by
  induction c with
  | nil => exact Or.inl (by simp)
  | cons x rest ih =>
    by_cases hx : p x.2.1 = true
    · exact Or.inr ⟨[], x, rest, rfl, by simp, hx⟩
    · rcases ih with h | ⟨l1, y, l2, e, h1, h2⟩
      · left
        intro z hz
        rcases List.mem_cons.mp hz with rfl | hz
        · simpa using hx
        · exact h z hz
      · right
        refine ⟨x :: l1, y, l2, by simp [e], ?_, h2⟩
        intro z hz
        rcases List.mem_cons.mp hz with rfl | hz
        · simpa using hx
        · exact h1 z hz

theorem chain_values_set (cs : List (List (Nat × (K × V)))) (b : Nat)
    (c : List (Nat × (K × V))) :
    chain_values (cs.set b c) = (chain_values cs).set b (c.map Prod.snd) := by
  simp [chain_values, List.map_set]

theorem chain_values_getElem? {cs : List (List (Nat × (K × V)))} {b : Nat}
    {c : List (Nat × (K × V))} (h : cs[b]? = some c) :
    (chain_values cs)[b]? = some (c.map Prod.snd) := by
  simp [chain_values, List.getElem?_map, h]

theorem chain_values_flatten (cs : List (List (Nat × (K × V)))) :
    (chain_values cs).flatten = cs.flatten.map Prod.snd := by
  simp [chain_values, List.map_flatten]

theorem keys_placed_congr [hasher H K] [key_equal E K] {l l2 : fixed_size_bucket_list H E A}
    {vs : List (List (K × V))} (h : keys_placed l vs) (h1 : l2.hash = l.hash)
    (h2 : l2.keycomp = l.keycomp) (h3 : l2.bucket_count = l.bucket_count) :
    keys_placed l2 vs := by
  refine ⟨?_, ?_⟩
  · intro b c x hb hx
    have := h.placed b c x hb hx
    simpa [fixed_size_bucket_list.bucket_index, h1, h3] using this
  · rw [h2]
    exact h.unique

theorem key_laws.symm_false [hasher H K] [key_equal E K] {hash : H} {keycomp : E}
    (laws : key_laws (K := K) hash keycomp) {a b : K}
    (h : key_equal.call keycomp a b = false) : key_equal.call keycomp b a = false := by
  cases hb : key_equal.call keycomp b a with
  | false => rfl
  | true =>
    have := laws.symm b a hb
    rw [h] at this
    exact absurd this (by simp)

theorem keys_placed_replicate [hasher H K] [key_equal E K] (l : fixed_size_bucket_list H E A)
    (n : Nat) : keys_placed l (List.replicate n ([] : List (K × V))) := by
  refine ⟨?_, by simp⟩
  intro b c x hb hx
  have := (List.mem_replicate.mp (List.getElem?_mem hb)).2
  subst this
  simp at hx

theorem mem_flatten_getElem? {α : Type} {vs : List (List α)} {x : α} (h : x ∈ vs.flatten) :
    ∃ (b : Nat) (c : List α), vs[b]? = some c ∧ x ∈ c := by
  obtain ⟨c, hc, hx⟩ := List.mem_flatten.mp h
  obtain ⟨b, hb⟩ := List.mem_iff_getElem?.mp hc
  exact ⟨b, c, hb, hx⟩

theorem keys_placed.other_bucket [hasher H K] [key_equal E K]
    {l : fixed_size_bucket_list H E A} {vs : List (List (K × V))} (h : keys_placed l vs)
    (laws : key_laws (K := K) l.hash l.keycomp) (key : K) {b : Nat} {c : List (K × V)}
    {x : K × V} (hb : vs[b]? = some c) (hx : x ∈ c) (hne : b ≠ l.bucket_index key) :
    key_equal.call l.keycomp key x.1 = false := by
  cases hk : key_equal.call l.keycomp key x.1 with
  | false => rfl
  | true =>
    have h1 := laws.hash_eq key x.1 hk
    have h2 := h.placed b c x hb hx
    exact absurd (by simp [fixed_size_bucket_list.bucket_index, h1] at h2 ⊢; exact h2.symm) hne

theorem keys_placed_insert [hasher H K] [key_equal E K] {l : fixed_size_bucket_list H E A}
    {vs : List (List (K × V))} (h : keys_placed l vs)
    (laws : key_laws (K := K) l.hash l.keycomp) (v : K × V) {c : List (K × V)}
    (hc : vs[l.bucket_index v.1]? = some c)
    (hmiss : ∀ x ∈ c, key_equal.call l.keycomp v.1 x.1 = false) :
    keys_placed l (vs.set (l.bucket_index v.1) (c ++ [v])) := by
  have hlt : l.bucket_index v.1 < vs.length := (List.getElem?_eq_some.mp hc).1
  refine ⟨?_, ?_⟩
  · intro b c2 x hb hx
    by_cases e : l.bucket_index v.1 = b
    · subst e
      rw [List.getElem?_set_self hlt] at hb
      cases hb
      rcases List.mem_append.mp hx with hx | hx
      · exact h.placed _ c x hc hx
      · simp only [List.mem_singleton] at hx
        rw [hx]
    · rw [List.getElem?_set_ne e] at hb
      exact h.placed b c2 x hb hx
  · have hperm : (vs.set (l.bucket_index v.1) (c ++ [v])).flatten.Perm (v :: vs.flatten) :=
      flatten_set_perm_cons hc List.perm_append_comm
    have hsym : ∀ {x y : K × V}, key_equal.call l.keycomp x.1 y.1 = false →
        key_equal.call l.keycomp y.1 x.1 = false := fun hxy => laws.symm_false hxy
    rw [hperm.pairwise_iff hsym, List.pairwise_cons]
    refine ⟨?_, h.unique⟩
    intro y hy
    obtain ⟨b, c2, hb, hyc⟩ := mem_flatten_getElem? hy
    by_cases e : b = l.bucket_index v.1
    · subst e
      rw [hc] at hb
      cases hb
      exact hmiss y hyc
    · exact h.other_bucket laws v.1 hb hyc e

theorem keys_placed_erase [hasher H K] [key_equal E K] {l : fixed_size_bucket_list H E A}
    {vs : List (List (K × V))} (h : keys_placed l vs) {b : Nat} {l1 l2 : List (K × V)}
    {x : K × V} (hc : vs[b]? = some (l1 ++ x :: l2)) :
    keys_placed l (vs.set b (l1 ++ l2)) := by
  have hlt : b < vs.length := (List.getElem?_eq_some.mp hc).1
  refine ⟨?_, ?_⟩
  · intro b2 c2 y hb hy
    by_cases e : b = b2
    · subst e
      rw [List.getElem?_set_self hlt] at hb
      cases hb
      refine h.placed _ _ y hc ?_
      rcases List.mem_append.mp hy with hy | hy
      · exact List.mem_append_left _ hy
      · exact List.mem_append_right _ (List.mem_cons_of_mem _ hy)
    · rw [List.getElem?_set_ne e] at hb
      exact h.placed b2 c2 y hb hy
  · obtain ⟨pre, post, rfl, rfl⟩ := getElem?_split hc
    rw [set_split]
    have h1 := h.unique
    simp only [List.flatten_append, List.flatten_cons, List.append_assoc] at h1 ⊢
    refine List.Pairwise.sublist ?_ h1
    refine List.Sublist.append (List.Sublist.refl _) ?_
    refine List.Sublist.append (List.Sublist.refl _) ?_
    exact List.Sublist.append (List.sublist_cons_self _ _) (List.Sublist.refl _)

theorem keys_placed_assign [hasher H K] [key_equal E K] {l : fixed_size_bucket_list H E A}
    {vs : List (List (K × V))} (h : keys_placed l vs) {b : Nat} {l1 l2 : List (K × V)}
    {x : K × V} (mapped : V) (hc : vs[b]? = some (l1 ++ x :: l2)) :
    keys_placed l (vs.set b (l1 ++ (x.1, mapped) :: l2)) := by
  have hlt : b < vs.length := (List.getElem?_eq_some.mp hc).1
  refine ⟨?_, ?_⟩
  · intro b2 c2 y hb hy
    by_cases e : b = b2
    · subst e
      rw [List.getElem?_set_self hlt] at hb
      cases hb
      rcases List.mem_append.mp hy with hy | hy
      · exact h.placed _ _ y hc (List.mem_append_left _ hy)
      · rcases List.mem_cons.mp hy with rfl | hy
        · exact h.placed _ _ x hc (by simp)
        · exact h.placed _ _ y hc (List.mem_append_right _ (List.mem_cons_of_mem _ hy))
    · rw [List.getElem?_set_ne e] at hb
      exact h.placed b2 c2 y hb hy
  · obtain ⟨pre, post, rfl, rfl⟩ := getElem?_split hc
    rw [set_split]
    have h1 := h.unique
    have e1 : (pre ++ (l1 ++ x :: l2) :: post).flatten.map Prod.fst =
        (pre ++ (l1 ++ (x.1, mapped) :: l2) :: post).flatten.map Prod.fst := by simp
    have h2 : ((pre ++ (l1 ++ x :: l2) :: post).flatten.map Prod.fst).Pairwise
        (fun a b => key_equal.call l.keycomp a b = false) := by
      rw [List.pairwise_map]; exact h1
    rw [e1, List.pairwise_map] at h2
    exact h2

end keys

/-! ## Every operation keeps the invariants -/

section steps
variable {K V H E A : Type}

theorem find_ne_none_of_fuel [hasher H K] [key_equal E K] {m : hash_map K V H E A}
    {cs : List (List (Nat × (K × V)))} (h : represents m.heap m.current_buckets cs)
    (key : K) {fuel : Nat} (hf : m.size < fuel) :
    m.current_buckets.find fuel m.heap key ≠ none := by
  obtain ⟨s, c, hb, hc⟩ := h.get (bucket_index_lt h key)
  have hlen : c.length < fuel := by
    have h1 := length_le_flatten hc
    have h2 := h.node_count
    simp only [hash_map.size] at hf
    omega
  rw [find_eq h key hb hc hlen]
  simp

theorem find_fuel_pos [hasher H K] [key_equal E K] {l : fixed_size_bucket_list H E A}
    {heap : List (node K V)} {key : K} {fuel : Nat} (h : l.find fuel heap key ≠ none) :
    ∃ p, fuel = p + 1 := by
  cases fuel with
  | zero =>
    exfalso
    apply h
    unfold fixed_size_bucket_list.find
    split
    · simp [bucket.find, bucket.find_from]
    · rfl
  | succ p => exact ⟨p, rfl⟩

theorem find_of_ne_none [hasher H K] [key_equal E K] {heap : List (node K V)}
    {l : fixed_size_bucket_list H E A} {cs : List (List (Nat × (K × V)))}
    (h : represents heap l cs) (key : K) {s : bucket} {c : List (Nat × (K × V))}
    (hb : l.buckets[l.bucket_index key]? = some s) (hc : cs[l.bucket_index key]? = some c)
    {fuel : Nat} (hres : l.find fuel heap key ≠ none) :
    l.find fuel heap key =
      some (chain_lookup (key_equal.call l.keycomp key) s.sentinel c s.sentinel) := by
  cases hr : l.find fuel heap key with
  | none => exact absurd hr hres
  | some res => rw [← hr]; exact find_some h key hb hc hr

theorem insert_find_ne_none [hasher H K] [key_equal E K] {m m2 : hash_map K V H E A}
    {value : K × V} {fuel : Nat} {r : Bool × iterator}
    (h : m.insert fuel value = some (r, m2)) :
    m.current_buckets.find fuel m.heap value.1 ≠ none := by
  intro hn
  cases fuel with
  | zero => simp [hash_map.insert, hash_map.insert_loop] at h
  | succ p => simp [hash_map.insert, hash_map.insert_loop, hn] at h

theorem insert_or_assign_find_ne_none [hasher H K] [key_equal E K]
    {m m2 : hash_map K V H E A} {key : K} {mapped : V} {fuel : Nat} {r : iterator}
    (h : m.insert_or_assign fuel key mapped = some (r, m2)) :
    m.current_buckets.find fuel m.heap key ≠ none := by
  intro hn
  cases fuel with
  | zero => simp [hash_map.insert_or_assign, hash_map.insert_or_assign_loop] at h
  | succ p => simp [hash_map.insert_or_assign, hash_map.insert_or_assign_loop, hn] at h

theorem erase_find_ne_none [hasher H K] [key_equal E K] {m m2 : hash_map K V H E A}
    {key : K} {fuel : Nat} {r : Nat} (h : m.erase fuel key = some (r, m2)) :
    m.current_buckets.find fuel m.heap key ≠ none := by
  intro hn
  cases fuel with
  | zero => simp [hash_map.erase, hash_map.erase_loop] at h
  | succ p => simp [hash_map.erase, hash_map.erase_loop, hn] at h

/-- What `insert` does on a well-formed map, whenever its search returns. -/
theorem insert_cases [hasher H K] [key_equal E K] {m : hash_map K V H E A}
    {cs : List (List (Nat × (K × V)))} (hwf : well_formed m cs) (value : K × V) {fuel : Nat}
    (hfind : m.current_buckets.find fuel m.heap value.1 ≠ none) :
    ∃ c, cs[m.current_buckets.bucket_index value.1]? = some c ∧
      (((∀ x ∈ c, key_equal.call m.current_buckets.keycomp value.1 x.2.1 = false) ∧
          ∃ m2, m.insert fuel value = some ((true, some m.heap.length), m2) ∧
            well_formed m2 (cs.set (m.current_buckets.bucket_index value.1)
              (c ++ [(m.heap.length, value)])) ∧
            m2.current_buckets =
              { m.current_buckets with node_count := m.current_buckets.node_count + 1 }) ∨
        (∃ l1 x l2, c = l1 ++ x :: l2 ∧
          (∀ y ∈ l1, key_equal.call m.current_buckets.keycomp value.1 y.2.1 = false) ∧
          key_equal.call m.current_buckets.keycomp value.1 x.2.1 = true ∧
          m.insert fuel value = some ((false, some x.1), m))) := by
  obtain ⟨h, hk⟩ := hwf
  obtain ⟨s, c, hb, hc⟩ := h.get (bucket_index_lt h value.1)
  obtain ⟨p, rfl⟩ := find_fuel_pos hfind
  have hf := find_of_ne_none h value.1 hb hc hfind
  refine ⟨c, hc, ?_⟩
  rcases chain_cases (key_equal.call m.current_buckets.keycomp value.1) c with
    hmiss | ⟨l1, x, l2, rfl, h1, h2⟩
  · left
    refine ⟨hmiss, _, insert_loop_miss h value hb hc hmiss hf p,
      ⟨insert_miss_represents h hb hc value, ?_⟩, rfl⟩
    intro laws
    have hv := keys_placed_insert (hk laws) laws value (chain_values_getElem? hc)
      (by
        intro y hy
        obtain ⟨x, hx, rfl⟩ := List.mem_map.mp hy
        exact hmiss x hx)
    rw [chain_values_set]
    refine keys_placed_congr (l := m.current_buckets) ?_ rfl rfl rfl
    simpa using hv
  · right
    exact ⟨l1, x, l2, rfl, h1, h2, insert_loop_hit h value hb hc h1 h2 hf p⟩

/-- What `insert_or_assign` does on a well-formed map, whenever its search returns. -/
theorem insert_or_assign_cases [hasher H K] [key_equal E K] {m : hash_map K V H E A}
    {cs : List (List (Nat × (K × V)))} (hwf : well_formed m cs) (key : K) (mapped : V)
    {fuel : Nat} (hfind : m.current_buckets.find fuel m.heap key ≠ none) :
    ∃ c, cs[m.current_buckets.bucket_index key]? = some c ∧
      (((∀ x ∈ c, key_equal.call m.current_buckets.keycomp key x.2.1 = false) ∧
          ∃ m2, m.insert_or_assign fuel key mapped = some (some m.heap.length, m2) ∧
            well_formed m2 (cs.set (m.current_buckets.bucket_index key)
              (c ++ [(m.heap.length, (key, mapped))])) ∧
            m2.current_buckets =
              { m.current_buckets with node_count := m.current_buckets.node_count + 1 }) ∨
        (∃ l1 x l2, c = l1 ++ x :: l2 ∧
          (∀ y ∈ l1, key_equal.call m.current_buckets.keycomp key y.2.1 = false) ∧
          key_equal.call m.current_buckets.keycomp key x.2.1 = true ∧
          ∃ m2, m.insert_or_assign fuel key mapped = some (some x.1, m2) ∧
            well_formed m2 (cs.set (m.current_buckets.bucket_index key)
              (l1 ++ (x.1, (x.2.1, mapped)) :: l2)) ∧
            m2.current_buckets = m.current_buckets ∧ m2.heap.length = m.heap.length)) := by
  obtain ⟨h, hk⟩ := hwf
  obtain ⟨s, c, hb, hc⟩ := h.get (bucket_index_lt h key)
  obtain ⟨p, rfl⟩ := find_fuel_pos hfind
  have hf := find_of_ne_none h key hb hc hfind
  refine ⟨c, hc, ?_⟩
  rcases chain_cases (key_equal.call m.current_buckets.keycomp key) c with
    hmiss | ⟨l1, x, l2, rfl, h1, h2⟩
  · left
    refine ⟨hmiss, _, insert_or_assign_loop_miss h key mapped hb hc hmiss hf p,
      ⟨insert_miss_represents h hb hc (key, mapped), ?_⟩, rfl⟩
    intro laws
    have hv := keys_placed_insert (hk laws) laws (key, mapped) (chain_values_getElem? hc)
      (by
        intro y hy
        obtain ⟨x, hx, rfl⟩ := List.mem_map.mp hy
        exact hmiss x hx)
    rw [chain_values_set]
    refine keys_placed_congr (l := m.current_buckets) ?_ rfl rfl rfl
    simpa using hv
  · right
    obtain ⟨heap2, g1, g2, g3⟩ := insert_or_assign_loop_hit h key mapped hb hc h1 h2 hf p
    refine ⟨l1, x, l2, rfl, h1, h2, _, g1, ⟨g3, ?_⟩, rfl, g2⟩
    intro laws
    have hcv := chain_values_getElem? hc
    rw [List.map_append, List.map_cons] at hcv
    have hv := keys_placed_assign (hk laws) mapped hcv
    rw [chain_values_set]
    simpa using hv

/-- What `erase` by key does on a well-formed map, whenever its search returns. -/
theorem erase_cases [hasher H K] [key_equal E K] {m : hash_map K V H E A}
    {cs : List (List (Nat × (K × V)))} (hwf : well_formed m cs) (key : K) {fuel : Nat}
    (hfind : m.current_buckets.find fuel m.heap key ≠ none) :
    ∃ c, cs[m.current_buckets.bucket_index key]? = some c ∧
      (((∀ x ∈ c, key_equal.call m.current_buckets.keycomp key x.2.1 = false) ∧
          m.erase fuel key = some (0, m)) ∨
        (∃ l1 x l2, c = l1 ++ x :: l2 ∧
          (∀ y ∈ l1, key_equal.call m.current_buckets.keycomp key y.2.1 = false) ∧
          key_equal.call m.current_buckets.keycomp key x.2.1 = true ∧
          ∃ m2, m.erase fuel key = some (1, m2) ∧
            well_formed m2 (cs.set (m.current_buckets.bucket_index key) (l1 ++ l2)) ∧
            m2.current_buckets =
              { m.current_buckets with node_count := m.current_buckets.node_count - 1 } ∧
            m2.heap.length = m.heap.length)) := by
  obtain ⟨h, hk⟩ := hwf
  obtain ⟨s, c, hb, hc⟩ := h.get (bucket_index_lt h key)
  obtain ⟨p, rfl⟩ := find_fuel_pos hfind
  have hf := find_of_ne_none h key hb hc hfind
  refine ⟨c, hc, ?_⟩
  rcases chain_cases (key_equal.call m.current_buckets.keycomp key) c with
    hmiss | ⟨l1, x, l2, rfl, h1, h2⟩
  · left
    exact ⟨hmiss, erase_loop_miss h key hb hc hmiss hf p⟩
  · right
    refine ⟨l1, x, l2, rfl, h1, h2, _, erase_loop_hit h key hb hc h1 h2 hf p,
      ⟨erase_hit_represents h hb hc, ?_⟩, rfl, by simp [atomic_store_length]⟩
    intro laws
    have hcv := chain_values_getElem? hc
    rw [List.map_append, List.map_cons] at hcv
    have hv := keys_placed_erase (hk laws) hcv
    rw [chain_values_set]
    refine keys_placed_congr (l := m.current_buckets) ?_ rfl rfl rfl
    simpa using hv

end steps

section steps2
variable {K V H E A : Type}

theorem rehash_chains_placed [hasher H K] (hash : H) (n : Nat) (r : List (Nat × (K × V))) :
    ∀ (cs : List (List (Nat × (K × V)))) (b : Nat) (c : List (Nat × (K × V)))
      (x : Nat × (K × V)), (rehash_chains hash n cs r)[b]? = some c → x ∈ c →
      (∃ c0, cs[b]? = some c0 ∧ x ∈ c0) ∨ hasher.call hash x.2.1 % n = b := by
  induction r with
  | nil =>
    intro cs b c x hb hx
    exact Or.inl ⟨c, hb, hx⟩
  | cons x0 r ih =>
    intro cs b c x hb hx
    simp only [rehash_chains, List.foldl_cons] at ih hb
    rcases ih _ b c x hb hx with ⟨c0, hc0, hx0⟩ | hp
    · simp only [push_front] at hc0
      by_cases e : hasher.call hash x0.2.1 % n = b
      · subst e
        have hlt : hasher.call hash x0.2.1 % n < cs.length := by
          by_contra hc
          rw [List.set_eq_of_length_le (Nat.le_of_not_lt hc),
            List.getElem?_eq_none (Nat.le_of_not_lt hc)] at hc0
          simp at hc0
        rw [List.getElem?_set_self hlt] at hc0
        cases hc0
        rcases List.mem_cons.mp hx0 with rfl | hx0
        · exact Or.inr rfl
        · refine Or.inl ⟨_, List.getElem?_eq_getElem hlt, ?_⟩
          simpa [List.getElem?_eq_getElem hlt] using hx0
      · rw [List.getElem?_set_ne e] at hc0
        exact Or.inl ⟨c0, hc0, hx0⟩
    · exact Or.inr hp

theorem create_well_formed [hasher H K] [key_equal E K] (heap : List (node K V))
    {bucket_count : Nat} (hpos : 0 < bucket_count) (hash : H) (keycomp : E) (allocator : A) :
    well_formed (hash_map.create heap bucket_count hash keycomp allocator)
      (List.replicate bucket_count []) := by
  refine ⟨create_represents heap hpos hash keycomp allocator, fun _ => ?_⟩
  simp only [chain_values, List.map_replicate, List.map_nil]
  exact keys_placed_replicate _ _

theorem clear_well_formed [hasher H K] [key_equal E K] {m : hash_map K V H E A}
    {cs : List (List (Nat × (K × V)))} (h : represents m.heap m.current_buckets cs) :
    well_formed m.clear (List.replicate m.current_buckets.bucket_count []) :=
  create_well_formed m.heap h.count_pos _ _ _

theorem rehash_well_formed [hasher H K] [key_equal E K] {m m2 : hash_map K V H E A}
    {cs : List (List (Nat × (K × V)))} (hwf : well_formed m cs) {fuel n : Nat} (hpos : 0 < n)
    (hne : n ≠ m.current_buckets.bucket_count) (h : m.rehash fuel n = some m2) :
    well_formed m2
      (rehash_chains m.current_buckets.hash n (List.replicate n []) cs.flatten) ∧
    m2.current_buckets.bucket_count = n ∧
    m2.current_buckets.hash = m.current_buckets.hash ∧
    m2.current_buckets.keycomp = m.current_buckets.keycomp ∧
    m2.current_buckets.allocator = m.current_buckets.allocator := by
  obtain ⟨hr, hk⟩ := hwf
  have hmono := rehash_mono_add fuel (cs.flatten.length + 1) m m2 n h
  obtain ⟨m3, g1, g2, g3, g4, g5, g6⟩ := rehash_spec hr hpos hne
    (show cs.flatten.length < fuel + (cs.flatten.length + 1) by omega)
  rw [hmono] at g1
  cases g1
  refine ⟨⟨g2, ?_⟩, g3, g4, g5, g6⟩
  intro laws
  rw [g4, g5] at laws
  have hperm := rehash_chains_perm m.current_buckets.hash hpos cs.flatten
    (List.replicate n []) (by simp)
  simp only [List.flatten_replicate_nil, List.append_nil] at hperm
  refine ⟨?_, ?_⟩
  · intro b c y hb hy
    simp only [chain_values, List.getElem?_map] at hb
    cases hc : (rehash_chains m.current_buckets.hash n (List.replicate n []) cs.flatten)[b]? with
    | none => simp [hc] at hb
    | some c0 =>
      simp only [hc, Option.map_some', Option.some.injEq] at hb
      subst hb
      obtain ⟨x, hx, rfl⟩ := List.mem_map.mp hy
      rcases rehash_chains_placed _ _ _ _ b c0 x hc hx with ⟨c1, hc1, hx1⟩ | hp
      · have := (List.mem_replicate.mp (List.getElem?_mem hc1)).2
        subst this
        simp at hx1
      · simpa [fixed_size_bucket_list.bucket_index, g3, g4] using hp
  · rw [chain_values_flatten, g5]
    have hsym : ∀ {x y : K × V}, key_equal.call m.current_buckets.keycomp x.1 y.1 = false →
        key_equal.call m.current_buckets.keycomp y.1 x.1 = false :=
      fun hxy => laws.symm_false hxy
    rw [(hperm.map Prod.snd).pairwise_iff hsym, ← chain_values_flatten]
    exact (hk laws).unique

theorem copy_well_formed [hasher H K] [key_equal E K] {m m2 : hash_map K V H E A}
    {cs : List (List (Nat × (K × V)))} (hwf : well_formed m cs) {fuel : Nat}
    (h : m.copy fuel = some m2) :
    ∃ ccs extra, well_formed m2 ccs ∧ chain_values ccs = chain_values cs ∧
      m2.heap = m.heap ++ extra ∧
      (∀ q ∈ m2.current_buckets.buckets.map bucket.sentinel ++ ccs.flatten.map Prod.fst,
        m.heap.length ≤ q) ∧
      m2.current_buckets.bucket_count = m.current_buckets.bucket_count ∧
      m2.current_buckets.hash = m.current_buckets.hash ∧
      m2.current_buckets.keycomp = m.current_buckets.keycomp ∧
      m2.current_buckets.allocator = m.current_buckets.allocator := by
  obtain ⟨hr, hk⟩ := hwf
  have hmono := copy_mono_add fuel (cs.flatten.length + 1) m m2 h
  obtain ⟨m3, ccs, extra, g1, g2, g3, g4, g5, g6, g7, g8, g9⟩ := copy_spec hr
    (show cs.flatten.length < fuel + (cs.flatten.length + 1) by omega)
  rw [hmono] at g1
  cases g1
  refine ⟨ccs, extra, ⟨g3, ?_⟩, g4, g2, g5, g6, g7, g8, g9⟩
  intro laws
  rw [g7, g8] at laws
  have : chain_values ccs = chain_values cs := g4
  rw [this]
  exact keys_placed_congr (hk laws) g7 g8 g6

theorem copy_total {m : hash_map K V H E A} {cs : List (List (Nat × (K × V)))}
    (hr : represents m.heap m.current_buckets cs) {fuel : Nat} (hf : m.size < fuel) :
    ∃ m2, m.copy fuel = some m2 := by
  obtain ⟨m3, ccs, extra, g1, -⟩ := copy_spec hr
    (show cs.flatten.length < fuel by rw [← hr.node_count]; exact hf)
  exact ⟨m3, g1⟩

theorem subscript_insert [hasher H K] [key_equal E K] [Inhabited V]
    {m m2 : hash_map K V H E A} {fuel : Nat} {key : K} {v : V}
    (h : m.subscript fuel key = some (v, m2)) :
    ∃ r, m.insert fuel (key, default) = some (r, m2) := by
  unfold hash_map.subscript at h
  split at h
  · exact absurd h (by simp)
  · rename_i r m1 hr
    cases hd : m1.deref r.2 with
    | none => simp [hd] at h
    | some w =>
      simp only [hd, Option.map_some', Option.some.injEq, Prod.mk.injEq] at h
      exact ⟨r, by rw [hr, h.2]⟩

theorem erase_pos_erase [hasher H K] [key_equal E K] {m m2 : hash_map K V H E A}
    {fuel : Nat} {pos it : iterator} (h : m.erase_pos fuel pos = some (it, m2)) :
    ∃ key n, m.erase fuel key = some (n, m2) := by
  unfold hash_map.erase_pos at h
  split at h
  · exact absurd h (by simp)
  · split at h
    · exact absurd h (by simp)
    · rename_i v hv
      cases he : m.erase fuel v.1 with
      | none => simp [he] at h
      | some r =>
        simp only [he, Option.map_some', Option.some.injEq, Prod.mk.injEq] at h
        exact ⟨v.1, r.1, by rw [he, ← h.2]⟩

/-- Every reachable state is well formed. -/
theorem reachable_well_formed [hasher H K] [key_equal E K] [Inhabited V]
    {m : hash_map K V H E A} (h : reachable m) : ∃ cs, well_formed m cs := by
  induction h with
  | create heap n hpos hash keycomp allocator =>
    exact ⟨_, create_well_formed heap hpos hash keycomp allocator⟩
  | insert fuel value r _ hi ih =>
    obtain ⟨cs, hwf⟩ := ih
    obtain ⟨c, -, hcase⟩ := insert_cases hwf value (insert_find_ne_none hi)
    rcases hcase with ⟨-, m3, g1, g2, -⟩ | ⟨l1, x, l2, -, -, -, g1⟩
    · rw [hi] at g1
      cases g1
      exact ⟨_, g2⟩
    · rw [hi] at g1
      cases g1
      exact ⟨cs, hwf⟩
  | insert_or_assign fuel key mapped it _ hi ih =>
    obtain ⟨cs, hwf⟩ := ih
    obtain ⟨c, -, hcase⟩ := insert_or_assign_cases hwf key mapped
      (insert_or_assign_find_ne_none hi)
    rcases hcase with ⟨-, m3, g1, g2, -⟩ | ⟨l1, x, l2, -, -, -, m3, g1, g2, -⟩
    · rw [hi] at g1
      cases g1
      exact ⟨_, g2⟩
    · rw [hi] at g1
      cases g1
      exact ⟨_, g2⟩
  | subscript fuel key v _ hi ih =>
    obtain ⟨cs, hwf⟩ := ih
    obtain ⟨r, hi⟩ := subscript_insert hi
    obtain ⟨c, -, hcase⟩ := insert_cases hwf (key, default) (insert_find_ne_none hi)
    rcases hcase with ⟨-, m3, g1, g2, -⟩ | ⟨l1, x, l2, -, -, -, g1⟩
    · rw [hi] at g1
      cases g1
      exact ⟨_, g2⟩
    · rw [hi] at g1
      cases g1
      exact ⟨cs, hwf⟩
  | erase fuel key n _ hi ih =>
    obtain ⟨cs, hwf⟩ := ih
    obtain ⟨c, -, hcase⟩ := erase_cases hwf key (erase_find_ne_none hi)
    rcases hcase with ⟨-, g1⟩ | ⟨l1, x, l2, -, -, -, m3, g1, g2, -⟩
    · rw [hi] at g1
      cases g1
      exact ⟨cs, hwf⟩
    · rw [hi] at g1
      cases g1
      exact ⟨_, g2⟩
  | erase_pos fuel pos it _ hi ih =>
    obtain ⟨cs, hwf⟩ := ih
    obtain ⟨key, n, hi⟩ := erase_pos_erase hi
    obtain ⟨c, -, hcase⟩ := erase_cases hwf key (erase_find_ne_none hi)
    rcases hcase with ⟨-, g1⟩ | ⟨l1, x, l2, -, -, -, m3, g1, g2, -⟩
    · rw [hi] at g1
      cases g1
      exact ⟨cs, hwf⟩
    · rw [hi] at g1
      cases g1
      exact ⟨_, g2⟩
  | clear _ ih =>
    obtain ⟨cs, hwf⟩ := ih
    exact ⟨_, clear_well_formed hwf.1⟩
  | @rehash m1 m3 fuel n hpos _ hi ih =>
    obtain ⟨cs, hwf⟩ := ih
    by_cases hne : n = m1.current_buckets.bucket_count
    · simp only [hash_map.rehash, if_pos hne, Option.some.injEq] at hi
      subst hi
      exact ⟨cs, hwf⟩
    · exact ⟨_, (rehash_well_formed hwf hpos hne hi).1⟩
  | copy fuel _ hi ih =>
    obtain ⟨cs, hwf⟩ := ih
    obtain ⟨ccs, extra, g, -⟩ := copy_well_formed hwf hi
    exact ⟨ccs, g⟩

end steps2

/-! ## What the observers return on a represented store -/

section observers
variable {K V H E A : Type}

theorem deref_all_eq {m : hash_map K V H E A} {cs : List (List (Nat × (K × V)))}
    (h : represents m.heap m.current_buckets cs) (l : List (Nat × (K × V)))
    (hl : ∀ x ∈ l, x ∈ cs.flatten) :
    m.deref_all (l.map (fun x => some x.1)) = some (l.map Prod.snd) := by
  induction l with
  | nil => rfl
  | cons x rest ih =>
    have h1 := deref_mem h (hl x (List.mem_cons_self _ _))
    have h2 := ih (fun y hy => hl y (List.mem_cons_of_mem _ hy))
    simp [hash_map.deref_all, h1, h2]

theorem elements_eq {m : hash_map K V H E A} {cs : List (List (Nat × (K × V)))}
    (h : represents m.heap m.current_buckets cs) {fuel : Nat}
    (hf : m.size + m.bucket_count < fuel) :
    m.elements fuel = some (cs.flatten.map Prod.snd) := by
  have hf2 : cs.flatten.length + m.current_buckets.bucket_count < fuel := by
    rw [← h.node_count]; exact hf
  simp only [hash_map.elements, global_range_eq h hf2]
  exact deref_all_eq h _ (fun _ hx => hx)

theorem chain_length_lt {m : hash_map K V H E A} {cs : List (List (Nat × (K × V)))}
    (h : represents m.heap m.current_buckets cs) {b : Nat} {c : List (Nat × (K × V))}
    (hc : cs[b]? = some c) {fuel : Nat} (hf : m.size < fuel) : c.length < fuel := by
  have h1 := length_le_flatten hc
  have h2 := h.node_count
  simp only [hash_map.size] at hf
  omega

theorem bucket_elements_eq {m : hash_map K V H E A} {cs : List (List (Nat × (K × V)))}
    (h : represents m.heap m.current_buckets cs) {b : Nat} {c : List (Nat × (K × V))}
    (hc : cs[b]? = some c) {fuel : Nat} (hf : m.size < fuel) :
    m.bucket_elements fuel b = some (c.map Prod.snd) := by
  simp only [hash_map.bucket_elements, local_range_eq h hc (chain_length_lt h hc hf)]
  exact deref_all_eq h _ (fun _ hx => mem_flatten_of_getElem? hc hx)

theorem holds_iff {m : hash_map K V H E A} {cs : List (List (Nat × (K × V)))}
    (h : represents m.heap m.current_buckets cs) {fuel : Nat}
    (hf : m.size + m.bucket_count < fuel) (v : K × V) :
    m.holds fuel v ↔ ∃ x ∈ cs.flatten, x.2 = v := by
  simp only [hash_map.holds, elements_eq h hf, Option.some.injEq, exists_eq_left',
    List.mem_map]

theorem find_hit [hasher H K] [key_equal E K] {m : hash_map K V H E A}
    {cs : List (List (Nat × (K × V)))} (h : represents m.heap m.current_buckets cs) (key : K)
    {l1 l2 : List (Nat × (K × V))} {x : Nat × (K × V)}
    (hc : cs[m.current_buckets.bucket_index key]? = some (l1 ++ x :: l2))
    (hmiss : ∀ y ∈ l1, key_equal.call m.current_buckets.keycomp key y.2.1 = false)
    (hx : key_equal.call m.current_buckets.keycomp key x.2.1 = true)
    {fuel : Nat} (hf : m.size < fuel) : m.find fuel key = some (some x.1) := by
  obtain ⟨s, c, hb, hc2⟩ := h.get (bucket_index_lt h key)
  rw [hc] at hc2
  cases hc2
  simp only [hash_map.find, find_eq h key hb hc (chain_length_lt h hc hf),
    chain_lookup_of_split _ _ hmiss hx]

theorem find_miss [hasher H K] [key_equal E K] {m : hash_map K V H E A}
    {cs : List (List (Nat × (K × V)))} (h : represents m.heap m.current_buckets cs) (key : K)
    {c : List (Nat × (K × V))}
    (hc : cs[m.current_buckets.bucket_index key]? = some c)
    (hmiss : ∀ y ∈ c, key_equal.call m.current_buckets.keycomp key y.2.1 = false)
    {fuel : Nat} (hf : m.size < fuel) : m.find fuel key = some none := by
  obtain ⟨s, c2, hb, hc2⟩ := h.get (bucket_index_lt h key)
  rw [hc] at hc2
  cases hc2
  simp only [hash_map.find, find_eq h key hb hc (chain_length_lt h hc hf),
    chain_lookup_of_all_false _ _ hmiss, hash_map.cend]

theorem sublist_flatten_of_getElem? {α : Type} {vs : List (List α)} {b : Nat} {c : List α}
    (h : vs[b]? = some c) : c.Sublist vs.flatten := by
  obtain ⟨pre, post, rfl, -⟩ := getElem?_split h
  simp only [List.flatten_append, List.flatten_cons]
  exact (List.sublist_append_left c post.flatten).trans
    (List.sublist_append_right pre.flatten _)

/-- On a chain that holds a node with a key equal to `key`, no other node of the
chain has a key equal to `key`. -/
theorem hit_unique [hasher H K] [key_equal E K] {l : fixed_size_bucket_list H E A}
    {cs : List (List (Nat × (K × V)))} (hk : keys_placed l (chain_values cs))
    (laws : key_laws (K := K) l.hash l.keycomp) (key : K) {b : Nat}
    {l1 l2 : List (Nat × (K × V))} {x : Nat × (K × V)}
    (hc : cs[b]? = some (l1 ++ x :: l2))
    (hx : key_equal.call l.keycomp key x.2.1 = true) :
    ∀ y ∈ l1 ++ l2, key_equal.call l.keycomp key y.2.1 = false := by
  have hsub := sublist_flatten_of_getElem? (chain_values_getElem? hc)
  have hp := List.Pairwise.sublist hsub hk.unique
  simp only [List.map_append, List.map_cons, List.pairwise_append, List.pairwise_cons,
    List.mem_cons, List.mem_map, forall_exists_index, and_imp, forall_eq_or_imp] at hp
  obtain ⟨-, ⟨h2, -⟩, h3⟩ := hp
  intro y hy
  cases hky : key_equal.call l.keycomp key y.2.1 with
  | false => rfl
  | true =>
    exfalso
    rcases List.mem_append.mp hy with hy | hy
    · have h4 := (h3 y.2 y hy rfl).1
      have h5 := laws.trans _ _ _ (laws.symm _ _ hky) hx
      rw [h4] at h5
      exact absurd h5 (by simp)
    · have h4 := h2 y.2 y hy rfl
      have h5 := laws.trans _ _ _ (laws.symm _ _ hx) hky
      rw [h4] at h5
      exact absurd h5 (by simp)

/-- An element with a key equal to `key` stands in the chain of bucket `bucket(key)`,
and it is the only one there with such a key. -/
theorem present_split [hasher H K] [key_equal E K] {m : hash_map K V H E A}
    {cs : List (List (Nat × (K × V)))} (hwf : well_formed m cs)
    (laws : key_laws (K := K) m.current_buckets.hash m.current_buckets.keycomp) (key : K)
    {x : Nat × (K × V)} (hx : x ∈ cs.flatten)
    (hkx : key_equal.call m.current_buckets.keycomp key x.2.1 = true) :
    ∃ l1 l2, cs[m.current_buckets.bucket_index key]? = some (l1 ++ x :: l2) ∧
      (∀ y ∈ l1, key_equal.call m.current_buckets.keycomp key y.2.1 = false) ∧
      (∀ y ∈ l2, key_equal.call m.current_buckets.keycomp key y.2.1 = false) := by
  obtain ⟨h, hk⟩ := hwf
  obtain ⟨b, c, hb, hxc⟩ := mem_flatten_getElem? hx
  have hbe : b = m.current_buckets.bucket_index key := by
    by_contra hne
    have := (hk laws).other_bucket laws key (chain_values_getElem? hb)
      (List.mem_map_of_mem Prod.snd hxc) hne
    rw [hkx] at this
    exact absurd this (by simp)
  subst hbe
  obtain ⟨l1, l2, rfl⟩ := List.append_of_mem hxc
  have hu := hit_unique (hk laws) laws key hb hkx
  exact ⟨l1, l2, hb, fun y hy => hu y (List.mem_append_left _ hy),
    fun y hy => hu y (List.mem_append_right _ hy)⟩

/-- No element has a key equal to `key`: the chain of bucket `bucket(key)` has none. -/
theorem absent_chain [hasher H K] [key_equal E K] {m : hash_map K V H E A}
    {cs : List (List (Nat × (K × V)))}
    (habsent : ∀ x ∈ cs.flatten, key_equal.call m.current_buckets.keycomp key x.2.1 = false)
    {b : Nat} {c : List (Nat × (K × V))} (hc : cs[b]? = some c) :
    ∀ y ∈ c, key_equal.call m.current_buckets.keycomp key y.2.1 = false :=
  fun y hy => habsent y (mem_flatten_of_getElem? hc hy)

theorem example_key_laws :
    key_laws (K := Nat) example_map.current_buckets.hash example_map.current_buckets.keycomp := by
  refine ⟨?_, ?_, ?_, ?_⟩
  · intro a; simp [key_equal.call]
  · intro a b h; simp [key_equal.call] at h ⊢; exact h.symm
  · intro a b c h1 h2; simp [key_equal.call] at h1 h2 ⊢; exact h1.trans h2
  · intro a b h; simp [key_equal.call] at h; simp [hasher.call, h]

theorem example_reachable : reachable example_map := by
  have h0 : reachable example_empty := reachable.create [] 3 (by decide) identity_hash.mk equal_to.mk ()
  have h1 : reachable (example_insert example_empty (1, 10)) :=
    reachable.insert 10 (1, 10) (true, some 3) h0 (by rfl)
  have h2 : reachable (example_insert (example_insert example_empty (1, 10)) (4, 40)) :=
    reachable.insert 10 (4, 40) (true, some 4) h1 (by rfl)
  have h3 : reachable (example_insert (example_insert (example_insert example_empty (1, 10))
      (4, 40)) (2, 20)) :=
    reachable.insert 10 (2, 20) (true, some 5) h2 (by rfl)
  exact reachable.insert 10 (7, 70) (true, some 6) h3 (by rfl)

theorem example_elements :
    example_map.elements 10 = some [(1, 10), (4, 40), (7, 70), (2, 20)] := by rfl

theorem mismatch_self {α : Type} [BEq α] (hrefl : ∀ a : α, (a == a) = true) (l : List α) :
    mismatch l l = ([], []) := by
  induction l with
  | nil => rfl
  | cons a rest ih => simp [mismatch, hrefl a, ih]

theorem is_permutation_self {α : Type} [BEq α] (hrefl : ∀ a : α, (a == a) = true)
    (l : List α) : is_permutation l l = true := by
  simp [is_permutation, mismatch_self hrefl, is_permutation_loop]

theorem chain_values_length_eq {cs ccs : List (List (Nat × (K × V)))}
    (hv : chain_values ccs = chain_values cs) : ccs.flatten.length = cs.flatten.length := by
  have h1 := congrArg (fun l => l.flatten.length) hv
  simp only [chain_values_flatten, List.length_map] at h1
  exact h1

theorem chain_values_get_eq {cs ccs : List (List (Nat × (K × V)))}
    (hv : chain_values ccs = chain_values cs) {b : Nat} {c : List (Nat × (K × V))}
    (hc : cs[b]? = some c) : ∃ c2, ccs[b]? = some c2 ∧ c2.map Prod.snd = c.map Prod.snd := by
  have h1 := chain_values_getElem? hc
  rw [← hv] at h1
  simp only [chain_values, List.getElem?_map] at h1
  cases h2 : ccs[b]? with
  | none => simp [h2] at h1
  | some c2 =>
    simp only [h2, Option.map_some', Option.some.injEq] at h1
    exact ⟨c2, rfl, h1⟩

theorem equal_buckets_same_values [BEq K] [BEq V] (hrefl : ∀ a : K × V, (a == a) = true)
    {a b : hash_map K V H E A} {cs ccs : List (List (Nat × (K × V)))}
    (ha : represents a.heap a.current_buckets cs)
    (hb : represents b.heap b.current_buckets ccs)
    (hv : chain_values ccs = chain_values cs) {fuel : Nat} (hf : a.size < fuel)
    (bs : List Nat) (hbs : ∀ i ∈ bs, i < a.current_buckets.bucket_count) :
    hash_map.equal_buckets fuel a b bs = some true := by
  have hsize : b.size = a.size := by
    simp only [hash_map.size, ha.node_count, hb.node_count]
    exact chain_values_length_eq hv
  induction bs with
  | nil => rfl
  | cons i rest ih =>
    obtain ⟨s, c, -, hc⟩ := ha.get (hbs i (List.mem_cons_self _ _))
    obtain ⟨c2, hc2, hmap⟩ := chain_values_get_eq hv hc
    have hlen : c2.length = c.length := by
      have := congrArg List.length hmap
      simpa using this
    have h1 := bucket_size_eq ha hc (chain_length_lt ha hc hf)
    have h2 := bucket_size_eq hb hc2 (chain_length_lt hb hc2 (by rw [hsize]; exact hf))
    have h3 := bucket_elements_eq ha hc hf
    have h4 := bucket_elements_eq hb hc2 (by rw [hsize]; exact hf)
    rw [hash_map.equal_buckets]
    simp only [h1, h2, hlen, bne_self_eq_false, Bool.false_eq_true, if_false, h3, h4, hmap,
      is_permutation_self hrefl, Bool.not_true]
    exact ih (fun j hj => hbs j (List.mem_cons_of_mem _ hj))

/-- Two maps whose buckets hold the same sequences of values compare equal. -/
theorem operator_eq_same_values [hasher H K] [BEq K] [BEq V]
    (hrefl : ∀ a : K × V, (a == a) = true) {a b : hash_map K V H E A}
    {cs ccs : List (List (Nat × (K × V)))}
    (ha : represents a.heap a.current_buckets cs)
    (hb : represents b.heap b.current_buckets ccs)
    (hv : chain_values ccs = chain_values cs)
    (hcount : b.current_buckets.bucket_count = a.current_buckets.bucket_count)
    {fuel : Nat} (hf : a.size + a.bucket_count < fuel) (same_object : Bool) :
    hash_map.operator_eq fuel same_object a b = some true := by
  have hsize : b.size = a.size := by
    simp only [hash_map.size, ha.node_count, hb.node_count]
    exact chain_values_length_eq hv
  have he1 := elements_eq ha hf
  have he2 := elements_eq hb
    (show b.size + b.bucket_count < fuel by
      rw [hsize]; simpa [hash_map.bucket_count, hcount] using hf)
  have hvals : ccs.flatten.map Prod.snd = cs.flatten.map Prod.snd := by
    rw [← chain_values_flatten, ← chain_values_flatten, hv]
  unfold hash_map.operator_eq
  split
  · rfl
  · rw [hsize]
    simp only [bne_self_eq_false, Bool.false_eq_true, if_false]
    split
    · exact equal_buckets_same_values hrefl ha hb hv (by omega) _
        (fun i hi => List.mem_range.mp hi)
    · simp only [he1, he2, hvals, is_permutation_self hrefl]

theorem insert_hit [hasher H K] [key_equal E K] {m : hash_map K V H E A}
    {cs : List (List (Nat × (K × V)))} (h : represents m.heap m.current_buckets cs)
    (value : K × V) {l1 l2 : List (Nat × (K × V))} {x : Nat × (K × V)}
    (hc : cs[m.current_buckets.bucket_index value.1]? = some (l1 ++ x :: l2))
    (hmiss : ∀ y ∈ l1, key_equal.call m.current_buckets.keycomp value.1 y.2.1 = false)
    (hx : key_equal.call m.current_buckets.keycomp value.1 x.2.1 = true)
    {fuel : Nat} (hf : m.size < fuel) :
    m.insert fuel value = some ((false, some x.1), m) := by
  obtain ⟨s, c, hb, hc2⟩ := h.get (bucket_index_lt h value.1)
  rw [hc] at hc2
  cases hc2
  obtain ⟨p, rfl⟩ : ∃ p, fuel = p + 1 := ⟨fuel - 1, by omega⟩
  exact insert_loop_hit h value hb hc hmiss hx
    (find_eq h value.1 hb hc (chain_length_lt h hc hf)) p

theorem erase_hit [hasher H K] [key_equal E K] {m : hash_map K V H E A}
    {cs : List (List (Nat × (K × V)))} (h : represents m.heap m.current_buckets cs)
    (key : K) {l1 l2 : List (Nat × (K × V))} {x : Nat × (K × V)}
    (hc : cs[m.current_buckets.bucket_index key]? = some (l1 ++ x :: l2))
    (hmiss : ∀ y ∈ l1, key_equal.call m.current_buckets.keycomp key y.2.1 = false)
    (hx : key_equal.call m.current_buckets.keycomp key x.2.1 = true)
    {fuel : Nat} (hf : m.size < fuel) :
    ∃ m2, m.erase fuel key = some (1, m2) ∧
      represents m2.heap m2.current_buckets
        (cs.set (m.current_buckets.bucket_index key) (l1 ++ l2)) ∧
      m2.current_buckets =
        { m.current_buckets with node_count := m.current_buckets.node_count - 1 } := by
  obtain ⟨s, c, hb, hc2⟩ := h.get (bucket_index_lt h key)
  rw [hc] at hc2
  cases hc2
  obtain ⟨p, rfl⟩ : ∃ p, fuel = p + 1 := ⟨fuel - 1, by omega⟩
  exact ⟨_, erase_loop_hit h key hb hc hmiss hx
    (find_eq h key hb hc (chain_length_lt h hc hf)) p, erase_hit_represents h hb hc, rfl⟩

theorem flatten_set_eq {α : Type} {cs : List (List α)} {b : Nat} {c : List α} (c2 : List α)
    (h : cs[b]? = some c) :
    (cs.set b c2).flatten = (cs.take b).flatten ++ c2 ++ (cs.drop (b + 1)).flatten := by
  obtain ⟨pre, post, rfl, rfl⟩ := getElem?_split h
  rw [set_split]
  have h1 : List.take pre.length (pre ++ c :: post) = pre := by
    rw [List.take_append_eq_append_take]; simp
  have h2 : List.drop (pre.length + 1) (pre ++ c :: post) = post := by
    rw [List.drop_append_eq_append_drop]
    simp [List.drop_eq_nil_of_le]
  rw [h1, h2]
  simp

theorem at_hit [hasher H K] [key_equal E K] {m : hash_map K V H E A}
    {cs : List (List (Nat × (K × V)))} (h : represents m.heap m.current_buckets cs) (key : K)
    {l1 l2 : List (Nat × (K × V))} {x : Nat × (K × V)}
    (hc : cs[m.current_buckets.bucket_index key]? = some (l1 ++ x :: l2))
    (hmiss : ∀ y ∈ l1, key_equal.call m.current_buckets.keycomp key y.2.1 = false)
    (hx : key_equal.call m.current_buckets.keycomp key x.2.1 = true)
    {fuel : Nat} (hf : m.size < fuel) : m.at fuel key = some (Except.ok x.2.2, m) := by
  have hxm : x ∈ cs.flatten := mem_flatten_of_getElem? hc (by simp)
  simp [hash_map.at, find_hit h key hc hmiss hx hf, hash_map.cend, deref_mem h hxm]

theorem subscript_hit [hasher H K] [key_equal E K] [Inhabited V] {m : hash_map K V H E A}
    {cs : List (List (Nat × (K × V)))} (h : represents m.heap m.current_buckets cs) (key : K)
    {l1 l2 : List (Nat × (K × V))} {x : Nat × (K × V)}
    (hc : cs[m.current_buckets.bucket_index key]? = some (l1 ++ x :: l2))
    (hmiss : ∀ y ∈ l1, key_equal.call m.current_buckets.keycomp key y.2.1 = false)
    (hx : key_equal.call m.current_buckets.keycomp key x.2.1 = true)
    {fuel : Nat} (hf : m.size < fuel) : m.subscript fuel key = some (x.2.2, m) := by
  have hxm : x ∈ cs.flatten := mem_flatten_of_getElem? hc (by simp)
  simp [hash_map.subscript, insert_hit h (key, default) hc hmiss hx hf, deref_mem h hxm]

theorem head_id_map_headD (R : List (Nat × (K × V))) :
    (R.map (fun x => some x.1)).headD (none : iterator) = head_id R := by
  cases R <;> rfl

/-- In a list of elements with pairwise unequal keys, the elements with a key equal
to `key` are at most one; they are one when the list has such an element. -/
theorem filter_key_length [hasher H K] [key_equal E K] {hash : H} {keycomp : E}
    (laws : key_laws (K := K) hash keycomp) (key : K) {es : List (K × V)}
    (hp : es.Pairwise (fun x y => key_equal.call keycomp x.1 y.1 = false)) :
    (es.filter (fun e => key_equal.call keycomp key e.1)).length ≤ 1 ∧
      ((∃ e ∈ es, key_equal.call keycomp key e.1 = true) →
        (es.filter (fun e => key_equal.call keycomp key e.1)).length = 1) := by
  induction es with
  | nil => simp
  | cons a r ih =>
    rw [List.pairwise_cons] at hp
    obtain ⟨ih1, ih2⟩ := ih hp.2
    cases ha : key_equal.call keycomp key a.1 with
    | false =>
      rw [List.filter_cons_of_neg (by simp [ha])]
      refine ⟨ih1, ?_⟩
      rintro ⟨e, he, hke⟩
      rcases List.mem_cons.mp he with rfl | he
      · rw [ha] at hke; exact absurd hke (by simp)
      · exact ih2 ⟨e, he, hke⟩
    | true =>
      have hr : r.filter (fun e => key_equal.call keycomp key e.1) = [] := by
        rw [List.filter_eq_nil_iff]
        intro y hy hky
        have h1 := hp.1 y hy
        have h2 := laws.trans _ _ _ (laws.symm _ _ ha) hky
        rw [h1] at h2
        exact absurd h2 (by simp)
      rw [List.filter_cons_of_pos (by simp [ha]), hr]
      simp

theorem history_reachable [hasher H K] [key_equal E K] [Inhabited V] {since_clear : Bool}
    {m : hash_map K V H E A} {i e : Nat} (h : history since_clear m i e) : reachable m := by
  induction h with
  | create heap n hpos hash keycomp allocator => exact reachable.create heap n hpos hash keycomp allocator
  | insert fuel value r _ hi ih => exact reachable.insert fuel value r ih hi
  | insert_or_assign fuel key mapped found it _ _ hi ih =>
    exact reachable.insert_or_assign fuel key mapped it ih hi
  | subscript fuel key v r _ _ hi ih => exact reachable.subscript fuel key v ih hi
  | erase fuel key n _ hi ih => exact reachable.erase fuel key n ih hi
  | erase_pos fuel pos it v n _ _ _ hi ih => exact reachable.erase_pos fuel pos it ih hi
  | clear _ ih => exact reachable.clear ih
  | rehash fuel n hpos _ hi ih => exact reachable.rehash fuel n hpos ih hi
  | copy fuel _ hi ih => exact reachable.copy fuel ih hi

/-- What `find` returns on a represented store, whenever it returns. -/
theorem find_cases [hasher H K] [key_equal E K] {m : hash_map K V H E A}
    {cs : List (List (Nat × (K × V)))} (h : represents m.heap m.current_buckets cs) (key : K)
    {c : List (Nat × (K × V))} (hc : cs[m.current_buckets.bucket_index key]? = some c)
    {fuel : Nat} (hfind : m.current_buckets.find fuel m.heap key ≠ none) :
    ((∀ y ∈ c, key_equal.call m.current_buckets.keycomp key y.2.1 = false) →
      m.find fuel key = some none) ∧
    (∀ l1 x l2, c = l1 ++ x :: l2 →
      (∀ y ∈ l1, key_equal.call m.current_buckets.keycomp key y.2.1 = false) →
      key_equal.call m.current_buckets.keycomp key x.2.1 = true →
      m.find fuel key = some (some x.1)) := by
  obtain ⟨s, c2, hb, hc2⟩ := h.get (bucket_index_lt h key)
  rw [hc] at hc2
  cases hc2
  constructor
  · intro hmiss
    simp only [hash_map.find, find_of_ne_none h key hb hc hfind,
      chain_lookup_of_all_false _ _ hmiss, hash_map.cend]
  · rintro l1 x l2 rfl hmiss hx
    simp only [hash_map.find, find_of_ne_none h key hb hc hfind,
      chain_lookup_of_split _ _ hmiss hx]

theorem insert_size [hasher H K] [key_equal E K] {m m2 : hash_map K V H E A}
    {cs : List (List (Nat × (K × V)))} (hwf : well_formed m cs) {value : K × V} {fuel : Nat}
    {r : Bool × iterator} (hi : m.insert fuel value = some (r, m2)) :
    m2.size = m.size + if r.1 then 1 else 0 := by
  obtain ⟨c, -, hcase⟩ := insert_cases hwf value (insert_find_ne_none hi)
  rcases hcase with ⟨-, m3, g1, -, g3⟩ | ⟨l1, x, l2, -, -, -, g1⟩
  · rw [hi] at g1
    cases g1
    simp [hash_map.size, g3]
  · rw [hi] at g1
    cases g1
    simp

theorem erase_size [hasher H K] [key_equal E K] {m m2 : hash_map K V H E A}
    {cs : List (List (Nat × (K × V)))} (hwf : well_formed m cs) {key : K} {fuel n : Nat}
    (hi : m.erase fuel key = some (n, m2)) : m2.size + n = m.size := by
  obtain ⟨c, hc, hcase⟩ := erase_cases hwf key (erase_find_ne_none hi)
  rcases hcase with ⟨-, g1⟩ | ⟨l1, x, l2, rfl, -, -, m3, g1, -, g3, -⟩
  · rw [hi] at g1
    cases g1
    rfl
  · rw [hi] at g1
    cases g1
    have h1 := length_le_flatten hc
    have h2 := hwf.1.node_count
    simp only [hash_map.size, g3, List.length_append, List.length_cons] at h1 ⊢
    omega

theorem insert_or_assign_size [hasher H K] [key_equal E K] {m m2 : hash_map K V H E A}
    {cs : List (List (Nat × (K × V)))} (hwf : well_formed m cs) {key : K} {mapped : V}
    {fuel : Nat} {found it : iterator} (hf : m.find fuel key = some found)
    (hi : m.insert_or_assign fuel key mapped = some (it, m2)) :
    m2.size = m.size + if found = m.cend then 1 else 0 := by
  have hfind := insert_or_assign_find_ne_none hi
  obtain ⟨c, hc, hcase⟩ := insert_or_assign_cases hwf key mapped hfind
  obtain ⟨f1, f2⟩ := find_cases hwf.1 key hc hfind
  rcases hcase with ⟨hmiss, m3, g1, -, g3⟩ | ⟨l1, x, l2, hcl, h1, h2, m3, g1, -, g3, -⟩
  · rw [hi] at g1
    cases g1
    rw [f1 hmiss] at hf
    cases hf
    simp [hash_map.size, g3, hash_map.cend]
  · rw [hi] at g1
    cases g1
    rw [f2 l1 x l2 hcl h1 h2] at hf
    cases hf
    simp [hash_map.size, g3, hash_map.cend]

theorem rehash_size [hasher H K] [key_equal E K] {m m2 : hash_map K V H E A}
    {cs : List (List (Nat × (K × V)))} (hwf : well_formed m cs) {fuel n : Nat} (hpos : 0 < n)
    (hi : m.rehash fuel n = some m2) : m2.size = m.size := by
  by_cases hne : n = m.current_buckets.bucket_count
  · simp only [hash_map.rehash, if_pos hne, Option.some.injEq] at hi
    subst hi
    rfl
  · have h2 := (rehash_well_formed hwf hpos hne hi).1.1.node_count
    have hp := (rehash_chains_perm m.current_buckets.hash hpos cs.flatten
      (List.replicate n []) (by simp)).length_eq
    have h1 := hwf.1.node_count
    simp only [List.length_append, List.flatten_replicate_nil, List.length_nil] at hp
    simp only [hash_map.size]
    omega

theorem copy_size [hasher H K] [key_equal E K] {m m2 : hash_map K V H E A}
    {cs : List (List (Nat × (K × V)))} (hwf : well_formed m cs) {fuel : Nat}
    (hi : m.copy fuel = some m2) : m2.size = m.size := by
  obtain ⟨ccs, extra, g, hv, -⟩ := copy_well_formed hwf hi
  have h1 := hwf.1.node_count
  have h2 := g.1.node_count
  have h3 := chain_values_length_eq hv
  simp only [hash_map.size]
  omega

theorem clear_size (m : hash_map K V H E A) : m.clear.size = 0 := by
  simp only [hash_map.size, hash_map.clear, create_fields]

theorem history_size [hasher H K] [key_equal E K] [Inhabited V]
    {m : hash_map K V H E A} {i e : Nat} (h : history true m i e) : m.size + e = i := by
  induction h with
  | create heap n hpos hash keycomp allocator =>
    simp only [hash_map.size, hash_map.create, create_fields]
  | insert fuel value r hh hi ih =>
    obtain ⟨cs, hwf⟩ := reachable_well_formed (history_reachable hh)
    have := insert_size hwf hi
    omega
  | insert_or_assign fuel key mapped found it hh hf hi ih =>
    obtain ⟨cs, hwf⟩ := reachable_well_formed (history_reachable hh)
    have := insert_or_assign_size hwf hf hi
    omega
  | subscript fuel key v r hh hi _ ih =>
    obtain ⟨cs, hwf⟩ := reachable_well_formed (history_reachable hh)
    have := insert_size hwf hi
    omega
  | erase fuel key n hh hi ih =>
    obtain ⟨cs, hwf⟩ := reachable_well_formed (history_reachable hh)
    have := erase_size hwf hi
    omega
  | erase_pos fuel pos it v n hh _ hi _ ih =>
    obtain ⟨cs, hwf⟩ := reachable_well_formed (history_reachable hh)
    have := erase_size hwf hi
    omega
  | clear _ _ => simp [clear_size]
  | rehash fuel n hpos hh hi ih =>
    obtain ⟨cs, hwf⟩ := reachable_well_formed (history_reachable hh)
    have := rehash_size hwf hpos hi
    omega
  | copy fuel hh hi ih =>
    obtain ⟨cs, hwf⟩ := reachable_well_formed (history_reachable hh)
    have := copy_size hwf hi
    omega

theorem example_holds_iff (e : Nat × Nat) :
    example_map.holds 10 e ↔ e ∈ [(1, 10), (4, 40), (7, 70), (2, 20)] := by
  simp only [hash_map.holds, example_elements, Option.some.injEq, exists_eq_left']

theorem example_absent (e : Nat × Nat) (h : example_map.holds 10 e) :
    key_equal.call example_map.current_buckets.keycomp 9 e.1 = false := by
  have h2 := (example_holds_iff e).mp h
  simp only [List.mem_cons, List.mem_singleton, List.not_mem_nil, or_false] at h2
  rcases h2 with rfl | rfl | rfl | rfl <;> rfl

theorem example_present : example_map.holds 10 (4, 40) :=
  (example_holds_iff (4, 40)).mpr (by decide)

theorem example_history : history true example_map 4 0 := by
  have h0 : history true example_empty 0 0 :=
    history.create [] 3 (by decide) identity_hash.mk equal_to.mk ()
  have h1 : history true (example_insert example_empty (1, 10)) 1 0 :=
    history.insert 10 (1, 10) (true, some 3) h0 (by rfl)
  have h2 : history true (example_insert (example_insert example_empty (1, 10)) (4, 40)) 2 0 :=
    history.insert 10 (4, 40) (true, some 4) h1 (by rfl)
  have h3 : history true (example_insert (example_insert (example_insert example_empty (1, 10))
      (4, 40)) (2, 20)) 3 0 :=
    history.insert 10 (2, 20) (true, some 5) h2 (by rfl)
  exact history.insert 10 (7, 70) (true, some 6) h3 (by rfl)

end observers

/-! ## `std::is_permutation` on sequences without equal elements -/

section permutation

variable {α : Type}

theorem forall₂_mem_right {r : α → α → Prop} {p1 p2 : List α} (h : List.Forall₂ r p1 p2)
    {y : α} (hy : y ∈ p2) : ∃ x ∈ p1, r x y := by
  induction h with
  | nil => simp at hy
  | cons hxy _ ih =>
    rcases List.mem_cons.mp hy with rfl | hy
    · exact ⟨_, List.mem_cons_self _ _, hxy⟩
    · obtain ⟨x, hx, hr⟩ := ih hy
      exact ⟨x, List.mem_cons_of_mem _ hx, hr⟩

theorem forall₂_mem_left {r : α → α → Prop} {p1 p2 : List α} (h : List.Forall₂ r p1 p2)
    {x : α} (hx : x ∈ p1) : ∃ y ∈ p2, r x y := by
  induction h with
  | nil => simp at hx
  | cons hxy _ ih =>
    rcases List.mem_cons.mp hx with rfl | hx
    · exact ⟨_, List.mem_cons_self _ _, hxy⟩
    · obtain ⟨y, hy, hr⟩ := ih hx
      exact ⟨y, List.mem_cons_of_mem _ hy, hr⟩

variable [BEq α]

theorem mismatch_split (l1 : List α) :
    ∀ l2 : List α, ∃ p1 p2, l1 = p1 ++ (mismatch l1 l2).1 ∧ l2 = p2 ++ (mismatch l1 l2).2 ∧
      List.Forall₂ (fun x y => (x == y) = true) p1 p2 := by
  induction l1 with
  | nil => intro l2; exact ⟨[], [], by simp [mismatch], by simp [mismatch], List.Forall₂.nil⟩
  | cons a l1 ih =>
    intro l2
    cases l2 with
    | nil => exact ⟨[], [], by simp [mismatch], by simp [mismatch], List.Forall₂.nil⟩
    | cons b l2 =>
      by_cases hab : (a == b) = true
      · obtain ⟨p1, p2, h1, h2, h3⟩ := ih l2
        refine ⟨a :: p1, b :: p2, ?_, ?_, List.Forall₂.cons hab h3⟩
        · simp only [mismatch, if_pos hab, List.cons_append]
          rw [← h1]
        · simp only [mismatch, if_pos hab, List.cons_append]
          rw [← h2]
      · exact ⟨[], [], by simp [mismatch, hab], by simp [mismatch, hab], List.Forall₂.nil⟩

theorem countP_le_one {p : α → Bool} {l : List α}
    (hu : l.Pairwise (fun x y => (x == y) = false))
    (hp : ∀ x y, p x = true → p y = true → (x == y) = true) : l.countP p ≤ 1 := by
  induction l with
  | nil => simp
  | cons a l ih =>
    rw [List.pairwise_cons] at hu
    by_cases ha : p a = true
    · have h0 : l.countP p = 0 := by
        rw [List.countP_eq_zero]
        intro y hy hpy
        have h1 := hu.1 y hy
        rw [hp a y ha hpy] at h1
        exact absurd h1 (by simp)
      rw [List.countP_cons_of_pos _ _ ha, h0]
    · rw [List.countP_cons_of_neg _ _ ha]
      exact ih hu.2

theorem beq_false_symm (hsymm : ∀ a b : α, (a == b) = true → (b == a) = true) {a b : α}
    (h : (a == b) = false) : (b == a) = false := by
  cases hb : (b == a) with
  | false => rfl
  | true =>
    rw [hsymm b a hb] at h
    exact absurd h (by simp)

theorem is_permutation_loop_iff (hrefl : ∀ a : α, (a == a) = true)
    (hsymm : ∀ a b : α, (a == b) = true → (b == a) = true)
    (htrans : ∀ a b c : α, (a == b) = true → (b == c) = true → (a == c) = true)
    {l2 : List α} (hu2 : l2.Pairwise (fun x y => (x == y) = false)) (rest : List α) :
    ∀ seen : List α, (seen ++ rest).Pairwise (fun x y => (x == y) = false) →
      (is_permutation_loop l2 seen rest = true ↔ ∀ a ∈ rest, ∃ y ∈ l2, (y == a) = true) := by
  induction rest with
  | nil => intro seen _; simp [is_permutation_loop]
  | cons a t ih =>
    intro seen hu
    have hu' : ((seen ++ [a]) ++ t).Pairwise (fun x y => (x == y) = false) := by
      simpa using hu
    have hseen : seen.any (fun e => e == a) = false := by
      rw [List.any_eq_false]
      intro e he
      have := (List.pairwise_append.mp hu).2.2 e he a (List.mem_cons_self _ _)
      simp [this]
    have hat := List.pairwise_cons.mp (List.pairwise_append.mp hu).2.1
    have hc1 : (a :: t).countP (fun e => e == a) = 1 := by
      have h0 : t.countP (fun e => e == a) = 0 := by
        rw [List.countP_eq_zero]
        intro y hy
        simp [beq_false_symm hsymm (hat.1 y hy)]
      simp [List.countP_cons, hrefl a, h0]
    have hc2 : l2.countP (fun e => e == a) ≤ 1 :=
      countP_le_one hu2 (fun x y hx hy => htrans x a y hx (hsymm y a hy))
    have hpos : 0 < l2.countP (fun e => e == a) ↔ ∃ y ∈ l2, (y == a) = true :=
      List.countP_pos_iff
    rw [is_permutation_loop]
    simp only [hseen, Bool.false_eq_true, if_false, hc1]
    by_cases hex : ∃ y ∈ l2, (y == a) = true
    · have h1 : l2.countP (fun e => e == a) = 1 := by
        have := hpos.mpr hex
        omega
      simp only [h1]
      rw [if_neg (by simp), ih _ hu']
      constructor
      · intro h b hb
        rcases List.mem_cons.mp hb with rfl | hb
        · exact hex
        · exact h b hb
      · intro h b hb
        exact h b (List.mem_cons_of_mem _ hb)
    · have h0 : l2.countP (fun e => e == a) = 0 := by
        have := mt hpos.mp hex
        omega
      simp only [h0]
      rw [if_pos (by simp)]
      constructor
      · intro h; exact absurd h (by simp)
      · intro h
        exact absurd (h a (List.mem_cons_self _ _)) hex

end permutation

section permutation2

variable {α : Type} [BEq α]

theorem is_permutation_iff (hrefl : ∀ a : α, (a == a) = true)
    (hsymm : ∀ a b : α, (a == b) = true → (b == a) = true)
    (htrans : ∀ a b c : α, (a == b) = true → (b == c) = true → (a == c) = true)
    {l1 l2 : List α} (hu1 : l1.Pairwise (fun x y => (x == y) = false))
    (hu2 : l2.Pairwise (fun x y => (x == y) = false)) :
    is_permutation l1 l2 = true ↔
      l1.length = l2.length ∧ ∀ x ∈ l1, ∃ y ∈ l2, (x == y) = true := by
  obtain ⟨p1, p2, h1, h2, h3⟩ := mismatch_split l1 l2
  have hlen := h3.length_eq
  have hr1 : ((mismatch l1 l2).1).Pairwise (fun x y => (x == y) = false) := by
    rw [h1] at hu1
    exact (List.pairwise_append.mp hu1).2.1
  have hr2 : ((mismatch l1 l2).2).Pairwise (fun x y => (x == y) = false) := by
    rw [h2] at hu2
    exact (List.pairwise_append.mp hu2).2.1
  have hloop := is_permutation_loop_iff hrefl hsymm htrans hr2 (mismatch l1 l2).1 []
    (by simpa using hr1)
  have hl1 : l1.length = p1.length + (mismatch l1 l2).1.length := by
    conv_lhs => rw [h1]
    simp
  have hl2 : l2.length = p2.length + (mismatch l1 l2).2.length := by
    conv_lhs => rw [h2]
    simp
  unfold is_permutation
  simp only [bne_iff_ne, ne_eq, ite_not, Bool.if_false_right, Bool.and_eq_true,
    decide_eq_true_eq]
  rw [hloop]
  constructor
  · rintro ⟨hle, hm⟩
    refine ⟨by omega, ?_⟩
    intro x hx
    rw [h1] at hx
    rcases List.mem_append.mp hx with hx | hx
    · obtain ⟨y, hy, hxy⟩ := forall₂_mem_left h3 hx
      exact ⟨y, by rw [h2]; exact List.mem_append_left _ hy, hxy⟩
    · obtain ⟨y, hy, hyx⟩ := hm x hx
      exact ⟨y, by rw [h2]; exact List.mem_append_right _ hy, hsymm _ _ hyx⟩
  · rintro ⟨hle, hm⟩
    refine ⟨by omega, ?_⟩
    intro a ha
    obtain ⟨y, hy, hay⟩ := hm a (by rw [h1]; exact List.mem_append_right _ ha)
    rw [h2] at hy
    rcases List.mem_append.mp hy with hy | hy
    · exfalso
      obtain ⟨x, hx, hxy⟩ := forall₂_mem_right h3 hy
      have hxa := htrans x y a hxy (hsymm _ _ hay)
      rw [h1] at hu1
      have := (List.pairwise_append.mp hu1).2.2 x hx a ha
      rw [hxa] at this
      exact absurd this (by simp)
    · exact ⟨y, hy, hsymm _ _ hay⟩

/-- Elements of `l1`, pairwise unequal, that each have an equal element in `l2`, are
at most as many as the elements of `l2`. -/
theorem match_length_le (hsymm : ∀ a b : α, (a == b) = true → (b == a) = true)
    (htrans : ∀ a b c : α, (a == b) = true → (b == c) = true → (a == c) = true)
    (l1 : List α) :
    ∀ l2 : List α, l1.Pairwise (fun x y => (x == y) = false) →
      (∀ x ∈ l1, ∃ y ∈ l2, (x == y) = true) → l1.length ≤ l2.length := by
  induction l1 with
  | nil => intro l2 _ _; simp
  | cons x t ih =>
    intro l2 hu hm
    rw [List.pairwise_cons] at hu
    obtain ⟨y, hy, hxy⟩ := hm x (List.mem_cons_self _ _)
    obtain ⟨u, v, rfl⟩ := List.append_of_mem hy
    have hrest : ∀ x2 ∈ t, ∃ y2 ∈ u ++ v, (x2 == y2) = true := by
      intro x2 hx2
      obtain ⟨y2, hy2, hxy2⟩ := hm x2 (List.mem_cons_of_mem _ hx2)
      rcases List.mem_append.mp hy2 with h | h
      · exact ⟨y2, List.mem_append_left _ h, hxy2⟩
      · rcases List.mem_cons.mp h with rfl | h
        · exfalso
          have := hu.1 x2 hx2
          rw [htrans x y2 x2 hxy (hsymm _ _ hxy2)] at this
          exact absurd this (by simp)
        · exact ⟨y2, List.mem_append_right _ h, hxy2⟩
    have := ih (u ++ v) hu.2 hrest
    simp only [List.length_append, List.length_cons] at this ⊢
    omega

/-- When `l1` and `l2` have the same length, the elements of `l1` are pairwise unequal
and each has an equal element in `l2`, every element of `l2` has an equal one in `l1`. -/
theorem match_symm (hsymm : ∀ a b : α, (a == b) = true → (b == a) = true)
    (htrans : ∀ a b c : α, (a == b) = true → (b == c) = true → (a == c) = true)
    (l1 : List α) :
    ∀ l2 : List α, l1.Pairwise (fun x y => (x == y) = false) → l1.length = l2.length →
      (∀ x ∈ l1, ∃ y ∈ l2, (x == y) = true) → ∀ y ∈ l2, ∃ x ∈ l1, (y == x) = true := by
  induction l1 with
  | nil =>
    intro l2 _ hlen _ y hy
    have : l2 = [] := List.eq_nil_of_length_eq_zero (by simpa using hlen.symm)
    subst this
    simp at hy
  | cons x t ih =>
    intro l2 hu hlen hm
    rw [List.pairwise_cons] at hu
    obtain ⟨y0, hy0, hxy⟩ := hm x (List.mem_cons_self _ _)
    obtain ⟨u, v, rfl⟩ := List.append_of_mem hy0
    have hrest : ∀ x2 ∈ t, ∃ y2 ∈ u ++ v, (x2 == y2) = true := by
      intro x2 hx2
      obtain ⟨y2, hy2, hxy2⟩ := hm x2 (List.mem_cons_of_mem _ hx2)
      rcases List.mem_append.mp hy2 with h | h
      · exact ⟨y2, List.mem_append_left _ h, hxy2⟩
      · rcases List.mem_cons.mp h with rfl | h
        · exfalso
          have := hu.1 x2 hx2
          rw [htrans x y2 x2 hxy (hsymm _ _ hxy2)] at this
          exact absurd this (by simp)
        · exact ⟨y2, List.mem_append_right _ h, hxy2⟩
    have hlen2 : t.length = (u ++ v).length := by
      simp only [List.length_append, List.length_cons] at hlen ⊢
      omega
    have hih := ih (u ++ v) hu.2 hlen2 hrest
    intro y hy
    rcases List.mem_append.mp hy with h | h
    · obtain ⟨x2, hx2, h2⟩ := hih y (List.mem_append_left _ h)
      exact ⟨x2, List.mem_cons_of_mem _ hx2, h2⟩
    · rcases List.mem_cons.mp h with rfl | h
      · exact ⟨x, List.mem_cons_self _ _, hsymm _ _ hxy⟩
      · obtain ⟨x2, hx2, h2⟩ := hih y (List.mem_append_right _ h)
        exact ⟨x2, List.mem_cons_of_mem _ hx2, h2⟩

end permutation2

/-! ## `operator==` on two represented maps -/

section comparison

variable {K V H E A : Type}

theorem unique_values [hasher H K] [key_equal E K] [BEq K] [BEq V]
    {l : fixed_size_bucket_list H E A} {cs : List (List (Nat × (K × V)))}
    (hk : keys_placed l (chain_values cs))
    (hc : value_key_consistent (K := K) (V := V) l.keycomp) :
    (cs.flatten.map Prod.snd).Pairwise (fun x y => (x == y) = false) := by
  rw [← chain_values_flatten]
  refine hk.unique.imp ?_
  intro x y hxy
  cases h : (x == y) with
  | false => rfl
  | true =>
    rw [hc x y h] at hxy
    exact absurd hxy (by simp)

theorem unique_bucket_values [hasher H K] [key_equal E K] [BEq K] [BEq V]
    {l : fixed_size_bucket_list H E A} {cs : List (List (Nat × (K × V)))}
    (hk : keys_placed l (chain_values cs))
    (hc : value_key_consistent (K := K) (V := V) l.keycomp) {i : Nat}
    {c : List (Nat × (K × V))} (hi : cs[i]? = some c) :
    (c.map Prod.snd).Pairwise (fun x y => (x == y) = false) :=
  (unique_values hk hc).sublist ((sublist_flatten_of_getElem? hi).map _)

theorem equal_buckets_spec [BEq K] [BEq V] {a b : hash_map K V H E A}
    {csa csb : List (List (Nat × (K × V)))}
    (ha : represents a.heap a.current_buckets csa)
    (hb : represents b.heap b.current_buckets csb)
    (hcount : b.current_buckets.bucket_count = a.current_buckets.bucket_count)
    {fuel : Nat} (hfa : a.size < fuel) (hfb : b.size < fuel) (bs : List Nat) :
    (∀ i ∈ bs, i < a.current_buckets.bucket_count) →
    ∃ r, hash_map.equal_buckets fuel a b bs = some r ∧
      (r = true ↔ ∀ i ∈ bs, ∀ ca cb, csa[i]? = some ca → csb[i]? = some cb →
        ca.length = cb.length ∧ is_permutation (ca.map Prod.snd) (cb.map Prod.snd) = true) := by
  induction bs with
  | nil => intro _; exact ⟨true, rfl, by simp⟩
  | cons i bs ih =>
    intro hbs
    obtain ⟨r, hr, hiff⟩ := ih (fun j hj => hbs j (List.mem_cons_of_mem _ hj))
    have hi := hbs i (List.mem_cons_self _ _)
    obtain ⟨sa, ca, -, hca⟩ := ha.get hi
    obtain ⟨sb, cb, -, hcb⟩ := hb.get (by rw [hcount]; exact hi)
    have e1 := bucket_size_eq ha hca (chain_length_lt ha hca hfa)
    have e2 := bucket_size_eq hb hcb (chain_length_lt hb hcb hfb)
    have e3 := bucket_elements_eq ha hca hfa
    have e4 := bucket_elements_eq hb hcb hfb
    by_cases hlen : ca.length = cb.length
    · by_cases hperm : is_permutation (ca.map Prod.snd) (cb.map Prod.snd) = true
      · refine ⟨r, ?_, ?_⟩
        · simp [hash_map.equal_buckets, e1, e2, e3, e4, hlen, hperm, hr]
        · rw [hiff]
          constructor
          · intro h j hj ca2 cb2 h1 h2
            rcases List.mem_cons.mp hj with rfl | hj
            · rw [hca] at h1; rw [hcb] at h2
              cases h1; cases h2
              exact ⟨hlen, hperm⟩
            · exact h j hj ca2 cb2 h1 h2
          · intro h j hj
            exact h j (List.mem_cons_of_mem _ hj)
      · refine ⟨false, ?_, ?_⟩
        · simp [hash_map.equal_buckets, e1, e2, e3, e4, hlen, hperm]
        · constructor
          · intro h; exact absurd h (by simp)
          · intro h
            exact absurd (h i (List.mem_cons_self _ _) ca cb hca hcb).2 hperm
    · refine ⟨false, ?_, ?_⟩
      · simp [hash_map.equal_buckets, e1, e2, hlen]
      · constructor
        · intro h; exact absurd h (by simp)
        · intro h
          exact absurd (h i (List.mem_cons_self _ _) ca cb hca hcb).1 hlen

end comparison

section comparison2

variable {K V H E A : Type}

theorem mem_values_getElem? {cs : List (List (Nat × (K × V)))} {x : K × V}
    (hx : x ∈ cs.flatten.map Prod.snd) :
    ∃ (i : Nat) (c : List (Nat × (K × V))), cs[i]? = some c ∧ x ∈ c.map Prod.snd := by
  obtain ⟨nx, hnx, rfl⟩ := List.mem_map.mp hx
  obtain ⟨i, c, hi, hmem⟩ := mem_flatten_getElem? hnx
  exact ⟨i, c, hi, List.mem_map_of_mem _ hmem⟩

theorem mem_values_of_getElem? {cs : List (List (Nat × (K × V)))} {x : K × V} {i : Nat}
    {c : List (Nat × (K × V))} (hi : cs[i]? = some c) (hx : x ∈ c.map Prod.snd) :
    x ∈ cs.flatten.map Prod.snd := by
  obtain ⟨nx, hnx, rfl⟩ := List.mem_map.mp hx
  exact List.mem_map_of_mem _ (mem_flatten_of_getElem? hi hnx)

/-- Equal values of two maps with the same hash function and bucket count lie in
buckets of the same index. -/
theorem same_bucket [hasher H K] [key_equal E K] [BEq K] [BEq V]
    {la lb : fixed_size_bucket_list H E A} {csa csb : List (List (Nat × (K × V)))}
    (ka : keys_placed la (chain_values csa)) (kb : keys_placed lb (chain_values csb))
    (laws : key_laws (K := K) la.hash la.keycomp)
    (hca : value_key_consistent (K := K) (V := V) la.keycomp)
    (hhash : ∀ k : K, hasher.call lb.hash k = hasher.call la.hash k)
    (hcount : lb.bucket_count = la.bucket_count) {i j : Nat}
    {ca cb : List (Nat × (K × V))} (hi : csa[i]? = some ca) (hj : csb[j]? = some cb)
    {x y : K × V} (hx : x ∈ ca.map Prod.snd) (hy : y ∈ cb.map Prod.snd)
    (hxy : (x == y) = true) : i = j := by
  have h1 := ka.placed i _ x (chain_values_getElem? hi) hx
  have h2 := kb.placed j _ y (chain_values_getElem? hj) hy
  have h3 := laws.hash_eq _ _ (hca x y hxy)
  simp only [fixed_size_bucket_list.bucket_index] at h1 h2
  rw [← h1, ← h2, hcount, hhash, h3]

/-- Bucket by bucket, two maps with the same hash function and bucket count hold
permutations of equal length exactly when they have the same size and every value of
the first has an equal value in the second. -/
theorem buckets_iff_values [hasher H K] [key_equal E K] [BEq K] [BEq V]
    {la lb : fixed_size_bucket_list H E A} {csa csb : List (List (Nat × (K × V)))}
    (hla : csa.length = la.bucket_count) (hlb : csb.length = lb.bucket_count)
    (ka : keys_placed la (chain_values csa)) (kb : keys_placed lb (chain_values csb))
    (laws : key_laws (K := K) la.hash la.keycomp) (hv : value_laws K V)
    (hca : value_key_consistent (K := K) (V := V) la.keycomp)
    (hcb : value_key_consistent (K := K) (V := V) lb.keycomp)
    (hhash : ∀ k : K, hasher.call lb.hash k = hasher.call la.hash k)
    (hcount : lb.bucket_count = la.bucket_count)
    (hsize : csa.flatten.length = csb.flatten.length) :
    (∀ i ∈ List.range la.bucket_count, ∀ ca cb, csa[i]? = some ca → csb[i]? = some cb →
        ca.length = cb.length ∧
          is_permutation (ca.map Prod.snd) (cb.map Prod.snd) = true) ↔
      ∀ x ∈ csa.flatten.map Prod.snd, ∃ y ∈ csb.flatten.map Prod.snd, (x == y) = true := by
  constructor
  · intro h x hx
    obtain ⟨i, ca, hi, hxc⟩ := mem_values_getElem? hx
    have hlt : i < csa.length := (List.getElem?_eq_some.mp hi).1
    have hlt2 : i < csb.length := by rw [hlb, hcount, ← hla]; exact hlt
    have hj : csb[i]? = some csb[i] := List.getElem?_eq_getElem hlt2
    have hp := (h i (List.mem_range.mpr (by rw [← hla]; exact hlt)) ca _ hi hj).2
    obtain ⟨y, hy, hxy⟩ := ((is_permutation_iff hv.refl hv.symm hv.trans
      (unique_bucket_values ka hca hi) (unique_bucket_values kb hcb hj)).mp hp).2 x hxc
    exact ⟨y, mem_values_of_getElem? hj hy, hxy⟩
  · intro h i _ ca cb hi hj
    have hback := match_symm hv.symm hv.trans _ _ (unique_values ka hca)
      (by rw [List.length_map, List.length_map]; exact hsize) h
    have hfwd : ∀ x ∈ ca.map Prod.snd, ∃ y ∈ cb.map Prod.snd, (x == y) = true := by
      intro x hx
      obtain ⟨y, hy, hxy⟩ := h x (mem_values_of_getElem? hi hx)
      obtain ⟨j, cb2, hj2, hyc⟩ := mem_values_getElem? hy
      have := same_bucket ka kb laws hca hhash hcount hi hj2 hx hyc hxy
      subst this
      rw [hj] at hj2
      cases hj2
      exact ⟨y, hyc, hxy⟩
    have hbwd : ∀ y ∈ cb.map Prod.snd, ∃ x ∈ ca.map Prod.snd, (y == x) = true := by
      intro y hy
      obtain ⟨x, hx, hyx⟩ := hback y (mem_values_of_getElem? hj hy)
      obtain ⟨j, ca2, hi2, hxc⟩ := mem_values_getElem? hx
      have := same_bucket ka kb laws hca hhash hcount hi2 hj hxc hy (hv.symm _ _ hyx)
      subst this
      rw [hi] at hi2
      cases hi2
      exact ⟨x, hxc, hyx⟩
    have h1 := match_length_le hv.symm hv.trans _ _ (unique_bucket_values ka hca hi) hfwd
    have h2 := match_length_le hv.symm hv.trans _ _ (unique_bucket_values kb hcb hj) hbwd
    simp only [List.length_map] at h1 h2
    refine ⟨by omega, ?_⟩
    exact (is_permutation_iff hv.refl hv.symm hv.trans (unique_bucket_values ka hca hi)
      (unique_bucket_values kb hcb hj)).mpr ⟨by simp only [List.length_map]; omega, hfwd⟩

theorem is_bucket_comparable_to_true [hasher H K] {a b : hash_map K V H E A}
    (_hh : hasher_eq_sound H K) (h : a.is_bucket_comparable_to b = true) :
    b.current_buckets.bucket_count = a.current_buckets.bucket_count ∧
      ∀ k : K, hasher.call b.current_buckets.hash k = hasher.call a.current_buckets.hash k := by
  unfold hash_map.is_bucket_comparable_to at h
  split at h <;> exact absurd h (by simp [hash_map.is_bucket_comparable_to_fallback])

/-- What `operator==` returns on two steady maps: `true` exactly when the sizes are
equal and every value of the first map has an equal value in the second. -/
theorem operator_eq_iff [hasher H K] [key_equal E K] [BEq K] [BEq V]
    {a b : hash_map K V H E A} {csa csb : List (List (Nat × (K × V)))}
    (ha : represents a.heap a.current_buckets csa)
    (hb : represents b.heap b.current_buckets csb)
    (ka : keys_placed a.current_buckets (chain_values csa))
    (kb : keys_placed b.current_buckets (chain_values csb))
    (laws : key_laws (K := K) a.current_buckets.hash a.current_buckets.keycomp)
    (hv : value_laws K V)
    (hca : value_key_consistent (K := K) (V := V) a.current_buckets.keycomp)
    (hcb : value_key_consistent (K := K) (V := V) b.current_buckets.keycomp)
    (hh : hasher_eq_sound H K) {fuel : Nat} (hfa : a.size + a.bucket_count < fuel)
    (hfb : b.size + b.bucket_count < fuel) (same_object : Bool)
    (hsame : same_object = true → a = b) :
    ∃ r, hash_map.operator_eq fuel same_object a b = some r ∧
      (r = true ↔ a.size = b.size ∧
        ∀ x ∈ csa.flatten.map Prod.snd, ∃ y ∈ csb.flatten.map Prod.snd, (x == y) = true) := by
  have hsa : a.size = csa.flatten.length := ha.node_count
  have hsb : b.size = csb.flatten.length := hb.node_count
  have ea := elements_eq ha hfa
  have eb := elements_eq hb hfb
  unfold hash_map.operator_eq
  by_cases h1 : (same_object || (a.empty && b.empty)) = true
  · rw [if_pos h1]
    refine ⟨true, rfl, ?_⟩
    simp only [true_iff]
    rcases Bool.or_eq_true _ _ ▸ h1 with h | h
    · have hab := hsame h
      subst hab
      have heq : csa.flatten.map Prod.snd = csb.flatten.map Prod.snd :=
        Option.some.inj (ea.symm.trans eb)
      refine ⟨rfl, ?_⟩
      intro x hx
      exact ⟨x, by rw [← heq]; exact hx, hv.refl x⟩
    · simp only [hash_map.empty, Bool.and_eq_true, beq_iff_eq] at h
      refine ⟨by omega, ?_⟩
      intro x hx
      have : csa.flatten = [] := List.eq_nil_of_length_eq_zero (by omega)
      rw [this] at hx
      simp at hx
  · rw [if_neg h1]
    by_cases h2 : a.size = b.size
    · rw [if_neg (by simp [h2])]
      have hsize : csa.flatten.length = csb.flatten.length := by omega
      by_cases h3 : a.is_bucket_comparable_to b = true
      · rw [if_pos h3]
        obtain ⟨hcount, hhash⟩ := is_bucket_comparable_to_true hh h3
        obtain ⟨r, hr, hiff⟩ := equal_buckets_spec ha hb hcount
          (show a.size < fuel by omega) (show b.size < fuel by omega) (List.range a.current_buckets.bucket_count)
          (fun i hi => List.mem_range.mp hi)
        refine ⟨r, hr, ?_⟩
        rw [hiff, buckets_iff_values ha.chains_length hb.chains_length ka kb laws hv hca hcb
          hhash hcount hsize]
        exact ⟨fun h => ⟨h2, h⟩, fun h => h.2⟩
      · rw [if_neg h3]
        simp only [ea, eb]
        refine ⟨_, rfl, ?_⟩
        rw [is_permutation_iff hv.refl hv.symm hv.trans (unique_values ka hca)
          (unique_values kb hcb)]
        simp only [List.length_map]
        exact ⟨fun h => ⟨h2, h.2⟩, fun h => ⟨hsize, h.2⟩⟩
    · rw [if_pos (by simp [h2])]
      refine ⟨false, rfl, ?_⟩
      constructor
      · intro h; exact absurd h (by simp)
      · intro h; exact absurd h.1 h2

end comparison2

section steady_states

variable {K V H E A : Type}

theorem reachable_steady [hasher H K] [key_equal E K] [Inhabited V] {m : hash_map K V H E A}
    (h : reachable m) : steady m :=
  reachable_well_formed h

theorem example_fill_reachable {H : Type} [hasher H Nat]
    (pairs : List (Nat × Nat)) :
    ∀ m : hash_map Nat Nat H equal_to Unit, reachable m → reachable (example_fill m pairs) := by
  induction pairs with
  | nil => intro m h; exact h
  | cons v rest ih =>
    intro m h
    simp only [example_fill, List.foldl_cons]
    apply ih
    cases hr : m.insert_or_assign 20 v.1 v.2 with
    | none => exact h
    | some r => exact reachable.insert_or_assign 20 v.1 v.2 r.1 h hr

theorem example_five_reachable : reachable example_five :=
  example_fill_reachable _ _ (reachable.create [] 5 (by decide) _ _ _)

theorem example_five_opposite_reachable : reachable example_five_opposite :=
  example_fill_reachable _ _ (reachable.create [] 5 (by decide) _ _ _)

theorem example_seven_opposite_reachable : reachable example_seven_opposite :=
  example_fill_reachable _ _ (reachable.create [] 7 (by decide) _ _ _)

theorem pointer_key_laws (hash : pointer_hash) (keycomp : equal_to) :
    key_laws (K := Nat) hash keycomp := by
  refine ⟨?_, ?_, ?_, ?_⟩
  · intro a; simp [key_equal.call]
  · intro a b h; simp [key_equal.call] at h ⊢; exact h.symm
  · intro a b c h1 h2; simp [key_equal.call] at h1 h2 ⊢; exact h1.trans h2
  · intro a b h; simp [key_equal.call] at h; simp [hasher.call, h]

theorem nat_value_laws : value_laws Nat Nat := by
  refine ⟨?_, ?_, ?_⟩
  · intro a; simp
  · intro a b h; simp only [beq_iff_eq] at h ⊢; exact h.symm
  · intro a b c h1 h2; simp only [beq_iff_eq] at h1 h2 ⊢; exact h1.trans h2

theorem nat_value_key_consistent (keycomp : equal_to) :
    value_key_consistent (K := Nat) (V := Nat) keycomp := by
  intro a b h
  simp only [beq_iff_eq] at h
  simp [key_equal.call, h]

theorem pointer_hasher_eq_sound : hasher_eq_sound pointer_hash Nat := by
  intro eq heq h1 h2 h k
  simp only [hasher.operator_eq, Option.some.injEq] at heq
  subst heq
  simp only [beq_iff_eq] at h
  simp [hasher.call, h]

end steady_states

/-! ## Writes of one map leave the other maps of the store alone -/

section frame

variable {K V H E A : Type}

theorem frames_refl (heap : List (node K V)) (fp : List Nat) : frames heap heap fp :=
  ⟨Nat.le_refl _, fun _ _ _ => ⟨rfl, rfl⟩⟩

theorem frames_append (heap extra : List (node K V)) (fp : List Nat) :
    frames heap (heap ++ extra) fp :=
  ⟨by simp, fun _ hq _ => ⟨atomic_load_append_left _ _ hq, storage_of_append_left _ _ hq⟩⟩

theorem frames_mono {heap heap2 : List (node K V)} {fp fp2 : List Nat}
    (h : frames heap heap2 fp) (hsub : ∀ q ∈ fp, q ∈ fp2) : frames heap heap2 fp2 :=
  ⟨h.1, fun q hq hn => h.2 q hq (fun e => hn (hsub q e))⟩

/-- A write to a node of `fp`, or to a node that `heap` does not have, after writes
that leave the rest of `heap` alone. -/
theorem frames_store {heap heap2 : List (node K V)} {fp : List Nat}
    (h : frames heap heap2 fp) (p : Nat) (v : Option Nat)
    (hp : p ∈ fp ∨ heap.length ≤ p) : frames heap (atomic_store heap2 p v) fp := by
  refine ⟨by rw [atomic_store_length]; exact h.1, ?_⟩
  intro q hq hn
  have hne : q ≠ p := by
    rintro rfl
    rcases hp with hp | hp
    · exact hn hp
    · omega
  rw [atomic_load_store_ne _ _ _ _ hne, storage_of_store]
  exact h.2 q hq hn

theorem frames_trans {heap heap2 heap3 : List (node K V)} {fp : List Nat}
    (h1 : frames heap heap2 fp) (h2 : frames heap2 heap3 fp) : frames heap heap3 fp := by
  refine ⟨Nat.le_trans h1.1 h2.1, ?_⟩
  intro q hq hn
  obtain ⟨a1, a2⟩ := h1.2 q hq hn
  obtain ⟨b1, b2⟩ := h2.2 q (Nat.lt_of_lt_of_le hq h1.1) hn
  exact ⟨b1.trans a1, b2.trans a2⟩

/-- A map whose nodes are none of `fp` is represented after the writes as before. -/
theorem frames_represents {heap heap2 : List (node K V)} {fp : List Nat}
    (h : frames heap heap2 fp) {l : fixed_size_bucket_list H E A}
    {cs : List (List (Nat × (K × V)))} (hr : represents heap l cs)
    (hdis : ∀ q ∈ footprint l cs, q ∉ fp) : represents heap2 l cs :=
  represents_heap_congr hr
    (fun q hq => (h.2 q (hr.footprint_lt q hq) (hdis q hq)).1)
    (fun q hq => (h.2 q (hr.footprint_lt q hq) (hdis q hq)).2)

theorem mem_ids_set {cs : List (List (Nat × (K × V)))} {b : Nat}
    {c2 : List (Nat × (K × V))} {q : Nat}
    (hq : q ∈ (cs.set b c2).flatten.map Prod.fst) :
    q ∈ c2.map Prod.fst ∨ q ∈ cs.flatten.map Prod.fst := by
  obtain ⟨x, hx, rfl⟩ := List.mem_map.mp hq
  obtain ⟨c, hc, hxc⟩ := List.mem_flatten.mp hx
  rcases List.mem_or_eq_of_mem_set hc with hc | rfl
  · exact Or.inr (List.mem_map_of_mem _ (List.mem_flatten.mpr ⟨c, hc, hxc⟩))
  · exact Or.inl (List.mem_map_of_mem _ hxc)

theorem chain_last_footprint {heap : List (node K V)} {l : fixed_size_bucket_list H E A}
    {cs : List (List (Nat × (K × V)))} (_h : represents heap l cs) {b : Nat} {s : bucket}
    {c l1 : List (Nat × (K × V))} (hb : l.buckets[b]? = some s) (hc : cs[b]? = some c)
    (hsub : ∀ x ∈ l1, x ∈ c) : chain_last s.sentinel l1 ∈ footprint l cs := by
  rcases List.mem_cons.mp (chain_last_mem s.sentinel l1) with e | e
  · rw [e]
    exact List.mem_append_left _ (List.mem_map_of_mem _ (List.getElem?_mem hb))
  · obtain ⟨x, hx, hx2⟩ := List.mem_map.mp e
    rw [← hx2]
    exact List.mem_append_right _
      (List.mem_map_of_mem _ (mem_flatten_of_getElem? hc (hsub x hx)))

end frame

section copies

variable {K V H E A : Type}

/-- What copy construction gives on a steady map: a steady copy with the same values
bucket by bucket, in nodes of its own, and the source as it was. -/
theorem copy_facts [hasher H K] [key_equal E K] {s : hash_map K V H E A}
    {cs : List (List (Nat × (K × V)))} (hwf : well_formed s cs) {fuel : Nat}
    (hf : s.size < fuel) :
    ∃ c ccs, s.copy fuel = some c ∧ well_formed c ccs ∧
      chain_values ccs = chain_values cs ∧
      well_formed (s.in_store c.heap) cs ∧
      (∀ q ∈ footprint c.current_buckets ccs, s.heap.length ≤ q) ∧
      (∃ extra, c.heap = s.heap ++ extra) ∧
      c.current_buckets.bucket_count = s.current_buckets.bucket_count ∧
      c.current_buckets.node_count = s.current_buckets.node_count ∧
      c.current_buckets.hash = s.current_buckets.hash ∧
      c.current_buckets.keycomp = s.current_buckets.keycomp ∧
      c.current_buckets.allocator = s.current_buckets.allocator := by
  obtain ⟨c, hcopy⟩ := copy_total hwf.1 hf
  obtain ⟨ccs, extra, g1, g2, g3, g4, g5, g6, g7, g8⟩ := copy_well_formed hwf hcopy
  refine ⟨c, ccs, hcopy, g1, g2, ⟨?_, hwf.2⟩, g4, ⟨extra, g3⟩, g5, ?_, g6, g7, g8⟩
  · simp only [hash_map.in_store, g3]
    exact represents_append hwf.1 extra
  · rw [g1.1.node_count, hwf.1.node_count]
    exact chain_values_length_eq g2

end copies

section copies2

variable {K V H E A : Type}

/-- The copy of a steady map compares equal to its source, has its configuration and
holds the values of its chains bucket by bucket; the source is as it was. -/
theorem copy_contents [hasher H K] [key_equal E K] [BEq K] [BEq V]
    {s : hash_map K V H E A} {cs : List (List (Nat × (K × V)))} (hwf : well_formed s cs)
    (hrefl : ∀ a : K × V, (a == a) = true) {fuel : Nat}
    (hf : s.size + s.bucket_count < fuel) :
    ∃ c, s.copy fuel = some c ∧
      hash_map.operator_eq fuel false c (s.in_store c.heap) = some true ∧
      c.current_buckets.bucket_count = s.current_buckets.bucket_count ∧
      c.current_buckets.node_count = s.current_buckets.node_count ∧
      c.current_buckets.hash = s.current_buckets.hash ∧
      c.current_buckets.keycomp = s.current_buckets.keycomp ∧
      c.current_buckets.allocator = s.current_buckets.allocator ∧
      (∀ (b : Nat) (cb : List (Nat × (K × V))), cs[b]? = some cb →
        c.bucket_elements fuel b = some (cb.map Prod.snd) ∧
        (s.in_store c.heap).bucket_elements fuel b = some (cb.map Prod.snd)) ∧
      c.elements fuel = some (cs.flatten.map Prod.snd) ∧
      (s.in_store c.heap).elements fuel = some (cs.flatten.map Prod.snd) := by
  obtain ⟨c, ccs, hcopy, wc, hv, ws, -, -, hbc, hnc, hh, hk, hal⟩ :=
    copy_facts hwf (show s.size < fuel by omega)
  have hfc : c.size + c.bucket_count < fuel := by
    simp only [hash_map.size, hash_map.bucket_count, hbc, hnc]
    exact hf
  have hfs : (s.in_store c.heap).size + (s.in_store c.heap).bucket_count < fuel := hf
  refine ⟨c, hcopy, ?_, hbc, hnc, hh, hk, hal, ?_, ?_, elements_eq ws.1 hfs⟩
  · exact operator_eq_same_values hrefl wc.1 ws.1 hv.symm hbc.symm hfc false
  · intro b cb hcb
    obtain ⟨c2, hc2, hval⟩ := chain_values_get_eq hv hcb
    refine ⟨?_, ?_⟩
    · rw [bucket_elements_eq wc.1 hc2 (by omega), hval]
    · exact bucket_elements_eq ws.1 hcb (show (s.in_store c.heap).size < fuel by
        have := hfs; omega)
  · rw [elements_eq wc.1 hfc, ← chain_values_flatten, ← chain_values_flatten, hv]

end copies2

section empty_maps

variable {K V H E A : Type}

/-- What the observers return on a steady map without elements. -/
theorem empty_observers [hasher H K] [key_equal E K] {m : hash_map K V H E A}
    {cs : List (List (Nat × (K × V)))} (h : represents m.heap m.current_buckets cs)
    (hsize : m.size = 0) {fuel : Nat} (hf : m.bucket_count < fuel) :
    m.empty = true ∧ m.cbegin = some m.cend ∧ m.elements fuel = some [] ∧
      (∀ b, b < m.bucket_count →
        m.bucket_size fuel b = some 0 ∧ m.bucket_elements fuel b = some []) ∧
      ∀ k, m.find fuel k = some m.cend := by
  have hnil : cs.flatten = [] :=
    List.eq_nil_of_length_eq_zero (by rw [← h.node_count]; exact hsize)
  have hchain : ∀ (b : Nat) (c : List (Nat × (K × V))), cs[b]? = some c → c = [] := by
    intro b c hc
    have := length_le_flatten hc
    rw [hnil] at this
    exact List.eq_nil_of_length_eq_zero (by simpa using this)
  have hpos : 0 < fuel := by omega
  refine ⟨by simp [hash_map.empty, hsize], ?_, ?_, ?_, ?_⟩
  · rw [cbegin_eq h, hnil]; rfl
  · rw [elements_eq h (by omega), hnil]; rfl
  · intro b hb
    obtain ⟨s, c, -, hc⟩ := h.get hb
    have hc0 := hchain b c hc
    subst hc0
    exact ⟨bucket_size_eq h hc (by simpa using hpos),
      bucket_elements_eq h hc (by omega)⟩
  · intro k
    obtain ⟨s, c, -, hc⟩ := h.get (bucket_index_lt h k)
    have hc0 := hchain _ c hc
    subst hc0
    exact find_miss h k hc (by simp) (by omega)

theorem clear_fields (m : hash_map K V H E A) :
    m.clear.current_buckets.bucket_count = m.current_buckets.bucket_count ∧
      m.clear.current_buckets.node_count = 0 ∧
      m.clear.current_buckets.hash = m.current_buckets.hash ∧
      m.clear.current_buckets.keycomp = m.current_buckets.keycomp ∧
      m.clear.current_buckets.allocator = m.current_buckets.allocator := by
  simp only [hash_map.clear, create_fields, and_self]

end empty_maps

section effects

variable {K V H E A : Type}

theorem confined_refl [hasher H K] [key_equal E K] {m : hash_map K V H E A}
    {cs : List (List (Nat × (K × V)))} (hwf : well_formed m cs) : confined m cs m :=
  ⟨frames_refl _ _, cs, hwf, fun _ hq => Or.inl hq⟩

/-- Another map of the store, on nodes of its own, is as it was after a confined call,
and its nodes are none of the map after the call. -/
theorem confined_other [hasher H K] [key_equal E K] {m m2 : hash_map K V H E A}
    {cs : List (List (Nat × (K × V)))} (h : confined m cs m2)
    {l : fixed_size_bucket_list H E A} {ocs : List (List (Nat × (K × V)))}
    (ho : represents m.heap l ocs)
    (hdis : ∀ q ∈ footprint l ocs, q ∉ footprint m.current_buckets cs) :
    represents m2.heap l ocs ∧
      ∃ cs2, well_formed m2 cs2 ∧
        ∀ q ∈ footprint l ocs, q ∉ footprint m2.current_buckets cs2 := by
  obtain ⟨hfr, cs2, hwf2, hsub⟩ := h
  refine ⟨frames_represents hfr ho hdis, cs2, hwf2, ?_⟩
  intro q hq hq2
  rcases hsub q hq2 with e | e
  · exact hdis q hq e
  · exact Nat.lt_irrefl _ (Nat.lt_of_lt_of_le (ho.footprint_lt q hq) e)

theorem insert_miss_confined [hasher H K] [key_equal E K] {m m2 : hash_map K V H E A}
    {cs : List (List (Nat × (K × V)))} (hwf : well_formed m cs) {s : bucket}
    {c : List (Nat × (K × V))} {b : Nat} (hb : m.current_buckets.buckets[b]? = some s)
    (hc : cs[b]? = some c) (value : K × V)
    (hheap : m2.heap = atomic_store
      (atomic_store (m.heap ++ [{ next := none, data_ := .value_type value }]) m.heap.length
        (some s.sentinel)) (chain_last s.sentinel c) (some m.heap.length))
    (hw2 : well_formed m2 (cs.set b (c ++ [(m.heap.length, value)])))
    (hbk : m2.current_buckets.buckets = m.current_buckets.buckets) : confined m cs m2 := by
  refine ⟨?_, _, hw2, ?_⟩
  · rw [hheap]
    exact frames_store (frames_store (frames_append _ _ _) _ _ (Or.inr (Nat.le_refl _))) _ _
      (Or.inl (chain_last_footprint hwf.1 hb hc (fun _ hx => hx)))
  · intro q hq
    simp only [footprint, hbk] at hq ⊢
    rcases List.mem_append.mp hq with hq | hq
    · exact Or.inl (List.mem_append_left _ hq)
    · rcases mem_ids_set hq with e | e
      · simp only [List.map_append, List.map_cons, List.map_nil, List.mem_append,
          List.mem_singleton] at e
        rcases e with e | e
        · obtain ⟨x, hx, rfl⟩ := List.mem_map.mp e
          exact Or.inl (List.mem_append_right _
            (List.mem_map_of_mem _ (mem_flatten_of_getElem? hc hx)))
        · exact Or.inr (by omega)
      · exact Or.inl (List.mem_append_right _ e)

theorem insert_confined [hasher H K] [key_equal E K] {m m2 : hash_map K V H E A}
    {cs : List (List (Nat × (K × V)))} (hwf : well_formed m cs) {value : K × V} {fuel : Nat}
    {r : Bool × iterator} (hi : m.insert fuel value = some (r, m2)) : confined m cs m2 := by
  have hfind := insert_find_ne_none hi
  obtain ⟨s, c, hb, hc⟩ := hwf.1.get (bucket_index_lt hwf.1 value.1)
  obtain ⟨p, rfl⟩ := find_fuel_pos hfind
  have hf := find_of_ne_none hwf.1 value.1 hb hc hfind
  obtain ⟨c0, hc0, hcase⟩ := insert_cases hwf value hfind
  rw [hc] at hc0
  cases hc0
  rcases hcase with ⟨hmiss, m3, g1, g2, g3⟩ | ⟨l1, x, l2, -, -, -, g1⟩
  · have hexp := insert_loop_miss hwf.1 value hb hc hmiss hf p
    have hi2 := hi
    simp only [hash_map.insert, hexp, Option.some.injEq, Prod.mk.injEq] at hi2
    obtain ⟨-, hm2⟩ := hi2
    rw [hi] at g1
    simp only [Option.some.injEq, Prod.mk.injEq] at g1
    obtain ⟨-, rfl⟩ := g1
    exact insert_miss_confined hwf hb hc value (by rw [← hm2]) g2 (by rw [← hm2])
  · rw [hi] at g1
    cases g1
    exact confined_refl hwf

theorem erase_confined [hasher H K] [key_equal E K] {m m2 : hash_map K V H E A}
    {cs : List (List (Nat × (K × V)))} (hwf : well_formed m cs) {key : K} {fuel n : Nat}
    (hi : m.erase fuel key = some (n, m2)) : confined m cs m2 := by
  have hfind := erase_find_ne_none hi
  obtain ⟨s, c, hb, hc⟩ := hwf.1.get (bucket_index_lt hwf.1 key)
  obtain ⟨p, rfl⟩ := find_fuel_pos hfind
  have hf := find_of_ne_none hwf.1 key hb hc hfind
  obtain ⟨c0, hc0, hcase⟩ := erase_cases hwf key hfind
  rw [hc] at hc0
  cases hc0
  rcases hcase with ⟨-, g1⟩ | ⟨l1, x, l2, rfl, h1, h2, m3, g1, g2, g3, -⟩
  · rw [hi] at g1
    cases g1
    exact confined_refl hwf
  · have hexp := erase_loop_hit hwf.1 key hb hc h1 h2 hf p
    have hi2 := hi
    simp only [hash_map.erase, hexp, Option.some.injEq, Prod.mk.injEq] at hi2
    obtain ⟨-, hm2⟩ := hi2
    rw [hi] at g1
    simp only [Option.some.injEq, Prod.mk.injEq] at g1
    obtain ⟨-, rfl⟩ := g1
    refine ⟨?_, _, g2, ?_⟩
    · rw [← hm2]
      refine frames_store (frames_store (frames_refl _ _) _ _ (Or.inl ?_)) _ _ (Or.inl ?_)
      · exact List.mem_append_right _
          (List.mem_map_of_mem _ (mem_flatten_of_getElem? hc (by simp)))
      · exact chain_last_footprint hwf.1 hb hc (fun y hy => List.mem_append_left _ hy)
    · intro q hq
      rw [← hm2] at hq
      simp only [footprint] at hq ⊢
      rcases List.mem_append.mp hq with hq | hq
      · exact Or.inl (List.mem_append_left _ hq)
      · rcases mem_ids_set hq with e | e
        · obtain ⟨y, hy, rfl⟩ := List.mem_map.mp e
          refine Or.inl (List.mem_append_right _
            (List.mem_map_of_mem _ (mem_flatten_of_getElem? hc ?_)))
          rcases List.mem_append.mp hy with hy | hy
          · exact List.mem_append_left _ hy
          · exact List.mem_append_right _ (List.mem_cons_of_mem _ hy)
        · exact Or.inl (List.mem_append_right _ e)

end effects

section effects2

variable {K V H E A : Type}

theorem insert_or_assign_confined [hasher H K] [key_equal E K] {m m2 : hash_map K V H E A}
    {cs : List (List (Nat × (K × V)))} (hwf : well_formed m cs) {key : K} {mapped : V}
    {fuel : Nat} {it : iterator} (hi : m.insert_or_assign fuel key mapped = some (it, m2)) :
    confined m cs m2 := by
  have hfind := insert_or_assign_find_ne_none hi
  obtain ⟨s, c, hb, hc⟩ := hwf.1.get (bucket_index_lt hwf.1 key)
  obtain ⟨p, rfl⟩ := find_fuel_pos hfind
  have hf := find_of_ne_none hwf.1 key hb hc hfind
  obtain ⟨c0, hc0, hcase⟩ := insert_or_assign_cases hwf key mapped hfind
  rw [hc] at hc0
  cases hc0
  rcases hcase with ⟨hmiss, m3, g1, g2, g3⟩ | ⟨l1, x, l2, rfl, h1, h2, m3, g1, g2, g3, g4⟩
  · have hexp := insert_or_assign_loop_miss hwf.1 key mapped hb hc hmiss hf p
    have hi2 := hi
    simp only [hash_map.insert_or_assign, hexp, Option.some.injEq, Prod.mk.injEq] at hi2
    obtain ⟨-, hm2⟩ := hi2
    rw [hi] at g1
    simp only [Option.some.injEq, Prod.mk.injEq] at g1
    obtain ⟨-, rfl⟩ := g1
    exact insert_miss_confined hwf hb hc (key, mapped) (by rw [← hm2]) g2 (by rw [← hm2])
  · have hch := hwf.1.chain _ s _ hb hc
    have hnd := hwf.1.chain_nodup hb hc
    obtain ⟨-, hsx, -⟩ := chain_split_facts hch hnd
    obtain ⟨heap2, ha, hlen, hload, hstor, -⟩ := assign_mapped_spec mapped hsx
    have hi2 := hi
    simp only [hash_map.insert_or_assign, hash_map.insert_or_assign_loop, hf,
      chain_lookup_of_split _ _ h1 h2, ha, Option.some.injEq, Prod.mk.injEq] at hi2
    obtain ⟨-, hm2⟩ := hi2
    rw [hi] at g1
    simp only [Option.some.injEq, Prod.mk.injEq] at g1
    obtain ⟨-, rfl⟩ := g1
    have hxm : x.1 ∈ footprint m.current_buckets cs :=
      List.mem_append_right _ (List.mem_map_of_mem _ (mem_flatten_of_getElem? hc (by simp)))
    refine ⟨?_, _, g2, ?_⟩
    · rw [← hm2]
      refine ⟨by simp [hlen], ?_⟩
      intro q _ hn
      exact ⟨hload q, hstor q (fun e => hn (e ▸ hxm))⟩
    · intro q hq
      rw [g3] at hq
      simp only [footprint] at hq ⊢
      rcases List.mem_append.mp hq with hq | hq
      · exact Or.inl (List.mem_append_left _ hq)
      · rcases mem_ids_set hq with e | e
        · obtain ⟨y, hy, rfl⟩ := List.mem_map.mp e
          refine Or.inl (List.mem_append_right _ ?_)
          rcases List.mem_append.mp hy with hy | hy
          · exact List.mem_map_of_mem _
              (mem_flatten_of_getElem? hc (List.mem_append_left _ hy))
          · rcases List.mem_cons.mp hy with rfl | hy
            · exact List.mem_map.mpr
                ⟨x, mem_flatten_of_getElem? hc (show x ∈ l1 ++ x :: l2 by simp), rfl⟩
            · exact List.mem_map_of_mem _
                (mem_flatten_of_getElem? hc
                  (List.mem_append_right _ (List.mem_cons_of_mem _ hy)))
        · exact Or.inl (List.mem_append_right _ e)

theorem modifies_confined [hasher H K] [key_equal E K] {m m2 : hash_map K V H E A}
    {cs : List (List (Nat × (K × V)))} (hwf : well_formed m cs) {fuel : Nat}
    (h : modifies fuel m m2) : confined m cs m2 := by
  cases h with
  | insert value r hi => exact insert_confined hwf hi
  | insert_or_assign key mapped it hi => exact insert_or_assign_confined hwf hi
  | erase key n hi => exact erase_confined hwf hi
  | erase_pos pos it hi =>
    obtain ⟨key, n, he⟩ := erase_pos_erase hi
    exact erase_confined hwf he

end effects2

section rehash_frame

variable {K V H E A : Type}

theorem rehash_buckets_frame [hasher H K] (obs : List bucket) :
    ∀ (ocs : List (List (Nat × (K × V)))) (heap : List (node K V))
      (l : fixed_size_bucket_list H E A) (cs : List (List (Nat × (K × V)))) (fuel : Nat),
      represents heap l cs → obs.length = ocs.length →
      (∀ (i : Nat) (s : bucket) (c : List (Nat × (K × V))), obs[i]? = some s →
        ocs[i]? = some c → is_chain heap s.sentinel c s.sentinel ∧
          ∃ nb, storage_of heap s.sentinel = some (.bucket_pointer nb)) →
      (obs.map bucket.sentinel ++ ocs.flatten.map Prod.fst).Nodup →
      (∀ q ∈ obs.map bucket.sentinel ++ ocs.flatten.map Prod.fst,
        q ∉ l.buckets.map bucket.sentinel ++ cs.flatten.map Prod.fst) →
      ocs.flatten.length < fuel →
      ∃ heap2, hash_map.rehash_buckets fuel obs heap l =
          some (heap2, { l with node_count := l.node_count + ocs.flatten.length }) ∧
        represents heap2 { l with node_count := l.node_count + ocs.flatten.length }
          (rehash_chains l.hash l.bucket_count cs ocs.flatten) ∧
        heap2.length = heap.length ∧
        (∀ q, q ∉ l.buckets.map bucket.sentinel →
          q ∉ obs.map bucket.sentinel ++ ocs.flatten.map Prod.fst →
          atomic_load heap2 q = atomic_load heap q) ∧
        (∀ q, storage_of heap2 q = storage_of heap q) := by
  induction obs with
  | nil =>
    intro ocs heap l cs fuel h hlen _ _ _ _
    have : ocs = [] := List.eq_nil_of_length_eq_zero (by simpa using hlen.symm)
    subst this
    exact ⟨heap, by simp [hash_map.rehash_buckets], by simpa [rehash_chains] using h, rfl,
      fun _ _ _ => rfl, fun _ => rfl⟩
  | cons s obs ih =>
    intro ocs heap l cs fuel h hlen hch hnd hfresh hf
    cases ocs with
    | nil => simp at hlen
    | cons c ocs =>
      obtain ⟨hc, nb, hs⟩ := hch 0 s c (by simp) (by simp)
      have hload := is_chain_load_prev hc
      have hf2 : c.length + ocs.flatten.length < fuel := by
        simpa [List.flatten_cons, List.length_append] using hf
      simp only [List.map_cons, List.flatten_cons, List.map_append, List.cons_append,
        List.nodup_cons, List.mem_append, not_or, List.nodup_append,
        List.disjoint_append_right, List.disjoint_append_left] at hnd
      obtain ⟨⟨hs1, hs2, hs3⟩, hn1, ⟨hn2, hn3, hd1⟩, hd2, hd3⟩ := hnd
      have hsf : s.sentinel ∉ l.buckets.map bucket.sentinel ++ cs.flatten.map Prod.fst :=
        hfresh s.sentinel (by simp)
      have hcf : ∀ q ∈ c.map Prod.fst,
          q ∉ l.buckets.map bucket.sentinel ++ cs.flatten.map Prod.fst := by
        intro q hq
        exact hfresh q (by simp [hq])
      obtain ⟨heap2, h1, h2, h3, h4, h5⟩ := rehash_nodes_spec nb c
        (atomic_store heap s.sentinel (some s.sentinel)) l cs fuel
        (represents_store_outside h _ _ hsf)
        (by rw [storage_of_store]; exact hs)
        (is_tail_store_frame _ _ (is_chain_tail hc) hs2) hn2 hcf
        (by omega)
      have hperm := rehash_chains_perm l.hash h.count_pos c cs h.chains_length
      obtain ⟨heap3, g1, g2, g3, g4, g5⟩ := ih ocs heap2
        { l with node_count := l.node_count + c.length }
        (rehash_chains l.hash l.bucket_count cs c) fuel h2
        (by simpa using hlen)
        (by
          intro i s2 c2 hi1 hi2
          obtain ⟨hc2, nb2, hs2b⟩ := hch (i + 1) s2 c2 (by simpa using hi1) (by simpa using hi2)
          have hs2m : s2.sentinel ∈ obs.map bucket.sentinel :=
            List.mem_map_of_mem _ (List.getElem?_mem hi1)
          have hc2m : ∀ q ∈ c2.map Prod.fst, q ∈ ocs.flatten.map Prod.fst := by
            intro q hq
            obtain ⟨y, hy1, hy2⟩ := List.mem_map.mp hq
            exact List.mem_map.mpr ⟨y, mem_flatten_of_getElem? hi2 hy1, hy2⟩
          have key : ∀ q, q ∈ obs.map bucket.sentinel ∨ q ∈ ocs.flatten.map Prod.fst →
              atomic_load heap2 q = atomic_load heap q := by
            intro q hq
            have hq1 : q ∉ l.buckets.map bucket.sentinel := by
              intro e
              refine hfresh q ?_ (List.mem_append_left _ e)
              rcases hq with hq | hq
              · simp [hq]
              · simp only [List.map_cons, List.flatten_cons, List.map_append,
                  List.cons_append, List.mem_cons, List.mem_append]
                exact Or.inr (Or.inr (Or.inr hq))
            have hq2 : q ∉ c.map Prod.fst := by
              intro e
              rcases hq with hq | hq
              · exact hd2 hq e
              · exact hd1 e hq
            have hq3 : q ≠ s.sentinel := by
              intro e
              rcases hq with hq | hq
              · exact hs1 (e ▸ hq)
              · exact hs3 (e ▸ hq)
            rw [h4 q hq1 hq2, atomic_load_store_ne _ _ _ _ hq3]
          refine ⟨is_chain_congr ?_ ?_ hc2, nb2, ?_⟩
          · intro q hq
            rcases List.mem_cons.mp hq with rfl | hq
            · exact key _ (Or.inl hs2m)
            · exact key q (Or.inr (hc2m q hq))
          · intro q _
            rw [h5, storage_of_store]
          · rw [h5, storage_of_store]
            exact hs2b)
        (List.nodup_append.mpr ⟨hn1, hn3, hd3⟩)
        (by
          intro q hq hq2
          have hq0 : q ∈ (s :: obs).map bucket.sentinel ++
              (c :: ocs).flatten.map Prod.fst := by
            simp only [List.map_cons, List.flatten_cons, List.map_append, List.cons_append,
              List.mem_cons, List.mem_append]
            rcases List.mem_append.mp hq with hq | hq
            · exact Or.inr (Or.inl hq)
            · exact Or.inr (Or.inr (Or.inr hq))
          rcases List.mem_append.mp hq2 with hq2 | hq2
          · exact hfresh q hq0 (List.mem_append_left _ hq2)
          · have := (hperm.map Prod.fst).mem_iff.mp hq2
            simp only [List.map_append, List.mem_append] at this
            rcases this with e | e
            · rcases List.mem_append.mp hq with hq | hq
              · exact hd2 hq e
              · exact hd1 e hq
            · exact hfresh q hq0 (List.mem_append_right _ e))
        (by omega)
      have hcount : ({ l with node_count := l.node_count + c.length + ocs.flatten.length } :
          fixed_size_bucket_list H E A) =
          { l with node_count := l.node_count + (c :: ocs).flatten.length } := by
        simp only [List.flatten_cons, List.length_append]
        congr 1
        omega
      simp only at g1 g2
      rw [hcount] at g1 g2
      refine ⟨heap3, ?_, ?_, ?_, ?_, ?_⟩
      · rw [hash_map.rehash_buckets]
        simp only [hload, h1]
        exact g1
      · rw [List.flatten_cons, rehash_chains_append]
        exact g2
      · rw [g3, h3, atomic_store_length]
      · intro q hq1 hq2
        simp only [List.map_cons, List.flatten_cons, List.map_append, List.cons_append,
          List.mem_cons, List.mem_append, not_or] at hq2
        obtain ⟨hqs, hqo, hqc, hqr⟩ := hq2
        rw [g4 q hq1 (by
            simp only [List.mem_append, not_or]
            exact ⟨hqo, hqr⟩),
          h4 q hq1 hqc, atomic_load_store_ne _ _ _ _ hqs]
      · intro q
        rw [g5, h5, storage_of_store]

end rehash_frame

section rehash_effect

variable {K V H E A : Type}

theorem rehash_confined [hasher H K] [key_equal E K] {m m2 : hash_map K V H E A}
    {cs : List (List (Nat × (K × V)))} (hwf : well_formed m cs) {fuel n : Nat} (hpos : 0 < n)
    (hi : m.rehash fuel n = some m2) : confined m cs m2 := by
  by_cases hne : n = m.current_buckets.bucket_count
  · simp only [hash_map.rehash, if_pos hne, Option.some.injEq] at hi
    subst hi
    exact confined_refl hwf
  · have h := hwf.1
    have hw2 := (rehash_well_formed hwf hpos hne hi).1
    have hmono := rehash_mono_add fuel (cs.flatten.length + 1) m m2 n hi
    obtain ⟨extra, hheap, -⟩ := create_heap_prefix m.heap n
      m.current_buckets.hash m.current_buckets.keycomp m.current_buckets.allocator
    have hrep := create_represents m.heap hpos m.current_buckets.hash
      m.current_buckets.keycomp m.current_buckets.allocator
    have hfields := create_fields m.heap n m.current_buckets.hash
      m.current_buckets.keycomp m.current_buckets.allocator
    have hold := represents_append h extra
    rw [← hheap] at hold
    have hnew_ge : ∀ q ∈ (fixed_size_bucket_list.create m.heap n
        m.current_buckets.hash m.current_buckets.keycomp
        m.current_buckets.allocator).2.buckets.map bucket.sentinel, m.heap.length ≤ q := by
      intro q hq
      rw [hfields] at hq
      simp only [List.map_map, List.mem_map, List.mem_range] at hq
      obtain ⟨a, -, rfl⟩ := hq
      simp
    obtain ⟨heap2, h1, -, h3, h4, h5⟩ := rehash_buckets_frame m.current_buckets.buckets cs _ _ _
      (fuel + (cs.flatten.length + 1))
      hrep (by rw [h.buckets_length, h.chains_length])
      (fun i s c hi1 hi2 => ⟨hold.chain i s c hi1 hi2, _, hold.sentinel i s hi1⟩)
      h.nodup
      (by
        intro q hq hq2
        simp only [List.flatten_replicate_nil, List.map_nil, List.append_nil] at hq2
        exact Nat.lt_irrefl _ (Nat.lt_of_lt_of_le (h.footprint_lt q hq) (hnew_ge q hq2)))
      (by omega)
    simp only [hash_map.rehash, if_neg hne, h1, Option.some.injEq] at hmono
    have hperm := rehash_chains_perm m.current_buckets.hash hpos cs.flatten
      (List.replicate n []) (by simp)
    simp only [List.flatten_replicate_nil, List.append_nil] at hperm
    refine ⟨⟨?_, ?_⟩, _, hw2, ?_⟩
    · rw [← hmono]
      simp only
      rw [h3, hheap]
      simp
    · intro q hq hn
      rw [← hmono]
      simp only
      have hq1 : q ∉ (fixed_size_bucket_list.create m.heap n
          m.current_buckets.hash m.current_buckets.keycomp
          m.current_buckets.allocator).2.buckets.map bucket.sentinel := by
        intro e
        exact Nat.lt_irrefl _ (Nat.lt_of_lt_of_le hq (hnew_ge q e))
      rw [h4 q hq1 hn, h5 q, hheap]
      exact ⟨atomic_load_append_left _ _ hq, storage_of_append_left _ _ hq⟩
    · intro q hq
      rw [← hmono] at hq
      simp only [footprint] at hq ⊢
      rcases List.mem_append.mp hq with hq | hq
      · exact Or.inr (hnew_ge q hq)
      · exact Or.inl (List.mem_append_right _ ((hperm.map Prod.fst).mem_iff.mp hq))

end rehash_effect

section deep_copy

variable {K V H E A : Type}

theorem erase_config [hasher H K] [key_equal E K] {m m2 : hash_map K V H E A}
    {cs : List (List (Nat × (K × V)))} (hwf : well_formed m cs) {fuel : Nat} {key : K}
    {n : Nat} (hi : m.erase fuel key = some (n, m2)) :
    m2.current_buckets.bucket_count = m.current_buckets.bucket_count ∧
      m2.current_buckets.hash = m.current_buckets.hash ∧
      m2.current_buckets.keycomp = m.current_buckets.keycomp ∧
      m2.current_buckets.allocator = m.current_buckets.allocator ∧
      m2.size ≤ m.size + 1 := by
  obtain ⟨c, -, hcase⟩ := erase_cases hwf key (erase_find_ne_none hi)
  rcases hcase with ⟨-, g1⟩ | ⟨l1, x, l2, -, -, -, m3, g1, -, g3, -⟩
  · rw [hi] at g1
    simp only [Option.some.injEq, Prod.mk.injEq] at g1
    obtain ⟨-, rfl⟩ := g1
    simp
  · rw [hi] at g1
    simp only [Option.some.injEq, Prod.mk.injEq] at g1
    obtain ⟨-, rfl⟩ := g1
    simp only [hash_map.size, g3, true_and]
    omega

/-- A call of `insert`, `insert_or_assign` or `erase` keeps the configuration of the
map and adds at most one element. -/
theorem modifies_config [hasher H K] [key_equal E K] {m m2 : hash_map K V H E A}
    {cs : List (List (Nat × (K × V)))} (hwf : well_formed m cs) {fuel : Nat}
    (h : modifies fuel m m2) :
    m2.current_buckets.bucket_count = m.current_buckets.bucket_count ∧
      m2.current_buckets.hash = m.current_buckets.hash ∧
      m2.current_buckets.keycomp = m.current_buckets.keycomp ∧
      m2.current_buckets.allocator = m.current_buckets.allocator ∧
      m2.size ≤ m.size + 1 := by
  cases h with
  | erase_pos pos it hi =>
    obtain ⟨key, n, he⟩ := erase_pos_erase hi
    exact erase_config hwf he
  | insert value r hi =>
    obtain ⟨c, -, hcase⟩ := insert_cases hwf value (insert_find_ne_none hi)
    rcases hcase with ⟨-, m3, g1, -, g3⟩ | ⟨l1, x, l2, -, -, -, g1⟩
    · rw [hi] at g1
      simp only [Option.some.injEq, Prod.mk.injEq] at g1
      obtain ⟨-, rfl⟩ := g1
      simp [hash_map.size, g3]
    · rw [hi] at g1
      simp only [Option.some.injEq, Prod.mk.injEq] at g1
      obtain ⟨-, rfl⟩ := g1
      simp
  | insert_or_assign key mapped it hi =>
    obtain ⟨c, -, hcase⟩ := insert_or_assign_cases hwf key mapped
      (insert_or_assign_find_ne_none hi)
    rcases hcase with ⟨-, m3, g1, -, g3⟩ | ⟨l1, x, l2, -, -, -, m3, g1, -, g3, -⟩
    · rw [hi] at g1
      simp only [Option.some.injEq, Prod.mk.injEq] at g1
      obtain ⟨-, rfl⟩ := g1
      simp [hash_map.size, g3]
    · rw [hi] at g1
      simp only [Option.some.injEq, Prod.mk.injEq] at g1
      obtain ⟨-, rfl⟩ := g1
      simp [hash_map.size, g3]
  | erase key n hi => exact erase_config hwf hi

/-- Two copies of a steady map, taken one after the other, with the source seen in
the store that holds both: all three are steady there, the copies on nodes that are
none of the source. -/
theorem two_copies [hasher H K] [key_equal E K] {s : hash_map K V H E A}
    {cs : List (List (Nat × (K × V)))} (hwf : well_formed s cs) {fuel : Nat}
    (hf : s.size < fuel) :
    ∃ c1 c2 ccs1 ccs2, s.copy fuel = some c1 ∧ (s.in_store c1.heap).copy fuel = some c2 ∧
      well_formed (s.in_store c2.heap) cs ∧
      well_formed (c1.in_store c2.heap) ccs1 ∧ well_formed c2 ccs2 ∧
      chain_values ccs1 = chain_values cs ∧ chain_values ccs2 = chain_values cs ∧
      (∀ q ∈ footprint c1.current_buckets ccs1, q ∉ footprint s.current_buckets cs) ∧
      (∀ q ∈ footprint c2.current_buckets ccs2, q ∉ footprint s.current_buckets cs) ∧
      (c1.current_buckets.bucket_count = s.current_buckets.bucket_count ∧
        c1.current_buckets.node_count = s.current_buckets.node_count ∧
        c1.current_buckets.hash = s.current_buckets.hash ∧
        c1.current_buckets.keycomp = s.current_buckets.keycomp) ∧
      (c2.current_buckets.bucket_count = s.current_buckets.bucket_count ∧
        c2.current_buckets.node_count = s.current_buckets.node_count ∧
        c2.current_buckets.hash = s.current_buckets.hash ∧
        c2.current_buckets.keycomp = s.current_buckets.keycomp) := by
  obtain ⟨c1, ccs1, h1, wc1, hv1, ws1, ge1, ⟨extra1, hx1⟩, a1, a2, a3, a4, -⟩ :=
    copy_facts hwf hf
  obtain ⟨c2, ccs2, h2, wc2, hv2, ws2, ge2, ⟨extra2, hx2⟩, b1, b2, b3, b4, -⟩ :=
    copy_facts ws1 (show (s.in_store c1.heap).size < fuel from hf)
  have hlen : s.heap.length ≤ c1.heap.length := by rw [hx1]; simp
  refine ⟨c1, c2, ccs1, ccs2, h1, h2, ws2, ⟨?_, wc1.2⟩, wc2, hv1, hv2, ?_, ?_,
    ⟨a1, a2, a3, a4⟩, ⟨b1, b2, b3, b4⟩⟩
  · have := represents_append wc1.1 extra2
    simp only [hash_map.in_store] at hx2 ⊢
    rw [hx2]
    exact this
  · intro q hq hq2
    exact Nat.lt_irrefl _ (Nat.lt_of_lt_of_le (hwf.1.footprint_lt q hq2) (ge1 q hq))
  · intro q hq hq2
    have h3 : c1.heap.length ≤ q := ge2 q hq
    exact Nat.lt_irrefl _ (Nat.lt_of_lt_of_le (hwf.1.footprint_lt q hq2)
      (Nat.le_trans hlen h3))

/-- A copy of a steady map `s`, steady in the store `heap2` with the values `cs` of `s`,
compared with a steady map `s2` of the configuration of `s`. -/
theorem copy_compared [hasher H K] [key_equal E K] [BEq K] [BEq V]
    {s c s2 : hash_map K V H E A} {cs ccs cs2 : List (List (Nat × (K × V)))}
    (hc : represents s2.heap c.current_buckets ccs)
    (kc : keys_placed c.current_buckets (chain_values ccs))
    (hvals : chain_values ccs = chain_values cs) (w2 : well_formed s2 cs2)
    (laws : key_laws (K := K) s.current_buckets.hash s.current_buckets.keycomp)
    (hv : value_laws K V)
    (hcons : value_key_consistent (K := K) (V := V) s.current_buckets.keycomp)
    (hh : hasher_eq_sound H K)
    (hc1 : c.current_buckets.hash = s.current_buckets.hash)
    (hc2 : c.current_buckets.keycomp = s.current_buckets.keycomp)
    (hs1 : s2.current_buckets.hash = s.current_buckets.hash)
    (hs2 : s2.current_buckets.keycomp = s.current_buckets.keycomp)
    {fuel : Nat} (hfc : c.size + c.bucket_count < fuel) (hf2 : s2.size + s2.bucket_count < fuel) :
    ∃ r, hash_map.operator_eq fuel false (c.in_store s2.heap) s2 = some r ∧
      (r = true ↔ c.size = s2.size ∧
        ∀ x ∈ cs.flatten.map Prod.snd, ∃ y ∈ cs2.flatten.map Prod.snd, (x == y) = true) := by
  have lc : key_laws (K := K) c.current_buckets.hash c.current_buckets.keycomp := by
    rw [hc1, hc2]; exact laws
  have l2 : key_laws (K := K) s2.current_buckets.hash s2.current_buckets.keycomp := by
    rw [hs1, hs2]; exact laws
  obtain ⟨r, hr, hiff⟩ := operator_eq_iff (a := c.in_store s2.heap) (b := s2) hc w2.1 kc
    (w2.2 l2) lc hv (by simp only [hash_map.in_store, hc2]; exact hcons)
    (by rw [hs2]; exact hcons) hh hfc hf2 false (by simp)
  refine ⟨r, hr, ?_⟩
  rw [hiff, ← chain_values_flatten, hvals, chain_values_flatten]
  rfl

end deep_copy

section assign_changes

variable {K V H E A : Type}

theorem pairwise_unique {α : Type} {p : α → α → Bool}
    (hsymm : ∀ a b, p a b = true → p b a = true) {l : List α}
    (h : l.Pairwise (fun x y => p x y = false)) {a b : α} (ha : a ∈ l) (hb : b ∈ l)
    (hab : p a b = true) : a = b := by
  induction l with
  | nil => simp at ha
  | cons x l ih =>
    rw [List.pairwise_cons] at h
    rcases List.mem_cons.mp ha with ea | ha2
    · rcases List.mem_cons.mp hb with eb | hb2
      · rw [ea, eb]
      · have := h.1 b hb2
        rw [← ea, hab] at this
        exact absurd this (by simp)
    · rcases List.mem_cons.mp hb with eb | hb2
      · have := h.1 a ha2
        rw [← eb, hsymm _ _ hab] at this
        exact absurd this (by simp)
      · exact ih h.2 ha2 hb2

/-- After `insert_or_assign(k, v)` on a steady map that held a pair `e` with a key equal
to `k` and a mapped value other than `v`, the map holds no pair equal to `e`. -/
theorem assign_changes_pairs [hasher H K] [key_equal E K] [BEq K] [BEq V]
    {m m2 : hash_map K V H E A} {cs cs2 : List (List (Nat × (K × V)))}
    (hwf : well_formed m cs) (hw2 : well_formed m2 cs2)
    (laws : key_laws (K := K) m.current_buckets.hash m.current_buckets.keycomp)
    (hcons : value_key_consistent (K := K) (V := V) m.current_buckets.keycomp)
    {k : K} {v : V} {e : K × V} (he : e ∈ cs.flatten.map Prod.snd)
    (hke : key_equal.call m.current_buckets.keycomp k e.1 = true)
    (hne : (e == (e.1, v)) = false) {fuel : Nat} {it : iterator}
    (hi : m.insert_or_assign fuel k v = some (it, m2))
    (hf2 : m2.size + m2.bucket_count < fuel) :
    ¬ ∃ y ∈ cs2.flatten.map Prod.snd, (e == y) = true := by
  rintro ⟨y, hy, hey⟩
  obtain ⟨c, hc, hcase⟩ := insert_or_assign_cases hwf k v (insert_or_assign_find_ne_none hi)
  obtain ⟨x, hx, rfl⟩ := List.mem_map.mp he
  obtain ⟨l1, l2, hc0, -, -⟩ := present_split hwf laws k hx hke
  rw [hc] at hc0
  cases hc0
  have hsym : ∀ a b : K × V, key_equal.call m.current_buckets.keycomp a.1 b.1 = true →
      key_equal.call m.current_buckets.keycomp b.1 a.1 = true :=
    fun a b h => laws.symm _ _ h
  rcases hcase with ⟨hmiss, -⟩ | ⟨l1', x', l2', hsplit, -, hx', m3, g1, g2, g3, -⟩
  · have := hmiss x (by simp)
    rw [hke] at this
    exact absurd this (by simp)
  · rw [hi] at g1
    simp only [Option.some.injEq, Prod.mk.injEq] at g1
    obtain ⟨-, rfl⟩ := g1
    have hx'm : x' ∈ cs.flatten :=
      mem_flatten_of_getElem? hc (by rw [hsplit]; simp)
    have hu := (hwf.2 laws).unique
    rw [chain_values_flatten] at hu
    have hxx : x'.2 = x.2 := pairwise_unique
      (p := fun a b => key_equal.call m.current_buckets.keycomp a.1 b.1) hsym hu
      (List.mem_map_of_mem _ hx'm) (List.mem_map_of_mem _ hx)
      (laws.trans _ _ _ (laws.symm _ _ hx') hke)
    have hlt : m.current_buckets.bucket_index k < cs.length := (List.getElem?_eq_some.mp hc).1
    have e1 := elements_eq hw2.1 hf2
    have e2 := elements_eq g2.1 hf2
    rw [e1, Option.some.injEq] at e2
    have hnew : (x.2.1, v) ∈ cs2.flatten.map Prod.snd := by
      rw [e2]
      refine List.mem_map.mpr ⟨(x'.1, (x'.2.1, v)), ?_, by simp [hxx]⟩
      exact mem_flatten_of_getElem? (List.getElem?_set_self hlt) (by simp)
    have laws2 : key_laws (K := K) m2.current_buckets.hash m2.current_buckets.keycomp := by
      rw [g3]; exact laws
    have hu2 := (hw2.2 laws2).unique
    rw [chain_values_flatten, g3] at hu2
    have hyy : y = (x.2.1, v) := pairwise_unique
      (p := fun a b => key_equal.call m.current_buckets.keycomp a.1 b.1) hsym hu2 hy hnew
      (laws.symm _ _ (hcons _ _ hey))
    rw [hyy, hne] at hey
    exact absurd hey (by simp)

end assign_changes

section rehash_total

variable {K V H E A : Type}

/-- On a steady map `rehash` to a positive bucket count returns, with the nodes of
before in the new buckets and the configuration of before. -/
theorem rehash_total [hasher H K] [key_equal E K] {m : hash_map K V H E A}
    {cs : List (List (Nat × (K × V)))} (hwf : well_formed m cs) {fuel n : Nat} (hpos : 0 < n)
    (hf : m.size < fuel) :
    ∃ m2 cs2, m.rehash fuel n = some m2 ∧ well_formed m2 cs2 ∧ cs2.flatten.Perm cs.flatten ∧
      confined m cs m2 ∧
      m2.current_buckets.bucket_count = n ∧
      m2.current_buckets.node_count = m.current_buckets.node_count ∧
      m2.current_buckets.hash = m.current_buckets.hash ∧
      m2.current_buckets.keycomp = m.current_buckets.keycomp ∧
      m2.current_buckets.allocator = m.current_buckets.allocator := by
  by_cases hne : n = m.current_buckets.bucket_count
  · have hi : m.rehash fuel n = some m := by simp [hash_map.rehash, hne]
    exact ⟨m, cs, hi, hwf, List.Perm.refl _, confined_refl hwf, hne.symm, rfl, rfl, rfl, rfl⟩
  · obtain ⟨m2, hi, -⟩ := rehash_spec hwf.1 hpos hne
      (show cs.flatten.length < fuel by rw [← hwf.1.node_count]; exact hf)
    obtain ⟨hw2, g1, g2, g3, g4⟩ := rehash_well_formed hwf hpos hne hi
    have hperm := rehash_chains_perm m.current_buckets.hash hpos cs.flatten
      (List.replicate n []) (by simp)
    simp only [List.flatten_replicate_nil, List.append_nil] at hperm
    exact ⟨m2, _, hi, hw2, hperm, rehash_confined hwf hpos hi, g1, rehash_size hwf hpos hi,
      g2, g3, g4⟩

end rehash_total

section example_facts2

theorem identity_hasher_eq_sound : hasher_eq_sound identity_hash Nat := by
  intro eq heq
  simp [hasher.operator_eq] at heq

end example_facts2

section example_facts3

theorem example_copy_eq : example_map.copy 10 = some example_copy := by rfl

theorem example_rehashed_eq :
    (example_map.in_store example_copy.heap).rehash 20 5 = some example_rehashed := by rfl

/-- The rehashed example map and the copy of the example map are two steady maps of
one store. -/
theorem example_two_maps :
    steady example_rehashed ∧ steady (example_copy.in_store example_rehashed.heap) := by
  obtain ⟨cs, hwf⟩ := reachable_well_formed example_reachable
  obtain ⟨c, ccs, hcopy, wc, -, ws, ge, -⟩ :=
    copy_facts hwf (show example_map.size < 10 by decide)
  rw [example_copy_eq, Option.some.injEq] at hcopy
  subst hcopy
  obtain ⟨m3, cs3, hi, hw3, -, hconf, -⟩ := rehash_total ws (n := 5) (by decide)
    (show (example_map.in_store example_copy.heap).size < 20 by decide)
  rw [example_rehashed_eq, Option.some.injEq] at hi
  subst hi
  have hdis : ∀ q ∈ footprint example_copy.current_buckets ccs,
      q ∉ footprint (example_map.in_store example_copy.heap).current_buckets cs := by
    intro q hq hq2
    exact Nat.lt_irrefl _ (Nat.lt_of_lt_of_le (hwf.1.footprint_lt q hq2) (ge q hq))
  obtain ⟨rc, -⟩ := confined_other hconf wc.1 hdis
  exact ⟨⟨cs3, hw3⟩, ⟨ccs, ⟨rc, wc.2⟩⟩⟩

end example_facts3

section swaps

variable {K V H E A : Type}

theorem swap_same_store {a b : hash_map K V H E A} (hstore : a.heap = b.heap) :
    a.swap b = (b, a) := by
  cases a
  cases b
  simp only at hstore
  subst hstore
  rfl

theorem operator_eq_self [hasher H K] [BEq K] [BEq V] {a : hash_map K V H E A}
    {cs : List (List (Nat × (K × V)))} (h : represents a.heap a.current_buckets cs)
    (hrefl : ∀ x : K × V, (x == x) = true) {fuel : Nat}
    (hf : a.size + a.bucket_count < fuel) (same_object : Bool) :
    hash_map.operator_eq fuel same_object a a = some true :=
  operator_eq_same_values hrefl h h rfl rfl hf same_object

end swaps

section fresh_map

variable {K V H E A : Type}

theorem cbegin_bucket_eq {m : hash_map K V H E A} {cs : List (List (Nat × (K × V)))}
    (h : represents m.heap m.current_buckets cs) {b : Nat} {s : bucket}
    {c : List (Nat × (K × V))} (hb : m.current_buckets.buckets[b]? = some s)
    (hc : cs[b]? = some c) :
    m.cbegin_bucket b = some (some (chain_head c s.sentinel)) ∧
      m.cend_bucket b = some (some s.sentinel) := by
  have hch := h.chain b s c hb hc
  constructor
  · simp only [hash_map.cbegin_bucket, hb]
    cases c with
    | nil => exact hch
    | cons x rest => exact hch.1
  · simp only [hash_map.cend_bucket, hb]

end fresh_map

section iteration_order

variable {K V H E A : Type}

theorem index_expression_eq {w s h n : Nat} (hh : h < 2 ^ w) (hn : n < 2 ^ s) :
    fixed_size_bucket_list.index_expression w s h n = h % n := by
  have h1 : 2 ^ w ≤ 2 ^ max w s := Nat.pow_le_pow_right (by decide) (Nat.le_max_left w s)
  have h2 : 2 ^ s ≤ 2 ^ max w s := Nat.pow_le_pow_right (by decide) (Nat.le_max_right w s)
  unfold fixed_size_bucket_list.index_expression
  rw [Nat.mod_eq_of_lt (Nat.lt_of_lt_of_le hh h1), Nat.mod_eq_of_lt (Nat.lt_of_lt_of_le hn h2)]

theorem flatten_head_after_nils {α : Type} :
    ∀ (ls : List (List α)) (b : Nat) (x : α) (rest : List α),
      ls[b]? = some (x :: rest) → (∀ j, j < b → ls[j]? = some []) →
      ls.flatten.head? = some x
  | [], b, x, rest, h, _ => by simp at h
  | l :: ls, 0, x, rest, h, _ => by
    simp only [List.getElem?_cons_zero, Option.some.injEq] at h
    simp [h]
  | l :: ls, b + 1, x, rest, h, hnil => by
    have h0 := hnil 0 (Nat.succ_pos b)
    simp only [List.getElem?_cons_zero, Option.some.injEq] at h0
    simp only [List.getElem?_cons_succ] at h
    have ih := flatten_head_after_nils ls b x rest h (fun j hj => by
      have := hnil (j + 1) (Nat.succ_lt_succ hj)
      simpa using this)
    simp [h0, ih]

theorem flatten_nil_of_all_nil {α : Type} :
    ∀ (ls : List (List α)), (∀ b, b < ls.length → ls[b]? = some []) → ls.flatten = []
  | [], _ => rfl
  | l :: ls, h => by
    have h0 := h 0 (by simp)
    simp only [List.getElem?_cons_zero, Option.some.injEq] at h0
    have ih := flatten_nil_of_all_nil ls (fun b hb => by
      have := h (b + 1) (by simpa using hb)
      simpa using this)
    simp [h0, ih]

end iteration_order

section appended

variable {K V H E A : Type}

theorem appended_last {m m2 : hash_map K V H E A} {cs : List (List (Nat × (K × V)))}
    {b : Nat} {s : bucket} {c : List (Nat × (K × V))} {x : Nat × (K × V)}
    (hb : m.current_buckets.buckets[b]? = some s) (hc : cs[b]? = some c)
    (h2 : represents m2.heap m2.current_buckets (cs.set b (c ++ [x])))
    (hl : m2.current_buckets =
      { m.current_buckets with node_count := m.current_buckets.node_count + 1 })
    {fuel : Nat} (hf : m.size + 1 < fuel) :
    m2.cend_bucket b = some (some s.sentinel) ∧
      m2.local_range fuel b = some (c.map (fun y => some y.1) ++ [some x.1]) ∧
      m2.bucket_elements fuel b = some (c.map Prod.snd ++ [x.2]) ∧
      m2.deref (some x.1) = some x.2 ∧
      iterator_impl.increment true fuel m2 (some x.1) = some (some s.sentinel) := by
  have hlt : b < cs.length := (List.getElem?_eq_some.mp hc).1
  have hc2 : (cs.set b (c ++ [x]))[b]? = some (c ++ x :: []) := List.getElem?_set_self hlt
  have hb2 : m2.current_buckets.buckets[b]? = some s := by rw [hl]; exact hb
  have hsize : m2.size = m.size + 1 := by simp [hash_map.size, hl]
  have hf2 : m2.size < fuel := by omega
  have hcl := chain_length_lt h2 hc2 hf2
  refine ⟨(cbegin_bucket_eq h2 hb2 hc2).2, ?_, ?_, ?_, ?_⟩
  · rw [local_range_eq h2 hc2 hcl]
    simp
  · rw [bucket_elements_eq h2 hc2 hf2]
    simp
  · exact deref_mem h2 (mem_flatten_of_getElem? hc2 (by simp))
  · exact increment_local_eq h2 hb2 hc2 fuel

end appended

section equal_ranges

variable {K V H E A : Type}

theorem equal_range_miss [hasher H K] [key_equal E K] {m : hash_map K V H E A}
    {cs : List (List (Nat × (K × V)))} (h : represents m.heap m.current_buckets cs) (key : K)
    {s : bucket} {c : List (Nat × (K × V))}
    (hb : m.current_buckets.buckets[m.current_buckets.bucket_index key]? = some s)
    (hc : cs[m.current_buckets.bucket_index key]? = some c)
    (hmiss : ∀ y ∈ c, key_equal.call m.current_buckets.keycomp key y.2.1 = false)
    {fuel : Nat} (hf : m.size < fuel) :
    m.equal_range fuel key = some (some s.sentinel, some s.sentinel) := by
  have hcl := chain_length_lt h hc hf
  obtain ⟨f, rfl⟩ : ∃ f, fuel = f + 1 := ⟨fuel - 1, by omega⟩
  simp only [hash_map.equal_range, hash_map.equal_range_loop, find_eq h key hb hc hcl,
    chain_lookup_of_all_false s.sentinel s.sentinel hmiss]

theorem equal_range_hit [hasher H K] [key_equal E K] {m : hash_map K V H E A}
    {cs : List (List (Nat × (K × V)))} (h : represents m.heap m.current_buckets cs) (key : K)
    {s : bucket} {l1 l2 : List (Nat × (K × V))} {x : Nat × (K × V)}
    (hb : m.current_buckets.buckets[m.current_buckets.bucket_index key]? = some s)
    (hc : cs[m.current_buckets.bucket_index key]? = some (l1 ++ x :: l2))
    (hmiss : ∀ y ∈ l1, key_equal.call m.current_buckets.keycomp key y.2.1 = false)
    (hx : key_equal.call m.current_buckets.keycomp key x.2.1 = true)
    {fuel : Nat} (hf : m.size < fuel) :
    m.equal_range fuel key = some (some x.1, some (chain_head l2 s.sentinel)) := by
  have hcl := chain_length_lt h hc hf
  obtain ⟨-, -, hc2, -⟩ := chain_split_facts (h.chain _ s _ hb hc) (h.chain_nodup hb hc)
  have hload := is_chain_load_prev hc2
  obtain ⟨f, rfl⟩ : ∃ f, fuel = f + 1 := ⟨fuel - 1, by omega⟩
  simp only [hash_map.equal_range, hash_map.equal_range_loop, find_eq h key hb hc hcl,
    chain_lookup_of_split s.sentinel s.sentinel hmiss hx, hload]

theorem single_range {m : hash_map K V H E A} {cs : List (List (Nat × (K × V)))}
    (h : represents m.heap m.current_buckets cs) {b : Nat} {s : bucket}
    {l1 l2 : List (Nat × (K × V))} {x : Nat × (K × V)}
    (hb : m.current_buckets.buckets[b]? = some s)
    (hc : cs[b]? = some (l1 ++ x :: l2)) {fuel : Nat} (hf : 1 < fuel) :
    hash_map.range true m (some (chain_head l2 s.sentinel)) fuel (some x.1) =
      some [some x.1] := by
  obtain ⟨-, -, -, hxs, -, hx2, -⟩ :=
    chain_split_facts (h.chain b s _ hb hc) (h.chain_nodup hb hc)
  have hne : (some x.1 : iterator) ≠ some (chain_head l2 s.sentinel) := by
    intro e
    have e2 : x.1 = chain_head l2 s.sentinel := Option.some.inj e
    cases l2 with
    | nil => exact hxs e2
    | cons y r =>
      apply hx2
      rw [e2]
      simp [chain_head]
  obtain ⟨f, rfl⟩ : ∃ f, fuel = f + 2 := ⟨fuel - 2, by omega⟩
  simp only [hash_map.range, hne, if_false, increment_local_eq h hb hc (f + 1 + 1), if_true,
    Option.map_some']

theorem headD_chain_head (l : List (Nat × (K × V))) (t : Nat) :
    (l.map (fun x => (some x.1 : iterator))).headD (some t) = some (chain_head l t) := by
  cases l <;> rfl

end equal_ranges

section filling

variable {K V H E A : Type}

theorem insert_each_single [hasher H K] [key_equal E K] (fuel : Nat) :
    ∀ (values : List (K × V)) (m : hash_map K V H E A) (c : List (Nat × (K × V))),
      well_formed m [c] →
      (∀ v ∈ values, ∀ x ∈ c, key_equal.call m.current_buckets.keycomp v.1 x.2.1 = false) →
      values.Pairwise (fun a b => key_equal.call m.current_buckets.keycomp b.1 a.1 = false) →
      c.length + values.length < fuel →
      ∃ m2 c2, m.insert_each fuel values = some m2 ∧ well_formed m2 [c2] ∧
        c2.map Prod.snd = c.map Prod.snd ++ values ∧
        m2.current_buckets =
          { m.current_buckets with node_count := m.current_buckets.node_count + values.length }
  | [], m, c, hwf, _, _, _ => ⟨m, c, rfl, hwf, by simp, rfl⟩
  | v :: rest, m, c, hwf, hnew, hpw, hf => by
    have hrep := hwf.1
    have hcount : m.current_buckets.bucket_count = 1 := by
      have := hrep.chains_length
      simpa using this.symm
    have hsize : m.size = c.length := by
      have := hrep.node_count
      simpa [hash_map.size] using this
    have hidx : m.current_buckets.bucket_index v.1 = 0 := by
      simp [fixed_size_bucket_list.bucket_index, hcount, Nat.mod_one]
    have hfind := find_ne_none_of_fuel hrep v.1 (show m.size < fuel by
      rw [hsize]
      simp only [List.length_cons] at hf
      omega)
    obtain ⟨c1, hc1, hcase⟩ := insert_cases hwf v hfind
    rw [hidx] at hc1 hcase
    have e : c1 = c := by
      simp only [List.getElem?_cons_zero, Option.some.injEq] at hc1
      exact hc1.symm
    subst e
    rcases hcase with ⟨-, m1, g1, g2, g3⟩ | ⟨l1, x, l2, e, -, hx, -⟩
    · have hkc : m1.current_buckets.keycomp = m.current_buckets.keycomp := by rw [g3]
      simp only [List.set_cons_zero] at g2
      obtain ⟨hv, hrest⟩ := List.pairwise_cons.mp hpw
      obtain ⟨m2, c2, i1, i2, i3, i4⟩ := insert_each_single fuel rest m1
        (c1 ++ [(m.heap.length, v)]) g2
        (by
          intro w hw x hx
          rw [hkc]
          rcases List.mem_append.mp hx with hx | hx
          · exact hnew w (List.mem_cons_of_mem _ hw) x hx
          · rw [List.mem_singleton.mp hx]
            exact hv w hw)
        (by rw [hkc]; exact hrest)
        (by
          simp only [List.length_append, List.length_cons, List.length_nil] at hf ⊢
          omega)
      refine ⟨m2, c2, ?_, i2, ?_, ?_⟩
      · simp only [hash_map.insert_each, g1]
        exact i1
      · rw [i3]
        simp
      · rw [i4, g3]
        simp only [List.length_cons]
        congr 1
        omega
    · have := hnew v (List.mem_cons_self _ _) x (by rw [e]; simp)
      rw [hx] at this
      exact absurd this (by simp)

end filling

section counted_find

variable {K V H E A : Type}

theorem find_from_counting_fst [key_equal E K] (heap : List (node K V)) (s : Nat) (key : K)
    (keycomp : E) :
    ∀ (fuel prev yields : Nat),
      (bucket.find_from_counting heap s key keycomp fuel prev yields).map Prod.fst =
        bucket.find_from heap s key keycomp fuel prev
  | 0, _, _ => rfl
  | fuel + 1, prev, yields => by
    simp only [bucket.find_from_counting, bucket.find_from]
    cases h1 : atomic_load heap prev with
    | none => rfl
    | some nx =>
      cases nx with
      | none => exact find_from_counting_fst heap s key keycomp fuel s (yields + 1)
      | some cur =>
        simp only
        cases h2 : heap[cur]? with
        | none => rfl
        | some n =>
          simp only
          cases h3 : n.data_ with
          | bucket_pointer nb => rfl
          | value_type v =>
            simp only
            split
            · rfl
            · exact find_from_counting_fst heap s key keycomp fuel cur yields

theorem find_from_counting_eq [key_equal E K] {heap : List (node K V)} {s prev : Nat}
    {l : List (Nat × (K × V))} {nb : Option Nat} (key : K) (keycomp : E) (fuel yields : Nat)
    (hs : storage_of heap s = some (.bucket_pointer nb)) (h : is_chain heap prev l s)
    (hf : l.length < fuel) :
    bucket.find_from_counting heap s key keycomp fuel prev yields =
      some (chain_lookup (key_equal.call keycomp key) prev l s, yields) := by
  induction l generalizing prev fuel with
  | nil =>
    obtain ⟨f, rfl⟩ : ∃ f, fuel = f + 1 := ⟨fuel - 1, by simp at hf; omega⟩
    obtain ⟨n, hn, hd⟩ := getElem?_of_storage_of hs
    simp only [is_chain] at h
    simp [bucket.find_from_counting, h, hn, hd, chain_lookup]
  | cons x rest ih =>
    obtain ⟨f, rfl⟩ : ∃ f, fuel = f + 1 := ⟨fuel - 1, by simp at hf; omega⟩
    simp only [is_chain] at h
    obtain ⟨n, hn, hd⟩ := getElem?_of_storage_of h.2.1
    simp only [bucket.find_from_counting, h.1, hn, hd, chain_lookup]
    split
    · rfl
    · exact ih f h.2.2 (by simp at hf; omega)

theorem chain_lookup_link {heap : List (node K V)} (p : K → Bool) {t : Nat} :
    ∀ (l : List (Nat × (K × V))) (prev : Nat), is_chain heap prev l t →
      atomic_load heap (chain_lookup p prev l t).2.1 =
        some (some (chain_lookup p prev l t).2.2)
  | [], _, h => h
  | x :: rest, prev, h => by
    simp only [chain_lookup]
    split
    · exact h.1
    · exact chain_lookup_link p rest x.1 h.2.2

theorem chain_last_eq_getLast? :
    ∀ (l : List (Nat × (K × V))) (prev : Nat),
      chain_last prev l = ((l.getLast?).map Prod.fst).getD prev
  | [], _ => rfl
  | [x], _ => rfl
  | x :: y :: rest, prev => by
    have ih := chain_last_eq_getLast? (y :: rest) x.1
    simp only [chain_last] at ih ⊢
    rw [ih, List.getLast?_cons_cons]
    cases h : (y :: rest).getLast? with
    | none => simp at h
    | some z => rfl

end counted_find

section circular

variable {K V H E A : Type}

theorem chain_next_ne_null {heap : List (node K V)} {t : Nat} :
    ∀ (l : List (Nat × (K × V))) (prev : Nat), is_chain heap prev l t →
      ∀ x ∈ l, ∃ nx, atomic_load heap x.1 = some (some nx)
  | [], _, _ => by simp
  | x :: rest, _, h => by
    intro y hy
    rcases List.mem_cons.mp hy with rfl | hy
    · exact ⟨_, is_chain_load_prev h.2.2⟩
    · exact chain_next_ne_null rest x.1 h.2.2 y hy

theorem rehash_chains_getElem? [hasher H K] (hash : H) (n : Nat) :
    ∀ (r : List (Nat × (K × V))) (cs : List (List (Nat × (K × V)))) (b : Nat),
      b < cs.length →
      (rehash_chains hash n cs r)[b]? =
        some ((r.filter (fun x => hasher.call hash x.2.1 % n == b)).reverse ++
          (cs[b]?).getD [])
  | [], cs, b, hb => by
    simp [rehash_chains, List.getElem?_eq_getElem hb]
  | x :: r, cs, b, hb => by
    have hlen : b < (push_front (hasher.call hash x.2.1 % n) x cs).length := by
      rw [push_front_length]; exact hb
    have ih := rehash_chains_getElem? hash n r
      (push_front (hasher.call hash x.2.1 % n) x cs) b hlen
    have hstep : rehash_chains hash n cs (x :: r) =
        rehash_chains hash n (push_front (hasher.call hash x.2.1 % n) x cs) r := rfl
    rw [hstep, ih]
    by_cases ht : hasher.call hash x.2.1 % n = b
    · subst ht
      simp [push_front, List.getElem?_set_self hb, List.filter_cons]
    · have ht2 : (hasher.call hash x.2.1 % n == b) = false := by simpa using ht
      simp [push_front, List.getElem?_set_ne ht, List.filter_cons, ht2]

end circular

section erase_frame

variable {K V H E A : Type}

theorem observers_of_set {m m2 : hash_map K V H E A} {cs : List (List (Nat × (K × V)))}
    (h : represents m.heap m.current_buckets cs) {j : Nat} {c2 : List (Nat × (K × V))}
    (h2 : represents m2.heap m2.current_buckets (cs.set j c2)) {fuel : Nat}
    (hf : m.size < fuel) (hf2 : m2.size < fuel) {b : Nat} (hb : b < m.bucket_count)
    (hne : b ≠ j) :
    m2.local_range fuel b = m.local_range fuel b ∧
      m2.bucket_elements fuel b = m.bucket_elements fuel b := by
  obtain ⟨s, c, -, hc⟩ := h.get hb
  have hc2 : (cs.set j c2)[b]? = some c := by
    rw [List.getElem?_set_ne (Ne.symm hne)]
    exact hc
  rw [local_range_eq h hc (chain_length_lt h hc hf),
    local_range_eq h2 hc2 (chain_length_lt h2 hc2 hf2), bucket_elements_eq h hc hf,
    bucket_elements_eq h2 hc2 hf2]
  exact ⟨rfl, rfl⟩

end erase_frame

section insert_then_erase

variable {K V H E A : Type}

theorem split_of_last_hit {α : Type} {p : α → Bool} {c l1 l2 : List α} {x new : α}
    (e : l1 ++ x :: l2 = c ++ [new]) (hc : ∀ y ∈ c, p y = false) (hx : p x = true) :
    l1 = c ∧ x = new ∧ l2 = [] := by
  rcases List.append_eq_append_iff.mp e with ⟨a, h1, h2⟩ | ⟨a, h1, h2⟩
  · cases a with
    | nil =>
      simp only [List.nil_append, List.cons.injEq] at h2
      simp only [List.append_nil] at h1
      exact ⟨h1.symm, h2.1, h2.2⟩
    | cons y rest =>
      exfalso
      simp only [List.cons_append, List.cons.injEq] at h2
      have hxc : x ∈ c := by
        rw [h1, h2.1]
        simp
      have := hc x hxc
      rw [hx] at this
      exact absurd this (by simp)
  · cases a with
    | nil =>
      simp only [List.nil_append, List.cons.injEq] at h2
      simp only [List.append_nil] at h1
      exact ⟨h1, h2.1.symm, h2.2.symm⟩
    | cons y rest =>
      exfalso
      simp at h2

theorem set_same {α : Type} {l : List α} {i : Nat} {a : α} (h : l[i]? = some a) :
    l.set i a = l := by
  apply List.ext_getElem?
  intro j
  by_cases hj : i = j
  · subst hj
    rw [List.getElem?_set_self (List.getElem?_eq_some.mp h).1, h]
  · rw [List.getElem?_set_ne hj]

end insert_then_erase

section permutation_counts

variable {α : Type} [BEq α]

theorem beq_class_congr (hsymm : ∀ a b : α, (a == b) = true → (b == a) = true)
    (htrans : ∀ a b c : α, (a == b) = true → (b == c) = true → (a == c) = true)
    {s a : α} (h : (s == a) = true) (e : α) : (e == s) = (e == a) := by
  cases h1 : (e == a) with
  | true => exact htrans e a s h1 (hsymm s a h)
  | false =>
    cases h2 : (e == s) with
    | false => rfl
    | true =>
      rw [htrans e s a h2 h] at h1
      exact absurd h1 (by simp)

theorem countP_class_congr (hsymm : ∀ a b : α, (a == b) = true → (b == a) = true)
    (htrans : ∀ a b c : α, (a == b) = true → (b == c) = true → (a == c) = true)
    {s a : α} (h : (s == a) = true) (l : List α) :
    l.countP (fun e => e == s) = l.countP (fun e => e == a) := by
  apply List.countP_congr
  intro x _
  rw [beq_class_congr hsymm htrans h x]

theorem countP_forall₂ (hsymm : ∀ a b : α, (a == b) = true → (b == a) = true)
    (htrans : ∀ a b c : α, (a == b) = true → (b == c) = true → (a == c) = true)
    {p1 p2 : List α} (h : List.Forall₂ (fun x y => (x == y) = true) p1 p2) (a : α) :
    p1.countP (fun e => e == a) = p2.countP (fun e => e == a) := by
  induction h with
  | nil => rfl
  | @cons x y t1 t2 hxy _ ih =>
    have e : (x == a) = (y == a) := by
      cases h1 : (y == a) with
      | true => exact htrans x y a hxy h1
      | false =>
        cases h2 : (x == a) with
        | false => rfl
        | true =>
          rw [htrans y x a (hsymm x y hxy) h2] at h1
          exact absurd h1 (by simp)
    rw [List.countP_cons, List.countP_cons, ih, e]

theorem is_permutation_loop_count (hrefl : ∀ a : α, (a == a) = true)
    (hsymm : ∀ a b : α, (a == b) = true → (b == a) = true)
    (htrans : ∀ a b c : α, (a == b) = true → (b == c) = true → (a == c) = true)
    (l2 : List α) (rest : List α) :
    ∀ seen : List α,
      (∀ s ∈ seen, (seen ++ rest).countP (fun e => e == s) = l2.countP (fun e => e == s)) →
      (is_permutation_loop l2 seen rest = true ↔
        ∀ a ∈ rest, (seen ++ rest).countP (fun e => e == a) = l2.countP (fun e => e == a)) := by
  induction rest with
  | nil => intro seen _; simp [is_permutation_loop]
  | cons a t ih =>
    intro seen hseen
    have hL : (seen ++ [a]) ++ t = seen ++ a :: t := by simp
    rw [is_permutation_loop]
    by_cases hs : seen.any (fun e => e == a) = true
    · obtain ⟨s, hs1, hs2⟩ := List.any_eq_true.mp hs
      have hPa : (seen ++ a :: t).countP (fun e => e == a) = l2.countP (fun e => e == a) := by
        rw [← countP_class_congr hsymm htrans hs2, ← countP_class_congr hsymm htrans hs2]
        exact hseen s hs1
      rw [if_pos hs, ih (seen ++ [a]) (by
        intro s2 h2
        rw [hL]
        rcases List.mem_append.mp h2 with h2 | h2
        · exact hseen s2 h2
        · rw [List.mem_singleton.mp h2]; exact hPa), hL]
      constructor
      · intro h b hb
        rcases List.mem_cons.mp hb with rfl | hb
        · exact hPa
        · exact h b hb
      · intro h b hb
        exact h b (List.mem_cons_of_mem _ hb)
    · have hs0 : seen.countP (fun e => e == a) = 0 := by
        rw [List.countP_eq_zero]
        intro e he hea
        exact hs (List.any_eq_true.mpr ⟨e, he, hea⟩)
      have hcount : (seen ++ a :: t).countP (fun e => e == a) =
          (a :: t).countP (fun e => e == a) := by
        rw [List.countP_append, hs0, Nat.zero_add]
      have hpos : 0 < (a :: t).countP (fun e => e == a) :=
        List.countP_pos_iff.mpr ⟨a, List.mem_cons_self _ _, hrefl a⟩
      rw [if_neg hs]
      by_cases hP : (a :: t).countP (fun e => e == a) = l2.countP (fun e => e == a)
      · have hcond : (l2.countP (fun e => e == a) == 0 ||
            (a :: t).countP (fun e => e == a) != l2.countP (fun e => e == a)) = false := by
          rw [Bool.or_eq_false_iff]
          constructor
          · simp only [beq_eq_false_iff_ne, ne_eq]
            omega
          · simp [hP]
        rw [hcond, if_neg (by simp), ih (seen ++ [a]) (by
          intro s2 h2
          rw [hL]
          rcases List.mem_append.mp h2 with h2 | h2
          · exact hseen s2 h2
          · rw [List.mem_singleton.mp h2, hcount]; exact hP), hL]
        constructor
        · intro h b hb
          rcases List.mem_cons.mp hb with rfl | hb
          · rw [hcount]; exact hP
          · exact h b hb
        · intro h b hb
          exact h b (List.mem_cons_of_mem _ hb)
      · have hcond : (l2.countP (fun e => e == a) == 0 ||
            (a :: t).countP (fun e => e == a) != l2.countP (fun e => e == a)) = true := by
          rw [Bool.or_eq_true]
          right
          simp [hP]
        rw [hcond, if_pos rfl]
        constructor
        · intro h; exact absurd h (by simp)
        · intro h
          exact absurd (hcount ▸ h a (List.mem_cons_self _ _)) hP

theorem countP_filter_other (hsymm : ∀ a b : α, (a == b) = true → (b == a) = true)
    (htrans : ∀ a b c : α, (a == b) = true → (b == c) = true → (a == c) = true)
    {a0 b : α} (hb : (b == a0) = false) (l : List α) :
    (l.filter (fun e => !(e == a0))).countP (fun e => e == b) =
      l.countP (fun e => e == b) := by
  rw [List.countP_filter]
  apply List.countP_congr
  intro x _
  have : (x == b) = true → (x == a0) = false := by
    intro hxb
    cases h : (x == a0) with
    | false => rfl
    | true =>
      rw [htrans b x a0 (hsymm x b hxb) h] at hb
      exact absurd hb (by simp)
  constructor
  · intro h
    simp only [Bool.and_eq_true] at h
    exact h.1
  · intro h
    simp [h, this h]

theorem countP_filter_same
    (htrans : ∀ a b c : α, (a == b) = true → (b == c) = true → (a == c) = true)
    {a0 b : α} (hb : (b == a0) = true) (l : List α) :
    (l.filter (fun e => !(e == a0))).countP (fun e => e == b) = 0 := by
  rw [List.countP_eq_zero]
  intro x hx hxb
  have h1 := (List.mem_filter.mp hx).2
  rw [htrans x b a0 hxb hb] at h1
  exact absurd h1 (by simp)

theorem length_filter_other (a0 : α) (l : List α) :
    l.length = l.countP (fun e => e == a0) + (l.filter (fun e => !(e == a0))).length := by
  rw [List.length_eq_countP_add_countP (fun e => e == a0) l, List.countP_eq_length_filter,
    List.countP_eq_length_filter]
  congr 2
  apply List.filter_congr
  intro x _
  simp

end permutation_counts

section permutation_counts2

variable {α : Type} [BEq α]

theorem counts_of_mem (hrefl : ∀ a : α, (a == a) = true)
    (hsymm : ∀ a b : α, (a == b) = true → (b == a) = true)
    (htrans : ∀ a b c : α, (a == b) = true → (b == c) = true → (a == c) = true) :
    ∀ (n : Nat) (l1 l2 : List α), l1.length = n → l1.length = l2.length →
      (∀ a ∈ l1, l1.countP (fun e => e == a) = l2.countP (fun e => e == a)) →
      ∀ a, l1.countP (fun e => e == a) = l2.countP (fun e => e == a) := by
  intro n
  induction n using Nat.strong_induction_on with
  | _ n ih =>
    intro l1 l2 hn hlen hmem a
    cases l1 with
    | nil =>
      have : l2 = [] := List.length_eq_zero.mp (by simpa using hlen.symm)
      rw [this]
    | cons a0 t =>
      have h0 := hmem a0 (List.mem_cons_self _ _)
      have hpos : 0 < (a0 :: t).countP (fun e => e == a0) :=
        List.countP_pos_iff.mpr ⟨a0, List.mem_cons_self _ _, hrefl a0⟩
      have hl1 := length_filter_other a0 (a0 :: t)
      have hl2 := length_filter_other a0 l2
      have hrec := ih ((a0 :: t).filter (fun e => !(e == a0))).length (by omega)
        ((a0 :: t).filter (fun e => !(e == a0))) (l2.filter (fun e => !(e == a0))) rfl
        (by omega)
        (by
          intro b hb
          obtain ⟨hb1, hb2⟩ := List.mem_filter.mp hb
          have hb3 : (b == a0) = false := by simpa using hb2
          rw [countP_filter_other hsymm htrans hb3, countP_filter_other hsymm htrans hb3]
          exact hmem b hb1)
      cases ha : (a == a0) with
      | true =>
        rw [countP_class_congr hsymm htrans ha, countP_class_congr hsymm htrans ha]
        exact h0
      | false =>
        have := hrec a
        rw [countP_filter_other hsymm htrans ha, countP_filter_other hsymm htrans ha] at this
        exact this

theorem length_of_counts (hrefl : ∀ a : α, (a == a) = true)
    (hsymm : ∀ a b : α, (a == b) = true → (b == a) = true)
    (htrans : ∀ a b c : α, (a == b) = true → (b == c) = true → (a == c) = true) :
    ∀ (n : Nat) (l1 l2 : List α), l1.length = n →
      (∀ a, l1.countP (fun e => e == a) = l2.countP (fun e => e == a)) →
      l1.length = l2.length := by
  intro n
  induction n using Nat.strong_induction_on with
  | _ n ih =>
    intro l1 l2 hn hall
    cases l1 with
    | nil =>
      cases l2 with
      | nil => rfl
      | cons b t =>
        exfalso
        have h1 := hall b
        have hpos : 0 < (b :: t).countP (fun e => e == b) :=
          List.countP_pos_iff.mpr ⟨b, List.mem_cons_self _ _, hrefl b⟩
        simp only [List.countP_nil] at h1
        omega
    | cons a0 t =>
      have h0 := hall a0
      have hpos : 0 < (a0 :: t).countP (fun e => e == a0) :=
        List.countP_pos_iff.mpr ⟨a0, List.mem_cons_self _ _, hrefl a0⟩
      have hl1 := length_filter_other a0 (a0 :: t)
      have hl2 := length_filter_other a0 l2
      have hrec := ih ((a0 :: t).filter (fun e => !(e == a0))).length (by omega)
        ((a0 :: t).filter (fun e => !(e == a0))) (l2.filter (fun e => !(e == a0))) rfl
        (by
          intro b
          cases hb : (b == a0) with
          | true =>
            rw [countP_filter_same htrans hb, countP_filter_same htrans hb]
          | false =>
            rw [countP_filter_other hsymm htrans hb, countP_filter_other hsymm htrans hb]
            exact hall b)
      omega

theorem is_permutation_count_iff (hrefl : ∀ a : α, (a == a) = true)
    (hsymm : ∀ a b : α, (a == b) = true → (b == a) = true)
    (htrans : ∀ a b c : α, (a == b) = true → (b == c) = true → (a == c) = true)
    (l1 l2 : List α) :
    is_permutation l1 l2 = true ↔
      ∀ a, l1.countP (fun e => e == a) = l2.countP (fun e => e == a) := by
  obtain ⟨p1, p2, h1, h2, h3⟩ := mismatch_split l1 l2
  have hpre := countP_forall₂ hsymm htrans h3
  have hloop := is_permutation_loop_count hrefl hsymm htrans (mismatch l1 l2).2
    (mismatch l1 l2).1 [] (by simp)
  simp only [List.nil_append] at hloop
  have hc1 : ∀ a, l1.countP (fun e => e == a) =
      p1.countP (fun e => e == a) + (mismatch l1 l2).1.countP (fun e => e == a) := by
    intro a
    conv_lhs => rw [h1]
    rw [List.countP_append]
  have hc2 : ∀ a, l2.countP (fun e => e == a) =
      p2.countP (fun e => e == a) + (mismatch l1 l2).2.countP (fun e => e == a) := by
    intro a
    conv_lhs => rw [h2]
    rw [List.countP_append]
  unfold is_permutation
  simp only [bne_iff_ne, ne_eq, ite_not, Bool.if_false_right, Bool.and_eq_true,
    decide_eq_true_eq]
  rw [hloop]
  constructor
  · rintro ⟨hlen, hm⟩ a
    have := counts_of_mem hrefl hsymm htrans _ _ _ rfl hlen hm a
    rw [hc1, hc2, hpre a, this]
  · intro hall
    have hrest : ∀ a, (mismatch l1 l2).1.countP (fun e => e == a) =
        (mismatch l1 l2).2.countP (fun e => e == a) := by
      intro a
      have := hall a
      rw [hc1, hc2, hpre a] at this
      omega
    exact ⟨length_of_counts hrefl hsymm htrans _ _ _ rfl hrest, fun a _ => hrest a⟩

theorem countP_flatten_congr {β : Type} (p : β → Bool) :
    ∀ (la lb : List (List β)), la.length = lb.length →
      (∀ (i : Nat) (ca cb : List β), la[i]? = some ca → lb[i]? = some cb →
        ca.countP p = cb.countP p) →
      la.flatten.countP p = lb.flatten.countP p
  | [], [], _, _ => rfl
  | [], _ :: _, h, _ => by simp at h
  | _ :: _, [], h, _ => by simp at h
  | ca :: la, cb :: lb, h, hall => by
    have h0 := hall 0 ca cb (by simp) (by simp)
    have ih := countP_flatten_congr p la lb (by simpa using h)
      (fun i x y hx hy => hall (i + 1) x y (by simpa using hx) (by simpa using hy))
    simp only [List.flatten_cons, List.countP_append, h0, ih]

theorem countP_flatten_single {β : Type} (p : β → Bool) :
    ∀ (l : List (List β)) (j : Nat) (c : List β), l[j]? = some c →
      (∀ (i : Nat) (c2 : List β), i ≠ j → l[i]? = some c2 → c2.countP p = 0) →
      l.flatten.countP p = c.countP p
  | [], _, _, h, _ => by simp at h
  | c0 :: l, 0, c, h, hz => by
    simp only [List.getElem?_cons_zero, Option.some.injEq] at h
    subst h
    have hrest : l.flatten.countP p = 0 := by
      rw [List.countP_eq_zero]
      intro x hx hpx
      obtain ⟨c2, hc2, hx2⟩ := List.mem_flatten.mp hx
      obtain ⟨i, hi⟩ := List.mem_iff_getElem?.mp hc2
      have := hz (i + 1) c2 (by omega) (by simpa using hi)
      rw [List.countP_eq_zero] at this
      exact this x hx2 hpx
    simp only [List.flatten_cons, List.countP_append, hrest, Nat.add_zero]
  | c0 :: l, j + 1, c, h, hz => by
    have h0 := hz 0 c0 (by omega) (by simp)
    have ih := countP_flatten_single p l j c (by simpa using h)
      (fun i c2 hi hc2 => hz (i + 1) c2 (by omega) (by simpa using hc2))
    simp only [List.flatten_cons, List.countP_append, h0, ih, Nat.zero_add]

end permutation_counts2

section bucketwise

variable {K V H E A : Type}

theorem buckets_iff_global [BEq K] [BEq V] (hv : value_laws K V) (f : K → Nat) (n : Nat)
    (hcons : ∀ x y : K × V, (x == y) = true → f x.1 = f y.1)
    {va vb : List (List (K × V))} (hlen : va.length = vb.length)
    (pa : ∀ (i : Nat) (c : List (K × V)) (x : K × V), va[i]? = some c → x ∈ c → f x.1 % n = i)
    (pb : ∀ (i : Nat) (c : List (K × V)) (x : K × V), vb[i]? = some c → x ∈ c → f x.1 % n = i) :
    (∀ (i : Nat) (ca cb : List (K × V)), va[i]? = some ca → vb[i]? = some cb →
        ca.length = cb.length ∧ is_permutation ca cb = true) ↔
      is_permutation va.flatten vb.flatten = true := by
  have hzero : ∀ {vs : List (List (K × V))},
      (∀ (i : Nat) (c : List (K × V)) (x : K × V), vs[i]? = some c → x ∈ c → f x.1 % n = i) →
      ∀ (a : K × V) (i : Nat) (c : List (K × V)), i ≠ f a.1 % n → vs[i]? = some c →
        c.countP (fun e => e == a) = 0 := by
    intro vs p a i c hne hc
    rw [List.countP_eq_zero]
    intro x hx hxa
    have h1 := p i c x hc hx
    rw [hcons x a hxa] at h1
    exact hne h1.symm
  rw [is_permutation_count_iff hv.refl hv.symm hv.trans]
  constructor
  · intro h a
    apply countP_flatten_congr _ va vb hlen
    intro i ca cb hca hcb
    exact (is_permutation_count_iff hv.refl hv.symm hv.trans ca cb).mp (h i ca cb hca hcb).2 a
  · intro h i ca cb hca hcb
    have hcount : ∀ a, ca.countP (fun e => e == a) = cb.countP (fun e => e == a) := by
      intro a
      by_cases hi : i = f a.1 % n
      · have h1 := countP_flatten_single (fun e => e == a) va i ca hca
          (fun i2 c2 hne hc2 => hzero pa a i2 c2 (by rw [← hi]; exact hne) hc2)
        have h2 := countP_flatten_single (fun e => e == a) vb i cb hcb
          (fun i2 c2 hne hc2 => hzero pb a i2 c2 (by rw [← hi]; exact hne) hc2)
        rw [← h1, ← h2]
        exact h a
      · rw [hzero pa a i ca hi hca, hzero pb a i cb hi hcb]
    exact ⟨length_of_counts hv.refl hv.symm hv.trans _ ca cb rfl hcount,
      (is_permutation_count_iff hv.refl hv.symm hv.trans ca cb).mpr hcount⟩

theorem bucket_elements_none {m : hash_map K V H E A} {i : Nat}
    (h : m.current_buckets.buckets.length ≤ i) (fuel : Nat) :
    m.bucket_elements fuel i = none := by
  have : m.current_buckets.buckets[i]? = none := List.getElem?_eq_none h
  simp [hash_map.bucket_elements, hash_map.local_range, hash_map.cbegin_bucket, this]

theorem placed_of_observed [hasher H K] {m : hash_map K V H E A}
    {cs : List (List (Nat × (K × V)))} (h : represents m.heap m.current_buckets cs)
    {fuel : Nat} (hf : m.size < fuel)
    (p : ∀ (i : Nat) (es : List (K × V)) (e : K × V), m.bucket_elements fuel i = some es →
      e ∈ es → m.bucket e.1 = i) :
    ∀ (i : Nat) (c : List (K × V)) (x : K × V), (chain_values cs)[i]? = some c → x ∈ c →
      hasher.call m.current_buckets.hash x.1 % m.current_buckets.bucket_count = i := by
  intro i c x hc hx
  have hi : i < cs.length := by
    have := (List.getElem?_eq_some.mp hc).1
    simpa [chain_values] using this
  have hci : cs[i]? = some cs[i] := List.getElem?_eq_getElem hi
  have hc2 := chain_values_getElem? hci
  rw [hc2, Option.some.injEq] at hc
  subst hc
  exact p i _ x (bucket_elements_eq h hci hf) hx

theorem observed_of_laws [hasher H K] [key_equal E K] {m : hash_map K V H E A}
    (hs : steady m)
    (laws : key_laws (K := K) m.current_buckets.hash m.current_buckets.keycomp)
    {fuel : Nat} (hf : m.size < fuel) :
    ∀ (i : Nat) (es : List (K × V)) (e : K × V), m.bucket_elements fuel i = some es →
      e ∈ es → m.bucket e.1 = i := by
  obtain ⟨cs, hwf⟩ := hs
  intro i es e hes he
  by_cases hi : i < m.current_buckets.bucket_count
  · obtain ⟨s, c, -, hc⟩ := hwf.1.get hi
    rw [bucket_elements_eq hwf.1 hc hf, Option.some.injEq] at hes
    subst hes
    exact (hwf.2 laws).placed i _ e (chain_values_getElem? hc) he
  · rw [bucket_elements_none (by rw [hwf.1.buckets_length]; omega)] at hes
    exact absurd hes (by simp)

end bucketwise

section unique_chains

variable {K V H E A : Type}

theorem chain_unique {heap : List (node K V)} {t : Nat} :
    ∀ (c c2 : List (Nat × (K × V))) (prev : Nat), is_chain heap prev c t →
      is_chain heap prev c2 t → t ∉ c.map Prod.fst → t ∉ c2.map Prod.fst → c = c2
  | [], [], _, _, _, _, _ => rfl
  | [], x :: r, _, h1, h2, _, hn => by
    exfalso
    have e : some (some t) = some (some x.1) := h1.symm.trans h2.1
    simp only [Option.some.injEq] at e
    exact hn (by simp [e])
  | x :: r, [], _, h1, h2, hn, _ => by
    exfalso
    have e : some (some t) = some (some x.1) := h2.symm.trans h1.1
    simp only [Option.some.injEq] at e
    exact hn (by simp [e])
  | x :: r, y :: r2, _, h1, h2, hn1, hn2 => by
    have e : some (some x.1) = some (some y.1) := h1.1.symm.trans h2.1
    simp only [Option.some.injEq] at e
    have e2 : y.2 = x.2 := by
      have := h1.2.1
      rw [e, h2.2.1] at this
      simpa using this
    have hxy : x = y := Prod.ext e e2.symm
    subst hxy
    simp only [List.map_cons, List.mem_cons, not_or] at hn1 hn2
    rw [chain_unique r r2 x.1 h1.2.2 h2.2.2 hn1.2 hn2.2]

theorem represents_unique {heap : List (node K V)} {l : fixed_size_bucket_list H E A}
    {cs cs2 : List (List (Nat × (K × V)))} (h : represents heap l cs)
    (h2 : represents heap l cs2) : cs = cs2 := by
  apply List.ext_getElem?
  intro b
  by_cases hb : b < l.bucket_count
  · obtain ⟨s, c, hs, hc⟩ := h.get hb
    obtain ⟨s2, c2, hs2, hc2⟩ := h2.get hb
    have es : s2 = s := Option.some.inj (hs2.symm.trans hs)
    subst es
    rw [hc, hc2, chain_unique c c2 s2.sentinel (h.chain b s2 c hs hc) (h2.chain b s2 c2 hs hc2)
      (h.sentinel_not_mem_chain hs hc) (h2.sentinel_not_mem_chain hs hc2)]
  · rw [List.getElem?_eq_none (by rw [h.chains_length]; omega),
      List.getElem?_eq_none (by rw [h2.chains_length]; omega)]

end unique_chains

section placement

variable {K V H E A : Type}

theorem placed_set [hasher H K] {l l2 : fixed_size_bucket_list H E A}
    {cs : List (List (Nat × (K × V)))} (hp : placed l cs) {b : Nat}
    {c2 : List (Nat × (K × V))}
    (hidx : ∀ k : K, l2.bucket_index k = l.bucket_index k)
    (hc2 : ∀ x ∈ c2, l.bucket_index x.2.1 = b) : placed l2 (cs.set b c2) := by
  intro i c x hc hx
  rw [hidx]
  by_cases hi : b = i
  · subst hi
    have hlt : b < cs.length := by
      have := (List.getElem?_eq_some.mp hc).1
      simpa using this
    rw [List.getElem?_set_self hlt, Option.some.injEq] at hc
    subst hc
    exact hc2 x hx
  · rw [List.getElem?_set_ne hi] at hc
    exact hp i c x hc hx

theorem insert_placed [hasher H K] [key_equal E K] {m m2 : hash_map K V H E A}
    {cs : List (List (Nat × (K × V)))} (hwf : well_formed m cs)
    (hp : placed m.current_buckets cs) {value : K × V} {fuel : Nat} {r : Bool × iterator}
    (hi : m.insert fuel value = some (r, m2)) :
    ∃ cs2, well_formed m2 cs2 ∧ placed m2.current_buckets cs2 := by
  obtain ⟨c, hc, hcase⟩ := insert_cases hwf value (insert_find_ne_none hi)
  rcases hcase with ⟨-, m3, g1, g2, g3⟩ | ⟨l1, x, l2, -, -, -, g1⟩
  · rw [hi] at g1
    simp only [Option.some.injEq, Prod.mk.injEq] at g1
    obtain ⟨-, rfl⟩ := g1
    refine ⟨_, g2, placed_set hp (fun k => by rw [g3]; rfl) ?_⟩
    intro x hx
    rcases List.mem_append.mp hx with hx | hx
    · exact hp _ c x hc hx
    · rw [List.mem_singleton.mp hx]
  · rw [hi] at g1
    simp only [Option.some.injEq, Prod.mk.injEq] at g1
    obtain ⟨-, rfl⟩ := g1
    exact ⟨cs, hwf, hp⟩

theorem insert_or_assign_placed [hasher H K] [key_equal E K] {m m2 : hash_map K V H E A}
    {cs : List (List (Nat × (K × V)))} (hwf : well_formed m cs)
    (hp : placed m.current_buckets cs) {key : K} {mapped : V} {fuel : Nat} {it : iterator}
    (hi : m.insert_or_assign fuel key mapped = some (it, m2)) :
    ∃ cs2, well_formed m2 cs2 ∧ placed m2.current_buckets cs2 := by
  obtain ⟨c, hc, hcase⟩ := insert_or_assign_cases hwf key mapped
    (insert_or_assign_find_ne_none hi)
  rcases hcase with ⟨-, m3, g1, g2, g3⟩ | ⟨l1, x, l2, e, -, -, m3, g1, g2, g3, -⟩
  · rw [hi] at g1
    simp only [Option.some.injEq, Prod.mk.injEq] at g1
    obtain ⟨-, rfl⟩ := g1
    refine ⟨_, g2, placed_set hp (fun k => by rw [g3]; rfl) ?_⟩
    intro x hx
    rcases List.mem_append.mp hx with hx | hx
    · exact hp _ c x hc hx
    · rw [List.mem_singleton.mp hx]
  · rw [hi] at g1
    simp only [Option.some.injEq, Prod.mk.injEq] at g1
    obtain ⟨-, rfl⟩ := g1
    refine ⟨_, g2, placed_set hp (fun k => by rw [g3]) ?_⟩
    intro y hy
    rcases List.mem_append.mp hy with hy | hy
    · exact hp _ c y hc (by rw [e]; exact List.mem_append_left _ hy)
    · rcases List.mem_cons.mp hy with rfl | hy
      · exact hp _ c x hc (by rw [e]; simp)
      · exact hp _ c y hc (by rw [e]; simp [hy])

theorem erase_placed [hasher H K] [key_equal E K] {m m2 : hash_map K V H E A}
    {cs : List (List (Nat × (K × V)))} (hwf : well_formed m cs)
    (hp : placed m.current_buckets cs) {key : K} {fuel n : Nat}
    (hi : m.erase fuel key = some (n, m2)) :
    ∃ cs2, well_formed m2 cs2 ∧ placed m2.current_buckets cs2 := by
  obtain ⟨c, hc, hcase⟩ := erase_cases hwf key (erase_find_ne_none hi)
  rcases hcase with ⟨-, g1⟩ | ⟨l1, x, l2, e, -, -, m3, g1, g2, g3, -⟩
  · rw [hi] at g1
    simp only [Option.some.injEq, Prod.mk.injEq] at g1
    obtain ⟨-, rfl⟩ := g1
    exact ⟨cs, hwf, hp⟩
  · rw [hi] at g1
    simp only [Option.some.injEq, Prod.mk.injEq] at g1
    obtain ⟨-, rfl⟩ := g1
    refine ⟨_, g2, placed_set hp (fun k => by rw [g3]; rfl) ?_⟩
    intro y hy
    rcases List.mem_append.mp hy with hy | hy
    · exact hp _ c y hc (by rw [e]; exact List.mem_append_left _ hy)
    · exact hp _ c y hc (by rw [e]; simp [hy])

theorem modifies_placed [hasher H K] [key_equal E K] {m m2 : hash_map K V H E A}
    {cs : List (List (Nat × (K × V)))} (hwf : well_formed m cs)
    (hp : placed m.current_buckets cs) {fuel : Nat} (h : modifies fuel m m2) :
    ∃ cs2, well_formed m2 cs2 ∧ placed m2.current_buckets cs2 := by
  cases h with
  | insert value r hi => exact insert_placed hwf hp hi
  | insert_or_assign key mapped it hi => exact insert_or_assign_placed hwf hp hi
  | erase key n hi => exact erase_placed hwf hp hi
  | erase_pos pos it hi =>
    obtain ⟨key, n, hi⟩ := erase_pos_erase hi
    exact erase_placed hwf hp hi

theorem rehash_placed [hasher H K] [key_equal E K] {m m2 : hash_map K V H E A}
    {cs : List (List (Nat × (K × V)))} (hwf : well_formed m cs)
    (hp : placed m.current_buckets cs) {fuel n : Nat} (hpos : 0 < n)
    (hi : m.rehash fuel n = some m2) :
    ∃ cs2, well_formed m2 cs2 ∧ placed m2.current_buckets cs2 := by
  by_cases hn : n = m.current_buckets.bucket_count
  · simp only [hash_map.rehash, hn, if_true, Option.some.injEq] at hi
    subst hi
    exact ⟨cs, hwf, hp⟩
  · obtain ⟨g1, g2, g3, -⟩ := rehash_well_formed hwf hpos hn hi
    refine ⟨_, g1, ?_⟩
    intro b c x hc hx
    rcases rehash_chains_placed m.current_buckets.hash n cs.flatten _ b c x hc hx with
      ⟨c0, hc0, hx0⟩ | h
    · exfalso
      have hlt := (List.getElem?_eq_some.mp hc0).1
      rw [List.getElem?_replicate] at hc0
      split at hc0
      · simp only [Option.some.injEq] at hc0
        rw [← hc0] at hx0
        simp at hx0
      · simp at hc0
    · simp only [fixed_size_bucket_list.bucket_index, g2, g3]
      exact h

theorem copy_placed [hasher H K] [key_equal E K] {m m2 : hash_map K V H E A}
    {cs ccs : List (List (Nat × (K × V)))} (hp : placed m.current_buckets cs)
    (hvals : chain_values ccs = chain_values cs)
    (hcount : m2.current_buckets.bucket_count = m.current_buckets.bucket_count)
    (hhash : m2.current_buckets.hash = m.current_buckets.hash) :
    placed m2.current_buckets ccs := by
  intro b c x hc hx
  have h1 := chain_values_getElem? hc
  rw [hvals] at h1
  have hlt : b < cs.length := by
    have := (List.getElem?_eq_some.mp h1).1
    simpa [chain_values] using this
  have h2 := chain_values_getElem? (List.getElem?_eq_getElem hlt)
  rw [h2, Option.some.injEq] at h1
  have hx2 : x.2 ∈ c.map Prod.snd := List.mem_map.mpr ⟨x, hx, rfl⟩
  rw [← h1] at hx2
  obtain ⟨y, hy, hyx⟩ := List.mem_map.mp hx2
  have := hp b _ y (List.getElem?_eq_getElem hlt) hy
  simp only [fixed_size_bucket_list.bucket_index, hcount, hhash] at this ⊢
  rw [← hyx]
  exact this

end placement

section stores

variable {K V H E A : Type}

theorem map_store.map_eq {w : map_store K V H E A} {i : Nat} {m : hash_map K V H E A}
    (h : w.map i = some m) : w.maps[i]? = some m.current_buckets ∧ m.heap = w.heap := by
  simp only [map_store.map] at h
  cases hl : w.maps[i]? with
  | none => rw [hl] at h; simp at h
  | some l =>
    rw [hl] at h
    simp only [Option.map_some', Option.some.injEq] at h
    subst h
    exact ⟨rfl, rfl⟩

theorem represented_put [hasher H K] [key_equal E K] {w : map_store K V H E A}
    {css : Nat → List (List (Nat × (K × V)))} (hinv : w.represented css) {i : Nat}
    {m m2 : hash_map K V H E A} (hm : w.map i = some m) (hconf : confined m (css i) m2)
    (hplaced : ∃ cs2, well_formed m2 cs2 ∧ placed m2.current_buckets cs2) :
    ∃ css2, (w.put i m2).represented css2 := by
  obtain ⟨hi, hheap⟩ := map_store.map_eq hm
  obtain ⟨hframes, cs2, wf2, hsub⟩ := hconf
  obtain ⟨cs3, wf3, hp3⟩ := hplaced
  have e := represents_unique wf3.1 wf2.1
  subst e
  have hilt : i < w.maps.length := (List.getElem?_eq_some.mp hi).1
  have hm_eq : m = { heap := w.heap, current_buckets := m.current_buckets } := by
    cases m
    simp only at hheap
    subst hheap
    rfl
  have hold := hinv i m.current_buckets hi
  rw [hheap] at hframes hsub
  refine ⟨Function.update css i cs3, ?_⟩
  intro k lk hk
  have hk2 : (w.maps.set i m2.current_buckets)[k]? = some lk := hk
  by_cases hki : k = i
  · subst hki
    rw [List.getElem?_set_self hilt, Option.some.injEq] at hk2
    subst hk2
    rw [Function.update_same]
    refine ⟨wf3, hp3, ?_⟩
    intro j l2 hji hj q hq
    have hj2 : (w.maps.set k m2.current_buckets)[j]? = some l2 := hj
    rw [List.getElem?_set_ne (Ne.symm hji)] at hj2
    rw [Function.update_noteq hji]
    rcases hsub q hq with h | h
    · exact hold.2.2 j l2 hji hj2 q h
    · intro hq2
      have := (hinv j l2 hj2).1.1.footprint_lt q hq2
      exact Nat.lt_irrefl _ (Nat.lt_of_lt_of_le this h)
  · rw [List.getElem?_set_ne (Ne.symm hki)] at hk2
    rw [Function.update_noteq hki]
    have holdk := hinv k lk hk2
    have hdis : ∀ q ∈ footprint lk (css k), q ∉ footprint m.current_buckets (css i) :=
      holdk.2.2 i m.current_buckets (Ne.symm hki) hi
    refine ⟨⟨frames_represents hframes holdk.1.1 hdis, holdk.1.2⟩, holdk.2.1, ?_⟩
    intro j l2 hjk hj q hq
    have hj2 : (w.maps.set i m2.current_buckets)[j]? = some l2 := hj
    by_cases hji : j = i
    · subst hji
      rw [List.getElem?_set_self hilt, Option.some.injEq] at hj2
      subst hj2
      rw [Function.update_same]
      intro hq2
      rcases hsub q hq2 with h | h
      · exact hdis q hq h
      · have := holdk.1.1.footprint_lt q hq
        exact Nat.lt_irrefl _ (Nat.lt_of_lt_of_le this h)
    · rw [List.getElem?_set_ne (Ne.symm hji)] at hj2
      rw [Function.update_noteq hji]
      exact holdk.2.2 j l2 hjk hj2 q hq

theorem represented_add [hasher H K] [key_equal E K] {w : map_store K V H E A}
    {css : Nat → List (List (Nat × (K × V)))} (hinv : w.represented css)
    {m2 : hash_map K V H E A} {cs2 : List (List (Nat × (K × V)))} {extra : List (node K V)}
    (hheap : m2.heap = w.heap ++ extra) (wf2 : well_formed m2 cs2)
    (hp2 : placed m2.current_buckets cs2)
    (hnew : ∀ q ∈ footprint m2.current_buckets cs2, w.heap.length ≤ q) :
    ∃ css2, (w.add m2).represented css2 := by
  refine ⟨Function.update css w.maps.length cs2, ?_⟩
  intro k lk hk
  have hk2 : (w.maps ++ [m2.current_buckets])[k]? = some lk := hk
  have hother : ∀ (j : Nat) (l2 : fixed_size_bucket_list H E A), j ≠ w.maps.length →
      (w.maps ++ [m2.current_buckets])[j]? = some l2 → w.maps[j]? = some l2 := by
    intro j l2 hne hj
    have hlt : j < (w.maps ++ [m2.current_buckets]).length := (List.getElem?_eq_some.mp hj).1
    simp only [List.length_append, List.length_cons, List.length_nil] at hlt
    rw [List.getElem?_append_left (by omega)] at hj
    exact hj
  by_cases hkn : k = w.maps.length
  · subst hkn
    rw [List.getElem?_append_right (Nat.le_refl _)] at hk2
    simp only [Nat.sub_self, List.getElem?_cons_zero, Option.some.injEq] at hk2
    subst hk2
    rw [Function.update_same]
    refine ⟨wf2, hp2, ?_⟩
    intro j l2 hj hj2 q hq hq2
    rw [Function.update_noteq hj] at hq2
    have := (hinv j l2 (hother j l2 hj hj2)).1.1.footprint_lt q hq2
    exact Nat.lt_irrefl _ (Nat.lt_of_lt_of_le this (hnew q hq))
  · have hk3 := hother k lk hkn hk2
    rw [Function.update_noteq hkn]
    have holdk := hinv k lk hk3
    refine ⟨⟨?_, holdk.1.2⟩, holdk.2.1, ?_⟩
    · show represents m2.heap lk (css k)
      rw [hheap]
      exact represents_append holdk.1.1 extra
    · intro j l2 hjk hj q hq
      by_cases hjn : j = w.maps.length
      · subst hjn
        have hj2 : (w.maps ++ [m2.current_buckets])[w.maps.length]? = some l2 := hj
        rw [List.getElem?_append_right (Nat.le_refl _)] at hj2
        simp only [Nat.sub_self, List.getElem?_cons_zero, Option.some.injEq] at hj2
        subst hj2
        rw [Function.update_same]
        intro hq2
        have := holdk.1.1.footprint_lt q hq
        exact Nat.lt_irrefl _ (Nat.lt_of_lt_of_le this (hnew q hq2))
      · rw [Function.update_noteq hjn]
        exact holdk.2.2 j l2 hjk (hother j l2 hjn hj) q hq

theorem represented_reindex [hasher H K] [key_equal E K] {w w2 : map_store K V H E A}
    {css : Nat → List (List (Nat × (K × V)))} (hinv : w.represented css)
    (hheap : w2.heap = w.heap) (f : Nat → Nat) (hinj : ∀ a b, f a = f b → a = b)
    (hmaps : ∀ k, w2.maps[k]? = w.maps[f k]?) : w2.represented (fun k => css (f k)) := by
  intro k lk hk
  rw [hmaps k] at hk
  have hold := hinv (f k) lk hk
  rw [hheap]
  refine ⟨hold.1, hold.2.1, ?_⟩
  intro j l2 hjk hj
  rw [hmaps j] at hj
  exact hold.2.2 (f j) l2 (fun e => hjk (hinj _ _ e)) hj

theorem swap_maps {α : Type} {l : List α} {i j : Nat} {a b : α} (hi : l[i]? = some a)
    (hj : l[j]? = some b) (k : Nat) :
    ((l.set i b).set j a)[k]? = l[(Equiv.swap i j) k]? := by
  have hilt : i < l.length := (List.getElem?_eq_some.mp hi).1
  have hjlt : j < l.length := (List.getElem?_eq_some.mp hj).1
  by_cases hkj : k = j
  · subst hkj
    rw [List.getElem?_set_self (by rw [List.length_set]; exact hjlt), Equiv.swap_apply_right, hi]
  · rw [List.getElem?_set_ne (Ne.symm hkj)]
    by_cases hki : k = i
    · subst hki
      rw [List.getElem?_set_self hilt, Equiv.swap_apply_left, hj]
    · rw [List.getElem?_set_ne (Ne.symm hki), Equiv.swap_apply_of_ne_of_ne hki hkj]

theorem reachable_store_represented [hasher H K] [key_equal E K] [Inhabited V]
    {w : map_store K V H E A} (h : reachable_store w) : ∃ css, w.represented css := by
  induction h with
  | start heap =>
    refine ⟨fun _ => [], ?_⟩
    intro i l hi
    simp at hi
  | @create w n hpos hash keycomp allocator _ ih =>
    obtain ⟨css, hinv⟩ := ih
    obtain ⟨extra, hex, -⟩ := create_heap_prefix (K := K) (V := V) w.heap n hash keycomp
      allocator
    refine represented_add hinv hex
      (create_well_formed w.heap hpos hash keycomp allocator) ?_ ?_
    · intro b c x hc hx
      have hlt := (List.getElem?_eq_some.mp hc).1
      rw [List.getElem?_replicate] at hc
      split at hc
      · simp only [Option.some.injEq] at hc
        rw [← hc] at hx
        simp at hx
      · simp at hc
    · intro q hq
      simp only [footprint, hash_map.create, create_fields, List.map_map, List.flatten_replicate_nil,
        List.map_nil, List.append_nil, List.mem_map, List.mem_range, Function.comp] at hq
      obtain ⟨a, -, rfl⟩ := hq
      exact Nat.le_add_right _ _
  | @copy w m m2 i fuel _ hm hc ih =>
    obtain ⟨css, hinv⟩ := ih
    obtain ⟨hi, hheap⟩ := map_store.map_eq hm
    have hold := hinv i m.current_buckets hi
    have hm_eq : ({ heap := w.heap, current_buckets := m.current_buckets } :
        hash_map K V H E A) = m := by
      cases m
      simp only at hheap
      subst hheap
      rfl
    rw [hm_eq] at hold
    obtain ⟨ccs, extra, g1, g2, g3, g4, g5, g6, -⟩ := copy_well_formed hold.1 hc
    rw [hheap] at g3 g4
    exact represented_add hinv g3 g1 (copy_placed hold.2.1 g2 g5 g6) g4
  | @insert w m m2 i fuel value r _ hm hi ih =>
    obtain ⟨css, hinv⟩ := ih
    obtain ⟨hl, hheap⟩ := map_store.map_eq hm
    have hold := hinv i m.current_buckets hl
    have hm_eq : ({ heap := w.heap, current_buckets := m.current_buckets } :
        hash_map K V H E A) = m := by
      cases m
      simp only at hheap
      subst hheap
      rfl
    rw [hm_eq] at hold
    exact represented_put hinv hm (modifies_confined hold.1 (modifies.insert value r hi))
      (insert_placed hold.1 hold.2.1 hi)
  | @insert_or_assign w m m2 i fuel key mapped it _ hm hi ih =>
    obtain ⟨css, hinv⟩ := ih
    obtain ⟨hl, hheap⟩ := map_store.map_eq hm
    have hold := hinv i m.current_buckets hl
    have hm_eq : ({ heap := w.heap, current_buckets := m.current_buckets } :
        hash_map K V H E A) = m := by
      cases m
      simp only at hheap
      subst hheap
      rfl
    rw [hm_eq] at hold
    exact represented_put hinv hm
      (modifies_confined hold.1 (modifies.insert_or_assign key mapped it hi))
      (insert_or_assign_placed hold.1 hold.2.1 hi)
  | @subscript w m m2 i fuel key v _ hm hi ih =>
    obtain ⟨css, hinv⟩ := ih
    obtain ⟨hl, hheap⟩ := map_store.map_eq hm
    have hold := hinv i m.current_buckets hl
    have hm_eq : ({ heap := w.heap, current_buckets := m.current_buckets } :
        hash_map K V H E A) = m := by
      cases m
      simp only at hheap
      subst hheap
      rfl
    rw [hm_eq] at hold
    obtain ⟨r, hi2⟩ := subscript_insert hi
    exact represented_put hinv hm
      (modifies_confined hold.1 (modifies.insert (key, default) r hi2))
      (insert_placed hold.1 hold.2.1 hi2)
  | @erase w m m2 i fuel key n _ hm hi ih =>
    obtain ⟨css, hinv⟩ := ih
    obtain ⟨hl, hheap⟩ := map_store.map_eq hm
    have hold := hinv i m.current_buckets hl
    have hm_eq : ({ heap := w.heap, current_buckets := m.current_buckets } :
        hash_map K V H E A) = m := by
      cases m
      simp only at hheap
      subst hheap
      rfl
    rw [hm_eq] at hold
    exact represented_put hinv hm (modifies_confined hold.1 (modifies.erase key n hi))
      (erase_placed hold.1 hold.2.1 hi)
  | @erase_pos w m m2 i fuel pos it _ hm hi ih =>
    obtain ⟨css, hinv⟩ := ih
    obtain ⟨hl, hheap⟩ := map_store.map_eq hm
    have hold := hinv i m.current_buckets hl
    have hm_eq : ({ heap := w.heap, current_buckets := m.current_buckets } :
        hash_map K V H E A) = m := by
      cases m
      simp only at hheap
      subst hheap
      rfl
    rw [hm_eq] at hold
    exact represented_put hinv hm (modifies_confined hold.1 (modifies.erase_pos pos it hi))
      (modifies_placed hold.1 hold.2.1 (modifies.erase_pos pos it hi))
  | @clear w m i _ hm ih =>
    obtain ⟨css, hinv⟩ := ih
    obtain ⟨hl, hheap⟩ := map_store.map_eq hm
    have hold := hinv i m.current_buckets hl
    have hm_eq : ({ heap := w.heap, current_buckets := m.current_buckets } :
        hash_map K V H E A) = m := by
      cases m
      simp only at hheap
      subst hheap
      rfl
    rw [hm_eq] at hold
    have hwfc := clear_well_formed (m := m) hold.1.1
    obtain ⟨extra, hex, -⟩ := create_heap_prefix (K := K) (V := V) m.heap
      m.current_buckets.bucket_count m.current_buckets.hash m.current_buckets.keycomp
      m.current_buckets.allocator
    have hpc : placed m.clear.current_buckets
        (List.replicate m.current_buckets.bucket_count ([] : List (Nat × (K × V)))) := by
      intro b c x hc hx
      rw [List.getElem?_replicate] at hc
      split at hc
      · simp only [Option.some.injEq] at hc
        rw [← hc] at hx
        simp at hx
      · simp at hc
    refine represented_put hinv hm ⟨?_, _, hwfc, ?_⟩ ⟨_, hwfc, hpc⟩
    · have : m.clear.heap = m.heap ++ extra := hex
      rw [this]
      exact frames_append _ _ _
    · intro q hq
      right
      simp only [footprint, hash_map.clear, create_fields, List.map_map,
        List.flatten_replicate_nil, List.map_nil, List.append_nil, List.mem_map, List.mem_range,
        Function.comp] at hq
      obtain ⟨a, -, rfl⟩ := hq
      exact Nat.le_add_right _ _
  | @rehash w m m2 i fuel n hpos _ hm hi ih =>
    obtain ⟨css, hinv⟩ := ih
    obtain ⟨hl, hheap⟩ := map_store.map_eq hm
    have hold := hinv i m.current_buckets hl
    have hm_eq : ({ heap := w.heap, current_buckets := m.current_buckets } :
        hash_map K V H E A) = m := by
      cases m
      simp only at hheap
      subst hheap
      rfl
    rw [hm_eq] at hold
    exact represented_put hinv hm (rehash_confined hold.1 hpos hi)
      (rehash_placed hold.1 hold.2.1 hpos hi)
  | @swap w m other i j _ hm ho ih =>
    obtain ⟨css, hinv⟩ := ih
    obtain ⟨hi, hheap⟩ := map_store.map_eq hm
    obtain ⟨hj, hheap2⟩ := map_store.map_eq ho
    have hh : ((w.put i (m.swap other).1).put j (m.swap other).2).heap = w.heap := hheap2
    exact ⟨_, represented_reindex hinv hh (Equiv.swap i j)
      (fun a b e => (Equiv.swap i j).injective e) (fun k => swap_maps hi hj k)⟩

end stores

section example_stores

theorem example_store_reachable : reachable_store example_store := by
  have h0 : reachable_store
      ({ heap := [], maps := [] } : map_store Nat Nat identity_hash equal_to Unit) :=
    reachable_store.start []
  have h1 : reachable_store (map_store.add { heap := [], maps := [] } example_store_first) :=
    reachable_store.create 2 (by decide) identity_hash.mk equal_to.mk () h0
  have h2 : reachable_store
      ((map_store.add { heap := [], maps := [] } example_store_first).add
        (hash_map.create example_store_first.heap 3 identity_hash.mk equal_to.mk ())) :=
    reachable_store.create 3 (by decide) identity_hash.mk equal_to.mk () h1
  have h3 : reachable_store
      (((map_store.add { heap := [], maps := [] } example_store_first).add
        (hash_map.create example_store_first.heap 3 identity_hash.mk equal_to.mk ())).put 1
        example_store_second) :=
    reachable_store.insert 1 10 (4, 40) (true, some 5) h2
      (show map_store.map _ 1 = some (hash_map.create example_store_first.heap 3
        identity_hash.mk equal_to.mk ()) by rfl)
      (show hash_map.insert 10 _ (4, 40) = some ((true, some 5), example_store_second) by rfl)
  exact reachable_store.swap 0 1 h3
    (show map_store.map _ 0 = some (example_store_first.in_store example_store_second.heap)
      by rfl)
    (show map_store.map _ 1 = some example_store_second by rfl)

end example_stores

/-! ## The contract of the map -/

section contract
variable {K V H E A : Type}

/-- C1: in a reachable map whose collaborators meet their requirements, for a pair
`(k, v)` whose key no element of the map has, `insert((k, v))` returns `(true, it)`
with `it` an iterator to an element with key `k` and mapped value `v`; afterwards
`find(k)` returns that same iterator and `size()` is one more than before. -/
theorem insert_absent_key [hasher H K] [key_equal E K] [Inhabited V]
    {m : hash_map K V H E A} (hr : reachable m)
    (laws : key_laws (K := K) m.current_buckets.hash m.current_buckets.keycomp)
    (k : K) (v : V) (fuel : Nat) (hf : m.size + m.bucket_count + 1 < fuel)
    (habsent : ∀ e, m.holds fuel e →
      key_equal.call m.current_buckets.keycomp k e.1 = false) :
    ∃ it m2, m.insert fuel (k, v) = some ((true, it), m2) ∧ it ≠ m2.cend ∧
      m2.deref it = some (k, v) ∧ m2.find fuel k = some it ∧ m2.size = m.size + 1 := by
  obtain ⟨cs, hwf⟩ := reachable_well_formed hr
  have hfind := find_ne_none_of_fuel hwf.1 k (show m.size < fuel by omega)
  have habs : ∀ x ∈ cs.flatten,
      key_equal.call m.current_buckets.keycomp k x.2.1 = false := by
    intro x hx
    exact habsent x.2 ((holds_iff hwf.1 (by omega) x.2).mpr ⟨x, hx, rfl⟩)
  obtain ⟨c, hc, hcase⟩ := insert_cases hwf (k, v) hfind
  rcases hcase with ⟨hmiss, m2, g1, g2, g3⟩ | ⟨l1, x, l2, rfl, -, hx, -⟩
  · have hlt : m.current_buckets.bucket_index k < cs.length := (List.getElem?_eq_some.mp hc).1
    have hidx : m2.current_buckets.bucket_index k = m.current_buckets.bucket_index k := by
      rw [g3]; rfl
    have hkc : m2.current_buckets.keycomp = m.current_buckets.keycomp := by rw [g3]
    have hsize : m2.size = m.size + 1 := by simp [hash_map.size, g3]
    have hc2 : (cs.set (m.current_buckets.bucket_index k)
        (c ++ [(m.heap.length, (k, v))]))[m2.current_buckets.bucket_index k]? =
        some (c ++ (m.heap.length, (k, v)) :: []) := by
      rw [hidx, List.getElem?_set_self hlt]
    refine ⟨some m.heap.length, m2, g1, by simp [hash_map.cend], ?_, ?_, hsize⟩
    · exact deref_mem g2.1 (x := (m.heap.length, (k, v)))
        (mem_flatten_of_getElem? hc2 (by simp))
    · exact find_hit g2.1 k hc2 (by rw [hkc]; exact hmiss) (by rw [hkc]; exact laws.refl k)
        (by omega)
  · have := habs x (mem_flatten_of_getElem? hc (by simp))
    rw [hx] at this
    exact absurd this (by simp)

theorem insert_absent_key_witness :
    ∃ it m2, example_map.insert 10 (9, 90) = some ((true, it), m2) ∧ it ≠ m2.cend ∧
      m2.deref it = some (9, 90) ∧ m2.find 10 9 = some it ∧
      m2.size = example_map.size + 1 :=
  insert_absent_key example_reachable example_key_laws 9 90 10 (by decide) example_absent

/-- C2: in a reachable map whose collaborators meet their requirements and that holds
an element `e0` with a key equal to `k`, `insert((k, v))` returns `(false, it)` with
`it` an iterator to `e0`, and the state after the call is the state before it: the
mapped value of `e0` is kept and `size()` is unchanged.  With a copy of the map taken
before the call in the same store, the call again changes nothing, and the map
compares equal to the copy afterwards (`==` on elements being reflexive). -/
theorem insert_present_key [hasher H K] [key_equal E K] [Inhabited V] [BEq K] [BEq V]
    {m : hash_map K V H E A} (hr : reachable m)
    (laws : key_laws (K := K) m.current_buckets.hash m.current_buckets.keycomp)
    (hrefl : ∀ a : K × V, (a == a) = true)
    (k : K) (v : V) (fuel : Nat) (hf : m.size + m.bucket_count < fuel) (e0 : K × V)
    (hpresent : m.holds fuel e0)
    (hkey : key_equal.call m.current_buckets.keycomp k e0.1 = true) :
    ∃ it, m.insert fuel (k, v) = some ((false, it), m) ∧ it ≠ m.cend ∧
      m.deref it = some e0 ∧
      ∃ c, m.copy fuel = some c ∧
        (m.in_store c.heap).insert fuel (k, v) = some ((false, it), m.in_store c.heap) ∧
        (m.in_store c.heap).deref it = some e0 ∧
        (m.in_store c.heap).size = m.size ∧
        hash_map.operator_eq fuel false (m.in_store c.heap) c = some true := by
  obtain ⟨cs, hwf⟩ := reachable_well_formed hr
  obtain ⟨x, hx, rfl⟩ := (holds_iff hwf.1 hf e0).mp hpresent
  obtain ⟨l1, l2, hc, h1, -⟩ := present_split hwf laws k hx hkey
  obtain ⟨c, hcopy⟩ := copy_total hwf.1 (show m.size < fuel by omega)
  obtain ⟨ccs, extra, g1, g2, g3, -, g5, -⟩ := copy_well_formed hwf hcopy
  have hrep1 : represents (m.in_store c.heap).heap (m.in_store c.heap).current_buckets cs := by
    simp only [hash_map.in_store, g3]
    exact represents_append hwf.1 extra
  refine ⟨some x.1, insert_hit hwf.1 (k, v) hc h1 hkey (by omega), by simp [hash_map.cend],
    deref_mem hwf.1 hx, c, hcopy, ?_, deref_mem hrep1 hx, rfl, ?_⟩
  · exact insert_hit hrep1 (k, v) hc h1 hkey (by simpa [hash_map.in_store, hash_map.size] using
      (by omega : m.size < fuel))
  · exact operator_eq_same_values hrefl hrep1 g1.1 g2 g5
      (by simpa [hash_map.in_store, hash_map.size, hash_map.bucket_count] using hf) false

theorem insert_present_key_witness :
    ∃ it, example_map.insert 10 (4, 99) = some ((false, it), example_map) ∧
      it ≠ example_map.cend ∧ example_map.deref it = some (4, 40) ∧
      ∃ c, example_map.copy 10 = some c ∧
        (example_map.in_store c.heap).insert 10 (4, 99) =
          some ((false, it), example_map.in_store c.heap) ∧
        (example_map.in_store c.heap).deref it = some (4, 40) ∧
        (example_map.in_store c.heap).size = example_map.size ∧
        hash_map.operator_eq 10 false (example_map.in_store c.heap) c = some true :=
  insert_present_key example_reachable example_key_laws (fun a => beq_self_eq_true a)
    4 99 10 (by decide) (4, 40) example_present (by rfl)

/-- C3: in a reachable map whose collaborators meet their requirements, `find(k)`
returns an iterator other than `end()` exactly when the map holds an element with a
key equal to `k`; that iterator then refers to an element with a key equal to `k`
and belongs to the local range of bucket `bucket(k)`. -/
theorem find_iff_holds [hasher H K] [key_equal E K] [Inhabited V]
    {m : hash_map K V H E A} (hr : reachable m)
    (laws : key_laws (K := K) m.current_buckets.hash m.current_buckets.keycomp)
    (k : K) (fuel : Nat) (hf : m.size + m.bucket_count < fuel) :
    ∃ it, m.find fuel k = some it ∧
      (it ≠ m.cend ↔
        ∃ e, m.holds fuel e ∧ key_equal.call m.current_buckets.keycomp k e.1 = true) ∧
      (it ≠ m.cend →
        ∃ e r, m.deref it = some e ∧
          key_equal.call m.current_buckets.keycomp k e.1 = true ∧
          m.local_range fuel (m.bucket k) = some r ∧ it ∈ r) := by
  obtain ⟨cs, hwf⟩ := reachable_well_formed hr
  obtain ⟨s, c, hb, hc⟩ := hwf.1.get (bucket_index_lt hwf.1 k)
  rcases chain_cases (key_equal.call m.current_buckets.keycomp k) c with
    hmiss | ⟨l1, x, l2, rfl, h1, h2⟩
  · refine ⟨none, find_miss hwf.1 k hc hmiss (by omega), ?_, ?_⟩
    · constructor
      · intro h; exact absurd rfl h
      · rintro ⟨e, he, hke⟩
        obtain ⟨x, hx, rfl⟩ := (holds_iff hwf.1 hf e).mp he
        obtain ⟨l1, l2, hc2, -, -⟩ := present_split hwf laws k hx hke
        rw [hc] at hc2
        cases hc2
        have := hmiss x (by simp)
        rw [hke] at this
        exact absurd this (by simp)
    · intro h; exact absurd rfl h
  · have hxm : x ∈ cs.flatten := mem_flatten_of_getElem? hc (by simp)
    refine ⟨some x.1, find_hit hwf.1 k hc h1 h2 (by omega), ?_, ?_⟩
    · constructor
      · intro _
        exact ⟨x.2, (holds_iff hwf.1 hf x.2).mpr ⟨x, hxm, rfl⟩, h2⟩
      · intro _
        simp [hash_map.cend]
    · intro _
      refine ⟨x.2, _, deref_mem hwf.1 hxm, h2,
        local_range_eq hwf.1 hc (chain_length_lt hwf.1 hc (by omega)), ?_⟩
      simp

theorem find_iff_holds_witness :
    ∃ it, example_map.find 10 4 = some it ∧
      (it ≠ example_map.cend ↔
        ∃ e, example_map.holds 10 e ∧
          key_equal.call example_map.current_buckets.keycomp 4 e.1 = true) ∧
      (it ≠ example_map.cend →
        ∃ e r, example_map.deref it = some e ∧
          key_equal.call example_map.current_buckets.keycomp 4 e.1 = true ∧
          example_map.local_range 10 (example_map.bucket 4) = some r ∧ it ∈ r) :=
  find_iff_holds example_reachable example_key_laws 4 10 (by decide)

/-- C4: in a reachable map whose collaborators meet their requirements, `erase(k)`
returns 1 if the map holds an element with a key equal to `k` and 0 otherwise; in both
cases `find(k) == end()` afterwards and `size()` has gone down by the returned number. -/
theorem erase_key [hasher H K] [key_equal E K] [Inhabited V]
    {m : hash_map K V H E A} (hr : reachable m)
    (laws : key_laws (K := K) m.current_buckets.hash m.current_buckets.keycomp)
    (k : K) (fuel : Nat) (hf : m.size + m.bucket_count < fuel) :
    ∃ n m2, m.erase fuel k = some (n, m2) ∧
      ((∃ e, m.holds fuel e ∧ key_equal.call m.current_buckets.keycomp k e.1 = true) →
        n = 1) ∧
      ((∀ e, m.holds fuel e → key_equal.call m.current_buckets.keycomp k e.1 = false) →
        n = 0) ∧
      m2.find fuel k = some m2.cend ∧ m2.size + n = m.size := by
  obtain ⟨cs, hwf⟩ := reachable_well_formed hr
  have hfind := find_ne_none_of_fuel hwf.1 k (show m.size < fuel by omega)
  obtain ⟨c, hc, hcase⟩ := erase_cases hwf k hfind
  rcases hcase with ⟨hmiss, g1⟩ | ⟨l1, x, l2, rfl, h1, h2, m2, g1, g2, g3, g4⟩
  · refine ⟨0, m, g1, ?_, fun _ => rfl, find_miss hwf.1 k hc hmiss (by omega), rfl⟩
    rintro ⟨e, he, hke⟩
    obtain ⟨x, hx, rfl⟩ := (holds_iff hwf.1 hf e).mp he
    obtain ⟨l1, l2, hc2, -, -⟩ := present_split hwf laws k hx hke
    rw [hc] at hc2
    cases hc2
    have := hmiss x (by simp)
    rw [hke] at this
    exact absurd this (by simp)
  · have hxm : x ∈ cs.flatten := mem_flatten_of_getElem? hc (by simp)
    have hlt : m.current_buckets.bucket_index k < cs.length := (List.getElem?_eq_some.mp hc).1
    have hidx : m2.current_buckets.bucket_index k = m.current_buckets.bucket_index k := by
      rw [g3]; rfl
    have hkc : m2.current_buckets.keycomp = m.current_buckets.keycomp := by rw [g3]
    have hpos : 1 ≤ m.current_buckets.node_count := by
      rw [hwf.1.node_count]
      exact List.length_pos_of_mem hxm
    have hsize : m2.size + 1 = m.size := by
      simp only [hash_map.size, g3]
      omega
    have hc2 : (cs.set (m.current_buckets.bucket_index k)
        (l1 ++ l2))[m2.current_buckets.bucket_index k]? = some (l1 ++ l2) := by
      rw [hidx, List.getElem?_set_self hlt]
    refine ⟨1, m2, g1, fun _ => rfl, ?_, ?_, hsize⟩
    · intro habsent
      have := habsent x.2 ((holds_iff hwf.1 hf x.2).mpr ⟨x, hxm, rfl⟩)
      rw [h2] at this
      exact absurd this (by simp)
    · refine find_miss g2.1 k hc2 ?_ (by omega)
      rw [hkc]
      exact hit_unique (hwf.2 laws) laws k hc h2

theorem erase_key_witness :
    ∃ n m2, example_map.erase 10 4 = some (n, m2) ∧
      ((∃ e, example_map.holds 10 e ∧
          key_equal.call example_map.current_buckets.keycomp 4 e.1 = true) → n = 1) ∧
      ((∀ e, example_map.holds 10 e →
          key_equal.call example_map.current_buckets.keycomp 4 e.1 = false) → n = 0) ∧
      m2.find 10 4 = some m2.cend ∧ m2.size + n = example_map.size :=
  erase_key example_reachable example_key_laws 4 10 (by decide)

/-- C5, as stated, fails: after `insert((1, 10))` and `clear()` on an empty map one
insertion has succeeded and no erase, and `size()` is 0, not 1. -/
theorem size_after_clear :
    history false example_cleared 1 0 ∧ example_cleared.size = 0 ∧
      example_cleared.size + 0 ≠ 1 := by
  have h0 : history false example_empty 0 0 :=
    history.create [] 3 (by decide) identity_hash.mk equal_to.mk ()
  have h1 : history false (example_insert example_empty (1, 10)) 1 0 :=
    history.insert 10 (1, 10) (true, some 3) h0 (by rfl)
  exact ⟨history.clear h1, by rfl, by decide⟩

/-- C5 (amended): in every state reached from a constructed map by `insert`,
`insert_or_assign`, `operator[]`, `erase`, `clear`, `rehash` and copy construction,
`size()` is the number of elements of `[begin(), end())` and the sum of
`bucket_size(b)` over all buckets `b`, and `empty()` is true exactly when that number
is 0; counted since construction or the last `clear`, a copy starting from the numbers
of its source, `size()` plus the number of successful erases is the number of
successful insertions. -/
theorem size_counts_nodes [hasher H K] [key_equal E K] [Inhabited V] {since_clear : Bool}
    {m : hash_map K V H E A} {inserted erased : Nat}
    (h : history since_clear m inserted erased) (fuel : Nat)
    (hf : m.size + m.bucket_count < fuel) :
    ∃ (sizes : List Nat) (es : List (K × V)),
      (List.range m.bucket_count).map (m.bucket_size fuel) = sizes.map some ∧
      m.elements fuel = some es ∧ m.size = es.length ∧ m.size = sizes.sum ∧
      (m.empty = true ↔ sizes.sum = 0) ∧
      (since_clear = true → m.size + erased = inserted) := by
  obtain ⟨cs, hwf⟩ := reachable_well_formed (history_reachable h)
  have hn : m.size = cs.flatten.length := hwf.1.node_count
  have hsum : m.size = (cs.map List.length).sum := by rw [hn, List.length_flatten]
  refine ⟨cs.map List.length, cs.flatten.map Prod.snd, ?_, elements_eq hwf.1 hf, ?_, hsum, ?_, ?_⟩
  · apply List.ext_getElem
    · simp [hwf.1.chains_length, hash_map.bucket_count]
    · intro b hb1 hb2
      have hb : b < cs.length := by simpa using hb2
      have hc : cs[b]? = some cs[b] := List.getElem?_eq_getElem hb
      simp [bucket_size_eq hwf.1 hc (chain_length_lt hwf.1 hc (Nat.lt_of_le_of_lt (Nat.le_add_right _ _) hf))]
  · rw [hn, List.length_map]
  · rw [← hsum]
    simp only [hash_map.empty, beq_iff_eq]
    exact eq_comm
  · intro hsc
    subst hsc
    exact history_size h

theorem size_counts_nodes_witness :
    ∃ (sizes : List Nat) (es : List (Nat × Nat)),
      (List.range example_map.bucket_count).map (example_map.bucket_size 10) =
        sizes.map some ∧
      example_map.elements 10 = some es ∧ example_map.size = es.length ∧
      example_map.size = sizes.sum ∧ (example_map.empty = true ↔ sizes.sum = 0) ∧
      (true = true → example_map.size + 0 = 4) :=
  size_counts_nodes example_history 10 (by decide)

/-- C6: in a reachable map whose collaborators meet their requirements, no two
elements of the map, and so no two elements of one bucket, have equal keys, and
`count(k)` returns the number of elements with a key equal to `k`, which is 0 or 1. -/
theorem count_key [hasher H K] [key_equal E K] [Inhabited V]
    {m : hash_map K V H E A} (hr : reachable m)
    (laws : key_laws (K := K) m.current_buckets.hash m.current_buckets.keycomp)
    (k : K) (fuel : Nat) (hf : m.size + m.bucket_count < fuel) :
    ∃ es n, m.elements fuel = some es ∧ m.count fuel k = some n ∧
      n = (es.filter (fun e => key_equal.call m.current_buckets.keycomp k e.1)).length ∧
      (n = 0 ∨ n = 1) ∧
      es.Pairwise (fun x y => key_equal.call m.current_buckets.keycomp x.1 y.1 = false) ∧
      ∀ b, b < m.bucket_count → ∃ c, m.bucket_elements fuel b = some c ∧
        c.Pairwise (fun x y => key_equal.call m.current_buckets.keycomp x.1 y.1 = false) := by
  obtain ⟨cs, hwf⟩ := reachable_well_formed hr
  have hu : (cs.flatten.map Prod.snd).Pairwise
      (fun x y => key_equal.call m.current_buckets.keycomp x.1 y.1 = false) := by
    rw [← chain_values_flatten]; exact (hwf.2 laws).unique
  obtain ⟨hle, hone⟩ := filter_key_length laws k hu
  have hbuckets : ∀ b, b < m.bucket_count → ∃ c, m.bucket_elements fuel b = some c ∧
      c.Pairwise (fun x y => key_equal.call m.current_buckets.keycomp x.1 y.1 = false) := by
    intro b hb
    have hb2 : b < cs.length := by rw [hwf.1.chains_length]; exact hb
    refine ⟨_, bucket_elements_eq hwf.1 (List.getElem?_eq_getElem hb2) (by omega), ?_⟩
    exact hu.sublist ((sublist_flatten_of_getElem? (List.getElem?_eq_getElem hb2)).map _)
  by_cases hex : ∃ x ∈ cs.flatten, key_equal.call m.current_buckets.keycomp k x.2.1 = true
  · obtain ⟨x, hx, hkx⟩ := hex
    obtain ⟨l1, l2, hc, h1, -⟩ := present_split hwf laws k hx hkx
    have h := hone ⟨x.2, List.mem_map_of_mem _ hx, hkx⟩
    refine ⟨_, 1, elements_eq hwf.1 hf, ?_, h.symm, Or.inr rfl, hu, hbuckets⟩
    simp [hash_map.count, find_hit hwf.1 k hc h1 hkx (show m.size < fuel by omega), hash_map.cend]
  · have hall : ∀ x ∈ cs.flatten, key_equal.call m.current_buckets.keycomp k x.2.1 = false := by
      intro x hx
      cases hkx : key_equal.call m.current_buckets.keycomp k x.2.1 with
      | false => rfl
      | true => exact absurd ⟨x, hx, hkx⟩ hex
    obtain ⟨s, c, -, hc⟩ := hwf.1.get (bucket_index_lt hwf.1 k)
    have hfl : (cs.flatten.map Prod.snd).filter
        (fun e => key_equal.call m.current_buckets.keycomp k e.1) = [] := by
      rw [List.filter_eq_nil_iff]
      intro e he
      obtain ⟨x, hx, rfl⟩ := List.mem_map.mp he
      simp [hall x hx]
    refine ⟨_, 0, elements_eq hwf.1 hf, ?_, by rw [hfl]; rfl, Or.inl rfl, hu, hbuckets⟩
    simp [hash_map.count, find_miss hwf.1 k hc (absent_chain hall hc)
        (show m.size < fuel by omega),
      hash_map.cend]

theorem count_key_witness :
    ∃ es n, example_map.elements 10 = some es ∧ example_map.count 10 4 = some n ∧
      n = (es.filter
        (fun e => key_equal.call example_map.current_buckets.keycomp 4 e.1)).length ∧
      (n = 0 ∨ n = 1) ∧
      es.Pairwise
        (fun x y => key_equal.call example_map.current_buckets.keycomp x.1 y.1 = false) ∧
      ∀ b, b < example_map.bucket_count → ∃ c, example_map.bucket_elements 10 b = some c ∧
        c.Pairwise
          (fun x y => key_equal.call example_map.current_buckets.keycomp x.1 y.1 = false) :=
  count_key example_reachable example_key_laws 4 10 (by decide)

/-- C7: in a reachable map whose collaborators meet their requirements, `at(k)`
returns the mapped value of the element with a key equal to `k` when the map holds
one, and throws `out_of_range` when it holds none; in both cases the map after the
call is the map before it. -/
theorem at_key [hasher H K] [key_equal E K] [Inhabited V]
    {m : hash_map K V H E A} (hr : reachable m)
    (laws : key_laws (K := K) m.current_buckets.hash m.current_buckets.keycomp)
    (k : K) (fuel : Nat) (hf : m.size + m.bucket_count < fuel) :
    (∀ e, m.holds fuel e → key_equal.call m.current_buckets.keycomp k e.1 = true →
      m.at fuel k = some (Except.ok e.2, m)) ∧
    ((∀ e, m.holds fuel e → key_equal.call m.current_buckets.keycomp k e.1 = false) →
      m.at fuel k = some (Except.error out_of_range.element_not_found, m)) := by
  obtain ⟨cs, hwf⟩ := reachable_well_formed hr
  constructor
  · intro e he hke
    obtain ⟨x, hx, rfl⟩ := (holds_iff hwf.1 hf e).mp he
    obtain ⟨l1, l2, hc, h1, -⟩ := present_split hwf laws k hx hke
    simp [hash_map.at, find_hit hwf.1 k hc h1 hke (by omega : m.size < fuel), hash_map.cend,
      deref_mem hwf.1 hx]
  · intro habsent
    obtain ⟨s, c, -, hc⟩ := hwf.1.get (bucket_index_lt hwf.1 k)
    have hmiss : ∀ y ∈ c, key_equal.call m.current_buckets.keycomp k y.2.1 = false := by
      intro y hy
      exact habsent y.2 ((holds_iff hwf.1 hf y.2).mpr ⟨y, mem_flatten_of_getElem? hc hy, rfl⟩)
    simp [hash_map.at, find_miss hwf.1 k hc hmiss (by omega : m.size < fuel), hash_map.cend]

theorem at_key_witness :
    (∀ e, example_map.holds 10 e →
        key_equal.call example_map.current_buckets.keycomp 4 e.1 = true →
        example_map.at 10 4 = some (Except.ok e.2, example_map)) ∧
      ((∀ e, example_map.holds 10 e →
          key_equal.call example_map.current_buckets.keycomp 4 e.1 = false) →
        example_map.at 10 4 =
          some (Except.error out_of_range.element_not_found, example_map)) :=
  at_key example_reachable example_key_laws 4 10 (by decide)

/-- C8: in a reachable map whose collaborators meet their requirements, after
`insert_or_assign(k, v)` both `at(k)` and `(*this)[k]` yield `v` and the returned
iterator refers to an element with a key equal to `k` and mapped value `v`; `size()`
grows by one if no element had such a key; if one had, `size()` is unchanged and the
value is assigned in the node `find(k)` referred to before the call, no node being
created and the key of that node being kept. -/
theorem insert_or_assign_key [hasher H K] [key_equal E K] [Inhabited V]
    {m : hash_map K V H E A} (hr : reachable m)
    (laws : key_laws (K := K) m.current_buckets.hash m.current_buckets.keycomp)
    (k : K) (v : V) (fuel : Nat) (hf : m.size + m.bucket_count + 1 < fuel) :
    ∃ it m2, m.insert_or_assign fuel k v = some (it, m2) ∧ it ≠ m2.cend ∧
      (∃ e, m2.deref it = some e ∧
        key_equal.call m.current_buckets.keycomp k e.1 = true ∧ e.2 = v) ∧
      m2.at fuel k = some (Except.ok v, m2) ∧
      m2.subscript fuel k = some (v, m2) ∧
      ((∀ e, m.holds fuel e → key_equal.call m.current_buckets.keycomp k e.1 = false) →
        m2.size = m.size + 1) ∧
      ((∃ e, m.holds fuel e ∧ key_equal.call m.current_buckets.keycomp k e.1 = true) →
        m2.size = m.size ∧ m.find fuel k = some it ∧ m2.heap.length = m.heap.length ∧
          ∃ e0, m.deref it = some e0 ∧ m2.deref it = some (e0.1, v)) := by
  obtain ⟨cs, hwf⟩ := reachable_well_formed hr
  have hfind := find_ne_none_of_fuel hwf.1 k (show m.size < fuel by omega)
  obtain ⟨c, hc, hcase⟩ := insert_or_assign_cases hwf k v hfind
  have hlt : m.current_buckets.bucket_index k < cs.length := (List.getElem?_eq_some.mp hc).1
  rcases hcase with ⟨hmiss, m2, g1, g2, g3⟩ | ⟨l1, x, l2, rfl, h1, h2, m2, g1, g2, g3, g4⟩
  · have hidx : m2.current_buckets.bucket_index k = m.current_buckets.bucket_index k := by
      rw [g3]; rfl
    have hkc : m2.current_buckets.keycomp = m.current_buckets.keycomp := by rw [g3]
    have hsize : m2.size = m.size + 1 := by simp [hash_map.size, g3]
    have hc2 : (cs.set (m.current_buckets.bucket_index k)
        (c ++ [(m.heap.length, (k, v))]))[m2.current_buckets.bucket_index k]? =
        some (c ++ (m.heap.length, (k, v)) :: []) := by
      rw [hidx, List.getElem?_set_self hlt]
    have hm2 : ∀ y ∈ c, key_equal.call m2.current_buckets.keycomp k y.2.1 = false := by
      rw [hkc]; exact hmiss
    have hk2 : key_equal.call m2.current_buckets.keycomp k
        ((m.heap.length, (k, v)) : Nat × (K × V)).2.1 = true := by
      rw [hkc]; exact laws.refl k
    refine ⟨some m.heap.length, m2, g1, by simp [hash_map.cend],
      ⟨(k, v), ?_, laws.refl k, rfl⟩, ?_, ?_, fun _ => hsize, ?_⟩
    · exact deref_mem g2.1 (x := (m.heap.length, (k, v)))
        (mem_flatten_of_getElem? hc2 (by simp))
    · exact at_hit g2.1 k hc2 hm2 hk2 (by omega)
    · exact subscript_hit g2.1 k hc2 hm2 hk2 (by omega)
    · rintro ⟨e, he, hke⟩
      exfalso
      obtain ⟨y, hy, rfl⟩ := (holds_iff hwf.1 (by omega) e).mp he
      obtain ⟨l1, l2, hc3, -, -⟩ := present_split hwf laws k hy hke
      rw [hc] at hc3
      cases hc3
      have := hmiss y (by simp)
      rw [hke] at this
      exact absurd this (by simp)
  · have hxm : x ∈ cs.flatten := mem_flatten_of_getElem? hc (by simp)
    have hidx : m2.current_buckets.bucket_index k = m.current_buckets.bucket_index k := by
      rw [g3]
    have hkc : m2.current_buckets.keycomp = m.current_buckets.keycomp := by rw [g3]
    have hsize : m2.size = m.size := by simp [hash_map.size, g3]
    have hc2 : (cs.set (m.current_buckets.bucket_index k)
        (l1 ++ (x.1, (x.2.1, v)) :: l2))[m2.current_buckets.bucket_index k]? =
        some (l1 ++ (x.1, (x.2.1, v)) :: l2) := by
      rw [hidx, List.getElem?_set_self hlt]
    have hm2 : ∀ y ∈ l1, key_equal.call m2.current_buckets.keycomp k y.2.1 = false := by
      rw [hkc]; exact h1
    have hk2 : key_equal.call m2.current_buckets.keycomp k
        ((x.1, (x.2.1, v)) : Nat × (K × V)).2.1 = true := by
      rw [hkc]; exact h2
    have hd2 : m2.deref (some x.1) = some (x.2.1, v) :=
      deref_mem g2.1 (x := (x.1, (x.2.1, v))) (mem_flatten_of_getElem? hc2 (by simp))
    refine ⟨some x.1, m2, g1, by simp [hash_map.cend], ⟨(x.2.1, v), hd2, h2, rfl⟩, ?_, ?_, ?_,
      fun _ => ⟨hsize, find_hit hwf.1 k hc h1 h2 (by omega), g4, x.2, deref_mem hwf.1 hxm, hd2⟩⟩
    · exact at_hit g2.1 k hc2 hm2 hk2 (by omega)
    · exact subscript_hit g2.1 k hc2 hm2 hk2 (by omega)
    · intro habsent
      have := habsent x.2 ((holds_iff hwf.1 (by omega) x.2).mpr ⟨x, hxm, rfl⟩)
      rw [h2] at this
      exact absurd this (by simp)

theorem insert_or_assign_key_witness :
    ∃ it m2, example_map.insert_or_assign 10 4 41 = some (it, m2) ∧ it ≠ m2.cend ∧
      (∃ e, m2.deref it = some e ∧
        key_equal.call example_map.current_buckets.keycomp 4 e.1 = true ∧ e.2 = 41) ∧
      m2.at 10 4 = some (Except.ok 41, m2) ∧
      m2.subscript 10 4 = some (41, m2) ∧
      ((∀ e, example_map.holds 10 e →
          key_equal.call example_map.current_buckets.keycomp 4 e.1 = false) →
        m2.size = example_map.size + 1) ∧
      ((∃ e, example_map.holds 10 e ∧
          key_equal.call example_map.current_buckets.keycomp 4 e.1 = true) →
        m2.size = example_map.size ∧ example_map.find 10 4 = some it ∧
          m2.heap.length = example_map.heap.length ∧
          ∃ e0, example_map.deref it = some e0 ∧ m2.deref it = some (e0.1, 41)) :=
  insert_or_assign_key example_reachable example_key_laws 4 41 10 (by decide)

/-- C9: in a reachable map whose collaborators meet their requirements, `operator[](k)`
returns the mapped value of the element with a key equal to `k` and leaves the map as
it is when the map holds such an element; when it holds none, it returns a
default-constructed value, the map afterwards holds the element `(k, default)`, and
`size()` has grown by one. -/
theorem subscript_key [hasher H K] [key_equal E K] [Inhabited V]
    {m : hash_map K V H E A} (hr : reachable m)
    (laws : key_laws (K := K) m.current_buckets.hash m.current_buckets.keycomp)
    (k : K) (fuel : Nat) (hf : m.size + m.bucket_count + 1 < fuel) :
    (∀ e, m.holds fuel e → key_equal.call m.current_buckets.keycomp k e.1 = true →
      m.subscript fuel k = some (e.2, m)) ∧
    ((∀ e, m.holds fuel e → key_equal.call m.current_buckets.keycomp k e.1 = false) →
      ∃ m2, m.subscript fuel k = some (default, m2) ∧ m2.size = m.size + 1 ∧
        m2.holds fuel (k, default) ∧ m2.at fuel k = some (Except.ok default, m2)) := by
  obtain ⟨cs, hwf⟩ := reachable_well_formed hr
  constructor
  · intro e he hke
    obtain ⟨x, hx, rfl⟩ := (holds_iff hwf.1 (by omega) e).mp he
    obtain ⟨l1, l2, hc, h1, -⟩ := present_split hwf laws k hx hke
    exact subscript_hit hwf.1 k hc h1 hke (by omega)
  · intro habsent
    have hfind := find_ne_none_of_fuel hwf.1 k (show m.size < fuel by omega)
    obtain ⟨c, hc, hcase⟩ := insert_cases hwf (k, (default : V)) hfind
    have hlt : m.current_buckets.bucket_index k < cs.length := (List.getElem?_eq_some.mp hc).1
    rcases hcase with ⟨hmiss, m2, g1, g2, g3⟩ | ⟨l1, x, l2, rfl, -, hx, -⟩
    · have hidx : m2.current_buckets.bucket_index k = m.current_buckets.bucket_index k := by
        rw [g3]; rfl
      have hkc : m2.current_buckets.keycomp = m.current_buckets.keycomp := by rw [g3]
      have hsize : m2.size = m.size + 1 := by simp [hash_map.size, g3]
      have hbc : m2.bucket_count = m.bucket_count := by simp [hash_map.bucket_count, g3]
      have hc2 : (cs.set (m.current_buckets.bucket_index k)
          (c ++ [(m.heap.length, (k, (default : V)))]))[m2.current_buckets.bucket_index k]? =
          some (c ++ (m.heap.length, (k, (default : V))) :: []) := by
        rw [hidx, List.getElem?_set_self hlt]
      have hmem : ((m.heap.length, (k, (default : V))) : Nat × (K × V)) ∈
          (cs.set (m.current_buckets.bucket_index k)
            (c ++ [(m.heap.length, (k, (default : V)))])).flatten :=
        mem_flatten_of_getElem? hc2 (by simp)
      refine ⟨m2, ?_, hsize, ?_, ?_⟩
      · simp [hash_map.subscript, g1, deref_mem g2.1 hmem]
      · exact (holds_iff g2.1 (by omega) _).mpr ⟨_, hmem, rfl⟩
      · exact at_hit g2.1 k hc2 (by rw [hkc]; exact hmiss) (by rw [hkc]; exact laws.refl k)
          (by omega)
    · have := habsent x.2 ((holds_iff hwf.1 (by omega) x.2).mpr
        ⟨x, mem_flatten_of_getElem? hc (by simp), rfl⟩)
      rw [hx] at this
      exact absurd this (by simp)

theorem subscript_key_witness :
    (∀ e, example_map.holds 10 e →
        key_equal.call example_map.current_buckets.keycomp 9 e.1 = true →
        example_map.subscript 10 9 = some (e.2, example_map)) ∧
      ((∀ e, example_map.holds 10 e →
          key_equal.call example_map.current_buckets.keycomp 9 e.1 = false) →
        ∃ m2, example_map.subscript 10 9 = some (default, m2) ∧
          m2.size = example_map.size + 1 ∧ m2.holds 10 (9, default) ∧
          m2.at 10 9 = some (Except.ok default, m2)) :=
  subscript_key example_reachable example_key_laws 9 10 (by decide)

/-- C10: in a reachable map whose collaborators meet their requirements, for an
iterator `pos` of the range `[begin(), end())`, `erase(pos)` returns the iterator that
followed `pos` in that range before the call (`end()` if none followed); afterwards
`find` of the key of `pos` is `end()`, `size()` is one less, and the range is the old
one without `pos`. -/
theorem erase_pos_successor [hasher H K] [key_equal E K] [Inhabited V]
    {m : hash_map K V H E A} (hr : reachable m)
    (laws : key_laws (K := K) m.current_buckets.hash m.current_buckets.keycomp)
    (fuel : Nat) (hf : m.size + m.bucket_count + 1 < fuel)
    (before after : List iterator) (pos : iterator)
    (hpos : m.global_range fuel = some (before ++ pos :: after)) :
    ∃ e m2, m.deref pos = some e ∧
      m.erase_pos fuel pos = some (after.headD m.cend, m2) ∧
      m2.find fuel e.1 = some m2.cend ∧ m2.size + 1 = m.size ∧
      m2.global_range fuel = some (before ++ after) := by
  obtain ⟨cs, hwf⟩ := reachable_well_formed hr
  have hn := hwf.1.node_count
  have hf2 : cs.flatten.length + m.current_buckets.bucket_count < fuel := by
    rw [← hn]; exact Nat.lt_of_succ_lt hf
  rw [global_range_eq hwf.1 hf2, Option.some.injEq] at hpos
  obtain ⟨D, R0, hflat, hD, hR0⟩ := List.map_eq_append_iff.mp hpos
  obtain ⟨x, R, rfl, hx, hR⟩ := List.map_eq_cons_iff.mp hR0
  obtain ⟨b, l1, l2, hc, hRe, hDe⟩ := flatten_suffix_split hflat
  have hxm : x ∈ cs.flatten := mem_flatten_of_getElem? hc (by simp)
  have hxc : x ∈ l1 ++ x :: l2 := by simp
  have hb : m.current_buckets.bucket_index x.2.1 = b :=
    (hwf.2 laws).placed b _ x.2 (chain_values_getElem? hc) (List.mem_map_of_mem Prod.snd hxc)
  subst hb
  have hlt : m.current_buckets.bucket_index x.2.1 < cs.length := (List.getElem?_eq_some.mp hc).1
  have hkx : key_equal.call m.current_buckets.keycomp x.2.1 x.2.1 = true := laws.refl _
  have hu := hit_unique (hwf.2 laws) laws x.2.1 hc hkx
  have h1 : ∀ y ∈ l1, key_equal.call m.current_buckets.keycomp x.2.1 y.2.1 = false :=
    fun y hy => hu y (List.mem_append_left _ hy)
  have hsz : m.size = cs.flatten.length := hn
  have hlen : cs.flatten.length = D.length + (R.length + 1) := by
    rw [hflat]; simp
  obtain ⟨m2, he, hrep2, hcb2⟩ := erase_hit hwf.1 x.2.1 hc h1 hkx
    (show m.size < fuel by omega)
  have hbf : m.current_buckets.bucket_count < fuel := by
    have : m.bucket_count = m.current_buckets.bucket_count := rfl
    omega
  have hinc := increment_global_eq hwf.1 hc hbf
  rw [← hRe] at hinc
  have hsize2 : m2.size + 1 = m.size := by
    have : m2.size = m.size - 1 := by simp [hash_map.size, hcb2]
    omega
  have hflat2 : (cs.set (m.current_buckets.bucket_index x.2.1) (l1 ++ l2)).flatten = D ++ R := by
    rw [flatten_set_eq _ hc, hDe, hRe]; simp
  have hidx : m2.current_buckets.bucket_index x.2.1 = m.current_buckets.bucket_index x.2.1 := by
    rw [hcb2]; rfl
  have hkc : m2.current_buckets.keycomp = m.current_buckets.keycomp := by rw [hcb2]
  have hbc : m2.current_buckets.bucket_count = m.current_buckets.bucket_count := by rw [hcb2]
  refine ⟨x.2, m2, ?_, ?_, ?_, hsize2, ?_⟩
  · rw [← hx]; exact deref_mem hwf.1 hxm
  · rw [← hx, ← hR]
    have hcend : m.cend = none := rfl
    rw [hcend, head_id_map_headD]
    simp [hash_map.erase_pos, hinc, deref_mem hwf.1 hxm, he]
  · refine find_miss hrep2 x.2.1 (c := l1 ++ l2) ?_ ?_ (by omega)
    · rw [hidx, List.getElem?_set_self hlt]
    · rw [hkc]; exact hu
  · rw [global_range_eq hrep2 (by rw [hflat2, hbc]; simp; omega), hflat2, ← hD, ← hR]
    simp

theorem erase_pos_successor_witness :
    ∃ e m2, example_map.deref (some 4) = some e ∧
      example_map.erase_pos 10 (some 4) =
        some ([some 6, some 5].headD example_map.cend, m2) ∧
      m2.find 10 e.1 = some m2.cend ∧ m2.size + 1 = example_map.size ∧
      m2.global_range 10 = some ([some 3] ++ [some 6, some 5]) :=
  erase_pos_successor example_reachable example_key_laws 10 (by decide)
    [some 3] [some 6, some 5] (some 4) (by rfl)

/-- C11: for two maps in steady state whose collaborators meet their requirements
(value equality an equivalence relation under which equal values have equal keys,
hashers that compare equal hashing alike), `a == b` returns `true` exactly when the
sizes are equal and every pair of `a` has an equal pair in `b`, whatever the bucket
counts and the order of the pairs; every pair of `b` then has an equal pair in `a`. -/
theorem operator_eq_same_pairs [hasher H K] [key_equal E K] [BEq K] [BEq V]
    {a b : hash_map K V H E A} (ha : steady a) (hb : steady b)
    (la : key_laws (K := K) a.current_buckets.hash a.current_buckets.keycomp)
    (lb : key_laws (K := K) b.current_buckets.hash b.current_buckets.keycomp)
    (hv : value_laws K V)
    (hca : value_key_consistent (K := K) (V := V) a.current_buckets.keycomp)
    (hcb : value_key_consistent (K := K) (V := V) b.current_buckets.keycomp)
    (hh : hasher_eq_sound H K) (fuel : Nat) (hfa : a.size + a.bucket_count < fuel)
    (hfb : b.size + b.bucket_count < fuel) (same_object : Bool)
    (hsame : same_object = true → a = b) :
    ∃ ea eb r, a.elements fuel = some ea ∧ b.elements fuel = some eb ∧
      hash_map.operator_eq fuel same_object a b = some r ∧
      (r = true ↔ a.size = b.size ∧ ∀ x ∈ ea, ∃ y ∈ eb, (x == y) = true) ∧
      (r = true → ∀ y ∈ eb, ∃ x ∈ ea, (y == x) = true) := by
  obtain ⟨csa, wa⟩ := ha
  obtain ⟨csb, wb⟩ := hb
  obtain ⟨r, hr, hiff⟩ := operator_eq_iff wa.1 wb.1 (wa.2 la) (wb.2 lb) la hv hca hcb hh
    hfa hfb same_object hsame
  refine ⟨_, _, r, elements_eq wa.1 hfa, elements_eq wb.1 hfb, hr, hiff, ?_⟩
  intro h
  obtain ⟨hs, hm⟩ := hiff.mp h
  refine match_symm hv.symm hv.trans _ _ (unique_values (wa.2 la) hca) ?_ hm
  rw [List.length_map, List.length_map, ← wa.1.node_count, ← wb.1.node_count]
  exact hs

theorem operator_eq_same_pairs_witness :
    (∃ ea eb r, example_five.elements 20 = some ea ∧
      example_seven_opposite.elements 20 = some eb ∧
      hash_map.operator_eq 20 false example_five example_seven_opposite = some r ∧
      (r = true ↔ example_five.size = example_seven_opposite.size ∧
        ∀ x ∈ ea, ∃ y ∈ eb, (x == y) = true) ∧
      (r = true → ∀ y ∈ eb, ∃ x ∈ ea, (y == x) = true)) ∧
    example_five.bucket_count = 5 ∧ example_seven_opposite.bucket_count = 7 ∧
    example_five.elements 20 = some [(25, 10), (1, 2), (16, 8), (4, 4), (9, 6)] ∧
    example_seven_opposite.elements 20 =
      some [(1, 2), (16, 8), (9, 6), (25, 10), (4, 4)] ∧
    hash_map.operator_eq 20 false example_five example_seven_opposite = some true ∧
    hash_map.operator_eq 20 false example_five example_five_opposite = some true ∧
    hash_map.operator_eq 20 false example_five example_seven_changed = some false ∧
    hash_map.operator_eq 20 false example_five example_seven_added = some false :=
  ⟨operator_eq_same_pairs (reachable_steady example_five_reachable)
      (reachable_steady example_seven_opposite_reachable) (pointer_key_laws _ _)
      (pointer_key_laws _ _) nat_value_laws (nat_value_key_consistent _)
      (nat_value_key_consistent _) pointer_hasher_eq_sound 20 (by decide) (by decide) false
      (by simp),
    by rfl, by rfl, by rfl, by rfl, by rfl, by rfl, by rfl, by rfl⟩

/-- The values `operator==` returns: over maps in steady state whose collaborators meet
their requirements (value equality an equivalence relation), `operator==` is reflexive,
symmetric and transitive, whatever the bucket counts of the maps, and maps that compare
equal have equal sizes. -/
theorem operator_eq_equivalence [hasher H K] [key_equal E K] [BEq K] [BEq V]
    {a b c : hash_map K V H E A} (ha : steady a) (hb : steady b) (hc : steady c)
    (la : key_laws (K := K) a.current_buckets.hash a.current_buckets.keycomp)
    (lb : key_laws (K := K) b.current_buckets.hash b.current_buckets.keycomp)
    (lc : key_laws (K := K) c.current_buckets.hash c.current_buckets.keycomp)
    (hv : value_laws K V)
    (hca : value_key_consistent (K := K) (V := V) a.current_buckets.keycomp)
    (hcb : value_key_consistent (K := K) (V := V) b.current_buckets.keycomp)
    (hcc : value_key_consistent (K := K) (V := V) c.current_buckets.keycomp)
    (hh : hasher_eq_sound H K) (fuel : Nat) (hfa : a.size + a.bucket_count < fuel)
    (hfb : b.size + b.bucket_count < fuel) (hfc : c.size + c.bucket_count < fuel) :
    hash_map.operator_eq fuel true a a = some true ∧
    hash_map.operator_eq fuel false a a = some true ∧
    (hash_map.operator_eq fuel false a b = some true →
      hash_map.operator_eq fuel false b a = some true) ∧
    (hash_map.operator_eq fuel false a b = some true →
      hash_map.operator_eq fuel false b c = some true →
      hash_map.operator_eq fuel false a c = some true) ∧
    (hash_map.operator_eq fuel false a b = some true → a.size = b.size) := by
  obtain ⟨csa, wa⟩ := ha
  obtain ⟨csb, wb⟩ := hb
  obtain ⟨csc, wc⟩ := hc
  have hfalse : (false = true) → ∀ x y : hash_map K V H E A, x = y := by
    intro h; exact absurd h (by simp)
  obtain ⟨raa, haa, iaa⟩ := operator_eq_iff wa.1 wa.1 (wa.2 la) (wa.2 la) la hv hca hca hh
    hfa hfa false (fun h => hfalse h _ _)
  obtain ⟨rab, hab, iab⟩ := operator_eq_iff wa.1 wb.1 (wa.2 la) (wb.2 lb) la hv hca hcb hh
    hfa hfb false (fun h => hfalse h _ _)
  obtain ⟨rba, hba, iba⟩ := operator_eq_iff wb.1 wa.1 (wb.2 lb) (wa.2 la) lb hv hcb hca hh
    hfb hfa false (fun h => hfalse h _ _)
  obtain ⟨rbc, hbc, ibc⟩ := operator_eq_iff wb.1 wc.1 (wb.2 lb) (wc.2 lc) lb hv hcb hcc hh
    hfb hfc false (fun h => hfalse h _ _)
  obtain ⟨rac, hac, iac⟩ := operator_eq_iff wa.1 wc.1 (wa.2 la) (wc.2 lc) la hv hca hcc hh
    hfa hfc false (fun h => hfalse h _ _)
  refine ⟨by simp [hash_map.operator_eq], ?_, ?_, ?_, ?_⟩
  · rw [haa]
    congr 1
    exact iaa.mpr ⟨rfl, fun x hx => ⟨x, hx, hv.refl x⟩⟩
  · intro h
    rw [hab, Option.some.injEq] at h
    obtain ⟨hs, hm⟩ := iab.mp h
    rw [hba]
    congr 1
    refine iba.mpr ⟨hs.symm, ?_⟩
    refine match_symm hv.symm hv.trans _ _ (unique_values (wa.2 la) hca) ?_ hm
    rw [List.length_map, List.length_map, ← wa.1.node_count, ← wb.1.node_count]
    exact hs
  · intro h1 h2
    rw [hab, Option.some.injEq] at h1
    rw [hbc, Option.some.injEq] at h2
    obtain ⟨hs1, hm1⟩ := iab.mp h1
    obtain ⟨hs2, hm2⟩ := ibc.mp h2
    rw [hac]
    congr 1
    refine iac.mpr ⟨hs1.trans hs2, ?_⟩
    intro x hx
    obtain ⟨y, hy, hxy⟩ := hm1 x hx
    obtain ⟨z, hz, hyz⟩ := hm2 y hy
    exact ⟨z, hz, hv.trans _ _ _ hxy hyz⟩
  · intro h
    rw [hab, Option.some.injEq] at h
    exact (iab.mp h).1

theorem operator_eq_equivalence_witness :
    hash_map.operator_eq 20 true example_five example_five = some true ∧
    hash_map.operator_eq 20 false example_five example_five = some true ∧
    (hash_map.operator_eq 20 false example_five example_five_opposite = some true →
      hash_map.operator_eq 20 false example_five_opposite example_five = some true) ∧
    (hash_map.operator_eq 20 false example_five example_five_opposite = some true →
      hash_map.operator_eq 20 false example_five_opposite example_seven_opposite =
        some true →
      hash_map.operator_eq 20 false example_five example_seven_opposite = some true) ∧
    (hash_map.operator_eq 20 false example_five example_five_opposite = some true →
      example_five.size = example_five_opposite.size) :=
  operator_eq_equivalence (reachable_steady example_five_reachable)
    (reachable_steady example_five_opposite_reachable)
    (reachable_steady example_seven_opposite_reachable) (pointer_key_laws _ _)
    (pointer_key_laws _ _) (pointer_key_laws _ _) nat_value_laws
    (nat_value_key_consistent _) (nat_value_key_consistent _) (nat_value_key_consistent _)
    pointer_hasher_eq_sound 20 (by decide) (by decide) (by decide)

/-- C13: for a source map `s` in steady state (`==` on elements being reflexive), the
copy-constructed map `c` satisfies `c == s`, has the bucket count, size, hasher,
key-equality predicate and allocator of `s`, and holds in every bucket the sequence of
pairs `s` holds there, so that iteration over `c` and over `s` yields the same
sequence; `s` is as it was before. -/
theorem copy_equals_source [hasher H K] [key_equal E K] [BEq K] [BEq V]
    {s : hash_map K V H E A} (hs : steady s) (hrefl : ∀ a : K × V, (a == a) = true)
    (fuel : Nat) (hf : s.size + s.bucket_count < fuel) :
    ∃ c, s.copy fuel = some c ∧
      hash_map.operator_eq fuel false c (s.in_store c.heap) = some true ∧
      c.bucket_count = s.bucket_count ∧ c.size = s.size ∧
      c.hash_function = s.hash_function ∧ c.key_eq = s.key_eq ∧
      c.get_allocator = s.get_allocator ∧
      (∀ b, b < s.bucket_count → ∃ es, c.bucket_elements fuel b = some es ∧
        (s.in_store c.heap).bucket_elements fuel b = some es ∧
        s.bucket_elements fuel b = some es) ∧
      ∃ es, c.elements fuel = some es ∧ (s.in_store c.heap).elements fuel = some es ∧
        s.elements fuel = some es := by
  obtain ⟨cs, hwf⟩ := hs
  obtain ⟨c, hcopy, heq, hbc, hnc, hh, hk, hal, hbuckets, he1, he2⟩ :=
    copy_contents hwf hrefl hf
  refine ⟨c, hcopy, heq, hbc, hnc, hh, hk, hal, ?_, _, he1, he2, elements_eq hwf.1 hf⟩
  intro b hb
  obtain ⟨sb, cb, -, hcb⟩ := hwf.1.get hb
  obtain ⟨h1, h2⟩ := hbuckets b cb hcb
  exact ⟨_, h1, h2, bucket_elements_eq hwf.1 hcb (by omega)⟩

theorem copy_equals_source_witness :
    ∃ c, example_map.copy 10 = some c ∧
      hash_map.operator_eq 10 false c (example_map.in_store c.heap) = some true ∧
      c.bucket_count = example_map.bucket_count ∧ c.size = example_map.size ∧
      c.hash_function = example_map.hash_function ∧ c.key_eq = example_map.key_eq ∧
      c.get_allocator = example_map.get_allocator ∧
      (∀ b, b < example_map.bucket_count → ∃ es, c.bucket_elements 10 b = some es ∧
        (example_map.in_store c.heap).bucket_elements 10 b = some es ∧
        example_map.bucket_elements 10 b = some es) ∧
      ∃ es, c.elements 10 = some es ∧ (example_map.in_store c.heap).elements 10 = some es ∧
        example_map.elements 10 = some es :=
  copy_equals_source (reachable_steady example_reachable) (fun a => beq_self_eq_true a) 10
    (by decide)

/-- C14: for a map `s` in steady state whose collaborators meet their requirements and
two copies `c1` and `c2` taken from it, after a call of `insert`, `insert_or_assign` or
`erase` on `s` the copies hold what they held: the pairs of `s` from before the call,
bucket by bucket and in iteration order.  They compare equal to each other, and to the
modified `s` exactly when it has the size of before and an equal pair for every pair of
before; so they compare unequal to `s` after `erase` of a key that `s` held, after
`insert` of a pair with a new key, and after `insert_or_assign` of another mapped value
for a key that `s` held. -/
theorem copies_are_deep [hasher H K] [key_equal E K] [BEq K] [BEq V]
    {s : hash_map K V H E A} (hs : steady s)
    (laws : key_laws (K := K) s.current_buckets.hash s.current_buckets.keycomp)
    (hv : value_laws K V)
    (hcons : value_key_consistent (K := K) (V := V) s.current_buckets.keycomp)
    (hh : hasher_eq_sound H K) (fuel : Nat) (hf : s.size + s.bucket_count + 1 < fuel) :
    ∃ c1 c2 es, s.copy fuel = some c1 ∧ (s.in_store c1.heap).copy fuel = some c2 ∧
      s.elements fuel = some es ∧
      (∀ s2, modifies fuel (s.in_store c2.heap) s2 →
        (c1.in_store s2.heap).elements fuel = some es ∧
        (c2.in_store s2.heap).elements fuel = some es ∧
        (∀ i, i < s.bucket_count →
          (c1.in_store s2.heap).bucket_elements fuel i = s.bucket_elements fuel i ∧
          (c2.in_store s2.heap).bucket_elements fuel i = s.bucket_elements fuel i) ∧
        hash_map.operator_eq fuel false (c1.in_store s2.heap) (c2.in_store s2.heap) =
          some true ∧
        ∃ es2 r, s2.elements fuel = some es2 ∧
          hash_map.operator_eq fuel false (c1.in_store s2.heap) s2 = some r ∧
          hash_map.operator_eq fuel false (c2.in_store s2.heap) s2 = some r ∧
          (r = true ↔ s2.size = s.size ∧ ∀ x ∈ es, ∃ y ∈ es2, (x == y) = true)) ∧
      (∀ k e, s.holds fuel e → key_equal.call s.current_buckets.keycomp k e.1 = true →
        ∃ s2, (s.in_store c2.heap).erase fuel k = some (1, s2) ∧ s2.size + 1 = s.size ∧
          hash_map.operator_eq fuel false (c1.in_store s2.heap) s2 = some false ∧
          hash_map.operator_eq fuel false (c2.in_store s2.heap) s2 = some false) ∧
      (∀ value it s2, (s.in_store c2.heap).insert fuel value = some ((true, it), s2) →
        hash_map.operator_eq fuel false (c1.in_store s2.heap) s2 = some false ∧
        hash_map.operator_eq fuel false (c2.in_store s2.heap) s2 = some false) ∧
      ∀ k v e it s2, s.holds fuel e →
        key_equal.call s.current_buckets.keycomp k e.1 = true → (e == (e.1, v)) = false →
        (s.in_store c2.heap).insert_or_assign fuel k v = some (it, s2) →
        hash_map.operator_eq fuel false (c1.in_store s2.heap) s2 = some false ∧
        hash_map.operator_eq fuel false (c2.in_store s2.heap) s2 = some false := by
  obtain ⟨cs, hwf⟩ := hs
  obtain ⟨c1, c2, ccs1, ccs2, h1, h2, ws, w1, w2, hv1, hv2, d1, d2, ⟨a1, a2, a3, a4⟩,
    ⟨b1, b2, b3, b4⟩⟩ := two_copies hwf (show s.size < fuel by omega)
  have hsize1 : c1.size = s.size := a2
  have hsize2 : c2.size = s.size := b2
  have hbc1 : c1.bucket_count = s.bucket_count := a1
  have hbc2 : c2.bucket_count = s.bucket_count := b1
  have key : ∀ s2, modifies fuel (s.in_store c2.heap) s2 →
      ∃ cs2, well_formed s2 cs2 ∧ represents s2.heap c1.current_buckets ccs1 ∧
        represents s2.heap c2.current_buckets ccs2 ∧ s2.size + s2.bucket_count < fuel ∧
        s2.current_buckets.hash = s.current_buckets.hash ∧
        s2.current_buckets.keycomp = s.current_buckets.keycomp := by
    intro s2 hmod
    have hconf := modifies_confined ws hmod
    obtain ⟨r1, -⟩ := confined_other hconf w1.1 d1
    obtain ⟨r2, cs2, hw2, -⟩ := confined_other hconf w2.1 d2
    obtain ⟨g1, g2, g3, -, g5⟩ := modifies_config ws hmod
    refine ⟨cs2, hw2, r1, r2, ?_, g2, g3⟩
    have e1 : (s.in_store c2.heap).size = s.size := rfl
    have e2 : s2.bucket_count = s.bucket_count := g1
    omega
  have cmp : ∀ s2 cs2, well_formed s2 cs2 → represents s2.heap c1.current_buckets ccs1 →
      represents s2.heap c2.current_buckets ccs2 → s2.size + s2.bucket_count < fuel →
      s2.current_buckets.hash = s.current_buckets.hash →
      s2.current_buckets.keycomp = s.current_buckets.keycomp →
      ∃ r, hash_map.operator_eq fuel false (c1.in_store s2.heap) s2 = some r ∧
        hash_map.operator_eq fuel false (c2.in_store s2.heap) s2 = some r ∧
        (r = true ↔ s2.size = s.size ∧
          ∀ x ∈ cs.flatten.map Prod.snd, ∃ y ∈ cs2.flatten.map Prod.snd,
            (x == y) = true) := by
    intro s2 cs2 hw2 r1 r2 hf2 g2 g3
    have lc1 : key_laws (K := K) c1.current_buckets.hash c1.current_buckets.keycomp := by
      rw [a3, a4]; exact laws
    have lc2 : key_laws (K := K) c2.current_buckets.hash c2.current_buckets.keycomp := by
      rw [b3, b4]; exact laws
    obtain ⟨ra, hra, ia⟩ := copy_compared (s := s) r1 (w1.2 lc1) hv1 hw2 laws hv hcons hh a3 a4
      g2 g3 (show c1.size + c1.bucket_count < fuel by omega) hf2
    obtain ⟨rb, hrb, ib⟩ := copy_compared (s := s) r2 (w2.2 lc2) hv2 hw2 laws hv hcons hh b3 b4
      g2 g3 (show c2.size + c2.bucket_count < fuel by omega) hf2
    rw [hsize1] at ia
    rw [hsize2] at ib
    have hab : ra = rb := by
      rw [Bool.eq_iff_iff, ia, ib]
    subst hab
    refine ⟨ra, hra, hrb, ?_⟩
    rw [ia]
    exact ⟨fun h => ⟨h.1.symm, h.2⟩, fun h => ⟨h.1.symm, h.2⟩⟩
  refine ⟨c1, c2, _, h1, h2, elements_eq hwf.1 (by omega), ?_, ?_, ?_, ?_⟩
  · intro s2 hmod
    obtain ⟨cs2, hw2, r1, r2, hf2, g2, g3⟩ := key s2 hmod
    have hf1 : (c1.in_store s2.heap).size + (c1.in_store s2.heap).bucket_count < fuel := by
      show c1.size + c1.bucket_count < fuel
      omega
    have hf3 : (c2.in_store s2.heap).size + (c2.in_store s2.heap).bucket_count < fuel := by
      show c2.size + c2.bucket_count < fuel
      omega
    obtain ⟨r, hr1, hr2, hiff⟩ := cmp s2 cs2 hw2 r1 r2 hf2 g2 g3
    refine ⟨?_, ?_, ?_, ?_, _, r, elements_eq hw2.1 hf2, hr1, hr2, hiff⟩
    · rw [elements_eq (m := c1.in_store s2.heap) r1 hf1, ← chain_values_flatten, hv1,
        chain_values_flatten]
    · rw [elements_eq (m := c2.in_store s2.heap) r2 hf3, ← chain_values_flatten, hv2,
        chain_values_flatten]
    · intro i hi
      obtain ⟨sb, cb, -, hcb⟩ := hwf.1.get hi
      obtain ⟨x1, hx1, hy1⟩ := chain_values_get_eq hv1 hcb
      obtain ⟨x2, hx2, hy2⟩ := chain_values_get_eq hv2 hcb
      rw [bucket_elements_eq hwf.1 hcb (by omega),
        bucket_elements_eq (m := c1.in_store s2.heap) r1 hx1 (by omega),
        bucket_elements_eq (m := c2.in_store s2.heap) r2 hx2 (by omega), hy1, hy2]
      exact ⟨rfl, rfl⟩
    · exact operator_eq_same_values hv.refl (a := c1.in_store s2.heap)
        (b := c2.in_store s2.heap) r1 r2 (hv2.trans hv1.symm) (b1.trans a1.symm) hf1 false
  · intro k e he hke
    obtain ⟨x, hx, rfl⟩ := (holds_iff hwf.1 (by omega) e).mp he
    obtain ⟨l1, l2, hc, hm1, -⟩ := present_split ws laws k hx hke
    obtain ⟨s2, he2, -, hcb⟩ := erase_hit ws.1 k hc hm1 hke
      (show (s.in_store c2.heap).size < fuel by
        show s.size < fuel
        omega)
    have hmod : modifies fuel (s.in_store c2.heap) s2 := modifies.erase k 1 he2
    obtain ⟨cs2, hw2, r1, r2, hf2, g2, g3⟩ := key s2 hmod
    obtain ⟨r, hr1, hr2, hiff⟩ := cmp s2 cs2 hw2 r1 r2 hf2 g2 g3
    have hlen := length_le_flatten hc
    have hn := hwf.1.node_count
    have hsz : s2.size + 1 = s.size := by
      simp only [hash_map.size, hcb, hash_map.in_store, List.length_append,
        List.length_cons] at hlen ⊢
      omega
    have hr : r = false := by
      cases r with
      | false => rfl
      | true =>
        have := (hiff.mp rfl).1
        omega
    subst hr
    exact ⟨s2, he2, hsz, hr1, hr2⟩
  · intro value it s2 hi
    obtain ⟨cs2, hw2, r1, r2, hf2, g2, g3⟩ := key s2 (modifies.insert value (true, it) hi)
    obtain ⟨r, hr1, hr2, hiff⟩ := cmp s2 cs2 hw2 r1 r2 hf2 g2 g3
    have hsz := insert_size ws hi
    have hr : r = false := by
      cases r with
      | false => rfl
      | true =>
        have h3 := (hiff.mp rfl).1
        have h4 : (s.in_store c2.heap).size = s.size := rfl
        simp only [if_true] at hsz
        omega
    subst hr
    exact ⟨hr1, hr2⟩
  · intro k v e it s2 he hke hne hi
    obtain ⟨cs2, hw2, r1, r2, hf2, g2, g3⟩ := key s2 (modifies.insert_or_assign k v it hi)
    obtain ⟨r, hr1, hr2, hiff⟩ := cmp s2 cs2 hw2 r1 r2 hf2 g2 g3
    obtain ⟨x, hx, rfl⟩ := (holds_iff hwf.1 (by omega) e).mp he
    have hr : r = false := by
      cases r with
      | false => rfl
      | true =>
        exfalso
        exact assign_changes_pairs ws hw2 laws hcons (List.mem_map_of_mem _ hx) hke hne hi hf2
          ((hiff.mp rfl).2 x.2 (List.mem_map_of_mem _ hx))
    subst hr
    exact ⟨hr1, hr2⟩

theorem copies_are_deep_witness :
    ∃ c1 c2 es, example_map.copy 10 = some c1 ∧
      (example_map.in_store c1.heap).copy 10 = some c2 ∧
      example_map.elements 10 = some es ∧
      (∀ s2, modifies 10 (example_map.in_store c2.heap) s2 →
        (c1.in_store s2.heap).elements 10 = some es ∧
        (c2.in_store s2.heap).elements 10 = some es ∧
        (∀ i, i < example_map.bucket_count →
          (c1.in_store s2.heap).bucket_elements 10 i = example_map.bucket_elements 10 i ∧
          (c2.in_store s2.heap).bucket_elements 10 i = example_map.bucket_elements 10 i) ∧
        hash_map.operator_eq 10 false (c1.in_store s2.heap) (c2.in_store s2.heap) =
          some true ∧
        ∃ es2 r, s2.elements 10 = some es2 ∧
          hash_map.operator_eq 10 false (c1.in_store s2.heap) s2 = some r ∧
          hash_map.operator_eq 10 false (c2.in_store s2.heap) s2 = some r ∧
          (r = true ↔ s2.size = example_map.size ∧
            ∀ x ∈ es, ∃ y ∈ es2, (x == y) = true)) ∧
      (∀ k e, example_map.holds 10 e →
        key_equal.call example_map.current_buckets.keycomp k e.1 = true →
        ∃ s2, (example_map.in_store c2.heap).erase 10 k = some (1, s2) ∧
          s2.size + 1 = example_map.size ∧
          hash_map.operator_eq 10 false (c1.in_store s2.heap) s2 = some false ∧
          hash_map.operator_eq 10 false (c2.in_store s2.heap) s2 = some false) ∧
      (∀ value it s2,
        (example_map.in_store c2.heap).insert 10 value = some ((true, it), s2) →
        hash_map.operator_eq 10 false (c1.in_store s2.heap) s2 = some false ∧
        hash_map.operator_eq 10 false (c2.in_store s2.heap) s2 = some false) ∧
      ∀ k v e it s2, example_map.holds 10 e →
        key_equal.call example_map.current_buckets.keycomp k e.1 = true →
        (e == (e.1, v)) = false →
        (example_map.in_store c2.heap).insert_or_assign 10 k v = some (it, s2) →
        hash_map.operator_eq 10 false (c1.in_store s2.heap) s2 = some false ∧
        hash_map.operator_eq 10 false (c2.in_store s2.heap) s2 = some false :=
  copies_are_deep (reachable_steady example_reachable) example_key_laws nat_value_laws
    (nat_value_key_consistent _) identity_hasher_eq_sound 10 (by decide)

/-- C15: for a map `m` in steady state whose collaborators meet their requirements and
a bucket count `n > 0`, `rehash(n)` returns; afterwards `bucket_count() == n`, `size()`
is unchanged, the pairs of the map are those of before in some order, and the hasher,
the key-equality predicate and the allocator are as before.  With a copy taken before
the call, the rehashed map and the copy compare equal, either way round. -/
theorem rehash_preserves_pairs [hasher H K] [key_equal E K] [BEq K] [BEq V]
    {m : hash_map K V H E A} (hs : steady m)
    (laws : key_laws (K := K) m.current_buckets.hash m.current_buckets.keycomp)
    (hv : value_laws K V)
    (hcons : value_key_consistent (K := K) (V := V) m.current_buckets.keycomp)
    (hh : hasher_eq_sound H K) (fuel n : Nat) (hpos : 0 < n)
    (hf : m.size + m.bucket_count + n < fuel) :
    (∃ m2 es es2, m.rehash fuel n = some m2 ∧ m2.bucket_count = n ∧ m2.size = m.size ∧
      m2.hash_function = m.hash_function ∧ m2.key_eq = m.key_eq ∧
      m2.get_allocator = m.get_allocator ∧
      m.elements fuel = some es ∧ m2.elements fuel = some es2 ∧ es.Perm es2) ∧
    ∃ c m3, m.copy fuel = some c ∧ (m.in_store c.heap).rehash fuel n = some m3 ∧
      m3.bucket_count = n ∧ m3.size = m.size ∧
      (c.in_store m3.heap).elements fuel = m.elements fuel ∧
      hash_map.operator_eq fuel false m3 (c.in_store m3.heap) = some true ∧
      hash_map.operator_eq fuel false (c.in_store m3.heap) m3 = some true := by
  obtain ⟨cs, hwf⟩ := hs
  constructor
  · obtain ⟨m2, cs2, hi, hw2, hperm, -, g1, g2, g3, g4, g5⟩ :=
      rehash_total hwf hpos (show m.size < fuel by omega)
    refine ⟨m2, _, _, hi, g1, g2, g3, g4, g5, elements_eq hwf.1 (by omega),
      elements_eq hw2.1 ?_, (hperm.map Prod.snd).symm⟩
    simp only [hash_map.size, hash_map.bucket_count, g1, g2] at hf ⊢
    omega
  · obtain ⟨c, ccs, hcopy, wc, hvals, ws, ge, -, a1, a2, a3, a4, -⟩ :=
      copy_facts hwf (show m.size < fuel by omega)
    obtain ⟨m3, cs3, hi, hw3, hperm, hconf, g1, g2, g3, g4, -⟩ :=
      rehash_total ws hpos (show (m.in_store c.heap).size < fuel by
        show m.size < fuel
        omega)
    have hdis : ∀ q ∈ footprint c.current_buckets ccs,
        q ∉ footprint (m.in_store c.heap).current_buckets cs := by
      intro q hq hq2
      exact Nat.lt_irrefl _ (Nat.lt_of_lt_of_le (hwf.1.footprint_lt q hq2) (ge q hq))
    obtain ⟨rc, -⟩ := confined_other hconf wc.1 hdis
    have hsz3 : m3.size = m.size := g2
    have hbc3 : m3.bucket_count = n := g1
    have hszc : c.size = m.size := a2
    have hbcc : c.bucket_count = m.bucket_count := a1
    have hf3 : m3.size + m3.bucket_count < fuel := by omega
    have hfc : (c.in_store m3.heap).size + (c.in_store m3.heap).bucket_count < fuel := by
      show c.size + c.bucket_count < fuel
      omega
    have lc : key_laws (K := K) c.current_buckets.hash c.current_buckets.keycomp := by
      rw [a3, a4]; exact laws
    have l3 : key_laws (K := K) m3.current_buckets.hash m3.current_buckets.keycomp := by
      rw [g3, g4]; exact laws
    have hcc : value_key_consistent (K := K) (V := V) c.current_buckets.keycomp := by
      rw [a4]; exact hcons
    have hc3 : value_key_consistent (K := K) (V := V) m3.current_buckets.keycomp := by
      rw [g4]; exact hcons
    have hvalc : ccs.flatten.map Prod.snd = cs.flatten.map Prod.snd := by
      rw [← chain_values_flatten, hvals, chain_values_flatten]
    obtain ⟨r1, hr1, i1⟩ := operator_eq_iff (a := m3) (b := c.in_store m3.heap) hw3.1 rc
      (hw3.2 l3) (wc.2 lc) l3 hv hc3 hcc hh hf3 hfc false (by simp)
    obtain ⟨r2, hr2, i2⟩ := operator_eq_iff (a := c.in_store m3.heap) (b := m3) rc hw3.1
      (wc.2 lc) (hw3.2 l3) lc hv hcc hc3 hh hfc hf3 false (by simp)
    refine ⟨c, m3, hcopy, hi, hbc3, hsz3, ?_, ?_, ?_⟩
    · rw [elements_eq (m := c.in_store m3.heap) rc hfc, hvalc, elements_eq hwf.1 (by omega)]
    · rw [hr1]
      congr 1
      refine i1.mpr ⟨hsz3.trans hszc.symm, ?_⟩
      intro x hx
      refine ⟨x, ?_, hv.refl x⟩
      rw [hvalc]
      exact (hperm.map Prod.snd).mem_iff.mp hx
    · rw [hr2]
      congr 1
      refine i2.mpr ⟨hszc.trans hsz3.symm, ?_⟩
      intro x hx
      refine ⟨x, ?_, hv.refl x⟩
      rw [hvalc] at hx
      exact (hperm.map Prod.snd).mem_iff.mpr hx

theorem rehash_preserves_pairs_witness :
    (∃ m2 es es2, example_map.rehash 20 5 = some m2 ∧ m2.bucket_count = 5 ∧
      m2.size = example_map.size ∧
      m2.hash_function = example_map.hash_function ∧ m2.key_eq = example_map.key_eq ∧
      m2.get_allocator = example_map.get_allocator ∧
      example_map.elements 20 = some es ∧ m2.elements 20 = some es2 ∧ es.Perm es2) ∧
    ∃ c m3, example_map.copy 20 = some c ∧
      (example_map.in_store c.heap).rehash 20 5 = some m3 ∧
      m3.bucket_count = 5 ∧ m3.size = example_map.size ∧
      (c.in_store m3.heap).elements 20 = example_map.elements 20 ∧
      hash_map.operator_eq 20 false m3 (c.in_store m3.heap) = some true ∧
      hash_map.operator_eq 20 false (c.in_store m3.heap) m3 = some true :=
  rehash_preserves_pairs (reachable_steady example_reachable) example_key_laws nat_value_laws
    (nat_value_key_consistent _) identity_hasher_eq_sound 20 5 (by decide) (by decide)

/-- C16 fails on the code: when the `new` that `rehash` executes after the nodes have
been moved throws `std::bad_alloc`, the map is not as it was.  On the example map
(pairs (1, 10), (4, 40), (7, 70), (2, 20) in 3 buckets) `rehash(5)` then leaves 3
buckets and `size() == 4`, but no element: iteration yields nothing and `find(1)` is
`end()`. -/
theorem rehash_failing_changes_map :
    ∃ m2, example_map.rehash_failing 10 5 rehash_allocation.old_buckets_owner =
        some (Except.error bad_alloc.thrown, m2) ∧
      m2.bucket_count = 3 ∧ m2.size = 4 ∧ m2.elements 10 = some [] ∧
      m2.cbegin = some m2.cend ∧ m2.find 10 1 = some m2.cend ∧
      example_map.elements 10 = some [(1, 10), (4, 40), (7, 70), (2, 20)] ∧
      example_map.find 10 1 = some (some 3) :=
  ⟨_, rfl, by rfl, by rfl, by rfl, by rfl, by rfl, by rfl, by rfl⟩

/-- C17: `rehash(bucket_count())` returns at once and leaves the map exactly as it
was: the state after the call is the state before it, so bucket count, size, the
contents and the size of every bucket and the iteration order are as before. -/
theorem rehash_same_count [hasher H K] (m : hash_map K V H E A) (fuel : Nat) :
    m.rehash fuel m.bucket_count = some m ∧
    ∀ m2, m.rehash fuel m.bucket_count = some m2 →
      m2.bucket_count = m.bucket_count ∧ m2.size = m.size ∧
      m2.global_range fuel = m.global_range fuel ∧ m2.elements fuel = m.elements fuel ∧
      ∀ b, m2.bucket_size fuel b = m.bucket_size fuel b ∧
        m2.local_range fuel b = m.local_range fuel b ∧
        m2.bucket_elements fuel b = m.bucket_elements fuel b := by
  have h : m.rehash fuel m.bucket_count = some m := by
    simp [hash_map.rehash, hash_map.bucket_count]
  refine ⟨h, ?_⟩
  intro m2 h2
  rw [h, Option.some.injEq] at h2
  subst h2
  exact ⟨rfl, rfl, rfl, rfl, fun _ => ⟨rfl, rfl, rfl⟩⟩

/-- C18: after `clear()` on a map in steady state the map is empty (`empty()` is true,
`size()` is 0, `begin() == end()`, every bucket is empty and `find` finds nothing)
while `bucket_count()`, the hasher, the key-equality predicate and the allocator are
as before; on a map that was empty already every observer returns what it returned
before the call. -/
theorem clear_empties [hasher H K] [key_equal E K] {m : hash_map K V H E A}
    (hs : steady m) (fuel : Nat) (hf : m.bucket_count < fuel) :
    (m.clear.empty = true ∧ m.clear.size = 0 ∧ m.clear.cbegin = some m.clear.cend ∧
      m.clear.elements fuel = some [] ∧
      (∀ b, b < m.bucket_count →
        m.clear.bucket_size fuel b = some 0 ∧ m.clear.bucket_elements fuel b = some []) ∧
      (∀ k, m.clear.find fuel k = some m.clear.cend)) ∧
    (m.clear.bucket_count = m.bucket_count ∧ m.clear.hash_function = m.hash_function ∧
      m.clear.key_eq = m.key_eq ∧ m.clear.get_allocator = m.get_allocator) ∧
    (m.empty = true →
      m.clear.empty = m.empty ∧ m.clear.size = m.size ∧ m.clear.cbegin = m.cbegin ∧
      m.clear.elements fuel = m.elements fuel ∧
      (∀ b, b < m.bucket_count → m.clear.bucket_size fuel b = m.bucket_size fuel b ∧
        m.clear.bucket_elements fuel b = m.bucket_elements fuel b) ∧
      ∀ k, m.clear.find fuel k = m.find fuel k) := by
  obtain ⟨cs, hwf⟩ := hs
  obtain ⟨f1, f2, f3, f4, f5⟩ := clear_fields m
  have hc := (clear_well_formed (m := m) hwf.1).1
  have hsize : m.clear.size = 0 := f2
  have hbc : m.clear.bucket_count = m.bucket_count := f1
  obtain ⟨e1, e2, e3, e4, e5⟩ := empty_observers hc hsize
    (show m.clear.bucket_count < fuel by rw [hbc]; exact hf)
  refine ⟨⟨e1, hsize, e2, e3, fun b hb => e4 b (by rw [hbc]; exact hb), e5⟩,
    ⟨hbc, f3, f4, f5⟩, ?_⟩
  intro hempty
  have hsize0 : m.size = 0 := by
    simp only [hash_map.empty, beq_iff_eq] at hempty
    exact hempty.symm
  obtain ⟨d1, d2, d3, d4, d5⟩ := empty_observers hwf.1 hsize0 hf
  refine ⟨by rw [e1, d1], by rw [hsize, hsize0], by rw [e2, d2]; rfl, by rw [e3, d3], ?_, ?_⟩
  · intro b hb
    obtain ⟨a1, a2⟩ := e4 b (by rw [hbc]; exact hb)
    obtain ⟨b1, b2⟩ := d4 b hb
    exact ⟨by rw [a1, b1], by rw [a2, b2]⟩
  · intro k
    rw [e5 k, d5 k]; rfl

theorem clear_empties_witness :
    (example_map.clear.empty = true ∧ example_map.clear.size = 0 ∧
      example_map.clear.cbegin = some example_map.clear.cend ∧
      example_map.clear.elements 10 = some [] ∧
      (∀ b, b < example_map.bucket_count →
        example_map.clear.bucket_size 10 b = some 0 ∧
          example_map.clear.bucket_elements 10 b = some []) ∧
      (∀ k, example_map.clear.find 10 k = some example_map.clear.cend)) ∧
    (example_map.clear.bucket_count = example_map.bucket_count ∧
      example_map.clear.hash_function = example_map.hash_function ∧
      example_map.clear.key_eq = example_map.key_eq ∧
      example_map.clear.get_allocator = example_map.get_allocator) ∧
    (example_map.empty = true →
      example_map.clear.empty = example_map.empty ∧
      example_map.clear.size = example_map.size ∧
      example_map.clear.cbegin = example_map.cbegin ∧
      example_map.clear.elements 10 = example_map.elements 10 ∧
      (∀ b, b < example_map.bucket_count →
        example_map.clear.bucket_size 10 b = example_map.bucket_size 10 b ∧
        example_map.clear.bucket_elements 10 b = example_map.bucket_elements 10 b) ∧
      ∀ k, example_map.clear.find 10 k = example_map.find 10 k) :=
  clear_empties (reachable_steady example_reachable) 10 (by decide)

/-- C19: for two maps `a` and `b` of one store in steady state (`==` on elements being
reflexive), after `a.swap(b)` (which `std::swap(a, b)` calls) `a` compares equal to `b`
as it was before and `b` to `a` as it was before, and `bucket_count()`,
`hash_function()`, `key_eq()` and `get_allocator()` of each are those of the other
before, as are the elements in iteration order. -/
theorem swap_exchanges [hasher H K] [key_equal E K] [BEq K] [BEq V]
    {a b : hash_map K V H E A} (ha : steady a) (hb : steady b) (hstore : a.heap = b.heap)
    (hrefl : ∀ x : K × V, (x == x) = true) (fuel : Nat)
    (hfa : a.size + a.bucket_count < fuel) (hfb : b.size + b.bucket_count < fuel) :
    hash_map.operator_eq fuel false (a.swap b).1 b = some true ∧
    hash_map.operator_eq fuel false (a.swap b).2 a = some true ∧
    ((a.swap b).1.bucket_count = b.bucket_count ∧
      (a.swap b).1.hash_function = b.hash_function ∧ (a.swap b).1.key_eq = b.key_eq ∧
      (a.swap b).1.get_allocator = b.get_allocator ∧ (a.swap b).1.size = b.size ∧
      (a.swap b).1.elements fuel = b.elements fuel) ∧
    ((a.swap b).2.bucket_count = a.bucket_count ∧
      (a.swap b).2.hash_function = a.hash_function ∧ (a.swap b).2.key_eq = a.key_eq ∧
      (a.swap b).2.get_allocator = a.get_allocator ∧ (a.swap b).2.size = a.size ∧
      (a.swap b).2.elements fuel = a.elements fuel) := by
  obtain ⟨csa, wa⟩ := ha
  obtain ⟨csb, wb⟩ := hb
  rw [swap_same_store hstore]
  exact ⟨operator_eq_self wb.1 hrefl hfb false, operator_eq_self wa.1 hrefl hfa false,
    ⟨rfl, rfl, rfl, rfl, rfl, rfl⟩, ⟨rfl, rfl, rfl, rfl, rfl, rfl⟩⟩

theorem swap_exchanges_witness :
    (hash_map.operator_eq 20 false (example_rehashed.swap (example_copy.in_store example_rehashed.heap)).1
        (example_copy.in_store example_rehashed.heap) = some true ∧
      hash_map.operator_eq 20 false (example_rehashed.swap (example_copy.in_store example_rehashed.heap)).2
        example_rehashed = some true ∧
      ((example_rehashed.swap (example_copy.in_store example_rehashed.heap)).1.bucket_count =
          (example_copy.in_store example_rehashed.heap).bucket_count ∧
        (example_rehashed.swap (example_copy.in_store example_rehashed.heap)).1.hash_function =
          (example_copy.in_store example_rehashed.heap).hash_function ∧
        (example_rehashed.swap (example_copy.in_store example_rehashed.heap)).1.key_eq =
          (example_copy.in_store example_rehashed.heap).key_eq ∧
        (example_rehashed.swap (example_copy.in_store example_rehashed.heap)).1.get_allocator =
          (example_copy.in_store example_rehashed.heap).get_allocator ∧
        (example_rehashed.swap (example_copy.in_store example_rehashed.heap)).1.size =
          (example_copy.in_store example_rehashed.heap).size ∧
        (example_rehashed.swap (example_copy.in_store example_rehashed.heap)).1.elements 20 =
          (example_copy.in_store example_rehashed.heap).elements 20) ∧
      ((example_rehashed.swap (example_copy.in_store example_rehashed.heap)).2.bucket_count =
          example_rehashed.bucket_count ∧
        (example_rehashed.swap (example_copy.in_store example_rehashed.heap)).2.hash_function =
          example_rehashed.hash_function ∧
        (example_rehashed.swap (example_copy.in_store example_rehashed.heap)).2.key_eq = example_rehashed.key_eq ∧
        (example_rehashed.swap (example_copy.in_store example_rehashed.heap)).2.get_allocator =
          example_rehashed.get_allocator ∧
        (example_rehashed.swap (example_copy.in_store example_rehashed.heap)).2.size = example_rehashed.size ∧
        (example_rehashed.swap (example_copy.in_store example_rehashed.heap)).2.elements 20 =
          example_rehashed.elements 20)) ∧
    example_rehashed.bucket_count = 5 ∧
    (example_copy.in_store example_rehashed.heap).bucket_count = 3 ∧
    (example_rehashed.swap (example_copy.in_store example_rehashed.heap)).1.bucket_count = 3 ∧
    (example_rehashed.swap (example_copy.in_store example_rehashed.heap)).2.bucket_count = 5 :=
  ⟨swap_exchanges example_two_maps.1 example_two_maps.2 rfl
      (fun x => beq_self_eq_true x) 20 (by decide) (by decide),
    by rfl, by rfl, by rfl, by rfl⟩

/-- C20: for a map `b` in steady state (`==` on elements being reflexive) and any map
`a`, after the copy assignment `a = b` the map `a` compares equal to `b` and has the
bucket count and the size of `b`, and `b` is as it was: its bucket count, its size and
the pairs of every bucket and of the iteration are those from before the assignment. -/
theorem assign_copies [hasher H K] [key_equal E K] [BEq K] [BEq V]
    (a : hash_map K V H E A) {b : hash_map K V H E A} (hb : steady b)
    (hrefl : ∀ x : K × V, (x == x) = true) (fuel : Nat)
    (hf : b.size + b.bucket_count < fuel) :
    ∃ a2, a.assign fuel b = some a2 ∧
      hash_map.operator_eq fuel false a2 (b.in_store a2.heap) = some true ∧
      a2.bucket_count = b.bucket_count ∧ a2.size = b.size ∧
      (b.in_store a2.heap).bucket_count = b.bucket_count ∧
      (b.in_store a2.heap).size = b.size ∧
      (∀ i, i < b.bucket_count → ∃ es, a2.bucket_elements fuel i = some es ∧
        (b.in_store a2.heap).bucket_elements fuel i = some es ∧
        b.bucket_elements fuel i = some es) ∧
      ∃ es, a2.elements fuel = some es ∧ (b.in_store a2.heap).elements fuel = some es ∧
        b.elements fuel = some es := by
  obtain ⟨cs, hwf⟩ := hb
  obtain ⟨c, hcopy, heq, hbc, hnc, -, -, -, hbuckets, he1, he2⟩ :=
    copy_contents hwf hrefl hf
  have hassign : a.assign fuel b = some c := by
    simp only [hash_map.assign, hcopy, hash_map.swap, hash_map.in_store]
  refine ⟨c, hassign, heq, hbc, hnc, rfl, rfl, ?_, _, he1, he2, elements_eq hwf.1 hf⟩
  intro i hi
  obtain ⟨sb, cb, -, hcb⟩ := hwf.1.get hi
  obtain ⟨h1, h2⟩ := hbuckets i cb hcb
  exact ⟨_, h1, h2, bucket_elements_eq hwf.1 hcb (by omega)⟩

theorem assign_copies_witness :
    ∃ a2, example_cleared.assign 10 example_map = some a2 ∧
      hash_map.operator_eq 10 false a2 (example_map.in_store a2.heap) = some true ∧
      a2.bucket_count = example_map.bucket_count ∧ a2.size = example_map.size ∧
      (example_map.in_store a2.heap).bucket_count = example_map.bucket_count ∧
      (example_map.in_store a2.heap).size = example_map.size ∧
      (∀ i, i < example_map.bucket_count → ∃ es, a2.bucket_elements 10 i = some es ∧
        (example_map.in_store a2.heap).bucket_elements 10 i = some es ∧
        example_map.bucket_elements 10 i = some es) ∧
      ∃ es, a2.elements 10 = some es ∧
        (example_map.in_store a2.heap).elements 10 = some es ∧
        example_map.elements 10 = some es :=
  assign_copies example_cleared (reachable_steady example_reachable)
    (fun x => beq_self_eq_true x) 10 (by decide)

/-- C21: for every bucket count `n > 0`, the map constructed with `n` buckets is empty:
`empty()` is true, `size() == 0`, `begin() == end()`, `bucket_count() == n`,
`find(k) == end()` for every key `k`, and for every bucket index `b < n`
`bucket_size(b) == 0` and `begin(b) == end(b)`. -/
theorem create_is_empty [hasher H K] [key_equal E K] (heap : List (node K V)) (n : Nat)
    (hpos : 0 < n) (hash : H) (keycomp : E) (allocator : A) (fuel : Nat) (hf : n < fuel) :
    (hash_map.create heap n hash keycomp allocator).empty = true ∧
    (hash_map.create heap n hash keycomp allocator).size = 0 ∧
    (hash_map.create heap n hash keycomp allocator).cbegin =
      some (hash_map.create heap n hash keycomp allocator).cend ∧
    (hash_map.create heap n hash keycomp allocator).bucket_count = n ∧
    (∀ k : K, (hash_map.create heap n hash keycomp allocator).find fuel k =
      some (hash_map.create heap n hash keycomp allocator).cend) ∧
    ∀ b, b < n →
      (hash_map.create heap n hash keycomp allocator).bucket_size fuel b = some 0 ∧
      (∃ last, (hash_map.create heap n hash keycomp allocator).cend_bucket b = some last ∧
        (hash_map.create heap n hash keycomp allocator).cbegin_bucket b = some last) := by
  have hwf := create_well_formed (K := K) (V := V) heap hpos hash keycomp allocator
  have hsize : (hash_map.create heap n hash keycomp allocator).size = 0 := by
    simp [hash_map.size, hash_map.create, create_fields]
  have hbc : (hash_map.create heap n hash keycomp allocator).bucket_count = n := by
    simp [hash_map.bucket_count, hash_map.create, create_fields]
  obtain ⟨e1, e2, -, e4, e5⟩ := empty_observers hwf.1 hsize
    (show (hash_map.create heap n hash keycomp allocator).bucket_count < fuel by
      rw [hbc]; exact hf)
  refine ⟨e1, hsize, e2, hbc, e5, ?_⟩
  intro b hb
  refine ⟨(e4 b (by rw [hbc]; exact hb)).1, ?_⟩
  have hlen := hwf.1.buckets_length
  have hb2 : b < (hash_map.create heap n hash keycomp allocator).current_buckets.buckets.length := by
    rw [hlen]; exact (hbc.symm ▸ hb)
  have hbs := List.getElem?_eq_getElem hb2
  have hc : (List.replicate n ([] : List (Nat × (K × V))))[b]? = some [] := by
    simp [List.getElem?_replicate, hb]
  obtain ⟨g1, g2⟩ := cbegin_bucket_eq hwf.1 hbs hc
  exact ⟨_, g2, g1⟩

theorem create_is_empty_witness :
    example_empty.empty = true ∧ example_empty.size = 0 ∧
    example_empty.cbegin = some example_empty.cend ∧ example_empty.bucket_count = 3 ∧
    (∀ k : Nat, example_empty.find 10 k = some example_empty.cend) ∧
    ∀ b, b < 3 → example_empty.bucket_size 10 b = some 0 ∧
      (∃ last, example_empty.cend_bucket b = some last ∧
        example_empty.cbegin_bucket b = some last) :=
  create_is_empty [] 3 (by decide) identity_hash.mk equal_to.mk () 10 (by decide)

/-- C22: for every map with `bucket_count() > 0` (whose bucket array has
`bucket_count()` entries, as the constructor allocates it) and every key `k`,
`bucket(k)` equals `hash(k)` modulo `bucket_count()` and is strictly less than
`bucket_count()`; `bucket_for_key(k)` indexes the bucket array inside its range; and
for a hash result of `w` bits and a size type of `s` bits, whichever is the wider, the
expression `hash(key) % bucket_count` on machine integers yields this same index. -/
theorem bucket_in_range [hasher H K] (m : hash_map K V H E A) (hpos : 0 < m.bucket_count)
    (hlen : m.current_buckets.buckets.length = m.bucket_count) (k : K) :
    m.bucket k = hasher.call m.hash_function k % m.bucket_count ∧
    m.bucket k < m.bucket_count ∧
    (∃ b, m.current_buckets.bucket_for_key k = some b ∧
      m.current_buckets.buckets[m.bucket k]? = some b) ∧
    ∀ w s, hasher.call m.hash_function k < 2 ^ w → m.bucket_count < 2 ^ s →
      fixed_size_bucket_list.index_expression w s (hasher.call m.hash_function k)
        m.bucket_count = m.bucket k := by
  have hlt : m.bucket k < m.bucket_count := Nat.mod_lt _ hpos
  refine ⟨rfl, hlt, ?_, fun w s hw hs => index_expression_eq hw hs⟩
  have hb : m.bucket k < m.current_buckets.buckets.length := by rw [hlen]; exact hlt
  exact ⟨_, List.getElem?_eq_getElem hb, List.getElem?_eq_getElem hb⟩

theorem bucket_in_range_witness :
    example_map.bucket 7 = hasher.call example_map.hash_function 7 % example_map.bucket_count ∧
    example_map.bucket 7 < example_map.bucket_count ∧
    (∃ b, example_map.current_buckets.bucket_for_key 7 = some b ∧
      example_map.current_buckets.buckets[example_map.bucket 7]? = some b) ∧
    ∀ w s, hasher.call example_map.hash_function 7 < 2 ^ w → example_map.bucket_count < 2 ^ s →
      fixed_size_bucket_list.index_expression w s (hasher.call example_map.hash_function 7)
        example_map.bucket_count = example_map.bucket 7 :=
  bucket_in_range example_map (by decide) (by decide) 7

/-- C23: in a map in steady state that holds no element with the key `k`, each of
`insert((k, v))`, `insert_or_assign(k, v)` and `operator[](k)` returns and adds the new
element as the last one of bucket `bucket(k)`: the bucket-local range of that bucket is
the range of before followed by the iterator to the new element, its elements are those
of before, in their order, followed by the new one, and the successor of the new
element's bucket-local iterator is `end(bucket(k))`. -/
theorem new_element_is_last [hasher H K] [key_equal E K] [Inhabited V]
    {m : hash_map K V H E A} (hs : steady m) (k : K) (v : V) (fuel : Nat)
    (hf : m.size + m.bucket_count + 1 < fuel)
    (habsent : ∀ e, m.holds fuel e →
      key_equal.call m.current_buckets.keycomp k e.1 = false) :
    ∃ (last : iterator) (range : List iterator) (values : List (K × V)),
      m.cend_bucket (m.bucket k) = some last ∧
      m.local_range fuel (m.bucket k) = some range ∧
      m.bucket_elements fuel (m.bucket k) = some values ∧
      (∃ it m2, m.insert fuel (k, v) = some ((true, it), m2) ∧
        m2.bucket k = m.bucket k ∧ m2.cend_bucket (m.bucket k) = some last ∧
        m2.local_range fuel (m.bucket k) = some (range ++ [it]) ∧
        m2.bucket_elements fuel (m.bucket k) = some (values ++ [(k, v)]) ∧
        m2.deref it = some (k, v) ∧
        iterator_impl.increment true fuel m2 it = some last) ∧
      (∃ it m2, m.insert_or_assign fuel k v = some (it, m2) ∧
        m2.bucket k = m.bucket k ∧ m2.cend_bucket (m.bucket k) = some last ∧
        m2.local_range fuel (m.bucket k) = some (range ++ [it]) ∧
        m2.bucket_elements fuel (m.bucket k) = some (values ++ [(k, v)]) ∧
        m2.deref it = some (k, v) ∧
        iterator_impl.increment true fuel m2 it = some last) ∧
      ∃ it m2, m.subscript fuel k = some (default, m2) ∧
        m2.bucket k = m.bucket k ∧ m2.cend_bucket (m.bucket k) = some last ∧
        m2.local_range fuel (m.bucket k) = some (range ++ [it]) ∧
        m2.bucket_elements fuel (m.bucket k) = some (values ++ [(k, default)]) ∧
        m2.deref it = some (k, default) ∧
        iterator_impl.increment true fuel m2 it = some last := by
  obtain ⟨cs, hwf⟩ := hs
  have hrep := hwf.1
  have hsz : m.size < fuel := by omega
  have hfind := find_ne_none_of_fuel hrep k hsz
  obtain ⟨s, c, hb, hc⟩ := hrep.get (bucket_index_lt hrep k)
  have hcl := chain_length_lt hrep hc hsz
  have habs : ∀ x ∈ c, key_equal.call m.current_buckets.keycomp k x.2.1 = false := by
    intro x hx
    exact habsent x.2
      ((holds_iff hrep (by omega) x.2).mpr ⟨x, mem_flatten_of_getElem? hc hx, rfl⟩)
  have hno : ∀ {l1 : List (Nat × (K × V))} {x : Nat × (K × V)} {l2 : List (Nat × (K × V))},
      c = l1 ++ x :: l2 → key_equal.call m.current_buckets.keycomp k x.2.1 = true → False := by
    intro l1 x l2 e hx
    have := habs x (by rw [e]; simp)
    rw [hx] at this
    exact absurd this (by simp)
  have key : ∀ (w : V) (m2 : hash_map K V H E A),
      well_formed m2 (cs.set (m.current_buckets.bucket_index k) (c ++ [(m.heap.length, (k, w))])) →
      m2.current_buckets =
        { m.current_buckets with node_count := m.current_buckets.node_count + 1 } →
      m2.bucket k = m.bucket k ∧ m2.cend_bucket (m.bucket k) = some (some s.sentinel) ∧
        m2.local_range fuel (m.bucket k) =
          some (c.map (fun y => some y.1) ++ [some m.heap.length]) ∧
        m2.bucket_elements fuel (m.bucket k) = some (c.map Prod.snd ++ [(k, w)]) ∧
        m2.deref (some m.heap.length) = some (k, w) ∧
        iterator_impl.increment true fuel m2 (some m.heap.length) = some (some s.sentinel) := by
    intro w m2 hw2 hl
    obtain ⟨a1, a2, a3, a4, a5⟩ := appended_last (x := (m.heap.length, (k, w))) hb hc hw2.1 hl
      (show m.size + 1 < fuel by omega)
    exact ⟨by simp [hash_map.bucket, hl, fixed_size_bucket_list.bucket_index], a1, a2, a3, a4, a5⟩
  refine ⟨some s.sentinel, _, _, (cbegin_bucket_eq hrep hb hc).2, local_range_eq hrep hc hcl,
    bucket_elements_eq hrep hc hsz, ?_, ?_, ?_⟩
  · obtain ⟨c2, hc2, hcase⟩ := insert_cases hwf (k, v) hfind
    have e : c2 = c := Option.some.inj (hc2.symm.trans hc)
    subst e
    rcases hcase with ⟨-, m2, g1, g2, g3⟩ | ⟨l1, x, l2, e, -, hx, -⟩
    · exact ⟨some m.heap.length, m2, g1, key v m2 g2 g3⟩
    · exact (hno e hx).elim
  · obtain ⟨c2, hc2, hcase⟩ := insert_or_assign_cases hwf k v hfind
    have e : c2 = c := Option.some.inj (hc2.symm.trans hc)
    subst e
    rcases hcase with ⟨-, m2, g1, g2, g3⟩ | ⟨l1, x, l2, e, -, hx, -⟩
    · exact ⟨some m.heap.length, m2, g1, key v m2 g2 g3⟩
    · exact (hno e hx).elim
  · obtain ⟨c2, hc2, hcase⟩ := insert_cases hwf (k, (default : V)) hfind
    have e : c2 = c := Option.some.inj (hc2.symm.trans hc)
    subst e
    rcases hcase with ⟨-, m2, g1, g2, g3⟩ | ⟨l1, x, l2, e, -, hx, -⟩
    · have hk := key default m2 g2 g3
      refine ⟨some m.heap.length, m2, ?_, hk⟩
      simp only [hash_map.subscript, g1, hk.2.2.2.2.1, Option.map_some']
    · exact (hno e hx).elim

theorem new_element_is_last_witness :
    ∃ (last : iterator) (range : List iterator) (values : List (Nat × Nat)),
      example_map.cend_bucket (example_map.bucket 10) = some last ∧
      example_map.local_range 10 (example_map.bucket 10) = some range ∧
      example_map.bucket_elements 10 (example_map.bucket 10) = some values ∧
      (∃ it m2, example_map.insert 10 (10, 100) = some ((true, it), m2) ∧
        m2.bucket 10 = example_map.bucket 10 ∧
        m2.cend_bucket (example_map.bucket 10) = some last ∧
        m2.local_range 10 (example_map.bucket 10) = some (range ++ [it]) ∧
        m2.bucket_elements 10 (example_map.bucket 10) = some (values ++ [(10, 100)]) ∧
        m2.deref it = some (10, 100) ∧
        iterator_impl.increment true 10 m2 it = some last) ∧
      (∃ it m2, example_map.insert_or_assign 10 10 100 = some (it, m2) ∧
        m2.bucket 10 = example_map.bucket 10 ∧
        m2.cend_bucket (example_map.bucket 10) = some last ∧
        m2.local_range 10 (example_map.bucket 10) = some (range ++ [it]) ∧
        m2.bucket_elements 10 (example_map.bucket 10) = some (values ++ [(10, 100)]) ∧
        m2.deref it = some (10, 100) ∧
        iterator_impl.increment true 10 m2 it = some last) ∧
      ∃ it m2, example_map.subscript 10 10 = some (default, m2) ∧
        m2.bucket 10 = example_map.bucket 10 ∧
        m2.cend_bucket (example_map.bucket 10) = some last ∧
        m2.local_range 10 (example_map.bucket 10) = some (range ++ [it]) ∧
        m2.bucket_elements 10 (example_map.bucket 10) = some (values ++ [(10, default)]) ∧
        m2.deref it = some (10, default) ∧
        iterator_impl.increment true 10 m2 it = some last :=
  new_element_is_last (reachable_steady example_reachable) 10 100 10 (by decide) (by
    intro e he
    have hm := (example_holds_iff e).mp he
    simp only [List.mem_cons, List.mem_singleton, List.not_mem_nil, or_false] at hm
    rcases hm with rfl | rfl | rfl | rfl <;> rfl)

/-- C24: for every map in steady state, with `ranges[b]` the bucket-local range
`[begin(b), end(b))` of bucket `b`, iteration from `begin()` by repeated increment
reaches `end()` and visits exactly the iterators of `ranges[0]`, then those of
`ranges[1]`, and so on up to the last bucket (an empty bucket contributes nothing),
none of them `end()`; the elements met are those of the buckets in that order;
`begin()` is the first iterator of the lowest-numbered non-empty bucket, and `end()`
if all buckets are empty. -/
theorem global_iteration_order [hasher H K] [key_equal E K] {m : hash_map K V H E A}
    (hs : steady m) (fuel : Nat) (hf : m.size + m.bucket_count < fuel) :
    ∃ (ranges : List (List iterator)) (values : List (List (K × V))),
      ranges.length = m.bucket_count ∧ values.length = m.bucket_count ∧
      (∀ b, b < m.bucket_count → m.local_range fuel b = ranges[b]? ∧
        m.bucket_elements fuel b = values[b]?) ∧
      m.global_range fuel = some ranges.flatten ∧
      m.elements fuel = some values.flatten ∧
      (∀ it ∈ ranges.flatten, it ≠ m.cend) ∧
      (∀ (b : Nat) (it : iterator) (rest : List iterator), ranges[b]? = some (it :: rest) →
        (∀ j : Nat, j < b → ranges[j]? = some []) →
        m.cbegin = some it) ∧
      ((∀ b, b < m.bucket_count → ranges[b]? = some []) → m.cbegin = some m.cend) := by
  obtain ⟨cs, hwf⟩ := hs
  have hrep := hwf.1
  have hlen : cs.length = m.bucket_count := hrep.chains_length
  have hflat : cs.flatten.length = m.size := hrep.node_count.symm
  have hbegin : m.cbegin =
      some (((cs.map (List.map (fun x => (some x.1 : iterator)))).flatten).headD m.cend) := by
    rw [cbegin_eq hrep, ← List.map_flatten]
    have hcend : m.cend = none := rfl
    rw [hcend, head_id_map_headD]
  refine ⟨cs.map (List.map (fun x => some x.1)), cs.map (List.map Prod.snd),
    by rw [List.length_map, hlen], by rw [List.length_map, hlen], ?_, ?_, ?_, ?_, ?_, ?_⟩
  · intro b hb
    obtain ⟨s, c, -, hc⟩ := hrep.get hb
    have hcl := chain_length_lt hrep hc (show m.size < fuel by omega)
    rw [local_range_eq hrep hc hcl, bucket_elements_eq hrep hc (show m.size < fuel by omega)]
    simp [List.getElem?_map, hc]
  · rw [← List.map_flatten]
    exact global_range_eq hrep (by
      rw [hflat]
      exact hf)
  · rw [← List.map_flatten]
    exact elements_eq hrep hf
  · intro it hit
    rw [← List.map_flatten] at hit
    obtain ⟨x, -, rfl⟩ := List.mem_map.mp hit
    simp [hash_map.cend]
  · intro b it rest hb hnil
    rw [hbegin, List.headD_eq_head?_getD, flatten_head_after_nils _ b it rest hb hnil]
    rfl
  · intro hall
    rw [hbegin, flatten_nil_of_all_nil _ (fun b hb => hall b (by
      rw [List.length_map, hlen] at hb
      exact hb))]
    rfl

theorem global_iteration_order_witness :
    ∃ (ranges : List (List iterator)) (values : List (List (Nat × Nat))),
      ranges.length = example_map.bucket_count ∧ values.length = example_map.bucket_count ∧
      (∀ b, b < example_map.bucket_count → example_map.local_range 10 b = ranges[b]? ∧
        example_map.bucket_elements 10 b = values[b]?) ∧
      example_map.global_range 10 = some ranges.flatten ∧
      example_map.elements 10 = some values.flatten ∧
      (∀ it ∈ ranges.flatten, it ≠ example_map.cend) ∧
      (∀ (b : Nat) (it : iterator) (rest : List iterator), ranges[b]? = some (it :: rest) →
        (∀ j : Nat, j < b → ranges[j]? = some []) →
        example_map.cbegin = some it) ∧
      ((∀ b, b < example_map.bucket_count → ranges[b]? = some []) →
        example_map.cbegin = some example_map.cend) :=
  global_iteration_order (reachable_steady example_reachable) 10 (by decide)

/-- C25: for every map in steady state and every bucket index `b < bucket_count()`,
`bucket_size(b)` returns the number of increments that lead from `begin(b)` to
`end(b)`, which is the number of elements of the bucket-local range of bucket `b`. -/
theorem bucket_size_counts_range [hasher H K] [key_equal E K] {m : hash_map K V H E A}
    (hs : steady m) (b : Nat) (hb : b < m.bucket_count) (fuel : Nat) (hf : m.size < fuel) :
    ∃ (range : List iterator) (values : List (K × V)),
      m.local_range fuel b = some range ∧ m.bucket_elements fuel b = some values ∧
      values.length = range.length ∧ m.bucket_size fuel b = some range.length := by
  obtain ⟨cs, hwf⟩ := hs
  obtain ⟨s, c, -, hc⟩ := hwf.1.get hb
  have hcl := chain_length_lt hwf.1 hc hf
  refine ⟨_, _, local_range_eq hwf.1 hc hcl, bucket_elements_eq hwf.1 hc hf, ?_, ?_⟩
  · rw [List.length_map, List.length_map]
  · rw [List.length_map]
    exact bucket_size_eq hwf.1 hc hcl

theorem bucket_size_counts_range_witness :
    ∃ (range : List iterator) (values : List (Nat × Nat)),
      example_map.local_range 10 1 = some range ∧
      example_map.bucket_elements 10 1 = some values ∧
      values.length = range.length ∧ example_map.bucket_size 10 1 = some range.length :=
  bucket_size_counts_range (reachable_steady example_reachable) 1 (by decide) 10 (by decide)

/-- C26: for a map in steady state whose collaborators meet their requirements and a
key `k` with `b = bucket(k)`: if no element has the key `k`, `equal_range(k)` returns
`(end(b), end(b))`; if the element `e` has the key `k`, it returns a pair `(it, next)`
of bucket-local iterators where `it` refers to `e`, lies in the range
`[begin(b), end(b))` and `next` is its successor there (the next iterator of the
range, `end(b)` if `it` is the last), so that `[it, next)` holds exactly `it`. -/
theorem equal_range_key [hasher H K] [key_equal E K] {m : hash_map K V H E A}
    (hs : steady m)
    (laws : key_laws (K := K) m.current_buckets.hash m.current_buckets.keycomp)
    (k : K) (fuel : Nat) (hf : m.size + m.bucket_count < fuel) :
    ∃ (last : iterator) (range : List iterator),
      m.cend_bucket (m.bucket k) = some last ∧
      m.local_range fuel (m.bucket k) = some range ∧
      ((∀ e, m.holds fuel e → key_equal.call m.current_buckets.keycomp k e.1 = false) →
        m.equal_range fuel k = some (last, last)) ∧
      ∀ e, m.holds fuel e → key_equal.call m.current_buckets.keycomp k e.1 = true →
        ∃ (it next : iterator) (before after : List iterator),
          m.equal_range fuel k = some (it, next) ∧ m.deref it = some e ∧
          range = before ++ it :: after ∧ next = after.headD last ∧
          iterator_impl.increment true fuel m it = some next ∧
          hash_map.range true m next fuel it = some [it] := by
  obtain ⟨cs, hwf⟩ := hs
  have hrep := hwf.1
  have hsz : m.size < fuel := by omega
  have hbc : 0 < m.bucket_count := hrep.count_pos
  obtain ⟨s, c, hb, hc⟩ := hrep.get (bucket_index_lt hrep k)
  have hcl := chain_length_lt hrep hc hsz
  refine ⟨some s.sentinel, _, (cbegin_bucket_eq hrep hb hc).2, local_range_eq hrep hc hcl,
    ?_, ?_⟩
  · intro habsent
    refine equal_range_miss hrep k hb hc ?_ hsz
    intro y hy
    exact habsent y.2 ((holds_iff hrep hf y.2).mpr ⟨y, mem_flatten_of_getElem? hc hy, rfl⟩)
  · intro e he hke
    obtain ⟨x, hx, rfl⟩ := (holds_iff hrep hf e).mp he
    obtain ⟨l1, l2, hc2, h1, -⟩ := present_split hwf laws k hx hke
    have hcc : c = l1 ++ x :: l2 := Option.some.inj (hc.symm.trans hc2)
    refine ⟨some x.1, some (chain_head l2 s.sentinel), l1.map (fun y => some y.1),
      l2.map (fun y => some y.1), equal_range_hit hrep k hb hc2 h1 hke hsz,
      deref_mem hrep hx, by simp [hcc], (headD_chain_head l2 s.sentinel).symm,
      increment_local_eq hrep hb hc2 fuel, single_range hrep hb hc2 (by omega)⟩

theorem equal_range_key_witness :
    ∃ (last : iterator) (range : List iterator),
      example_map.cend_bucket (example_map.bucket 4) = some last ∧
      example_map.local_range 10 (example_map.bucket 4) = some range ∧
      ((∀ e, example_map.holds 10 e →
          key_equal.call example_map.current_buckets.keycomp 4 e.1 = false) →
        example_map.equal_range 10 4 = some (last, last)) ∧
      ∀ e, example_map.holds 10 e →
        key_equal.call example_map.current_buckets.keycomp 4 e.1 = true →
        ∃ (it next : iterator) (before after : List iterator),
          example_map.equal_range 10 4 = some (it, next) ∧ example_map.deref it = some e ∧
          range = before ++ it :: after ∧ next = after.headD last ∧
          iterator_impl.increment true 10 example_map it = some next ∧
          hash_map.range true example_map next 10 it = some [it] :=
  equal_range_key (reachable_steady example_reachable) example_key_laws 4 10 (by decide)

/-- C27: into a map constructed with bucket count 1, the values of a list whose keys
are distinct (no key equals, by the key-equality predicate, a key earlier in the
list) are inserted one after the other, with no erase in between: every call returns,
all elements share bucket 0 (every key has bucket index 0 and bucket 0 holds all the
elements), and iteration from `begin()` visits the elements in exactly the order in
which they were inserted. -/
theorem single_bucket_insertion_order [hasher H K] [key_equal E K] (heap : List (node K V))
    (hash : H) (keycomp : E) (allocator : A) (values : List (K × V)) (fuel : Nat)
    (hf : values.length + 1 < fuel)
    (hdistinct : values.Pairwise (fun a b => key_equal.call keycomp b.1 a.1 = false)) :
    ∃ m, (hash_map.create heap 1 hash keycomp allocator).insert_each fuel values = some m ∧
      m.bucket_count = 1 ∧ m.size = values.length ∧ (∀ k : K, m.bucket k = 0) ∧
      m.bucket_elements fuel 0 = some values ∧ m.elements fuel = some values := by
  have hwf := create_well_formed (K := K) (V := V) heap (Nat.succ_pos 0) hash keycomp allocator
  have hfields := create_fields (K := K) (V := V) heap 1 hash keycomp allocator
  have hkc : (hash_map.create heap 1 hash keycomp allocator).current_buckets.keycomp =
      keycomp := by
    simp [hash_map.create, hfields]
  have hnc : (hash_map.create heap 1 hash keycomp allocator).current_buckets.node_count = 0 := by
    simp [hash_map.create, hfields]
  have hbc : (hash_map.create heap 1 hash keycomp allocator).current_buckets.bucket_count =
      1 := by
    simp [hash_map.create, hfields]
  obtain ⟨m, c, i1, i2, i3, i4⟩ := insert_each_single fuel values
    (hash_map.create heap 1 hash keycomp allocator) [] hwf (by simp)
    (by rw [hkc]; exact hdistinct) (by simpa using (by omega : values.length < fuel))
  have hb1 : m.bucket_count = 1 := by simp [hash_map.bucket_count, i4, hbc]
  have hsz : m.size = values.length := by simp [hash_map.size, i4, hnc]
  have hvals : c.map Prod.snd = values := by simpa using i3
  refine ⟨m, i1, hb1, hsz, ?_, ?_, ?_⟩
  · intro k
    have : m.current_buckets.bucket_count = 1 := hb1
    simp [hash_map.bucket, fixed_size_bucket_list.bucket_index, this, Nat.mod_one]
  · rw [bucket_elements_eq (c := c) i2.1 (by simp) (by omega), hvals]
  · rw [elements_eq i2.1 (by omega)]
    simpa using hvals

theorem single_bucket_insertion_order_witness :
    ∃ m, (hash_map.create ([] : List (node Nat Nat)) 1 identity_hash.mk equal_to.mk
        ()).insert_each 10 [(3, 30), (1, 10), (2, 20)] = some m ∧
      m.bucket_count = 1 ∧ m.size = [(3, 30), (1, 10), (2, 20)].length ∧
      (∀ k : Nat, m.bucket k = 0) ∧
      m.bucket_elements 10 0 = some [(3, 30), (1, 10), (2, 20)] ∧
      m.elements 10 = some [(3, 30), (1, 10), (2, 20)] :=
  single_bucket_insertion_order [] identity_hash.mk equal_to.mk () [(3, 30), (1, 10), (2, 20)]
    10 (by decide) (by decide)

/-- C28, as stated, fails: `example_map` holds no element with the key 9, and `find(9)`
returns `end()`; it returns no iterator to an element with the key 9. -/
theorem find_constructs_nothing :
    (∀ e, example_map.holds 10 e → e.1 ≠ 9) ∧
    example_map.find 10 9 = some example_map.cend ∧
    ¬ ∃ it e, example_map.find 10 9 = some it ∧ example_map.deref it = some e ∧ e.1 = 9 := by
  refine ⟨?_, by decide, ?_⟩
  · intro e he
    have hm := (example_holds_iff e).mp he
    simp only [List.mem_cons, List.mem_singleton, List.not_mem_nil, or_false] at hm
    rcases hm with rfl | rfl | rfl | rfl <;> decide
  · rintro ⟨it, e, hfind, hderef, -⟩
    have h9 : example_map.find 10 9 = some none := by decide
    rw [h9, Option.some.injEq] at hfind
    subst hfind
    simp [hash_map.deref] at hderef

/-- C28, amended: `find(key)` constructs nothing (it only loads, and returns an
iterator and no new state of the map): for a map in steady state that holds no element
with the key `k`, `find(k)` returns `end()`, which refers to no element, and `k` is
absent as before, `count(k)` being 0. -/
theorem find_absent_returns_end [hasher H K] [key_equal E K] {m : hash_map K V H E A}
    (hs : steady m) (k : K) (fuel : Nat) (hf : m.size + m.bucket_count < fuel)
    (habsent : ∀ e, m.holds fuel e →
      key_equal.call m.current_buckets.keycomp k e.1 = false) :
    m.find fuel k = some m.cend ∧ m.deref m.cend = none ∧ m.count fuel k = some 0 := by
  obtain ⟨cs, hwf⟩ := hs
  have hrep := hwf.1
  obtain ⟨s, c, -, hc⟩ := hrep.get (bucket_index_lt hrep k)
  have hfind : m.find fuel k = some m.cend := by
    refine find_miss hrep k hc ?_ (show m.size < fuel by omega)
    intro y hy
    exact habsent y.2 ((holds_iff hrep hf y.2).mpr ⟨y, mem_flatten_of_getElem? hc hy, rfl⟩)
  refine ⟨hfind, rfl, ?_⟩
  simp [hash_map.count, hfind]

theorem find_absent_returns_end_witness :
    example_map.find 10 9 = some example_map.cend ∧
    example_map.deref example_map.cend = none ∧ example_map.count 10 9 = some 0 :=
  find_absent_returns_end (reachable_steady example_reachable) 9 10 (by decide) example_absent

/-- C32: on a well-formed bucket (the store links the sentinel through the data nodes
`c`, in this order, back to the sentinel), `bucket::find(key)` returns
`(found, prev, cur)` without a pass through the yield-and-restart path, and
`prev->next == cur`.  `found` is true exactly when some data node of the chain has a key
equal to `key`; then `cur` is the first such node and `prev` the node before it.
Otherwise `cur` is the sentinel of the bucket and `prev` the last node of the chain,
the sentinel itself when the bucket is empty. -/
theorem bucket_find_well_formed [key_equal E K] (heap : List (node K V)) (b : bucket)
    (c : List (Nat × (K × V))) (nb : Option Nat) (key : K) (keycomp : E) (fuel : Nat)
    (hs : storage_of heap b.sentinel = some (.bucket_pointer nb))
    (hc : is_chain heap b.sentinel c b.sentinel) (hf : c.length < fuel) :
    ∃ found prev cur, b.find fuel heap key keycomp = some (found, prev, cur) ∧
      b.find_counting fuel heap key keycomp = some ((found, prev, cur), 0) ∧
      atomic_load heap prev = some (some cur) ∧
      (found = true ↔ ∃ x ∈ c, key_equal.call keycomp key x.2.1 = true) ∧
      (found = true → ∃ l1 x l2, c = l1 ++ x :: l2 ∧ cur = x.1 ∧
        key_equal.call keycomp key x.2.1 = true ∧
        (∀ y ∈ l1, key_equal.call keycomp key y.2.1 = false) ∧
        prev = ((l1.getLast?).map Prod.fst).getD b.sentinel) ∧
      (found = false → cur = b.sentinel ∧
        prev = ((c.getLast?).map Prod.fst).getD b.sentinel) := by
  have h1 : b.find fuel heap key keycomp =
      some (chain_lookup (key_equal.call keycomp key) b.sentinel c b.sentinel) :=
    find_from_eq key keycomp fuel hs hc hf
  have h2 : b.find_counting fuel heap key keycomp =
      some (chain_lookup (key_equal.call keycomp key) b.sentinel c b.sentinel, 0) :=
    find_from_counting_eq key keycomp fuel 0 hs hc hf
  have h3 := chain_lookup_link (key_equal.call keycomp key) c b.sentinel hc
  obtain ⟨found, prev, cur, hres⟩ :
      ∃ found prev cur, chain_lookup (key_equal.call keycomp key) b.sentinel c b.sentinel =
        (found, prev, cur) := ⟨_, _, _, rfl⟩
  rw [hres] at h1 h2 h3
  refine ⟨found, prev, cur, h1, h2, h3, ?_, ?_, ?_⟩
  · constructor
    · intro hfound
      subst hfound
      obtain ⟨l1, kv, l2, e, hk, -, -⟩ := chain_lookup_found hres
      exact ⟨(cur, kv), by rw [e]; simp, hk⟩
    · rintro ⟨x, hx, hk⟩
      cases found with
      | true => rfl
      | false =>
        have := (chain_lookup_not_found hres).2.2 x hx
        rw [hk] at this
        exact absurd this (by simp)
  · intro hfound
    subst hfound
    obtain ⟨l1, kv, l2, e, hk, hmiss, hpr⟩ := chain_lookup_found hres
    exact ⟨l1, (cur, kv), l2, e, rfl, hk, hmiss, by rw [hpr, chain_last_eq_getLast?]⟩
  · intro hfound
    subst hfound
    obtain ⟨g1, g2, -⟩ := chain_lookup_not_found hres
    exact ⟨g1, by rw [g2, chain_last_eq_getLast?]⟩

theorem bucket_find_well_formed_witness :
    ∃ found prev cur,
      bucket.find 10 example_map.heap { sentinel := 1 } 4 equal_to.mk =
        some (found, prev, cur) ∧
      bucket.find_counting 10 example_map.heap { sentinel := 1 } 4 equal_to.mk =
        some ((found, prev, cur), 0) ∧
      atomic_load example_map.heap prev = some (some cur) ∧
      (found = true ↔ ∃ x ∈ [(3, ((1 : Nat), (10 : Nat))), (4, (4, 40)), (6, (7, 70))],
        key_equal.call equal_to.mk 4 x.2.1 = true) ∧
      (found = true → ∃ l1 x l2,
        [(3, ((1 : Nat), (10 : Nat))), (4, (4, 40)), (6, (7, 70))] = l1 ++ x :: l2 ∧
        cur = x.1 ∧ key_equal.call equal_to.mk 4 x.2.1 = true ∧
        (∀ y ∈ l1, key_equal.call equal_to.mk 4 y.2.1 = false) ∧
        prev = ((l1.getLast?).map Prod.fst).getD (bucket.mk 1).sentinel) ∧
      (found = false → cur = (bucket.mk 1).sentinel ∧
        prev = (([(3, ((1 : Nat), (10 : Nat))), (4, (4, 40)), (6, (7, 70))].getLast?).map
          Prod.fst).getD (bucket.mk 1).sentinel) :=
  bucket_find_well_formed example_map.heap { sentinel := 1 }
    [(3, (1, 10)), (4, (4, 40)), (6, (7, 70))] (some 2) 4 equal_to.mk 10 (by rfl)
    ⟨by rfl, by rfl, by rfl, by rfl, by rfl, by rfl, by rfl⟩ (by decide)

/-- C33: in every state a program reaches that constructs maps, copies them, swaps
them and calls `insert`, `insert_or_assign`, `operator[]`, `erase`, `clear` and `rehash`
on them (the hasher being a function of the key), every element found in bucket
number `b` of a map has a key `k` with `hash(k) mod bucket_count() == b`. -/
theorem elements_lie_in_their_bucket [hasher H K] [key_equal E K] [Inhabited V]
    {w : map_store K V H E A} (hr : reachable_store w) (i : Nat) (m : hash_map K V H E A)
    (hm : w.map i = some m) (b : Nat) (hb : b < m.bucket_count) (fuel : Nat)
    (hf : m.size < fuel) :
    ∃ es, m.bucket_elements fuel b = some es ∧
      ∀ e ∈ es, hasher.call m.hash_function e.1 % m.bucket_count = b ∧ m.bucket e.1 = b := by
  obtain ⟨css, hinv⟩ := reachable_store_represented hr
  obtain ⟨hi, hheap⟩ := map_store.map_eq hm
  have hold := hinv i m.current_buckets hi
  have hm_eq : ({ heap := w.heap, current_buckets := m.current_buckets } :
      hash_map K V H E A) = m := by
    cases m
    simp only at hheap
    subst hheap
    rfl
  rw [hm_eq] at hold
  obtain ⟨s, c, -, hc⟩ := hold.1.1.get hb
  refine ⟨_, bucket_elements_eq hold.1.1 hc hf, ?_⟩
  intro e he
  obtain ⟨x, hx, rfl⟩ := List.mem_map.mp he
  have := hold.2.1 b c x hc hx
  exact ⟨this, this⟩

theorem elements_lie_in_their_bucket_witness :
    ∃ es, example_store_second.bucket_elements 10 1 = some es ∧
      ∀ e ∈ es, hasher.call example_store_second.hash_function e.1 %
          example_store_second.bucket_count = 1 ∧ example_store_second.bucket e.1 = 1 :=
  elements_lie_in_their_bucket example_store_reachable 0 example_store_second (by rfl) 1
    (by decide) 10 (by decide)

/-- C34: in every state reached from a constructed map by `insert`,
`insert_or_assign`, `operator[]`, `erase`, `clear`, `rehash` and copy construction, the
chain of each bucket `b < bucket_count()` is circular and free of null links: `next`
of the sentinel is not null, following `next` from there reaches that same sentinel
again after the finitely many nodes of the bucket-local range, each of these is a
data node, and `next` of none of them is null. -/
theorem chains_are_circular [hasher H K] [key_equal E K] [Inhabited V]
    {m : hash_map K V H E A} (hr : reachable m) (b : Nat) (hb : b < m.bucket_count)
    (fuel : Nat) (hf : m.size < fuel) :
    ∃ (sentinel first : Nat) (range : List iterator) (values : List (K × V)),
      m.cend_bucket b = some (some sentinel) ∧
      atomic_load m.heap sentinel = some (some first) ∧
      m.cbegin_bucket b = some (some first) ∧
      hash_map.range true m (some sentinel) fuel (some first) = some range ∧
      m.local_range fuel b = some range ∧
      m.deref_all range = some values ∧
      ∀ it ∈ range, ∃ p nx, it = some p ∧ atomic_load m.heap p = some (some nx) := by
  obtain ⟨cs, hwf⟩ := reachable_well_formed hr
  have hrep := hwf.1
  obtain ⟨s, c, hbs, hc⟩ := hrep.get hb
  have hch := hrep.chain b s c hbs hc
  have hcl := chain_length_lt hrep hc hf
  obtain ⟨g1, g2⟩ := cbegin_bucket_eq hrep hbs hc
  have hlr := local_range_eq hrep hc hcl
  refine ⟨s.sentinel, chain_head c s.sentinel, c.map (fun x => some x.1), c.map Prod.snd,
    g2, is_chain_load_prev hch, g1, ?_, hlr, ?_, ?_⟩
  · simpa only [hash_map.local_range, g1, g2] using hlr
  · exact deref_all_eq hrep c (fun x hx => mem_flatten_of_getElem? hc hx)
  · intro it hit
    obtain ⟨x, hx, rfl⟩ := List.mem_map.mp hit
    obtain ⟨nx, hnx⟩ := chain_next_ne_null c s.sentinel hch x hx
    exact ⟨x.1, nx, rfl, hnx⟩

theorem chains_are_circular_witness :
    ∃ (sentinel first : Nat) (range : List iterator) (values : List (Nat × Nat)),
      example_map.cend_bucket 1 = some (some sentinel) ∧
      atomic_load example_map.heap sentinel = some (some first) ∧
      example_map.cbegin_bucket 1 = some (some first) ∧
      hash_map.range true example_map (some sentinel) 10 (some first) = some range ∧
      example_map.local_range 10 1 = some range ∧
      example_map.deref_all range = some values ∧
      ∀ it ∈ range, ∃ p nx, it = some p ∧ atomic_load example_map.heap p = some (some nx) :=
  chains_are_circular example_reachable 1 (by decide) 10 (by decide)

/-- C35: for two maps in steady state with equal bucket counts and equal hashers
(they return the same hash for every key), each with every element in the bucket of
its key's hash, where `==` on elements is an equivalence relation and elements that
compare equal have keys with equal hashes: the bucket-by-bucket comparison of
`operator==` (equal bucket sizes, and every pair of corresponding buckets an
is-permutation of each other) returns what the is-permutation check of the whole maps
returns.  Equal sizes of the maps are not needed for this. -/
theorem bucketwise_equals_global [hasher H K] [key_equal E K] [BEq K] [BEq V]
    {a b : hash_map K V H E A} (ha : steady a) (hb : steady b) (hv : value_laws K V)
    (hcount : b.bucket_count = a.bucket_count)
    (hhash : ∀ k : K, hasher.call b.hash_function k = hasher.call a.hash_function k)
    (hcons : ∀ x y : K × V, (x == y) = true →
      hasher.call a.hash_function x.1 = hasher.call a.hash_function y.1)
    (fuel : Nat) (hfa : a.size + a.bucket_count < fuel) (hfb : b.size + b.bucket_count < fuel)
    (pa : ∀ (i : Nat) (es : List (K × V)) (e : K × V), a.bucket_elements fuel i = some es →
      e ∈ es → a.bucket e.1 = i)
    (pb : ∀ (i : Nat) (es : List (K × V)) (e : K × V), b.bucket_elements fuel i = some es →
      e ∈ es → b.bucket e.1 = i) :
    ∃ (r : Bool) (ea eb : List (K × V)),
      hash_map.equal_buckets fuel a b (List.range a.bucket_count) = some r ∧
      a.elements fuel = some ea ∧ b.elements fuel = some eb ∧ is_permutation ea eb = r := by
  obtain ⟨csa, wa⟩ := ha
  obtain ⟨csb, wb⟩ := hb
  have hcount2 : b.current_buckets.bucket_count = a.current_buckets.bucket_count := hcount
  obtain ⟨r, hr, hiff⟩ := equal_buckets_spec wa.1 wb.1 hcount2
    (show a.size < fuel by omega) (show b.size < fuel by omega)
    (List.range a.current_buckets.bucket_count) (fun i hi => List.mem_range.mp hi)
  have hpa := placed_of_observed wa.1 (show a.size < fuel by omega) pa
  have hpb := placed_of_observed wb.1 (show b.size < fuel by omega) pb
  have hpb2 : ∀ (i : Nat) (c : List (K × V)) (x : K × V), (chain_values csb)[i]? = some c →
      x ∈ c →
      hasher.call a.current_buckets.hash x.1 % a.current_buckets.bucket_count = i := by
    intro i c x hc hx
    have := hpb i c x hc hx
    rw [hcount2] at this
    rw [← this]
    exact congrArg (· % a.current_buckets.bucket_count) (hhash x.1).symm
  have hlen : (chain_values csa).length = (chain_values csb).length := by
    simp only [chain_values, List.length_map]
    rw [wa.1.chains_length, wb.1.chains_length, hcount2]
  have hglobal := buckets_iff_global hv (hasher.call a.current_buckets.hash)
    a.current_buckets.bucket_count hcons hlen hpa hpb2
  refine ⟨r, _, _, hr, elements_eq wa.1 hfa, elements_eq wb.1 hfb, ?_⟩
  rw [← chain_values_flatten, ← chain_values_flatten]
  cases r with
  | true =>
    apply hglobal.mp
    intro i ca cb hca hcb
    have hi : i < csa.length := by
      have := (List.getElem?_eq_some.mp hca).1
      simpa [chain_values] using this
    have hi2 : i < csb.length := by
      have := (List.getElem?_eq_some.mp hcb).1
      simpa [chain_values] using this
    have e1 := chain_values_getElem? (List.getElem?_eq_getElem hi)
    have e2 := chain_values_getElem? (List.getElem?_eq_getElem hi2)
    rw [e1, Option.some.injEq] at hca
    rw [e2, Option.some.injEq] at hcb
    subst hca
    subst hcb
    have := hiff.mp rfl i (List.mem_range.mpr (by rw [← wa.1.chains_length]; exact hi)) _ _
      (List.getElem?_eq_getElem hi) (List.getElem?_eq_getElem hi2)
    exact ⟨by simpa using this.1, this.2⟩
  | false =>
    cases hp : is_permutation (chain_values csa).flatten (chain_values csb).flatten with
    | false => rfl
    | true =>
      exfalso
      have hall := hglobal.mpr hp
      have : false = true := hiff.mpr (by
        intro i _ ca cb hca hcb
        have := hall i _ _ (chain_values_getElem? hca) (chain_values_getElem? hcb)
        exact ⟨by simpa using this.1, this.2⟩)
      exact absurd this (by simp)

theorem bucketwise_equals_global_witness :
    ∃ (r : Bool) (ea eb : List (Nat × Nat)),
      hash_map.equal_buckets 10 example_map example_copy
        (List.range example_map.bucket_count) = some r ∧
      example_map.elements 10 = some ea ∧ example_copy.elements 10 = some eb ∧
      is_permutation ea eb = r :=
  bucketwise_equals_global (reachable_steady example_reachable)
    (reachable_steady (reachable.copy 10 example_reachable example_copy_eq)) nat_value_laws
    (by rfl) (fun _ => rfl) (fun x y h => by rw [eq_of_beq h]) 10 (by decide) (by decide)
    (observed_of_laws (reachable_steady example_reachable) example_key_laws (by decide))
    (observed_of_laws (reachable_steady (reachable.copy 10 example_reachable example_copy_eq))
      example_key_laws (by decide))

/-- C36: for a map in steady state, `rehash(n)` with `n > 0` different from
`bucket_count()` returns.  With `visited` the iterators of the old map in the order in
which `rehash` visits the nodes (the old buckets in index order, each bucket-local range
from first to last, which is the order of iteration from `begin()`), every new
bucket `b < n` lists exactly the visited nodes whose key has `hash(key) mod n == b`, in
the reverse of the visiting order; the nodes are the same nodes with the same values
(moved, not copied), no node is visited twice, and `size()` is unchanged. -/
theorem rehash_reverses_visiting_order [hasher H K] [key_equal E K]
    {m : hash_map K V H E A} (hs : steady m) (fuel n : Nat) (hpos : 0 < n)
    (hne : n ≠ m.bucket_count) (hf : m.size + m.bucket_count + n < fuel) :
    ∃ (m2 : hash_map K V H E A) (ranges : List (List iterator)) (visited : List iterator),
      m.rehash fuel n = some m2 ∧ m2.bucket_count = n ∧ m2.size = m.size ∧
      ranges.length = m.bucket_count ∧
      (∀ b, b < m.bucket_count → m.local_range fuel b = ranges[b]?) ∧
      visited = ranges.flatten ∧ m.global_range fuel = some visited ∧ visited.Nodup ∧
      (∀ b, b < n → m2.local_range fuel b =
        some ((visited.filter (fun it =>
          (m.deref it).any (fun v => hasher.call m.hash_function v.1 % n == b))).reverse)) ∧
      ∀ it ∈ visited, m2.deref it = m.deref it ∧ m.deref it ≠ none := by
  obtain ⟨cs, hwf⟩ := hs
  have hrep := hwf.1
  have hne2 : n ≠ m.current_buckets.bucket_count := hne
  have hflat : cs.flatten.length = m.size := hrep.node_count.symm
  obtain ⟨m2, hi, hrep2, g1, -⟩ := rehash_spec hrep hpos hne2
    (show cs.flatten.length < fuel by omega)
  have hsize : m2.size = m.size := rehash_size hwf hpos hi
  have hperm : (rehash_chains m.current_buckets.hash n (List.replicate n [])
      cs.flatten).flatten.Perm cs.flatten := by
    have := rehash_chains_perm (K := K) (V := V) m.current_buckets.hash hpos cs.flatten
      (List.replicate n []) (by simp)
    simpa using this
  have hinj : ∀ x ∈ cs.flatten, ∀ y ∈ cs.flatten, (some x.1 : iterator) = some y.1 → x = y := by
    intro x hx y hy e
    have e1 : x.1 = y.1 := Option.some.inj e
    have hx2 := hrep.storage_mem x hx
    have hy2 := hrep.storage_mem y hy
    rw [e1, hy2] at hx2
    have e2 : y.2 = x.2 := by
      simpa using hx2
    exact Prod.ext e1 e2.symm
  refine ⟨m2, cs.map (List.map (fun x => some x.1)), cs.flatten.map (fun x => some x.1),
    hi, g1, hsize, by rw [List.length_map]; exact hrep.chains_length, ?_, ?_, ?_, ?_, ?_, ?_⟩
  · intro b hb
    obtain ⟨s, c, -, hc⟩ := hrep.get hb
    rw [local_range_eq hrep hc (chain_length_lt hrep hc (show m.size < fuel by omega))]
    simp [List.getElem?_map, hc]
  · rw [List.map_flatten]
  · exact global_range_eq hrep (by
      rw [hflat]
      have : m.current_buckets.bucket_count = m.bucket_count := rfl
      omega)
  · have hnd : (cs.flatten.map Prod.fst).Nodup := hrep.ids_nodup
    have hnd2 : ((cs.flatten.map Prod.fst).map (fun p => (some p : iterator))).Nodup :=
      hnd.map (fun a b e => Option.some.inj e)
    simpa [List.map_map] using hnd2
  · intro b hb
    have hget := rehash_chains_getElem? (K := K) (V := V) m.current_buckets.hash n cs.flatten
      (List.replicate n []) b (by simpa using hb)
    have hnil : ((List.replicate n ([] : List (Nat × (K × V))))[b]?).getD [] = [] := by
      simp [List.getElem?_replicate, hb]
    rw [hnil, List.append_nil] at hget
    have hcl := chain_length_lt hrep2 hget (show m2.size < fuel by omega)
    rw [local_range_eq hrep2 hget hcl, List.filter_map, ← List.map_reverse]
    congr 3
    apply List.filter_congr
    intro x hx
    simp only [Function.comp, deref_mem hrep hx, Option.any_some]
    rfl
  · intro it hit
    obtain ⟨x, hx, rfl⟩ := List.mem_map.mp hit
    rw [deref_mem hrep hx, deref_mem hrep2 (hperm.symm.subset hx)]
    exact ⟨rfl, by simp⟩

theorem rehash_reverses_visiting_order_witness :
    ∃ (m2 : hash_map Nat Nat identity_hash equal_to Unit) (ranges : List (List iterator))
      (visited : List iterator),
      example_map.rehash 20 2 = some m2 ∧ m2.bucket_count = 2 ∧ m2.size = example_map.size ∧
      ranges.length = example_map.bucket_count ∧
      (∀ b, b < example_map.bucket_count → example_map.local_range 20 b = ranges[b]?) ∧
      visited = ranges.flatten ∧ example_map.global_range 20 = some visited ∧
      visited.Nodup ∧
      (∀ b, b < 2 → m2.local_range 20 b =
        some ((visited.filter (fun it =>
          (example_map.deref it).any
            (fun v => hasher.call example_map.hash_function v.1 % 2 == b))).reverse)) ∧
      ∀ it ∈ visited, m2.deref it = example_map.deref it ∧ example_map.deref it ≠ none :=
  rehash_reverses_visiting_order (reachable_steady example_reachable) 20 2 (by decide)
    (by decide) (by decide)

/-- C37: on a map in steady state `erase(k)` returns a count `n` and leaves
`bucket_count()` as it was.  If no element has the key `k`, `n` is 0, and with `n == 0`
the map is the map of before, every bucket with it.  Otherwise one element `e` with a
key equal to `k` is taken out of bucket `bucket(k)`: the iterators and the elements in
front of it and behind it stay, in their order, with their values.  Every other bucket
has the range and the elements of before. -/
theorem erase_changes_one_element [hasher H K] [key_equal E K] {m : hash_map K V H E A}
    (hs : steady m) (k : K) (fuel : Nat) (hf : m.size + m.bucket_count < fuel) :
    ∃ (n : Nat) (m2 : hash_map K V H E A), m.erase fuel k = some (n, m2) ∧
      m2.bucket_count = m.bucket_count ∧
      ((∀ e, m.holds fuel e → key_equal.call m.current_buckets.keycomp k e.1 = false) →
        n = 0) ∧
      (n = 0 → m2 = m) ∧
      (∀ b, b < m.bucket_count → b ≠ m.bucket k →
        m2.local_range fuel b = m.local_range fuel b ∧
        m2.bucket_elements fuel b = m.bucket_elements fuel b) ∧
      (n ≠ 0 →
        ∃ (before : List iterator) (it : iterator) (after : List iterator)
          (values_before : List (K × V)) (e : K × V) (values_after : List (K × V)),
          m.local_range fuel (m.bucket k) = some (before ++ it :: after) ∧
          m.bucket_elements fuel (m.bucket k) = some (values_before ++ e :: values_after) ∧
          values_before.length = before.length ∧ m.deref it = some e ∧
          key_equal.call m.current_buckets.keycomp k e.1 = true ∧
          m2.local_range fuel (m.bucket k) = some (before ++ after) ∧
          m2.bucket_elements fuel (m.bucket k) = some (values_before ++ values_after) ∧
          m2.size + 1 = m.size) := by
  obtain ⟨cs, hwf⟩ := hs
  have hrep := hwf.1
  have hsz : m.size < fuel := by omega
  have hfind := find_ne_none_of_fuel hrep k hsz
  obtain ⟨c, hc, hcase⟩ := erase_cases hwf k hfind
  rcases hcase with ⟨hmiss, g1⟩ | ⟨l1, x, l2, rfl, hmiss, hx, m2, g1, g2, g3, -⟩
  · exact ⟨0, m, g1, rfl, fun _ => rfl, fun _ => rfl, fun b _ _ => ⟨rfl, rfl⟩,
      fun h => absurd rfl h⟩
  · have hlt : m.current_buckets.bucket_index k < cs.length := (List.getElem?_eq_some.mp hc).1
    have hxm : x ∈ cs.flatten := mem_flatten_of_getElem? hc (by simp)
    have hsize2 : m2.size + 1 = m.size := by
      have h1 : m2.size = m.size - 1 := by simp [hash_map.size, g3]
      have h2 : 0 < m.size := by
        have := length_le_flatten hc
        have hn : m.size = cs.flatten.length := hrep.node_count
        simp only [List.length_append, List.length_cons] at this
        omega
      omega
    have hsz2 : m2.size < fuel := by omega
    have hc2 : (cs.set (m.current_buckets.bucket_index k) (l1 ++ l2))[
        m.current_buckets.bucket_index k]? = some (l1 ++ l2) := List.getElem?_set_self hlt
    refine ⟨1, m2, g1, by simp [hash_map.bucket_count, g3], ?_, fun h => absurd h (by decide),
      ?_, ?_⟩
    · intro habsent
      have := habsent x.2 ((holds_iff hrep hf x.2).mpr ⟨x, hxm, rfl⟩)
      rw [hx] at this
      exact absurd this (by simp)
    · intro b hb hne
      exact observers_of_set hrep g2.1 hsz hsz2 hb hne
    · intro _
      refine ⟨l1.map (fun y => some y.1), some x.1, l2.map (fun y => some y.1),
        l1.map Prod.snd, x.2, l2.map Prod.snd, ?_, ?_, by simp, deref_mem hrep hxm, hx, ?_, ?_,
        hsize2⟩
      · rw [show m.bucket k = m.current_buckets.bucket_index k from rfl,
          local_range_eq hrep hc (chain_length_lt hrep hc hsz)]
        simp
      · rw [show m.bucket k = m.current_buckets.bucket_index k from rfl,
          bucket_elements_eq hrep hc hsz]
        simp
      · rw [show m.bucket k = m.current_buckets.bucket_index k from rfl,
          local_range_eq g2.1 hc2 (chain_length_lt g2.1 hc2 hsz2)]
        simp
      · rw [show m.bucket k = m.current_buckets.bucket_index k from rfl,
          bucket_elements_eq g2.1 hc2 hsz2]
        simp

theorem erase_changes_one_element_witness :
    ∃ (n : Nat) (m2 : hash_map Nat Nat identity_hash equal_to Unit),
      example_map.erase 10 4 = some (n, m2) ∧
      m2.bucket_count = example_map.bucket_count ∧
      ((∀ e, example_map.holds 10 e →
          key_equal.call example_map.current_buckets.keycomp 4 e.1 = false) → n = 0) ∧
      (n = 0 → m2 = example_map) ∧
      (∀ b, b < example_map.bucket_count → b ≠ example_map.bucket 4 →
        m2.local_range 10 b = example_map.local_range 10 b ∧
        m2.bucket_elements 10 b = example_map.bucket_elements 10 b) ∧
      (n ≠ 0 →
        ∃ (before : List iterator) (it : iterator) (after : List iterator)
          (values_before : List (Nat × Nat)) (e : Nat × Nat) (values_after : List (Nat × Nat)),
          example_map.local_range 10 (example_map.bucket 4) = some (before ++ it :: after) ∧
          example_map.bucket_elements 10 (example_map.bucket 4) =
            some (values_before ++ e :: values_after) ∧
          values_before.length = before.length ∧ example_map.deref it = some e ∧
          key_equal.call example_map.current_buckets.keycomp 4 e.1 = true ∧
          m2.local_range 10 (example_map.bucket 4) = some (before ++ after) ∧
          m2.bucket_elements 10 (example_map.bucket 4) =
            some (values_before ++ values_after) ∧
          m2.size + 1 = example_map.size) :=
  erase_changes_one_element (reachable_steady example_reachable) 4 10 (by decide)

/-- C38: on a map in steady state whose collaborators meet their requirements,
`erase(k)` of the key of an element the map holds completes in the first pass of its
loop: `find` returns `true` with `(prev, cur)`, the exchange on `cur->next` returns a
successor that is not null, and the compare-exchange on `prev->next` succeeds, so that
the loop bounded to one pass returns what `erase(k)` returns, the count 1. -/
theorem erase_single_pass [hasher H K] [key_equal E K] {m : hash_map K V H E A}
    (hs : steady m)
    (laws : key_laws (K := K) m.current_buckets.hash m.current_buckets.keycomp)
    (k : K) (fuel : Nat) (hf : m.size + m.bucket_count < fuel) (e : K × V)
    (he : m.holds fuel e) (hk : key_equal.call m.current_buckets.keycomp k e.1 = true) :
    ∃ (prev cur next : Nat) (heap1 heap2 : List (node K V)) (m2 : hash_map K V H E A),
      m.current_buckets.find fuel m.heap k = some (true, prev, cur) ∧
      atomic_exchange m.heap cur none = some (some next, heap1) ∧
      atomic_compare_exchange_strong heap1 prev (some cur) (some next) =
        some (true, some cur, heap2) ∧
      hash_map.erase_loop fuel m.current_buckets k 1 m.heap = some (1, m2) ∧
      m.erase fuel k = some (1, m2) ∧ m2.heap = heap2 := by
  obtain ⟨cs, hwf⟩ := hs
  have hrep := hwf.1
  have hsz : m.size < fuel := by omega
  obtain ⟨x, hx, rfl⟩ := (holds_iff hrep hf e).mp he
  obtain ⟨l1, l2, hc, h1, -⟩ := present_split hwf laws k hx hk
  obtain ⟨s, c, hb, hc0⟩ := hrep.get (bucket_index_lt hrep k)
  have hfind := find_eq hrep k hb hc (chain_length_lt hrep hc hsz)
  have hfind2 := hfind
  rw [chain_lookup_of_split s.sentinel s.sentinel h1 hk] at hfind2
  obtain ⟨hch1, -, hch2, -, -, -, hlast, -⟩ :=
    chain_split_facts (hrep.chain _ s _ hb hc) (hrep.chain_nodup hb hc)
  have hload : atomic_load m.heap x.1 = some (some (chain_head l2 s.sentinel)) :=
    is_chain_load_prev hch2
  have hlast2 : atomic_load m.heap (chain_last s.sentinel l1) = some (some x.1) :=
    is_chain_load_last hch1
  have hex : atomic_exchange m.heap x.1 none =
      some (some (chain_head l2 s.sentinel), atomic_store m.heap x.1 none) := by
    simp only [atomic_exchange, hload]
  have hcas : atomic_compare_exchange_strong (atomic_store m.heap x.1 none)
      (chain_last s.sentinel l1) (some x.1) (some (chain_head l2 s.sentinel)) =
      some (true, some x.1, atomic_store (atomic_store m.heap x.1 none)
        (chain_last s.sentinel l1) (some (chain_head l2 s.sentinel))) := by
    simp only [atomic_compare_exchange_strong,
      atomic_load_store_ne _ _ _ _ hlast, hlast2, if_true]
  obtain ⟨f, rfl⟩ : ∃ f, fuel = f + 1 := ⟨fuel - 1, by omega⟩
  exact ⟨_, _, _, _, _, _, hfind2, hex, hcas, erase_loop_hit hrep k hb hc h1 hk hfind 0,
    erase_loop_hit hrep k hb hc h1 hk hfind f, rfl⟩

theorem erase_single_pass_witness :
    ∃ (prev cur next : Nat) (heap1 heap2 : List (node Nat Nat))
      (m2 : hash_map Nat Nat identity_hash equal_to Unit),
      example_map.current_buckets.find 10 example_map.heap 4 = some (true, prev, cur) ∧
      atomic_exchange example_map.heap cur none = some (some next, heap1) ∧
      atomic_compare_exchange_strong heap1 prev (some cur) (some next) =
        some (true, some cur, heap2) ∧
      hash_map.erase_loop 10 example_map.current_buckets 4 1 example_map.heap =
        some (1, m2) ∧
      example_map.erase 10 4 = some (1, m2) ∧ m2.heap = heap2 :=
  erase_single_pass (reachable_steady example_reachable) example_key_laws 4 10 (by decide)
    (4, 40) example_present (by rfl)

/-- C39: on a map `m` in steady state whose collaborators meet their requirements, for
a key `k` that no element of `m` has and every value `v`, `insert((k, v))` returns
`true` and the following `erase(k)` returns 1; afterwards `size()`, `bucket_count()`,
the range and the elements of every bucket, and with them the range and the elements
of the iteration from `begin()`, are those of `m` before the two calls. -/
theorem insert_then_erase_restores [hasher H K] [key_equal E K] {m : hash_map K V H E A}
    (hs : steady m)
    (laws : key_laws (K := K) m.current_buckets.hash m.current_buckets.keycomp)
    (k : K) (v : V) (fuel : Nat) (hf : m.size + m.bucket_count + 1 < fuel)
    (habsent : ∀ e, m.holds fuel e →
      key_equal.call m.current_buckets.keycomp k e.1 = false) :
    ∃ (it : iterator) (m1 m2 : hash_map K V H E A),
      m.insert fuel (k, v) = some ((true, it), m1) ∧ m1.erase fuel k = some (1, m2) ∧
      m2.size = m.size ∧ m2.bucket_count = m.bucket_count ∧
      (∀ b, b < m.bucket_count → m2.local_range fuel b = m.local_range fuel b ∧
        m2.bucket_elements fuel b = m.bucket_elements fuel b ∧
        m2.bucket_size fuel b = m.bucket_size fuel b) ∧
      m2.global_range fuel = m.global_range fuel ∧ m2.elements fuel = m.elements fuel ∧
      m2.cbegin = m.cbegin ∧ m2.current_buckets = m.current_buckets := by
  obtain ⟨cs, hwf⟩ := hs
  have hrep := hwf.1
  have hsz : m.size < fuel := by omega
  have hfind := find_ne_none_of_fuel hrep k hsz
  obtain ⟨c, hc, hcase⟩ := insert_cases hwf (k, v) hfind
  have hlt : m.current_buckets.bucket_index k < cs.length := (List.getElem?_eq_some.mp hc).1
  rcases hcase with ⟨hmiss, m1, g1, g2, g3⟩ | ⟨l1, x, l2, e, -, hx, -⟩
  · have hidx : m1.current_buckets.bucket_index k = m.current_buckets.bucket_index k := by
      rw [g3]; rfl
    have hkc : m1.current_buckets.keycomp = m.current_buckets.keycomp := by rw [g3]
    have hsize1 : m1.size = m.size + 1 := by simp [hash_map.size, g3]
    have hfind1 := find_ne_none_of_fuel g2.1 k (show m1.size < fuel by omega)
    obtain ⟨c1, hc1, hcase1⟩ := erase_cases g2 k hfind1
    rw [hidx] at hc1 hcase1
    have ec1 : c1 = c ++ [(m.heap.length, (k, v))] := by
      have := List.getElem?_set_self (l := cs) (a := c ++ [(m.heap.length, (k, v))]) hlt
      exact Option.some.inj (hc1.symm.trans this)
    rcases hcase1 with ⟨hmiss1, -⟩ | ⟨l1, x, l2, e, -, hx, m2, i1, i2, i3, -⟩
    · have := hmiss1 (m.heap.length, (k, v)) (by rw [ec1]; simp)
      rw [hkc, laws.refl k] at this
      exact absurd this (by simp)
    · rw [ec1] at e
      rw [hkc] at hx
      obtain ⟨rfl, rfl, rfl⟩ := split_of_last_hit
        (p := fun y => key_equal.call m.current_buckets.keycomp k y.2.1) e.symm hmiss hx
      have hcs : (cs.set (m.current_buckets.bucket_index k)
          (l1 ++ [(m.heap.length, (k, v))])).set (m.current_buckets.bucket_index k)
          (l1 ++ []) = cs := by
        rw [List.set_set, List.append_nil]
        exact set_same hc
      rw [hcs] at i2
      have hl : m2.current_buckets = m.current_buckets := by
        rw [i3, g3]
        cases hcb : m.current_buckets
        simp
      have hsize2 : m2.size = m.size := by simp [hash_map.size, hl]
      have hbc2 : m2.bucket_count = m.bucket_count := by simp [hash_map.bucket_count, hl]
      have hf2 : m2.size + m2.bucket_count < fuel := by omega
      refine ⟨some m.heap.length, m1, m2, g1, i1, hsize2, hbc2, ?_, ?_, ?_, ?_, hl⟩
      · intro b hb
        obtain ⟨s, cb, -, hcb⟩ := hrep.get hb
        have hcl := chain_length_lt hrep hcb hsz
        rw [local_range_eq hrep hcb hcl, local_range_eq i2.1 hcb hcl,
          bucket_elements_eq hrep hcb hsz, bucket_elements_eq i2.1 hcb (by omega),
          bucket_size_eq hrep hcb hcl, bucket_size_eq i2.1 hcb hcl]
        exact ⟨rfl, rfl, rfl⟩
      · rw [global_range_eq hrep (by
            have : cs.flatten.length = m.size := hrep.node_count.symm
            have hb : m.current_buckets.bucket_count = m.bucket_count := rfl
            omega),
          global_range_eq i2.1 (by
            have : cs.flatten.length = m.size := hrep.node_count.symm
            have hb : m2.current_buckets.bucket_count = m.bucket_count := by rw [hl]; rfl
            omega)]
      · rw [elements_eq hrep (by omega), elements_eq i2.1 hf2]
      · rw [cbegin_eq hrep, cbegin_eq i2.1]
  · have := habsent x.2 ((holds_iff hrep (by omega) x.2).mpr
      ⟨x, mem_flatten_of_getElem? hc (by rw [e]; simp), rfl⟩)
    rw [hx] at this
    exact absurd this (by simp)

theorem insert_then_erase_restores_witness :
    ∃ (it : iterator) (m1 m2 : hash_map Nat Nat identity_hash equal_to Unit),
      example_map.insert 10 (9, 90) = some ((true, it), m1) ∧
      m1.erase 10 9 = some (1, m2) ∧
      m2.size = example_map.size ∧ m2.bucket_count = example_map.bucket_count ∧
      (∀ b, b < example_map.bucket_count →
        m2.local_range 10 b = example_map.local_range 10 b ∧
        m2.bucket_elements 10 b = example_map.bucket_elements 10 b ∧
        m2.bucket_size 10 b = example_map.bucket_size 10 b) ∧
      m2.global_range 10 = example_map.global_range 10 ∧
      m2.elements 10 = example_map.elements 10 ∧
      m2.cbegin = example_map.cbegin ∧ m2.current_buckets = example_map.current_buckets :=
  insert_then_erase_restores (reachable_steady example_reachable) example_key_laws 9 90 10
    (by decide) example_absent

end contract

end LockfreeHashMap
